import Mathlib

/-!
# copier: a shallow embedding of `copier.go`

The Go program is one file, `copier.go`, built on the standard `reflect`
package.  The embedding has two layers.

* A model of the part of `reflect` that `copier.go` calls: types (`Ty`),
  run-time values (`Val`), `reflect.Value` handles (`Value`), field lookup
  (`FieldByName`, `FieldByIndex`), assignability and convertibility, zero
  values and method lookup.  Values are finite trees: a pointer owns its
  pointee, so two handles never alias.  A Go run-time panic is the outcome
  `Res.panic`.
* The functions of `copier.go` themselves, under their own names: `Copy`,
  `deepFields`, `InitNilFields`, `indirect`, `indirectType`, `set`.  Mutation
  is explicit state passing: every function that writes through a
  `reflect.Value` returns the updated value.  `Copy` writes the destination,
  and the methods it calls on the source may write the source, so the loops of
  `Copy` thread the pair of both, and `Copy` returns both.

Recursion that follows the type environment (zero values of nested structs,
the embedded-field search, `InitNilFields`, the nested `Copy`) is bounded by a
fuel argument; running out of it is the outcome `Res.outOfFuel`, distinct from
every Go outcome.
-/

namespace Copier

/-! ## Outcomes -/

/-- Outcome of running a piece of Go code: a normal result, a run-time panic,
or exhaustion of the fuel of the model. -/
inductive Res (α : Type)
  | ok (a : α)
  | panic (msg : String)
  | outOfFuel
  deriving DecidableEq, Repr

/-- Sequencing of outcomes: a panic or fuel exhaustion stops the run. -/
def Res.bind {α β : Type} (r : Res α) (f : α → Res β) : Res β :=
  match r with
  | .ok a => f a
  | .panic m => .panic m
  | .outOfFuel => .outOfFuel

instance : Monad Res where
  pure := Res.ok
  bind := Res.bind

/-- Run `f` on every element, left to right, stopping at the first failure. -/
def mapRes {α β : Type} (f : α → Res β) : List α → Res (List β)
  | [] => .ok []
  | a :: as =>
    match f a with
    | .ok b =>
      match mapRes f as with
      | .ok bs => .ok (b :: bs)
      | .panic m => .panic m
      | .outOfFuel => .outOfFuel
    | .panic m => .panic m
    | .outOfFuel => .outOfFuel

/-! ## Types -/

/-- The `reflect.Kind`s of the modelled type universe. -/
inductive Kind
  | Invalid | Bool | Int | Int8 | String | Struct | Ptr | Slice | Interface
  deriving DecidableEq, Repr

/-- Go types of the model: four predeclared types, defined struct types
(by name, declared in the environment), pointers, slices and `interface{}`. -/
inductive Ty
  | bool
  | int
  | int8
  | string
  | named (n : String)
  | ptr (e : Ty)
  | slice (e : Ty)
  | iface
  deriving DecidableEq, Repr

/-- The kind of a type, as `reflect.Type.Kind`. -/
def Ty.kind : Ty → Kind
  | .bool => .Bool
  | .int => .Int
  | .int8 => .Int8
  | .string => .String
  | .named _ => .Struct
  | .ptr _ => .Ptr
  | .slice _ => .Slice
  | .iface => .Interface

/-- The element type `Type().Elem()` of a slice or pointer type. -/
def Ty.Elem : Ty → Ty
  | .slice e => e
  | .ptr e => e
  | t => t

/-- The descriptor `reflect.StructField`, reduced to what `copier.go` reads. -/
structure StructField where
  Name : String
  Typ : Ty
  Anonymous : Bool
  deriving DecidableEq, Repr

/-! ## Values -/

/-- Run-time values.  A struct value carries the name of its type and its
field values in declaration order; a pointer is nil or owns its pointee; a
slice is nil or holds its elements; an interface is nil or holds a dynamic
value. -/
inductive Val
  | bool (b : Bool)
  | int (i : Int)
  | int8 (i : Int)
  | str (s : String)
  | struct (n : String) (fs : List Val)
  | ptr (e : Ty) (p : Option Val)
  | slice (e : Ty) (xs : Option (List Val))
  | iface (d : Option Val)
  deriving Repr

mutual
/-- Boolean equality test on values. -/
def Val.beq : Val → Val → Bool
  | .bool a, .bool b => a == b
  | .int a, .int b => a == b
  | .int8 a, .int8 b => a == b
  | .str a, .str b => a == b
  | .struct n fs, .struct m gs => n == m && Val.beqList fs gs
  | .ptr e none, .ptr f none => e == f
  | .ptr e (some v), .ptr f (some w) => e == f && Val.beq v w
  | .slice e none, .slice f none => e == f
  | .slice e (some xs), .slice f (some ys) => e == f && Val.beqList xs ys
  | .iface none, .iface none => true
  | .iface (some v), .iface (some w) => Val.beq v w
  | _, _ => false
/-- Boolean equality test on lists of values. -/
def Val.beqList : List Val → List Val → Bool
  | [], [] => true
  | x :: xs, y :: ys => Val.beq x y && Val.beqList xs ys
  | _, _ => false
end

/-- The dynamic type of a value, as `reflect.Value.Type`. -/
def Val.typ : Val → Ty
  | .bool _ => .bool
  | .int _ => .int
  | .int8 _ => .int8
  | .str _ => .string
  | .struct n _ => .named n
  | .ptr e _ => .ptr e
  | .slice e _ => .slice e
  | .iface _ => .iface

/-- The kind of a value, as `reflect.Value.Kind` on a valid handle. -/
def Val.kind (v : Val) : Kind := v.typ.kind

/-- A valid `reflect.Value`: the value it refers to and its addressability
flag.  The zero (invalid) `reflect.Value` is `none : Option Value`. -/
structure Value where
  val : Val
  canAddr : Bool
  deriving Repr

/-- The function `reflect.ValueOf` on an `interface{}` argument: a nil
interface gives the invalid handle, anything else an unaddressable handle. -/
def ValueOf (x : Option Val) : Option Value :=
  match x with
  | none => none
  | some v => some ⟨v, false⟩

/-- The method `reflect.Value.Interface`: the value as an `interface{}`; an
interface-kind value yields its dynamic value. -/
def Interface (v : Val) : Option Val :=
  match v with
  | .iface d => d
  | w => some w

/-- The conversion `reflect.Value.Set` applies to its argument: a concrete
value stored into an interface-typed location is boxed. -/
def assignTo (dst : Ty) (x : Val) : Val :=
  match dst, x with
  | .iface, .iface d => .iface d
  | .iface, w => .iface (some w)
  | _, w => w

/-! ## Type environment -/

/-- A method as `reflect` exposes it: its name, whether it is declared on the
pointer receiver, its parameter and result types (receiver excluded), and its
body as a function from the field values of the receiver and the arguments to
the updated field values of the receiver and the results.  A method acts on
its receiver only: it does not write through its arguments. -/
structure Method where
  Name : String
  ptrRecv : Bool
  In : List Ty
  Out : List Ty
  call : List Val → List Val → List Val × List Val

/-- Declaration of a defined struct type: its fields in declaration order, its
method table (promoted methods included, as the compiler generates them), and,
when the pointer to the type implements `sql.Scanner`, its `Scan` method as a
function from the field values of the receiver and the scanned `interface{}`
to the updated field values and whether the returned error is non-nil. -/
structure TypeDecl where
  fields : List StructField
  methods : List Method
  Scan : Option (List Val → Option Val → List Val × Bool)

/-- The type environment: the declaration of every defined type. -/
abbrev Env := String → TypeDecl

/-- Whether an identifier is exported (ASCII identifiers: upper-case first
letter). -/
def isExported (name : String) : Bool :=
  match name.data with
  | c :: _ => c.isUpper
  | [] => false

/-! ## Zero values, assignability, conversion -/

/-- The zero value of a type (`reflect.Zero`, and the pointee of
`reflect.New`).  Fuel bounds the nesting of struct types by value. -/
def Zero (env : Env) : Nat → Ty → Res Val
  | _, .bool => .ok (.bool false)
  | _, .int => .ok (.int 0)
  | _, .int8 => .ok (.int8 0)
  | _, .string => .ok (.str "")
  | _, .ptr e => .ok (.ptr e none)
  | _, .slice e => .ok (.slice e none)
  | _, .iface => .ok (.iface none)
  | 0, .named _ => .outOfFuel
  | fuel + 1, .named n =>
    match mapRes (fun f => Zero env fuel f.Typ) (env n).fields with
    | .ok fs => .ok (.struct n fs)
    | .panic m => .panic m
    | .outOfFuel => .outOfFuel

/-- Identity of underlying types, ignoring struct tags: equal types, or two
defined struct types with the same field list. -/
def identicalUnderlying (env : Env) (a b : Ty) : Bool :=
  decide (a = b) ||
    match a, b with
    | .named x, .named y => decide ((env x).fields = (env y).fields)
    | _, _ => false

/-- The method `reflect.Type.AssignableTo` on the modelled universe: identical
types, or any type to `interface{}`. -/
def AssignableTo (src dst : Ty) : Bool :=
  decide (src = dst) || decide (dst = .iface)

/-- Whether a type is one of the integer types. -/
def Ty.isInt : Ty → Bool
  | .int => true
  | .int8 => true
  | _ => false

/-- The method `reflect.Type.ConvertibleTo` on the modelled universe: integer
to integer, integer to string, identical underlying types, unnamed pointer
types whose base types have identical underlying types, and anything to
`interface{}`. -/
def ConvertibleTo (env : Env) (src dst : Ty) : Bool :=
  (src.isInt && dst.isInt) ||
  (src.isInt && decide (dst = .string)) ||
  identicalUnderlying env src dst ||
  (match src, dst with
   | .ptr a, .ptr b => identicalUnderlying env a b
   | _, _ => false) ||
  decide (dst = .iface)

/-- Wrap-around of an integer into the range of `int8`. -/
def wrapInt8 (i : Int) : Int := (i + 128) % 256 - 128

/-- The conversion `string(rune)` of an integer: the one-character string of the
code point, or U+FFFD when the integer is not a valid code point. -/
def runeString (i : Int) : String :=
  if 0 ≤ i ∧ i.toNat.isValidChar then String.singleton (Char.ofNat i.toNat)
  else String.singleton (Char.ofNat 0xFFFD)

/-- Re-tag a value with a type of identical underlying type. -/
def retag (v : Val) (dst : Ty) : Val :=
  match v, dst with
  | .struct _ fs, .named m => .struct m fs
  | .ptr _ none, .ptr b => .ptr b none
  | .ptr _ (some (.struct _ fs)), .ptr (.named m) => .ptr (.named m) (some (.struct m fs))
  | .ptr _ (some p), .ptr b => .ptr b (some p)
  | w, _ => w

/-- The method `reflect.Value.Convert`, defined where `ConvertibleTo` holds. -/
def Convert (v : Val) (dst : Ty) : Val :=
  match v, dst with
  | .int i, .int => .int i
  | .int i, .int8 => .int8 (wrapInt8 i)
  | .int8 i, .int => .int i
  | .int8 i, .int8 => .int8 i
  | .int i, .string => .str (runeString i)
  | .int8 i, .string => .str (runeString i)
  | w, .iface => assignTo .iface w
  | w, t => retag w t

/-! ## Field access -/

/-- The method `reflect.Value.Field`: the `i`-th field of a struct value; a
panic on any other kind or on an index out of range. -/
def Field (v : Val) (i : Nat) : Res Val :=
  match v with
  | .struct _ fs =>
    match fs[i]? with
    | some x => .ok x
    | none => .panic "reflect: Field index out of range"
  | _ => .panic "reflect: call of reflect.Value.Field on non-struct Value"

/-- The method `reflect.Value.FieldByIndex`: follow an index path, stepping
through a pointer to an embedded struct at every index after the first, with
a panic when that pointer is nil. -/
def FieldByIndex : Val → List Nat → Res Val
  | v, [] => .ok v
  | v, x :: xs =>
    match Field v x with
    | .ok f =>
      match xs with
      | [] => .ok f
      | _ :: _ =>
        match f with
        | .ptr (.named _) none =>
          .panic "reflect: indirection through nil pointer to embedded struct"
        | .ptr (.named _) (some p) => FieldByIndex p xs
        | g => FieldByIndex g xs
    | .panic m => .panic m
    | .outOfFuel => .outOfFuel

/-- Store `new` at the end of an index path, the write counterpart of
`FieldByIndex`; a path that does not exist leaves the value unchanged. -/
def putByIndex : Val → List Nat → Val → Val
  | v, [], _ => v
  | v, x :: xs, new =>
    match v with
    | .struct n fs =>
      match fs[x]? with
      | some f =>
        match xs with
        | [] => .struct n (fs.set x new)
        | _ :: _ =>
          match f with
          | .ptr (.named m) (some p) =>
            .struct n (fs.set x (.ptr (.named m) (some (putByIndex p xs new))))
          | g => .struct n (fs.set x (putByIndex g xs new))
      | none => v
    | _ => v

/-- One entry of the work queue of the embedded-field search. -/
structure fieldScan where
  typ : String
  index : List Nat
  deriving DecidableEq, Repr

/-- Multiplicity map of the embedded-field search (missing entry: 0). -/
abbrev CountMap := List (String × Nat)

/-- Read a multiplicity. -/
def countGet (m : CountMap) (t : String) : Nat :=
  match m.lookup t with
  | some c => c
  | none => 0

/-- State of one depth level of the embedded-field search. -/
structure ScanState where
  next : List fieldScan
  nextCount : CountMap
  visited : List String
  result : Option (List Nat)
  ok : Bool
  annihilated : Bool
  deriving DecidableEq, Repr

/-- The struct type `ntyp` that an embedded field of type `T` or `*T` leads
to in `FieldByNameFunc`; `none` for a field that is not embedded or whose type
is not a struct. -/
def embeddedStruct (f : StructField) : Option String :=
  if f.Anonymous then
    match (match f.Typ with
           | .ptr e => e
           | t => t) with
    | .named s => some s
    | _ => none
  else none

/-- Body of the loop over the fields of one struct type in
`FieldByNameFunc`. -/
def scanField (name : String) (count : CountMap) (scan : fieldScan)
    (st : ScanState) (i : Nat) (f : StructField) : ScanState :=
  if st.annihilated then st
  else if f.Name = name then
    if countGet count scan.typ > 1 ∨ st.ok = true then { st with annihilated := true }
    else { st with result := some (scan.index ++ [i]), ok := true }
  else if st.ok then st
  else
    match embeddedStruct f with
    | some s =>
      if countGet st.nextCount s > 0 then { st with nextCount := (s, 2) :: st.nextCount }
      else
        { st with
          nextCount := (s, if countGet count scan.typ > 1 then 2 else 1) :: st.nextCount
          next := st.next ++ [⟨s, scan.index ++ [i]⟩] }
    | none => st

/-- Loop over the fields of one struct type, counting the field index. -/
def scanFields (name : String) (count : CountMap) (scan : fieldScan) :
    Nat → List StructField → ScanState → ScanState
  | _, [], st => st
  | i, f :: fs, st => scanFields name count scan (i + 1) fs (scanField name count scan st i f)

/-- Body of the loop over the work queue of one depth level. -/
def scanType (env : Env) (name : String) (count : CountMap) (st : ScanState)
    (scan : fieldScan) : ScanState :=
  if st.annihilated then st
  else if scan.typ ∈ st.visited then st
  else
    scanFields name count scan 0 (env scan.typ).fields
      { st with visited := scan.typ :: st.visited }

/-- The breadth-first search of `reflect`'s `FieldByNameFunc` for the match
`s == name`: one depth level per fuel unit; a name matched twice on one level
is not found. -/
def FieldByNameFunc (env : Env) (name : String) :
    Nat → List fieldScan → CountMap → List String → Res (Option (List Nat))
  | 0, _, _, _ => .outOfFuel
  | fuel + 1, next, nextCount, visited =>
    match next with
    | [] => .ok none
    | _ :: _ =>
      let st := next.foldl (scanType env name nextCount)
        { next := [], nextCount := [], visited := visited, result := none,
          ok := false, annihilated := false }
      if st.annihilated then .ok none
      else if st.ok then .ok st.result
      else FieldByNameFunc env name fuel st.next st.nextCount st.visited

/-- Position of the first field with the given name. -/
def findField (name : String) : Nat → List StructField → Option Nat
  | _, [] => none
  | i, f :: fs => if f.Name = name then some i else findField name (i + 1) fs

/-- The method `FieldByName` of a struct type: the index path of the field a
name selects, if any.  A top-level field wins; otherwise, when the struct has
embedded fields, the breadth-first search decides. -/
def typeFieldByName (env : Env) (fuel : Nat) (t : String) (name : String) :
    Res (Option (List Nat)) :=
  if name = "" then .ok none
  else
    match findField name 0 (env t).fields with
    | some i => .ok (some [i])
    | none =>
      if (env t).fields.any (fun f => f.Anonymous) then
        FieldByNameFunc env name fuel [⟨t, []⟩] [] []
      else .ok none

/-- The method `reflect.Value.FieldByName`: the index path and the value of
the field a name selects on a struct value, `none` (the invalid handle) when
there is none; a panic on a value that is not a struct, or when the path
crosses a nil embedded pointer. -/
def FieldByName (env : Env) (fuel : Nat) (v : Val) (name : String) :
    Res (Option (List Nat × Val)) :=
  match v with
  | .struct n _ =>
    match typeFieldByName env fuel n name with
    | .ok (some idx) =>
      match FieldByIndex v idx with
      | .ok f => .ok (some (idx, f))
      | .panic m => .panic m
      | .outOfFuel => .outOfFuel
    | .ok none => .ok none
    | .panic m => .panic m
    | .outOfFuel => .outOfFuel
  | _ => .panic "reflect: call of reflect.Value.FieldByName on non-struct Value"

/-- The method `reflect.Value.MethodByName`: the exported method of that name
in the method set of the type (`viaPtr`: of the pointer to the type). -/
def MethodByName (env : Env) (t : Ty) (viaPtr : Bool) (name : String) : Option Method :=
  match t with
  | .named n =>
    if isExported name then
      (env n).methods.find? (fun m => decide (m.Name = name) && (viaPtr || !m.ptrRecv))
    else none
  | _ => none

/-! ## `copier.go` -/

/-- Pointer chasing of `indirect` on a valid handle: a non-nil pointer is
replaced by its (addressable) pointee until the kind is no longer `Ptr`; the
`Elem` of a nil pointer is the invalid handle. -/
def indirectVal : Val → Bool → Option Value
  | .ptr _ none, _ => none
  | .ptr _ (some v), _ => indirectVal v true
  | v, a => some ⟨v, a⟩

/-- The function `indirect` of `copier.go`. -/
def indirect (reflectValue : Option Value) : Option Value :=
  match reflectValue with
  | none => none
  | some x => indirectVal x.val x.canAddr

/-- Write `x` where `indirect` reads: at the end of a chain of non-nil
pointers. -/
def setIndirect : Val → Val → Val
  | .ptr e (some v), x => .ptr e (some (setIndirect v x))
  | _, x => x

/-- The function `indirectType` of `copier.go`: strip pointer and slice type
constructors. -/
def indirectType : Ty → Ty
  | .ptr e => indirectType e
  | .slice e => indirectType e
  | t => t

/-- The `Scan` hook seen by `to.Addr().Interface().(sql.Scanner)`, as a
function from the scanned `interface{}` to the updated receiver and whether
the returned error is non-nil. -/
def scannerOf (env : Env) (to_ : Val) : Option (Option Val → Val × Bool) :=
  match to_ with
  | .struct n fs =>
    match (env n).Scan with
    | some scan => some (fun x => (.struct n (scan fs x).1, (scan fs x).2))
    | none => none
  | _ => none

/-- Lines 235 to 246 of `set`: convert and store, else scan, else follow the
source pointer, else decline.  `self` is `set` itself. -/
def setConvert (env : Env) (self : Val → Option Val → Res (Val × Bool))
    (to_ : Val) (from_ : Val) : Res (Val × Bool) :=
  if ConvertibleTo env from_.typ to_.typ then .ok (Convert from_ to_.typ, true)
  else
    match scannerOf env to_ with
    | some scan => .ok ((scan (Interface from_)).1, !(scan (Interface from_)).2)
    | none =>
      match from_ with
      | .ptr _ p => self to_ p
      | _ => .ok (to_, false)

/-- Lines 229 to 233 of `set`, for a pointer destination of element type `e`
and pointee `p`, and a source that is not a nil pointer: allocate the pointee
when the destination is nil, then go on (`rest`) with the pointee as
destination. -/
def setElem (env : Env) (fuel : Nat) (rest : Val → Res (Val × Bool))
    (e : Ty) (p : Option Val) : Res (Val × Bool) :=
  match (match p with
         | none => Zero env fuel e
         | some x => .ok x) with
  | .ok target =>
    match rest target with
    | .ok (target', r) => .ok (.ptr e (some target'), r)
    | .panic m => .panic m
    | .outOfFuel => .outOfFuel
  | .panic m => .panic m
  | .outOfFuel => .outOfFuel

/-- The function `set` of `copier.go`.  `to` is the value of a settable
location, `from_` the source handle (`none`: invalid); the result is the
updated value of the location and the boolean `set` returns. -/
def set (env : Env) : Nat → Val → Option Val → Res (Val × Bool)
  | 0, _, _ => .outOfFuel
  | _ + 1, to_, none => .ok (to_, true)
  | _ + 1, .ptr e _, some (.ptr _ none) => .ok (.ptr e none, true)
  | fuel + 1, .ptr e p, some f =>
    setElem env fuel (fun target => setConvert env (set env fuel) target f) e p
  | fuel + 1, to_, some f => setConvert env (set env fuel) to_ f

/-- The argument `needInitFields`, a Go map used as a set of dotted paths:
either the package-level map `AllNilFields` (recognised by identity) or a map
made by the caller, given by its keys. -/
inductive NeedMap
  | AllNilFields
  | made (keys : List String)
  deriving DecidableEq, Repr

/-- The statement `needInitFields[key] = struct{}{}`. -/
def NeedMap.insert (m : NeedMap) (key : String) : NeedMap :=
  match m with
  | .AllNilFields => .AllNilFields
  | .made keys => .made (keys ++ [key])

/-- The lookup `_, ok := needInitFields[key]`. -/
def NeedMap.has (m : NeedMap) (key : String) : Bool :=
  match m with
  | .AllNilFields => false
  | .made keys => decide (key ∈ keys)

/-- A loop over the fields of a struct type with their indices, threading a
state and stopping at the first failure. -/
def forFields {σ : Type} (body : Nat → StructField → σ → Res σ) :
    Nat → List StructField → σ → Res σ
  | _, [], s => .ok s
  | i, f :: fs, s =>
    match body i f s with
    | .ok s' => forFields body (i + 1) fs s'
    | .panic m => .panic m
    | .outOfFuel => .outOfFuel

/-- Loop state of `deepFields`: the fields collected so far, the running
`prefix`, and the need-map. -/
structure DeepState where
  fields : List StructField
  pfx : String
  need : Option NeedMap
  deriving Repr

/-- Body of the loop of `deepFields`.  `self` is `deepFields` itself. -/
def deepFieldsStep
    (self : Ty → Val → String → Option NeedMap → Res (List StructField × Option NeedMap))
    (reflectValue : Val) (i : Nat) (v : StructField) (st : DeepState) : Res DeepState :=
  if v.Anonymous then
    match indirectVal reflectValue false with
    | none => .panic "reflect: call of reflect.Value.Field on zero Value"
    | some s =>
      match Field s.val i with
      | .ok value =>
        match value with
        | .ptr _ none => .ok st
        | _ =>
          let need :=
            if value.kind = .Ptr then
              match st.need with
              | some m => some (m.insert (st.pfx ++ v.Name))
              | none => none
            else st.need
          let pfx := st.pfx ++ (v.Name ++ ".")
          match self v.Typ value pfx need with
          | .ok (fs, need') => .ok ⟨st.fields ++ fs, pfx, need'⟩
          | .panic m => .panic m
          | .outOfFuel => .outOfFuel
      | .panic m => .panic m
      | .outOfFuel => .outOfFuel
  else .ok { st with fields := st.fields ++ [v] }

/-- The function `deepFields` of `copier.go`: the flattened field list of a
struct value, and the need-map after the walk. -/
def deepFields (env : Env) :
    Nat → Ty → Val → String → Option NeedMap → Res (List StructField × Option NeedMap)
  | 0, _, _, _, _ => .outOfFuel
  | fuel + 1, reflectType, reflectValue, pfx, needInitFields =>
    match indirectType reflectType with
    | .named n =>
      match forFields (deepFieldsStep (deepFields env fuel) reflectValue) 0 (env n).fields
          ⟨[], pfx, needInitFields⟩ with
      | .ok st => .ok (st.fields, st.need)
      | .panic m => .panic m
      | .outOfFuel => .outOfFuel
    | _ => .ok ([], needInitFields)

/-- Loop state of `InitNilFields`: the value being initialised and the running
`prefix`. -/
structure InitState where
  value : Val
  pfx : String
  deriving Repr

/-- Body of the loop of `InitNilFields`.  `self` is `InitNilFields` itself;
`canAddr` is the addressability of `reflectValue`. -/
def initNilFieldsStep (env : Env) (fuel : Nat)
    (self : Ty → Value → String → Option NeedMap → Res Val)
    (canAddr : Bool) (needInitFields : NeedMap) (i : Nat) (v : StructField)
    (st : InitState) : Res InitState :=
  if needInitFields ≠ .AllNilFields ∧ needInitFields.has (st.pfx ++ v.Name) = false then .ok st
  else if v.Anonymous = false then .ok st
  else
    match indirectVal st.value canAddr with
    | none => .panic "reflect: call of reflect.Value.Field on zero Value"
    | some s =>
      match Field s.val i with
      | .ok value =>
        match value with
        | .ptr _ none =>
          if (s.canAddr && isExported v.Name) = false then .ok st
          else
            match Zero env fuel v.Typ.Elem with
            | .ok z =>
              let pfx := st.pfx ++ (v.Name ++ ".")
              match self v.Typ ⟨.ptr v.Typ.Elem (some z), s.canAddr⟩ pfx
                  (some needInitFields) with
              | .ok value' =>
                match s.val with
                | .struct n fs => .ok ⟨setIndirect st.value (.struct n (fs.set i value')), pfx⟩
                | _ => .ok ⟨st.value, pfx⟩
              | .panic m => .panic m
              | .outOfFuel => .outOfFuel
            | .panic m => .panic m
            | .outOfFuel => .outOfFuel
        | _ => .ok st
      | .panic m => .panic m
      | .outOfFuel => .outOfFuel

/-- The function `InitNilFields` of `copier.go`: the value of `reflectValue`
after the nil embedded pointers named by the need-map have been allocated.
The comparison `AllNilFields == needInitFields` is the identity of the two
maps. -/
def InitNilFields (env : Env) :
    Nat → Ty → Value → String → Option NeedMap → Res Val
  | 0, _, _, _, _ => .outOfFuel
  | fuel + 1, reflectType, reflectValue, pfx, needInitFields =>
    match needInitFields with
    | none => .ok reflectValue.val
    | some need =>
      match indirectType reflectType with
      | .named n =>
        match forFields
            (initNilFieldsStep env fuel (InitNilFields env fuel) reflectValue.canAddr need)
            0 (env n).fields ⟨reflectValue.val, pfx⟩ with
        | .ok st => .ok st.value
        | .panic m => .panic m
        | .outOfFuel => .outOfFuel
      | _ => .ok reflectValue.val

/-- The error `Copy` returns for a destination that is not addressable. -/
def errUnaddressable : String := "copy to value is unaddressable"

/-- The method `reflect.Value.Call` on a method value of a struct receiver:
the receiver after the call and the results.  `addr` tells whether the method
value was taken from the address of the receiver (`Addr().MethodByName`): the
call of a pointer-receiver method then acts on the receiver itself, every other
call on a copy of it, which is dropped. -/
def Call (m : Method) (addr : Bool) (recv : Val) (args : List Val) : Val × List Val :=
  match recv with
  | .struct n fs =>
    (if addr && m.ptrRecv then .struct n (m.call fs args).1 else recv, (m.call fs args).2)
  | _ => (recv, [])

/-- The source field after the nested `Copy` from `fromField.Interface()`:
`x` is the `interface{}` value after that call.  What the nested call changed
behind a pointer or in the elements of a slice is shared with the field. -/
def fromInterface (fromField : Val) (x : Option Val) : Val :=
  match fromField, x with
  | .iface _, d => .iface d
  | _, some w => w
  | v, none => v

/-- Lines 83 to 106 of `Copy`: one iteration of the loop over the flattened
source fields, on the pair of the destination element and the source element.
`self` is `Copy` itself.  The result is the updated pair and the error of the
nested `Copy`, if any. -/
def copyField (env : Env) (fuel : Nat)
    (self : Option Val → Option Val → Res ((Option Val × Option Val) × Option String))
    (destAddr : Bool) (field : StructField) (st : Val × Val) :
    Res ((Val × Val) × Option String) :=
  match FieldByName env fuel st.2 field.Name with
  | .ok (some (idxFrom, fromField)) =>
    match FieldByName env fuel st.1 field.Name with
    | .ok (some (idx, toField)) =>
      if destAddr && isExported field.Name then
        match set env fuel toField (some fromField) with
        | .ok (toField', true) => .ok ((putByIndex st.1 idx toField', st.2), none)
        | .ok (toField', false) =>
          match self (some (.ptr toField'.typ (some toField'))) (Interface fromField) with
          | .ok ((some (.ptr _ (some toField'')), from'), err) =>
            .ok ((putByIndex st.1 idx toField'',
              putByIndex st.2 idxFrom (fromInterface fromField from')), err)
          | .ok ((_, from'), err) =>
            .ok ((putByIndex st.1 idx toField',
              putByIndex st.2 idxFrom (fromInterface fromField from')), err)
          | .panic m => .panic m
          | .outOfFuel => .outOfFuel
        | .panic m => .panic m
        | .outOfFuel => .outOfFuel
      else .ok (st, none)
    | .ok none =>
      match MethodByName env st.1.typ destAddr field.Name with
      | some toMethod =>
        match toMethod.In with
        | [p] =>
          if AssignableTo fromField.typ p then
            .ok (((Call toMethod destAddr st.1 [assignTo p fromField]).1, st.2), none)
          else .ok (st, none)
        | _ => .ok (st, none)
      | none => .ok (st, none)
    | .panic m => .panic m
    | .outOfFuel => .outOfFuel
  | .ok none => .ok (st, none)
  | .panic m => .panic m
  | .outOfFuel => .outOfFuel

/-- The loop of lines 80 to 107: the body on every flattened source field, in
order, leaving `Copy` at the first error. -/
def fieldPass {σ : Type} (body : StructField → σ → Res (σ × Option String)) :
    List StructField → σ → Res (σ × Option String)
  | [], st => .ok (st, none)
  | field :: rest, st =>
    match body field st with
    | .ok (st', none) => fieldPass body rest st'
    | .ok (st', some err) => .ok (st', some err)
    | .panic m => .panic m
    | .outOfFuel => .outOfFuel

/-- Lines 111 to 127 of `Copy`: one iteration of the loop over the flattened
destination fields, copying from a source method to a destination field, on
the pair of the destination element and the source element.  The method is
called on the source as it is at that moment, and a pointer-receiver method of
an addressable source leaves its changes in the source. -/
def copyMethod (env : Env) (fuel : Nat) (srcAddr destAddr : Bool)
    (field : StructField) (st : Val × Val) : Res (Val × Val) :=
  match MethodByName env st.2.typ srcAddr field.Name with
  | some fromMethod =>
    if fromMethod.In.length = 0 ∧ fromMethod.Out.length = 1 then
      match FieldByName env fuel st.1 field.Name with
      | .ok (some (idx, toField)) =>
        if destAddr && isExported field.Name then
          match (Call fromMethod srcAddr st.2 []).2 with
          | value :: _ =>
            match set env fuel toField (some value) with
            | .ok (toField', _) =>
              .ok (putByIndex st.1 idx toField', (Call fromMethod srcAddr st.2 []).1)
            | .panic m => .panic m
            | .outOfFuel => .outOfFuel
          | [] => .ok (st.1, (Call fromMethod srcAddr st.2 []).1)
        else .ok st
      | .ok none => .ok st
      | .panic m => .panic m
      | .outOfFuel => .outOfFuel
    else .ok st
  | none => .ok st

/-- The loop of lines 110 to 128: the body on every flattened destination
field, in order. -/
def methodPass {σ : Type} (body : StructField → σ → Res σ) : List StructField → σ → Res σ
  | [], st => .ok st
  | field :: rest, st =>
    match body field st with
    | .ok st' => methodPass body rest st'
    | .panic m => .panic m
    | .outOfFuel => .outOfFuel

/-- Lines 75 to 128 of `Copy`: the struct copy between a valid source element
and a destination element.  The result is the pair of the destination element
and the source element after it, and the error of a nested `Copy`, if any. -/
def copyStruct (env : Env) (fuel : Nat)
    (self : Option Val → Option Val → Res ((Option Val × Option Val) × Option String))
    (fromType toType : Ty) (source dest : Value) : Res ((Val × Val) × Option String) :=
  match deepFields env fuel fromType source.val "" (some (.made [])) with
  | .ok (fromTypeFields, needInitFields) =>
    match InitNilFields env fuel toType dest "" needInitFields with
    | .ok dest1 =>
      match fieldPass (copyField env fuel self dest.canAddr) fromTypeFields
          (dest1, source.val) with
      | .ok (st2, none) =>
        match deepFields env fuel toType st2.1 "" none with
        | .ok (toTypeFields, _) =>
          match methodPass (copyMethod env fuel source.canAddr dest.canAddr) toTypeFields
              st2 with
          | .ok st3 => .ok (st3, none)
          | .panic m => .panic m
          | .outOfFuel => .outOfFuel
        | .panic m => .panic m
        | .outOfFuel => .outOfFuel
      | .ok (st2, some err) => .ok (st2, some err)
      | .panic m => .panic m
      | .outOfFuel => .outOfFuel
    | .panic m => .panic m
    | .outOfFuel => .outOfFuel
  | .panic m => .panic m
  | .outOfFuel => .outOfFuel

/-- The method `reflect.Value.Index` on a slice: the addressable `i`-th
element. -/
def Index (v : Val) (i : Nat) : Res Value :=
  match v with
  | .slice _ (some xs) =>
    match xs[i]? with
    | some x => .ok ⟨x, true⟩
    | none => .panic "reflect: slice index out of range"
  | .slice _ none => .panic "reflect: slice index out of range"
  | _ => .panic "reflect: call of reflect.Value.Index on non-slice Value"

/-- The method `reflect.Value.Len` on a slice. -/
def Len (v : Val) : Nat :=
  match v with
  | .slice _ (some xs) => xs.length
  | _ => 0

/-- The function `reflect.Append` with one element, stored through `Set`. -/
def Append (s : Val) (x : Val) : Val :=
  match s with
  | .slice e (some xs) => .slice e (some (xs ++ [assignTo e x]))
  | .slice e none => .slice e (some [assignTo e x])
  | v => v

/-- The function `reflect.MakeSlice(t, 0, 0)`: the empty, non-nil slice. -/
def MakeSlice (t : Ty) : Val :=
  match t with
  | .slice e => .slice e (some [])
  | _ => .slice t (some [])

/-- Lines 71 to 130 of `Copy`: what one iteration does to its destination
element `dest`, given its source element `source` (`none`: invalid).  The
result is the updated destination element, the source element after the
iteration, and the error of a nested `Copy`, if any. -/
def copyBody (env : Env) (fuel : Nat)
    (self : Option Val → Option Val → Res ((Option Val × Option Val) × Option String))
    (fromType toType : Ty) (source : Option Value) (dest : Value) :
    Res ((Val × Option Val) × Option String) :=
  match source with
  | some src =>
    if fromType.kind ≠ .Struct ∧ toType.kind ≠ .Struct then
      match set env fuel dest.val (some src.val) with
      | .ok (dest', _) => .ok ((dest', some src.val), none)
      | .panic m => .panic m
      | .outOfFuel => .outOfFuel
    else
      match copyStruct env fuel self fromType toType src dest with
      | .ok (st, err) => .ok ((st.1, some st.2), err)
      | .panic m => .panic m
      | .outOfFuel => .outOfFuel
  | none => .ok ((dest.val, none), none)

/-- Lines 56 to 62 of `Copy`: the source element of iteration `i`. -/
def sourceElem (isSlice : Bool) (from_ : Value) (i : Nat) : Res (Option Value) :=
  if isSlice = true ∧ from_.val.kind = .Slice then
    match Index from_.val i with
    | .ok e => .ok (indirect (some e))
    | .panic m => .panic m
    | .outOfFuel => .outOfFuel
  else .ok (indirect (some from_))

/-- The source after an iteration: the source element `source` of iteration
`i` (`none`: invalid) stored where `sourceElem` read it, at the end of the
pointer chain of the `i`-th element of a source slice or of the source
itself. -/
def putSource (isSlice : Bool) (from_ : Val) (i : Nat) (source : Option Val) : Val :=
  match source with
  | none => from_
  | some s =>
    if isSlice = true ∧ from_.kind = .Slice then
      match from_ with
      | .slice e (some xs) =>
        match xs[i]? with
        | some x => .slice e (some (xs.set i (setIndirect x s)))
        | none => from_
      | _ => from_
    else setIndirect from_ s

/-- Lines 63 to 68 of `Copy`: the destination element of an iteration, a fresh
zero value of the element type in slice mode and the destination itself
otherwise. -/
def destElem (env : Env) (fuel : Nat) (isSlice : Bool) (toType : Ty) (to_ : Val) :
    Res (Option Value) :=
  if isSlice then
    match Zero env fuel toType with
    | .ok z => .ok (indirect (some ⟨z, true⟩))
    | .panic m => .panic m
    | .outOfFuel => .outOfFuel
  else .ok (indirect (some ⟨to_, true⟩))

/-- Lines 131 to 137 of `Copy`: append the finished element to the destination
slice, by address when the slice holds pointers, by value when it holds
values, and not at all otherwise. -/
def appendElem (to_ : Val) (dest : Val) : Val :=
  if AssignableTo (.ptr dest.typ) to_.typ.Elem then Append to_ (.ptr dest.typ (some dest))
  else if AssignableTo dest.typ to_.typ.Elem then Append to_ dest
  else to_

/-- Lines 54 to 137 of `Copy`: the body of the loop over the elements, for
index `i`, on the pair of the current values of the destination and of the
source (`fromAddr`: the addressability of the source).  The result is the
updated pair and the error that ends `Copy`, if any. -/
def copyElem (env : Env) (fuel : Nat)
    (self : Option Val → Option Val → Res ((Option Val × Option Val) × Option String))
    (isSlice fromAddr : Bool) (fromType toType : Ty) (i : Nat) (st : Val × Val) :
    Res ((Val × Val) × Option String) :=
  match sourceElem isSlice ⟨st.2, fromAddr⟩ i with
  | .ok source =>
    match destElem env fuel isSlice toType st.1 with
    | .ok (some dest) =>
      match copyBody env fuel self fromType toType source dest with
      | .ok (r, none) =>
        .ok ((if isSlice then appendElem st.1 r.1 else r.1, putSource isSlice st.2 i r.2), none)
      | .ok (r, some err) =>
        .ok ((if isSlice then st.1 else r.1, putSource isSlice st.2 i r.2), some err)
      | .panic m => .panic m
      | .outOfFuel => .outOfFuel
    | .ok none => .panic "reflect: call of reflect.Value.Type on zero Value"
    | .panic m => .panic m
    | .outOfFuel => .outOfFuel
  | .panic m => .panic m
  | .outOfFuel => .outOfFuel

/-- The loop `for i := 0; i < amount; i++` of `Copy`, left at the first
error. -/
def copyLoop {σ : Type} (body : Nat → σ → Res (σ × Option String)) :
    Nat → Nat → σ → Res (σ × Option String)
  | 0, _, st => .ok (st, none)
  | n + 1, i, st =>
    match body i st with
    | .ok (st', none) => copyLoop body n (i + 1) st'
    | .ok (st', some err) => .ok (st', some err)
    | .panic m => .panic m
    | .outOfFuel => .outOfFuel

/-- The function `Copy` of `copier.go`.  The arguments are the two
`interface{}` values (`none`: nil); the result is the pair of the values of
`toValue` and of `fromValue` after the call, with everything reachable from
them, and the returned error (`none`: nil). -/
def Copy (env : Env) :
    Nat → Option Val → Option Val → Res ((Option Val × Option Val) × Option String)
  | 0, _, _ => .outOfFuel
  | fuel + 1, toValue, fromValue =>
    match indirect (ValueOf toValue), toValue with
    | some to_, some toV =>
      if to_.canAddr = false then .ok ((toValue, fromValue), some errUnaddressable)
      else
        match indirect (ValueOf fromValue) with
        | none => .ok ((toValue, fromValue), none)
        | some from_ =>
          let fromType := indirectType from_.val.typ
          let toType := indirectType to_.val.typ
          if fromType.kind ≠ .Struct ∧ AssignableTo from_.val.typ to_.val.typ = true then
            .ok ((some (setIndirect toV (assignTo to_.val.typ from_.val)), fromValue), none)
          else
            let isSlice := decide (to_.val.kind = .Slice)
            let amount := if isSlice = true ∧ from_.val.kind = .Slice then Len from_.val else 1
            if (fromType.kind ≠ .Struct ∨ toType.kind ≠ .Struct) ∧
                ¬ (isSlice = true ∧ ConvertibleTo env fromType toType = true) then
              .ok ((toValue, fromValue), none)
            else
              match copyLoop
                  (copyElem env fuel (Copy env fuel) isSlice from_.canAddr fromType toType)
                  amount 0 (if amount = 0 then MakeSlice to_.val.typ else to_.val, from_.val) with
              | .ok (st, err) =>
                .ok ((some (setIndirect toV st.1),
                  fromValue.map (fun v => setIndirect v st.2)), err)
              | .panic m => .panic m
              | .outOfFuel => .outOfFuel
    | _, _ => .ok ((toValue, fromValue), some errUnaddressable)

/-- The check `to.CanAddr()` of `Copy` on
`to := indirect(reflect.ValueOf(toValue))`: whether the destination is
addressable after following its pointer chain. -/
def toCanAddr (toValue : Option Val) : Bool :=
  match indirect (ValueOf toValue) with
  | some to_ => to_.canAddr
  | none => false

/-- A value is a struct of the defined type `m`. -/
def IsStruct (m : String) (v : Val) : Prop := ∃ fs, v = .struct m fs

/-- The source argument of `Copy` after the call, from the source element
after the only iteration (`none`: invalid, nothing was touched). -/
def wrapFrom (fromValue : Option Val) (s : Option Val) : Option Val :=
  match s with
  | some w => fromValue.map (fun v => setIndirect v w)
  | none => fromValue

/-- The result of `Copy` on a pointer to a struct of type `m`, from the outcome
of the copy into the struct. -/
def wrapPtr (m : String) (fromValue : Option Val) :
    Res ((Val × Option Val) × Option String) →
      Res ((Option Val × Option Val) × Option String)
  | .ok (r, err) => .ok ((some (.ptr (.named m) (some r.1)), wrapFrom fromValue r.2), err)
  | .panic msg => .panic msg
  | .outOfFuel => .outOfFuel

/-- The element that lines 131 to 137 store for a finished struct `d` of type
`m` in a slice of element type `E`: `d` itself in a slice of values, a pointer
to `d` in a slice of pointers. -/
def elemOf (E : Ty) (m : String) (d : Val) : Val :=
  if E = .named m then d else .ptr (.named m) (some d)

/-- The outcome of iteration `i` in slice mode on the pair `st` of destination
and source, from the outcome `r` of the copy into the fresh element. -/
def appendResult (st : Val × Val) (i : Nat) (r : Res ((Val × Option Val) × Option String)) :
    Res ((Val × Val) × Option String) :=
  match r with
  | .ok (p, none) => .ok ((appendElem st.1 p.1, putSource true st.2 i p.2), none)
  | .ok (p, some err) => .ok ((st.1, putSource true st.2 i p.2), some err)
  | .panic msg => .panic msg
  | .outOfFuel => .outOfFuel

/-- A struct type without embedded fields. -/
def Flat (env : Env) (D : String) : Prop := ∀ f ∈ (env D).fields, f.Anonymous = false

/-- The methods of the struct type `D` leave the field of index `j` of their
receiver as it is. -/
def MethodsKeep (env : Env) (D : String) (j : Nat) : Prop :=
  ∀ m ∈ (env D).methods, ∀ (fs args : List Val), ((m.call fs args).1)[j]? = fs[j]?

/-- The field of index `j` of a struct value of type `D` is `x`. -/
def HasField (D : String) (j : Nat) (x : Val) (d : Val) : Prop :=
  ∃ fs, d = .struct D fs ∧ fs[j]? = some x

/-- The result of `Copy` on the destination `toV`, from the outcome of the copy
into the value at the end of its pointer chain. -/
def wrapTo (toV : Val) (fromValue : Option Val) :
    Res ((Val × Option Val) × Option String) →
      Res ((Option Val × Option Val) × Option String)
  | .ok (r, err) => .ok ((some (setIndirect toV r.1), wrapFrom fromValue r.2), err)
  | .panic msg => .panic msg
  | .outOfFuel => .outOfFuel

/-- Lines 109 to 128 of `Copy`, on the outcome of the field pass: the
method-to-field pass runs when the field pass ended without error, and an
error of the field pass is returned as it is. -/
def methodStage (env : Env) (fuel : Nat) (srcAddr destAddr : Bool) (toType : Ty) :
    Res ((Val × Val) × Option String) → Res ((Val × Val) × Option String)
  | .ok (st2, none) =>
    match deepFields env fuel toType st2.1 "" none with
    | .ok (toTypeFields, _) =>
      match methodPass (copyMethod env fuel srcAddr destAddr) toTypeFields st2 with
      | .ok st3 => .ok (st3, none)
      | .panic m => .panic m
      | .outOfFuel => .outOfFuel
    | .panic m => .panic m
    | .outOfFuel => .outOfFuel
  | .ok (st2, some err) => .ok (st2, some err)
  | .panic m => .panic m
  | .outOfFuel => .outOfFuel

/-- The outcome of the struct copy, from the outcome of the method-to-field
pass. -/
def methodResult : Res (Val × Val) → Res ((Val × Val) × Option String)
  | .ok st3 => .ok (st3, none)
  | .panic m => .panic m
  | .outOfFuel => .outOfFuel

/-- The outcome of one iteration on a valid source element, from the outcome
of the struct copy. -/
def structResult :
    Res ((Val × Val) × Option String) → Res ((Val × Option Val) × Option String)
  | .ok (st, err) => .ok ((st.1, some st.2), err)
  | .panic m => .panic m
  | .outOfFuel => .outOfFuel

/-- Two index paths lead to fields of which neither lies inside the other:
the paths differ at some index that both have. -/
def Apart : List Nat → List Nat → Bool
  | [], _ => false
  | _, [] => false
  | x :: p, y :: q => if x = y then Apart p q else true

/-- The index path starts at an embedded field of the struct with the fields
`Sf`. -/
def AnonHead (Sf : List StructField) (q : List Nat) : Prop :=
  ∃ k rest g, q = k :: rest ∧ Sf[k]? = some g ∧ g.Anonymous = true

/-- Shape of the index path that a name selects in the struct with the fields
`Sf`: one index, of a field of that name, or a longer path that starts at an
embedded field. -/
def PathOK (Sf : List StructField) (name : String) (q : List Nat) : Prop :=
  (∃ i f, q = [i] ∧ Sf[i]? = some f ∧ f.Name = name) ∨
  (∃ k rest g, q = k :: rest ∧ rest ≠ [] ∧ Sf[k]? = some g ∧ g.Anonymous = true)

/-- Getters are read-only: every pointer-receiver method without parameters
and with one result, the only methods whose changes `Copy` keeps in a source,
leaves the fields of its receiver as they are. -/
def ReadOnlyGetters (env : Env) : Prop :=
  ∀ (n : String), ∀ m ∈ (env n).methods, m.ptrRecv = true → m.In.length = 0 →
    m.Out.length = 1 → ∀ fs, (m.call fs []).1 = fs

/-- The methods of the struct type `D` leave the type of the field of index `j`
of their receiver as it is. -/
def MethodsKeepTyp (env : Env) (D : String) (j : Nat) : Prop :=
  ∀ m ∈ (env D).methods, ∀ (fs args : List Val),
    ((m.call fs args).1)[j]?.map Val.typ = fs[j]?.map Val.typ

/-- The field of index `j` of a struct value of type `D` has type `T`. -/
def TypedAt (D : String) (j : Nat) (T : Ty) (d : Val) : Prop :=
  ∃ y, HasField D j y d ∧ y.typ = T

/-- Invariant of the scan of the outer struct type, which has no field of the
searched name: nothing is found, and the embedded struct type `E`, embedded
only at index `k`, is queued once, with path `[k]`. -/
def OuterScan (Sf : List StructField) (S E : String) (k i : Nat) (st : ScanState) : Prop :=
  st.ok = false ∧ st.annihilated = false ∧ st.result = none ∧ st.visited = [S] ∧
  (∀ sc ∈ st.next, ∃ idx g, sc.index = [idx] ∧ Sf[idx]? = some g ∧
    embeddedStruct g = some sc.typ) ∧
  countGet st.nextCount E ≤ 1 ∧
  (i ≤ k → countGet st.nextCount E = 0) ∧
  (k < i → (⟨E, [k]⟩ : fieldScan) ∈ st.next)

/-- The field was found at the path `[k, l]`, in the type `E`. -/
def FoundAt (E : String) (k l : Nat) (st : ScanState) : Prop :=
  st.ok = true ∧ st.result = some [k, l] ∧ E ∈ st.visited

/-- Invariant of the scan of the second depth level: nothing was annihilated,
and the field was found exactly when the type `E` has been visited. -/
def InnerScan (E : String) (k l : Nat) (st : ScanState) : Prop :=
  st.annihilated = false ∧ ((st.ok = false ∧ E ∉ st.visited) ∨ FoundAt E k l st)

/-! ## Example programs -/

/-- A program without defined types. -/
def emptyEnv : Env := fun _ => ⟨[], [], none⟩

/-- A program with the structs `User` (method `DoubleAge() int` on the value
receiver) and `Employee` (method `Role(string)` on the pointer receiver, which
stores `"Super " + role` in `SuperRole`), and the structs `Box`, with a field
`F` of the empty struct type `Inner`, and `Crate`, with a field `F` of type
`**Leaf`. -/
def roleEnv : Env := fun n =>
  if n = "User" then
    ⟨[⟨"Name", .string, false⟩, ⟨"Role", .string, false⟩, ⟨"Age", .int, false⟩],
     [⟨"DoubleAge", false, [], [.int], fun fs _ =>
        (fs, [match fs with
              | [_, _, .int a] => .int (a + a)
              | _ => .int 0])⟩], none⟩
  else if n = "Employee" then
    ⟨[⟨"Name", .string, false⟩, ⟨"Age", .int8, false⟩, ⟨"DoubleAge", .int, false⟩,
      ⟨"SuperRole", .string, false⟩],
     [⟨"Role", true, [.string], [], fun fs args =>
        match fs, args with
        | [a, b, c, _], [.str r] => ([a, b, c, .str ("Super " ++ r)], [])
        | _, _ => (fs, [])⟩], none⟩
  else if n = "Box" then ⟨[⟨"F", .named "Inner", false⟩], [], none⟩
  else if n = "Crate" then ⟨[⟨"F", .ptr (.ptr (.named "Leaf")), false⟩], [], none⟩
  else ⟨[], [], none⟩

/-- A `User` value. -/
def user (name role : String) (age : Int) : Val :=
  .struct "User" [.str name, .str role, .int age]

/-- An `Employee` value. -/
def employee (name : String) (age double : Int) (role : String) : Val :=
  .struct "Employee" [.str name, .int8 age, .int double, .str role]

/-- A program with an empty struct `P`, a struct `A` embedding `*P`, and two
structs `Src` and `Dst` that both embed `*A` and then `*P`. -/
def nilEmbedEnv : Env := fun n =>
  if n = "A" then ⟨[⟨"P", .ptr (.named "P"), true⟩], [], none⟩
  else if n = "Src" ∨ n = "Dst" then
    ⟨[⟨"A", .ptr (.named "A"), true⟩, ⟨"P", .ptr (.named "P"), true⟩], [], none⟩
  else ⟨[], [], none⟩

/-- The source `Src{A: &A{P: &P{}}, P: nil}`. -/
def nilEmbedSrc : Val :=
  .struct "Src"
    [.ptr (.named "A") (some (.struct "A" [.ptr (.named "P") (some (.struct "P" []))])),
     .ptr (.named "P") none]

/-- The destination `Dst{A: nil, P: nil}`. -/
def nilEmbedDst : Val := .struct "Dst" [.ptr (.named "A") none, .ptr (.named "P") none]

/-- A program for the field and method bridges: `E` with a field `X int`;
`Outer` embedding `*E`; `Target` with `X int8`; `Shadow` embedding `E` and
declaring a method `X() int` that returns 7; `Plain` with `X int`; `Wrap`
embedding `E` next to a field `F Inner`; `Deep` with `X int` and `F **Leaf`;
`Member` with `Role string`; `Account` with a method `SetRole(string)` and
`Staff` with a method `Role(string)`, both on the pointer receiver and both
storing `"Super " + role` in `SuperRole`; `Guest` with a method
`GetRole() string` and `Clerk` with a method `Role() string`; `Badge` with
`Role string`; `Parcel` with `F Inner` and a method `Tag() string`; `Shelf`
with `F **Leaf` and `Tag string`. -/
def bridgeEnv : Env := fun n =>
  if n = "E" then ⟨[⟨"X", .int, false⟩], [], none⟩
  else if n = "Outer" then
    ⟨[⟨"E", .ptr (.named "E"), true⟩, ⟨"Note", .string, false⟩], [], none⟩
  else if n = "Target" then ⟨[⟨"Note", .string, false⟩, ⟨"X", .int8, false⟩], [], none⟩
  else if n = "Shadow" then
    ⟨[⟨"E", .named "E", true⟩], [⟨"X", false, [], [.int], fun fs _ => (fs, [.int 7])⟩], none⟩
  else if n = "Plain" then ⟨[⟨"X", .int, false⟩], [], none⟩
  else if n = "Wrap" then ⟨[⟨"E", .named "E", true⟩, ⟨"F", .named "Inner", false⟩], [], none⟩
  else if n = "Deep" then
    ⟨[⟨"X", .int, false⟩, ⟨"F", .ptr (.ptr (.named "Leaf")), false⟩], [], none⟩
  else if n = "Member" then ⟨[⟨"Role", .string, false⟩], [], none⟩
  else if n = "Account" then
    ⟨[⟨"SuperRole", .string, false⟩],
     [⟨"SetRole", true, [.string], [], fun fs args =>
        match args with
        | [.str r] => ([.str ("Super " ++ r)], [])
        | _ => (fs, [])⟩], none⟩
  else if n = "Staff" then
    ⟨[⟨"SuperRole", .string, false⟩],
     [⟨"Role", true, [.string], [], fun fs args =>
        match args with
        | [.str r] => ([.str ("Super " ++ r)], [])
        | _ => (fs, [])⟩], none⟩
  else if n = "Guest" then
    ⟨[], [⟨"GetRole", false, [], [.string], fun fs _ => (fs, [.str "guest"])⟩], none⟩
  else if n = "Clerk" then
    ⟨[], [⟨"Role", false, [], [.string], fun fs _ => (fs, [.str "clerk"])⟩], none⟩
  else if n = "Badge" then ⟨[⟨"Role", .string, false⟩], [], none⟩
  else if n = "Parcel" then
    ⟨[⟨"F", .named "Inner", false⟩],
     [⟨"Tag", false, [], [.string], fun fs _ => (fs, [.str "boxed"])⟩], none⟩
  else if n = "Shelf" then
    ⟨[⟨"F", .ptr (.ptr (.named "Leaf")), false⟩, ⟨"Tag", .string, false⟩], [], none⟩
  else ⟨[], [], none⟩

/-- A program with the structs `Item` (`A int`, `F *Inner`, `B int`) and
`Slot` (`A int`, `F ***Leaf`, `B int`), where `Inner` is empty and `Leaf` has
a field `V int`. -/
def slotEnv : Env := fun n =>
  if n = "Item" then
    ⟨[⟨"A", .int, false⟩, ⟨"F", .ptr (.named "Inner"), false⟩, ⟨"B", .int, false⟩], [], none⟩
  else if n = "Slot" then
    ⟨[⟨"A", .int, false⟩, ⟨"F", .ptr (.ptr (.ptr (.named "Leaf"))), false⟩,
      ⟨"B", .int, false⟩], [], none⟩
  else if n = "Leaf" then ⟨[⟨"V", .int, false⟩], [], none⟩
  else ⟨[], [], none⟩

/-- An `Item` value. -/
def item (a : Int) (f : Option Val) (b : Int) : Val :=
  .struct "Item" [.int a, .ptr (.named "Inner") f, .int b]

/-- A `Slot` value. -/
def slot (a : Int) (f : Option Val) (b : Int) : Val :=
  .struct "Slot" [.int a, .ptr (.ptr (.ptr (.named "Leaf"))) f, .int b]

/-- The value of a location after a nested `Copy` through a pointer to it:
the pointee of the pointer that comes back, `old` when nothing comes back. -/
def pointeeAfter (r : Option Val) (old : Val) : Val :=
  match r with
  | some (.ptr _ (some x)) => x
  | _ => old

/-- Number of pointer steps `set` can follow on a source value. -/
def ptrDepth : Val → Nat
  | .ptr _ (some v) => ptrDepth v + 1
  | .ptr _ none => 1
  | _ => 0

/-- A program with two structs `T` and `U` of one field `V int`; the pointer
to `U` implements `sql.Scanner`: `Scan` stores an `int` in `V` and returns an
error for anything else. -/
def scanEnv : Env := fun n =>
  if n = "T" then ⟨[⟨"V", .int, false⟩], [], none⟩
  else if n = "U" then
    ⟨[⟨"V", .int, false⟩], [],
     some (fun fs x =>
       match x with
       | some (.int i) => ([.int i], false)
       | _ => (fs, true))⟩
  else ⟨[], [], none⟩

/-- `name` is the name of an embedded pointer field that is not nil in the
value `rv`, walked with the type `t`: a field of the struct itself, or of a
struct reached through embedded fields. -/
inductive NonNilEmbedded (env : Env) : Ty → Val → String → Prop
  | direct (t : Ty) (rv : Val) (n : String) (s : Value) (i : Nat) (f : StructField) (e : Ty)
      (p : Val) : indirectType t = .named n → (env n).fields[i]? = some f →
      f.Anonymous = true → indirectVal rv false = some s →
      Field s.val i = .ok (.ptr e (some p)) → NonNilEmbedded env t rv f.Name
  | nested (t : Ty) (rv : Val) (n : String) (s : Value) (i : Nat) (f : StructField)
      (value : Val) (name : String) : indirectType t = .named n →
      (env n).fields[i]? = some f → f.Anonymous = true → indirectVal rv false = some s →
      Field s.val i = .ok value → NonNilEmbedded env f.Typ value name →
      NonNilEmbedded env t rv name

/-- A program with duplicate field names: `First` and `Second` each declare
`N int`; `Over` declares `N int` and then embeds `First`; `Twin` embeds
`First` and `Second`; `Sink` declares `N int`. -/
def dupEnv : Env := fun n =>
  if n = "First" ∨ n = "Second" ∨ n = "Sink" then ⟨[⟨"N", .int, false⟩], [], none⟩
  else if n = "Over" then ⟨[⟨"N", .int, false⟩, ⟨"First", .named "First", true⟩], [], none⟩
  else if n = "Twin" then
    ⟨[⟨"First", .named "First", true⟩, ⟨"Second", .named "Second", true⟩], [], none⟩
  else ⟨[], [], none⟩

/-- The struct type `t` declares a field of the given name. -/
def Declares (env : Env) (t name : String) : Prop := ∃ g ∈ (env t).fields, g.Name = name

/-- Invariant of the scan of the outer struct type, which has no field of the
searched name, before its field of index `i`: nothing is found, and every
struct embedded at an index below `i` is queued, each type once. -/
def QueueScan (Sf : List StructField) (S : String) (i : Nat) (st : ScanState) : Prop :=
  st.ok = false ∧ st.annihilated = false ∧ st.visited = [S] ∧
  (st.next.map (fun sc => sc.typ)).Nodup ∧
  (∀ sc ∈ st.next, countGet st.nextCount sc.typ > 0) ∧
  (∀ s, countGet st.nextCount s > 0 → ∃ sc ∈ st.next, sc.typ = s) ∧
  (∀ (idx : Nat) (g : StructField) (s : String), idx < i → Sf[idx]? = some g →
    embeddedStruct g = some s → ∃ sc ∈ st.next, sc.typ = s)

/-- The search has matched the name at least once. -/
def Matched (st : ScanState) : Prop := st.ok = true ∨ st.annihilated = true

/-- Length of the longest key of a need-map. -/
def maxLen (keys : List String) : Nat := keys.foldr (fun k m => max k.length m) 0

/-- A program with a struct `Node` that embeds a pointer to itself, next to a
field `V int`. -/
def selfEnv : Env := fun n =>
  if n = "Node" then ⟨[⟨"Node", .ptr (.named "Node"), true⟩, ⟨"V", .int, false⟩], [], none⟩
  else ⟨[], [], none⟩

/-- The `Node` with a nil embedded pointer. -/
def leafNode (v : Int) : Val := .struct "Node" [.ptr (.named "Node") none, .int v]

/-- A computation of the model ends: from some amount of fuel on, its outcome
is one and the same Go outcome, a result or a panic. -/
def Ends {α : Type} (f : Nat → Res α) : Prop :=
  ∃ N r, r ≠ .outOfFuel ∧ ∀ fuel, N ≤ fuel → f fuel = r

/-- A program with two linked-list node types: `NodeA` with `Val int` and
`Next *NodeA`, `NodeB` with `Val int8` and `Next *NodeB`. -/
def listEnv : Env := fun n =>
  if n = "NodeA" then
    ⟨[⟨"Val", .int, false⟩, ⟨"Next", .ptr (.named "NodeA"), false⟩], [], none⟩
  else if n = "NodeB" then
    ⟨[⟨"Val", .int8, false⟩, ⟨"Next", .ptr (.named "NodeB"), false⟩], [], none⟩
  else ⟨[], [], none⟩

/-- The list `NodeA{Val: 1, Next: &NodeA{Val: 2}}`. -/
def listA : Val :=
  .struct "NodeA" [.int 1, .ptr (.named "NodeA")
    (some (.struct "NodeA" [.int 2, .ptr (.named "NodeA") none]))]

/-- The list `NodeB{Val: 1, Next: &NodeB{Val: 2}}`. -/
def listB : Val :=
  .struct "NodeB" [.int8 1, .ptr (.named "NodeB")
    (some (.struct "NodeB" [.int8 2, .ptr (.named "NodeB") none]))]

/-- A program with a counter `Cnt` (`C int`) whose pointer has the methods
`A() int`, which adds one to `C` and returns it, and `B() int`, which returns
`C`; and the struct `Out` with the fields `A int` and `B int`. -/
def cntEnv : Env := fun n =>
  if n = "Cnt" then
    ⟨[⟨"C", .int, false⟩],
     [⟨"A", true, [], [.int], fun fs _ =>
        match fs with
        | [.int c] => ([.int (c + 1)], [.int (c + 1)])
        | _ => (fs, [.int 0])⟩,
      ⟨"B", true, [], [.int], fun fs _ =>
        match fs with
        | [.int c] => (fs, [.int c])
        | _ => (fs, [.int 0])⟩], none⟩
  else if n = "Out" then ⟨[⟨"A", .int, false⟩, ⟨"B", .int, false⟩], [], none⟩
  else ⟨[], [], none⟩

/-- A program with the struct `Base` (`X int`), the struct `Inner` with a
field `Base int`, the struct `Wide` embedding `Base` and `Inner`, and the
struct `Maker` without fields whose methods `X() int` and `Base() Base` return
5 and `Base{X: 0}`. -/
def wideEnv : Env := fun n =>
  if n = "Base" then ⟨[⟨"X", .int, false⟩], [], none⟩
  else if n = "Inner" then ⟨[⟨"Base", .int, false⟩], [], none⟩
  else if n = "Wide" then
    ⟨[⟨"Base", .named "Base", true⟩, ⟨"Inner", .named "Inner", true⟩], [], none⟩
  else if n = "Maker" then
    ⟨[], [⟨"X", false, [], [.int], fun fs _ => (fs, [.int 5])⟩,
          ⟨"Base", false, [], [.named "Base"], fun fs _ => (fs, [.struct "Base" [.int 0]])⟩],
     none⟩
  else ⟨[], [], none⟩

/-- A program with the structs `T` and `U` (`V int`), where the pointer to `U`
has a `Scan` method that accepts an `int` and fails on anything else, the
struct `Giver` without fields whose method `N() *T` returns `&T{V: 7}`, and
the struct `Taker` with a field `N *U`. -/
def hookEnv : Env := fun n =>
  if n = "T" then ⟨[⟨"V", .int, false⟩], [], none⟩
  else if n = "U" then
    ⟨[⟨"V", .int, false⟩], [],
     some (fun fs x =>
       match x with
       | some (.int i) => ([.int i], false)
       | _ => (fs, true))⟩
  else if n = "Giver" then
    ⟨[], [⟨"N", false, [], [.ptr (.named "T")], fun fs _ =>
        (fs, [.ptr (.named "T") (some (.struct "T" [.int 7]))])⟩], none⟩
  else if n = "Taker" then ⟨[⟨"N", .ptr (.named "U"), false⟩], [], none⟩
  else ⟨[], [], none⟩

/-- A program with the struct `E` (`X int`) whose pointer has the method
`G() int`, which stores 99 in `X` and returns 1; the struct `Tag` with a field
`E int`; the struct `Host` embedding `Tag` and `*E`, with the promoted method
`G`; the struct `T2` with a field `G int`; and the struct `Dst` with the
fields `E T2` and `X int8`. -/
def peekEnv : Env := fun n =>
  if n = "E" then
    ⟨[⟨"X", .int, false⟩],
     [⟨"G", true, [], [.int], fun _ _ => ([.int 99], [.int 1])⟩], none⟩
  else if n = "Tag" then ⟨[⟨"E", .int, false⟩], [], none⟩
  else if n = "Host" then
    ⟨[⟨"Tag", .named "Tag", true⟩, ⟨"E", .ptr (.named "E"), true⟩],
     [⟨"G", true, [], [.int], fun fs _ =>
        match fs with
        | [t, _] => ([t, .ptr (.named "E") (some (.struct "E" [.int 99]))], [.int 1])
        | _ => (fs, [.int 1])⟩], none⟩
  else if n = "T2" then ⟨[⟨"G", .int, false⟩], [], none⟩
  else if n = "Dst" then ⟨[⟨"E", .named "T2", false⟩, ⟨"X", .int8, false⟩], [], none⟩
  else ⟨[], [], none⟩

/-- The method `Title() string` of `Form`: `"Dr "` followed by the name. -/
def formTitle : Method :=
  ⟨"Title", false, [], [.string], fun fs _ =>
    (fs, [match fs with
          | [.str a, _, _] => .str ("Dr " ++ a)
          | _ => .str ""])⟩

/-- The method `Role(string)` of `*Desk` and of `*Tray`: it stores its
argument in the field `Seen`. -/
def deskRole : Method :=
  ⟨"Role", true, [.string], [], fun fs args =>
    match fs, args with
    | [a, b, _], [.str r] => ([a, b, .str r], [])
    | _, _ => (fs, [])⟩

/-- A program with the struct `Form` (`Name string`, `Role string`, `Age int`)
with the method `Title() string`; the struct `Desk` (`Name string`,
`Title string`, `Seen string`) whose pointer has the method `Role(string)`;
the struct `Brief` (`F Inner`, `Role string`) with the method
`Title() string`, which returns `"x"`; and the struct `Tray` (`F **Leaf`,
`Title string`, `Seen string`) whose pointer has the same method
`Role(string)`. -/
def deskEnv : Env := fun n =>
  if n = "Leaf" then ⟨[⟨"V", .int, false⟩], [], none⟩
  else if n = "Form" then
    ⟨[⟨"Name", .string, false⟩, ⟨"Role", .string, false⟩, ⟨"Age", .int, false⟩],
     [formTitle], none⟩
  else if n = "Desk" then
    ⟨[⟨"Name", .string, false⟩, ⟨"Title", .string, false⟩, ⟨"Seen", .string, false⟩],
     [deskRole], none⟩
  else if n = "Brief" then
    ⟨[⟨"F", .named "Inner", false⟩, ⟨"Role", .string, false⟩],
     [⟨"Title", false, [], [.string], fun fs _ => (fs, [.str "x"])⟩], none⟩
  else if n = "Tray" then
    ⟨[⟨"F", .ptr (.ptr (.named "Leaf")), false⟩, ⟨"Title", .string, false⟩,
      ⟨"Seen", .string, false⟩],
     [deskRole], none⟩
  else ⟨[], [], none⟩

/-- The `Form` of the example. -/
def form : Val := .struct "Form" [.str "Ann", .str "Admin", .int 3]

/-- A `Desk` value. -/
def desk (name title seen : String) : Val := .struct "Desk" [.str name, .str title, .str seen]

/-- A `Grower` value with the given pointee of `Next`. -/
def grower (next : Option Val) : Val :=
  .struct "Grower" [.ptr (.named "Grower") next, .struct "Dup" [.int 0]]

/-- A program with the struct `Dup` (`Next int`); the struct `Grower` with the
field `Next *Grower` and the embedded `Dup`, whose pointer has the method
`Grow() int`, which stores a new `Grower` in `Next` when `Next` is nil and
returns 0; and the struct `Bag` (`Next []Bag`, `Grow int`). -/
def growEnv : Env := fun n =>
  if n = "Dup" then ⟨[⟨"Next", .int, false⟩], [], none⟩
  else if n = "Grower" then
    ⟨[⟨"Next", .ptr (.named "Grower"), false⟩, ⟨"Dup", .named "Dup", true⟩],
     [⟨"Grow", true, [], [.int], fun fs _ =>
        match fs with
        | [.ptr t none, d] => ([.ptr t (some (grower none)), d], [.int 0])
        | _ => (fs, [.int 0])⟩], none⟩
  else if n = "Bag" then
    ⟨[⟨"Next", .slice (.named "Bag"), false⟩, ⟨"Grow", .int, false⟩], [], none⟩
  else ⟨[], [], none⟩

/-- The pointer `&[]Bag` to a slice with the elements `xs` (`none`: nil). -/
def bags (xs : Option (List Val)) : Val :=
  .ptr (.slice (.named "Bag")) (some (.slice (.named "Bag") xs))

/-! ## Values in a store -/

/-- Run-time values whose pointers hold the address of their pointee in a
store, so that a pointer can lead back to the value that holds it. -/
inductive Cell
  | bool (b : Bool)
  | int (i : Int)
  | int8 (i : Int)
  | str (s : String)
  | struct (n : String) (fs : List Cell)
  | ptr (e : Ty) (a : Option Nat)
  | slice (e : Ty) (xs : Option (List Cell))
  | iface (d : Option Cell)
  deriving Repr

/-- A store: the value held at every allocated address. -/
abbrev Store := List Cell

/-- The dynamic type of a value in a store. -/
def Cell.typ : Cell → Ty
  | .bool _ => .bool
  | .int _ => .int
  | .int8 _ => .int8
  | .str _ => .string
  | .struct n _ => .named n
  | .ptr e _ => .ptr e
  | .slice e _ => .slice e
  | .iface _ => .iface

/-- The kind of a value in a store. -/
def Cell.kind (v : Cell) : Kind := v.typ.kind

/-- The function `indirect` of `copier.go` over a store: while the kind is
`Ptr`, replace the value by the one at its address; the `Elem` of a nil
pointer is the invalid handle.  One unit of fuel per pointer followed. -/
def Store.indirect (store : Store) : Nat → Cell → Res (Option Cell)
  | _, .ptr _ none => .ok none
  | 0, .ptr _ (some _) => .outOfFuel
  | fuel + 1, .ptr _ (some a) =>
    match store[a]? with
    | some c => Store.indirect store fuel c
    | none => .panic "invalid memory address or nil pointer dereference"
  | _, c => .ok (some c)

/-- The method `reflect.Value.Field` on a value in a store. -/
def Store.Field (v : Cell) (i : Nat) : Res Cell :=
  match v with
  | .struct _ fs =>
    match fs[i]? with
    | some x => .ok x
    | none => .panic "reflect: Field index out of range"
  | _ => .panic "reflect: call of reflect.Value.Field on non-struct Value"

/-- Body of the loop of `deepFields` over a store.  `self` is `deepFields`
itself. -/
def Store.deepFieldsStep (store : Store) (fuel : Nat)
    (self : Ty → Cell → String → Option NeedMap → Res (List StructField × Option NeedMap))
    (reflectValue : Cell) (i : Nat) (v : StructField) (st : DeepState) : Res DeepState :=
  if v.Anonymous then
    match Store.indirect store fuel reflectValue with
    | .ok none => .panic "reflect: call of reflect.Value.Field on zero Value"
    | .ok (some s) =>
      match Store.Field s i with
      | .ok value =>
        match value with
        | .ptr _ none => .ok st
        | _ =>
          let need :=
            if value.kind = .Ptr then
              match st.need with
              | some m => some (m.insert (st.pfx ++ v.Name))
              | none => none
            else st.need
          let pfx := st.pfx ++ (v.Name ++ ".")
          match self v.Typ value pfx need with
          | .ok (fs, need') => .ok ⟨st.fields ++ fs, pfx, need'⟩
          | .panic m => .panic m
          | .outOfFuel => .outOfFuel
      | .panic m => .panic m
      | .outOfFuel => .outOfFuel
    | .panic m => .panic m
    | .outOfFuel => .outOfFuel
  else .ok { st with fields := st.fields ++ [v] }

/-- The function `deepFields` of `copier.go` over a store. -/
def Store.deepFields (env : Env) (store : Store) :
    Nat → Ty → Cell → String → Option NeedMap → Res (List StructField × Option NeedMap)
  | 0, _, _, _, _ => .outOfFuel
  | fuel + 1, reflectType, reflectValue, pfx, needInitFields =>
    match indirectType reflectType with
    | .named n =>
      match forFields (Store.deepFieldsStep store fuel (Store.deepFields env store fuel)
          reflectValue) 0 (env n).fields ⟨[], pfx, needInitFields⟩ with
      | .ok st => .ok (st.fields, st.need)
      | .panic m => .panic m
      | .outOfFuel => .outOfFuel
    | _ => .ok ([], needInitFields)

/-- The `Node` of `selfEnv` stored at address 0 whose embedded pointer holds
address 0: `n := &Node{V: 1}; n.Node = n`. -/
def cyclicNode : Cell := .struct "Node" [.ptr (.named "Node") (some 0), .int 1]

/-- The store that holds `cyclicNode` at address 0. -/
def cyclicStore : Store := [cyclicNode]

/-! ## Decidable equality of values -/

mutual
theorem Val.beq_eq : ∀ (a b : Val), Val.beq a b = true → a = b
  | .bool a, .bool b, h => by simp [Val.beq] at h; simp [h]
  | .int a, .int b, h => by simp [Val.beq] at h; simp [h]
  | .int8 a, .int8 b, h => by simp [Val.beq] at h; simp [h]
  | .str a, .str b, h => by simp [Val.beq] at h; simp [h]
  | .struct n fs, .struct m gs, h => by
      simp [Val.beq] at h; simp [h.1, Val.beqList_eq fs gs h.2]
  | .ptr e none, .ptr f none, h => by simp [Val.beq] at h; simp [h]
  | .ptr e (some v), .ptr f (some w), h => by
      simp [Val.beq] at h; simp [h.1, Val.beq_eq v w h.2]
  | .slice e none, .slice f none, h => by simp [Val.beq] at h; simp [h]
  | .slice e (some xs), .slice f (some ys), h => by
      simp [Val.beq] at h; simp [h.1, Val.beqList_eq xs ys h.2]
  | .iface none, .iface none, _ => rfl
  | .iface (some v), .iface (some w), h => by
      simp [Val.beq] at h; simp [Val.beq_eq v w h]
theorem Val.beqList_eq : ∀ (a b : List Val), Val.beqList a b = true → a = b
  | [], [], _ => rfl
  | x :: xs, y :: ys, h => by
      simp [Val.beqList] at h; simp [Val.beq_eq x y h.1, Val.beqList_eq xs ys h.2]
end

mutual
theorem Val.beq_refl : ∀ (a : Val), Val.beq a a = true
  | .bool _ => by simp [Val.beq]
  | .int _ => by simp [Val.beq]
  | .int8 _ => by simp [Val.beq]
  | .str _ => by simp [Val.beq]
  | .struct _ fs => by simp [Val.beq, Val.beqList_refl fs]
  | .ptr _ none => by simp [Val.beq]
  | .ptr _ (some v) => by simp [Val.beq, Val.beq_refl v]
  | .slice _ none => by simp [Val.beq]
  | .slice _ (some xs) => by simp [Val.beq, Val.beqList_refl xs]
  | .iface none => by simp [Val.beq]
  | .iface (some v) => by simp [Val.beq, Val.beq_refl v]
theorem Val.beqList_refl : ∀ (a : List Val), Val.beqList a a = true
  | [] => by simp [Val.beqList]
  | x :: xs => by simp [Val.beqList, Val.beq_refl x, Val.beqList_refl xs]
end

instance : DecidableEq Val := fun a b =>
  if h : Val.beq a b = true then isTrue (Val.beq_eq a b h)
  else isFalse (fun e => h (e ▸ Val.beq_refl a))

deriving instance DecidableEq for Value
deriving instance DecidableEq for DeepState
deriving instance DecidableEq for InitState

/-! ## Pointer chasing -/

theorem indirectVal_kind : ∀ (v : Val) (a : Bool) (w : Value),
    indirectVal v a = some w → w.val.kind ≠ .Ptr
  | .ptr _ none, _, _, h => by simp [indirectVal] at h
  | .ptr _ (some v), _, w, h => by
    rw [indirectVal] at h
    exact indirectVal_kind v true w h
  | .bool _, _, _, h | .int _, _, _, h | .int8 _, _, _, h | .str _, _, _, h
  | .struct _ _, _, _, h | .slice _ _, _, _, h | .iface _, _, _, h => by
    simp only [indirectVal, Option.some.injEq] at h
    subst h
    simp [Val.kind, Val.typ, Ty.kind]

theorem indirectVal_of_kind (v : Val) (a : Bool) (h : v.kind ≠ .Ptr) :
    indirectVal v a = some ⟨v, a⟩ := by
  cases v <;> simp_all [Val.kind, Val.typ, Ty.kind, indirectVal]

theorem indirectVal_setIndirect : ∀ (v : Val) (a : Bool) (w : Value) (x : Val),
    indirectVal v a = some w → x.kind ≠ .Ptr →
    indirectVal (setIndirect v x) a = some ⟨x, w.canAddr⟩
  | .ptr _ none, _, _, _, h, _ => by simp [indirectVal] at h
  | .ptr _ (some v), _, w, x, h, hx => by
    rw [indirectVal] at h
    rw [setIndirect, indirectVal]
    exact indirectVal_setIndirect v true w x h hx
  | .bool _, a, _, x, h, hx | .int _, a, _, x, h, hx | .int8 _, a, _, x, h, hx
  | .str _, a, _, x, h, hx | .struct _ _, a, _, x, h, hx | .slice _ _, a, _, x, h, hx
  | .iface _, a, _, x, h, hx => by
    simp only [indirectVal, Option.some.injEq] at h
    subst h
    simp only [setIndirect]
    exact indirectVal_of_kind x a hx

theorem assignTo_kind (t : Ty) (x : Val) (hx : x.kind ≠ .Ptr) : (assignTo t x).kind ≠ .Ptr := by
  cases t <;> cases x <;> simp_all [assignTo, Val.kind, Val.typ, Ty.kind]

theorem Interface_assignTo (t : Ty) (x : Val) : Interface (assignTo t x) = Interface x := by
  cases t <;> cases x <;> simp [assignTo, Interface]

theorem assignTo_of_ne (t : Ty) (x : Val) (h : t ≠ .iface) : assignTo t x = x := by
  cases t <;> cases x <;> simp_all [assignTo]

theorem setIndirect_self : ∀ (v : Val) (a : Bool) (w : Value),
    indirectVal v a = some w → setIndirect v w.val = v
  | .ptr _ none, _, _, h => by simp [indirectVal] at h
  | .ptr _ (some v), _, w, h => by
    rw [indirectVal] at h
    rw [setIndirect, setIndirect_self v true w h]
  | .bool _, _, _, h | .int _, _, _, h | .int8 _, _, _, h | .str _, _, _, h
  | .struct _ _, _, _, h | .slice _ _, _, _, h | .iface _, _, _, h => by
    simp only [indirectVal, Option.some.injEq] at h
    subst h
    simp only [setIndirect]

theorem map_setIndirect_self (fromValue : Option Val) (from_ : Value)
    (h : indirect (ValueOf fromValue) = some from_) :
    fromValue.map (fun v => setIndirect v from_.val) = fromValue := by
  cases fromValue with
  | none => rfl
  | some v =>
    simp only [ValueOf, indirect] at h
    simp only [Option.map_some', setIndirect_self v false from_ h]

/-! ## Entry checks and the direct-assign path -/

/-- C1: when the destination, after following its pointer chain, is not
addressable (a non-pointer value, a nil pointer, a pointer chain ending in nil,
or nil itself), `Copy` returns the non-nil error `errUnaddressable` and the
destination is exactly what it was, whatever the source. -/
theorem Copy_unaddressable (env : Env) (fuel : Nat) (toValue fromValue : Option Val)
    (h : toCanAddr toValue = false) :
    Copy env (fuel + 1) toValue fromValue
      = .ok ((toValue, fromValue), some errUnaddressable) := by
  unfold toCanAddr at h
  unfold Copy
  cases hto : indirect (ValueOf toValue) with
  | none => simp
  | some to_ =>
    rw [hto] at h
    cases toValue with
    | none => simp
    | some toV =>
      simp only at h
      simp [h]

/-- Witness of C1 on a non-pointer destination, a nil pointer, a pointer to a
nil pointer, and nil itself. -/
theorem Copy_unaddressable_witness :
    Copy emptyEnv 1 (some (.int 1)) (some (.int 2))
        = .ok ((some (.int 1), some (.int 2)), some errUnaddressable) ∧
    Copy emptyEnv 1 (some (.ptr .int none)) (some (.int 2))
        = .ok ((some (.ptr .int none), some (.int 2)), some errUnaddressable) ∧
    Copy emptyEnv 1 (some (.ptr (.ptr .int) (some (.ptr .int none)))) (some (.int 2))
        = .ok ((some (.ptr (.ptr .int) (some (.ptr .int none))), some (.int 2)),
            some errUnaddressable) ∧
    Copy emptyEnv 1 none (some (.int 2)) = .ok ((none, some (.int 2)), some errUnaddressable) :=
  ⟨Copy_unaddressable emptyEnv 0 _ _ (by decide), Copy_unaddressable emptyEnv 0 _ _ (by decide),
   Copy_unaddressable emptyEnv 0 _ _ (by decide), Copy_unaddressable emptyEnv 0 _ _ (by decide)⟩

/-- C2, as stated, fails: with the invalid source `nil` and the destination
`1` (an `int`, not addressable), `Copy` returns the error `errUnaddressable`,
not nil: the addressability check comes first. -/
theorem Copy_invalid_source_unaddressable :
    indirect (ValueOf none) = none ∧
    Copy emptyEnv 1 (some (.int 1)) none
      = .ok ((some (.int 1), none), some errUnaddressable) := by
  decide

/-- C2, amended: for every addressable destination and every invalid source
(nil, or a pointer chain ending in nil), `Copy` returns nil and the destination
is exactly what it was. -/
theorem Copy_invalid_source (env : Env) (fuel : Nat) (toValue fromValue : Option Val)
    (hto : toCanAddr toValue = true) (hfrom : indirect (ValueOf fromValue) = none) :
    Copy env (fuel + 1) toValue fromValue = .ok ((toValue, fromValue), none) := by
  unfold toCanAddr at hto
  unfold Copy
  cases h : indirect (ValueOf toValue) with
  | none => simp [h] at hto
  | some to_ =>
    rw [h] at hto
    simp only at hto
    cases toValue with
    | none => simp [ValueOf, indirect] at h
    | some toV => simp [hto, hfrom]

/-- Witness of the amended C2: a nil source, and a pointer to a nil pointer as
source, into a pointer to an `int`. -/
theorem Copy_invalid_source_witness :
    Copy emptyEnv 1 (some (.ptr .int (some (.int 1)))) none
        = .ok ((some (.ptr .int (some (.int 1))), none), none) ∧
    Copy emptyEnv 1 (some (.ptr .int (some (.int 1))))
        (some (.ptr (.ptr .int) (some (.ptr .int none))))
        = .ok ((some (.ptr .int (some (.int 1))),
            some (.ptr (.ptr .int) (some (.ptr .int none)))), none) :=
  ⟨Copy_invalid_source emptyEnv 0 _ _ (by decide) (by decide),
   Copy_invalid_source emptyEnv 0 _ _ (by decide) (by decide)⟩

/-- C3: for a valid source `from_` (after `indirect`) whose base type is not a
struct and whose type is assignable to the type of the addressable destination
`to_` (after `indirect`), `Copy` returns nil and afterwards the destination
holds the source value: the value itself when the destination is not of
interface type, and an interface holding that value when it is. -/
theorem Copy_assignable (env : Env) (fuel : Nat) (toV : Val) (fromValue : Option Val)
    (to_ from_ : Value)
    (hto : indirect (ValueOf (some toV)) = some to_) (haddr : to_.canAddr = true)
    (hfrom : indirect (ValueOf fromValue) = some from_)
    (hbase : (indirectType from_.val.typ).kind ≠ .Struct)
    (hassign : AssignableTo from_.val.typ to_.val.typ = true) :
    ∃ toV', Copy env (fuel + 1) (some toV) fromValue = .ok ((some toV', fromValue), none) ∧
      indirect (ValueOf (some toV')) = some ⟨assignTo to_.val.typ from_.val, true⟩ ∧
      Interface (assignTo to_.val.typ from_.val) = Interface from_.val ∧
      (to_.val.typ ≠ .iface → assignTo to_.val.typ from_.val = from_.val) := by
  refine ⟨setIndirect toV (assignTo to_.val.typ from_.val), ?_, ?_, Interface_assignTo _ _,
    assignTo_of_ne _ _⟩
  · unfold Copy
    simp [hto, haddr, hfrom, hbase, hassign]
  · have hk : from_.val.kind ≠ .Ptr := by
      cases fromValue with
      | none => simp [ValueOf, indirect] at hfrom
      | some v => exact indirectVal_kind v false from_ hfrom
    have := indirectVal_setIndirect toV false to_ _ hto (assignTo_kind to_.val.typ _ hk)
    simpa [indirect, ValueOf, haddr] using this

/-- Witness of C3: the string `"go"`, passed through a pointer, into a pointer
to a string. -/
theorem Copy_assignable_witness :
    ∃ toV', Copy emptyEnv 1 (some (.ptr .string (some (.str ""))))
        (some (.ptr .string (some (.str "go"))))
        = .ok ((some toV', some (.ptr .string (some (.str "go")))), none) ∧
      indirect (ValueOf (some toV')) = some ⟨assignTo .string (.str "go"), true⟩ ∧
      Interface (assignTo .string (.str "go")) = Interface (.str "go") ∧
      (Ty.string ≠ .iface → assignTo .string (.str "go") = .str "go") :=
  Copy_assignable emptyEnv 0 (.ptr .string (some (.str ""))) (some (.ptr .string (some (.str "go"))))
    ⟨.str "", true⟩ ⟨.str "go", true⟩ (by decide) (by decide) (by decide) (by decide) (by decide)

/-- C7, amended: for an empty source slice and an addressable destination
slice, when the direct-assign path does not apply (the source base type is a
struct, or the source type is not assignable to the destination type) and the
shape gate lets the pair through (both base types are structs, or the source
base type converts to the destination base type), `Copy` returns nil and the
destination is a non-nil slice of length 0 of its declared type. -/
theorem Copy_empty_slice (env : Env) (fuel : Nat) (toV : Val) (fromValue : Option Val)
    (to_ from_ : Value)
    (hto : indirect (ValueOf (some toV)) = some to_) (haddr : to_.canAddr = true)
    (hfrom : indirect (ValueOf fromValue) = some from_)
    (htoSlice : to_.val.kind = .Slice) (hfromSlice : from_.val.kind = .Slice)
    (hlen : Len from_.val = 0)
    (hnofast : (indirectType from_.val.typ).kind = .Struct ∨
      AssignableTo from_.val.typ to_.val.typ = false)
    (hgate : ((indirectType from_.val.typ).kind = .Struct ∧
        (indirectType to_.val.typ).kind = .Struct) ∨
      ConvertibleTo env (indirectType from_.val.typ) (indirectType to_.val.typ) = true) :
    ∃ toV', Copy env (fuel + 1) (some toV) fromValue = .ok ((some toV', fromValue), none) ∧
      indirect (ValueOf (some toV')) = some ⟨.slice to_.val.typ.Elem (some []), true⟩ := by
  have hmk : MakeSlice to_.val.typ = .slice to_.val.typ.Elem (some []) := by
    cases hv : to_.val <;> simp_all [Val.kind, Val.typ, Ty.kind, MakeSlice, Ty.Elem]
  refine ⟨setIndirect toV (.slice to_.val.typ.Elem (some [])), ?_, ?_⟩
  · unfold Copy
    have h1 : ¬ ((indirectType from_.val.typ).kind ≠ .Struct ∧
        AssignableTo from_.val.typ to_.val.typ = true) := by
      rcases hnofast with h | h <;> simp [h]
    have h2 : ¬ (((indirectType from_.val.typ).kind ≠ .Struct ∨
        (indirectType to_.val.typ).kind ≠ .Struct) ∧
        ¬ (decide (to_.val.kind = .Slice) = true ∧
          ConvertibleTo env (indirectType from_.val.typ) (indirectType to_.val.typ) = true)) := by
      rcases hgate with h | h
      · simp [h.1, h.2]
      · simp [h, htoSlice]
    simp only [hto, haddr, hfrom]
    simp only [Bool.true_eq_false, ↓reduceIte, h1, htoSlice, hfromSlice, hlen, decide_True,
      and_self, copyLoop, hmk]
    rw [if_neg (by simpa [htoSlice] using h2)]
    simp only [map_setIndirect_self fromValue from_ hfrom]
  · have := indirectVal_setIndirect toV false to_ (.slice to_.val.typ.Elem (some [])) hto
      (by simp [Val.kind, Val.typ, Ty.kind])
    simpa [indirect, ValueOf, haddr] using this


/-- Witness of the amended C7: an empty `[]User` into a `[]Employee` that held
one element. -/
theorem Copy_empty_slice_witness :
    ∃ toV', Copy roleEnv 1
        (some (.ptr (.slice (.named "Employee"))
          (some (.slice (.named "Employee") (some [employee "old" 1 2 "x"])))))
        (some (.slice (.named "User") none))
        = .ok ((some toV', some (.slice (.named "User") none)), none) ∧
      indirect (ValueOf (some toV'))
        = some ⟨.slice (Ty.slice (.named "Employee")).Elem (some []), true⟩ :=
  Copy_empty_slice roleEnv 0 _ (some (.slice (.named "User") none))
    ⟨.slice (.named "Employee") (some [employee "old" 1 2 "x"]), true⟩
    ⟨.slice (.named "User") none, false⟩ (by decide) (by decide) (by decide) (by decide)
    (by decide) (by decide) (by decide) (by decide)

/-- C7, as stated, fails: with the empty source `[]string{}` and the
destination `[]int{1, 2}`, `Copy` returns nil and leaves the destination as it
was, with its two elements: `string` does not convert to `int`, so the shape
gate returns before the empty slice is made. -/
theorem Copy_empty_slice_unconvertible :
    Copy emptyEnv 1 (some (.ptr (.slice .int) (some (.slice .int (some [.int 1, .int 2])))))
        (some (.slice .string (some [])))
      = .ok ((some (.ptr (.slice .int) (some (.slice .int (some [.int 1, .int 2])))),
          some (.slice .string (some []))), none) := by
  decide

/-! ## Collections of structs -/

theorem putByIndex_struct (m : String) (v : Val) (idx : List Nat) (new : Val)
    (h : IsStruct m v) : IsStruct m (putByIndex v idx new) := by
  obtain ⟨fs, rfl⟩ := h
  cases idx with
  | nil => exact ⟨fs, by simp [putByIndex]⟩
  | cons x xs =>
    unfold putByIndex
    cases hg : fs[x]? with
    | none => exact ⟨fs, by simp only [hg]⟩
    | some f =>
      cases xs with
      | nil => exact ⟨fs.set x new, by simp only [hg]⟩
      | cons y ys =>
        simp only [hg]
        split <;> exact ⟨_, rfl⟩

theorem forFields_invariant {σ : Type} (P : σ → Prop) (body : Nat → StructField → σ → Res σ)
    (hbody : ∀ i f s s', P s → body i f s = .ok s' → P s') :
    ∀ (fs : List StructField) (i : Nat) (s s' : σ), P s → forFields body i fs s = .ok s' → P s'
  | [], _, s, s', hs, h => by
    simp only [forFields, Res.ok.injEq] at h
    exact h ▸ hs
  | f :: fs, i, s, s', hs, h => by
    simp only [forFields] at h
    cases hb : body i f s with
    | ok s1 =>
      rw [hb] at h
      exact forFields_invariant P body hbody fs (i + 1) s1 s' (hbody i f s s1 hs hb) h
    | panic m => rw [hb] at h; cases h
    | outOfFuel => rw [hb] at h; cases h

theorem initNilFieldsStep_struct (env : Env) (fuel : Nat)
    (self : Ty → Value → String → Option NeedMap → Res Val) (canAddr : Bool) (need : NeedMap)
    (m : String) (i : Nat) (f : StructField) (s s' : InitState)
    (hs : IsStruct m s.value) (h : initNilFieldsStep env fuel self canAddr need i f s = .ok s') :
    IsStruct m s'.value := by
  obtain ⟨fs, hfs⟩ := hs
  unfold initNilFieldsStep at h
  split at h
  · cases h; exact ⟨fs, hfs⟩
  · split at h
    · cases h; exact ⟨fs, hfs⟩
    · simp only [hfs, indirectVal] at h
      split at h
      · split at h
        · split at h
          · cases h; exact ⟨fs, hfs⟩
          · split at h
            · split at h
              · simp only [setIndirect, Val.struct.injEq, true_and] at h
                cases h
                exact ⟨_, rfl⟩
              · cases h
              · cases h
            · cases h
            · cases h
        · cases h; exact ⟨fs, hfs⟩
      · cases h
      · cases h

theorem InitNilFields_struct (env : Env) (fuel : Nat) (t : Ty) (v : Value) (pfx : String)
    (need : Option NeedMap) (m : String) (d : Val)
    (hv : IsStruct m v.val) (h : InitNilFields env fuel t v pfx need = .ok d) : IsStruct m d := by
  cases fuel with
  | zero => simp [InitNilFields] at h
  | succ fuel =>
    unfold InitNilFields at h
    split at h
    · cases h; exact hv
    · split at h
      · split at h
        · rename_i st hst
          cases h
          exact forFields_invariant (fun s => IsStruct m s.value) _
            (fun i f s s' => initNilFieldsStep_struct env fuel _ _ _ m i f s s') _ _ _ _ hv hst
        · cases h
        · cases h
      · cases h; exact hv

theorem Call_struct (meth : Method) (addr : Bool) (recv : Val) (args : List Val) (m : String)
    (h : IsStruct m recv) : IsStruct m (Call meth addr recv args).1 := by
  obtain ⟨fs, rfl⟩ := h
  simp only [Call]
  split
  · exact ⟨_, rfl⟩
  · exact ⟨fs, rfl⟩

theorem copyField_struct (env : Env) (fuel : Nat)
    (self : Option Val → Option Val → Res ((Option Val × Option Val) × Option String))
    (destAddr : Bool) (field : StructField) (m : String) (st st' : Val × Val)
    (err : Option String) (hd : IsStruct m st.1)
    (h : copyField env fuel self destAddr field st = .ok (st', err)) : IsStruct m st'.1 := by
  unfold copyField at h
  repeat' split at h
  all_goals first
    | (cases h; done)
    | (cases h
       first
         | exact hd
         | exact putByIndex_struct m _ _ _ hd
         | exact Call_struct _ _ _ _ m hd)

theorem copyField_source_struct (env : Env) (fuel : Nat)
    (self : Option Val → Option Val → Res ((Option Val × Option Val) × Option String))
    (destAddr : Bool) (field : StructField) (n : String) (st st' : Val × Val)
    (err : Option String) (hs : IsStruct n st.2)
    (h : copyField env fuel self destAddr field st = .ok (st', err)) : IsStruct n st'.2 := by
  unfold copyField at h
  repeat' split at h
  all_goals first
    | (cases h; done)
    | (cases h
       first
         | exact hs
         | exact putByIndex_struct n _ _ _ hs)

theorem fieldPass_invariant {σ : Type} (P : σ → Prop)
    (body : StructField → σ → Res (σ × Option String))
    (hbody : ∀ f d d' err, P d → body f d = .ok (d', err) → P d') :
    ∀ (fs : List StructField) (d d' : σ) (err : Option String),
      P d → fieldPass body fs d = .ok (d', err) → P d'
  | [], d, d', err, hd, h => by
    simp only [fieldPass, Res.ok.injEq, Prod.mk.injEq] at h
    exact h.1 ▸ hd
  | f :: fs, d, d', err, hd, h => by
    simp only [fieldPass] at h
    split at h
    · rename_i d1 hb
      exact fieldPass_invariant P body hbody fs d1 d' err (hbody f d d1 none hd hb) h
    · rename_i d1 e hb
      cases h
      exact hbody f d d' (some e) hd hb
    · cases h
    · cases h

theorem copyMethod_struct (env : Env) (fuel : Nat) (srcAddr destAddr : Bool)
    (field : StructField) (m : String) (st st' : Val × Val) (hd : IsStruct m st.1)
    (h : copyMethod env fuel srcAddr destAddr field st = .ok st') : IsStruct m st'.1 := by
  unfold copyMethod at h
  repeat' split at h
  all_goals first
    | (cases h; done)
    | (cases h
       first
         | exact hd
         | exact putByIndex_struct m _ _ _ hd)

theorem copyMethod_source_struct (env : Env) (fuel : Nat) (srcAddr destAddr : Bool)
    (field : StructField) (n : String) (st st' : Val × Val) (hs : IsStruct n st.2)
    (h : copyMethod env fuel srcAddr destAddr field st = .ok st') : IsStruct n st'.2 := by
  unfold copyMethod at h
  repeat' split at h
  all_goals first
    | (cases h; done)
    | (cases h
       first
         | exact hs
         | exact Call_struct _ _ _ _ n hs)

theorem methodPass_invariant {σ : Type} (P : σ → Prop) (body : StructField → σ → Res σ)
    (hbody : ∀ f d d', P d → body f d = .ok d' → P d') :
    ∀ (fs : List StructField) (d d' : σ), P d → methodPass body fs d = .ok d' → P d'
  | [], d, d', hd, h => by
    simp only [methodPass, Res.ok.injEq] at h
    exact h ▸ hd
  | f :: fs, d, d', hd, h => by
    simp only [methodPass] at h
    split at h
    · rename_i d1 hb
      exact methodPass_invariant P body hbody fs d1 d' (hbody f d d1 hd hb) h
    · cases h
    · cases h

theorem copyStruct_invariant (env : Env) (fuel : Nat)
    (self : Option Val → Option Val → Res ((Option Val × Option Val) × Option String))
    (fromType toType : Ty) (source dest : Value) (P : Val × Val → Prop)
    (hfield : ∀ f st st' err, P st →
      copyField env fuel self dest.canAddr f st = .ok (st', err) → P st')
    (hmethod : ∀ f st st', P st →
      copyMethod env fuel source.canAddr dest.canAddr f st = .ok st' → P st')
    (hinit : ∀ need dest1, InitNilFields env fuel toType dest "" need = .ok dest1 →
      P (dest1, source.val))
    (st : Val × Val) (err : Option String)
    (h : copyStruct env fuel self fromType toType source dest = .ok (st, err)) : P st := by
  unfold copyStruct at h
  split at h
  · split at h
    · rename_i dest1 hinit'
      have h1 := hinit _ dest1 hinit'
      split at h
      · rename_i st2 hfp
        have h2 := fieldPass_invariant P _ hfield _ _ _ _ h1 hfp
        split at h
        · split at h
          · rename_i st3 hmp
            cases h
            exact methodPass_invariant P _ hmethod _ _ _ h2 hmp
          · cases h
          · cases h
        · cases h
        · cases h
      · rename_i st2 e hfp
        cases h
        exact fieldPass_invariant P _ hfield _ _ _ _ h1 hfp
      · cases h
      · cases h
    · cases h
    · cases h
  · cases h
  · cases h

theorem copyStruct_struct (env : Env) (fuel : Nat)
    (self : Option Val → Option Val → Res ((Option Val × Option Val) × Option String))
    (fromType toType : Ty) (source dest : Value) (m : String) (st : Val × Val)
    (err : Option String) (hd : IsStruct m dest.val)
    (h : copyStruct env fuel self fromType toType source dest = .ok (st, err)) :
    IsStruct m st.1 :=
  copyStruct_invariant env fuel self fromType toType source dest (fun st => IsStruct m st.1)
    (fun f st st' err => copyField_struct env fuel self dest.canAddr f m st st' err)
    (fun f st st' => copyMethod_struct env fuel source.canAddr dest.canAddr f m st st')
    (fun _ dest1 hinit => InitNilFields_struct env fuel _ _ _ _ m dest1 hd hinit) st err h

theorem copyStruct_source_struct (env : Env) (fuel : Nat)
    (self : Option Val → Option Val → Res ((Option Val × Option Val) × Option String))
    (fromType toType : Ty) (source dest : Value) (n : String) (st : Val × Val)
    (err : Option String) (hs : IsStruct n source.val)
    (h : copyStruct env fuel self fromType toType source dest = .ok (st, err)) :
    IsStruct n st.2 :=
  copyStruct_invariant env fuel self fromType toType source dest (fun st => IsStruct n st.2)
    (fun f st st' err => copyField_source_struct env fuel self dest.canAddr f n st st' err)
    (fun f st st' => copyMethod_source_struct env fuel source.canAddr dest.canAddr f n st st')
    (fun _ _ _ => hs) st err h

theorem copyBody_struct (env : Env) (fuel : Nat)
    (self : Option Val → Option Val → Res ((Option Val × Option Val) × Option String))
    (fromType : Ty) (source : Option Value) (dest : Value) (m : String)
    (r : Val × Option Val) (err : Option String) (hd : IsStruct m dest.val)
    (h : copyBody env fuel self fromType (.named m) source dest = .ok (r, err)) :
    IsStruct m r.1 := by
  unfold copyBody at h
  split at h
  · simp only [Ty.kind, ne_eq, not_true_eq_false, and_false, ↓reduceIte] at h
    split at h
    · rename_i st e hcs
      simp only [Res.ok.injEq, Prod.mk.injEq] at h
      rw [← h.1]
      exact copyStruct_struct env fuel self _ _ _ _ m st _ hd hcs
    · cases h
    · cases h
  · cases h; exact hd

theorem Zero_named (env : Env) (fuel : Nat) (m : String) (z : Val)
    (h : Zero env fuel (.named m) = .ok z) : IsStruct m z := by
  cases fuel with
  | zero => simp [Zero] at h
  | succ fuel =>
    simp only [Zero] at h
    split at h
    · cases h; exact ⟨_, rfl⟩
    · cases h
    · cases h

theorem typ_named (v : Val) (n : String) (h : v.typ = .named n) : IsStruct n v := by
  cases v <;> simp_all [Val.typ, IsStruct]

theorem Copy_into_struct (env : Env) (fuel : Nat) (m n : String) (z : Val)
    (fromValue : Option Val) (hz : IsStruct m z)
    (hsrc : ∀ s, indirect (ValueOf fromValue) = some s → s.val.typ = .named n) :
    Copy env (fuel + 1) (some (.ptr (.named m) (some z))) fromValue
      = wrapPtr m fromValue (copyBody env fuel (Copy env fuel) (.named n) (.named m)
          (indirect (ValueOf fromValue)) ⟨z, true⟩) := by
  obtain ⟨zfs, rfl⟩ := hz
  unfold Copy
  cases hs : indirect (ValueOf fromValue) with
  | none => simp [ValueOf, indirect, indirectVal, copyBody, wrapPtr, wrapFrom]
  | some s =>
    have hn := hsrc s hs
    obtain ⟨sfs, hsv⟩ := typ_named _ _ hn
    obtain ⟨sv, sa⟩ := s
    simp only at hsv
    subst hsv
    have hself := map_setIndirect_self fromValue _ hs
    simp only at hself
    simp only [ValueOf, indirect, indirectVal, indirectType, Val.typ, Ty.kind, Val.kind,
      copyLoop, copyElem, sourceElem, destElem, setIndirect]
    cases hb : copyBody env fuel (Copy env fuel) (Ty.named n) (Ty.named m)
        (some ⟨Val.struct n sfs, sa⟩) ⟨Val.struct m zfs, true⟩ with
    | ok r =>
      obtain ⟨⟨d, so⟩, err⟩ := r
      cases so with
      | none =>
        cases err <;>
          simp [hb, wrapPtr, wrapFrom, putSource, hself]
      | some w =>
        cases err <;>
          simp [hb, wrapPtr, wrapFrom, putSource, Val.kind, Val.typ, Ty.kind, setIndirect]
    | panic msg => simp [hb, wrapPtr]
    | outOfFuel => simp [hb, wrapPtr]

theorem appendElem_struct (E : Ty) (m : String) (old : Option (List Val)) (d : Val)
    (hE : E = .named m ∨ E = .ptr (.named m)) (hd : IsStruct m d) :
    appendElem (.slice E old) d = .slice E (some (old.getD [] ++ [elemOf E m d])) := by
  obtain ⟨fs, rfl⟩ := hd
  rcases hE with rfl | rfl <;> cases old <;>
    simp [appendElem, AssignableTo, Val.typ, Ty.Elem, Append, assignTo, elemOf]

theorem copyElem_slice (env : Env) (fuel : Nat)
    (self : Option Val → Option Val → Res ((Option Val × Option Val) × Option String))
    (fromAddr : Bool) (fromType : Ty) (m : String) (i : Nat) (st : Val × Val) (z : Val)
    (source : Option Value)
    (hz : Zero env fuel (.named m) = .ok z)
    (hsrc : sourceElem true ⟨st.2, fromAddr⟩ i = .ok source) :
    copyElem env fuel self true fromAddr fromType (.named m) i st
      = appendResult st i (copyBody env fuel self fromType (.named m) source ⟨z, true⟩) := by
  obtain ⟨zfs, rfl⟩ := Zero_named env fuel m z hz
  unfold copyElem
  simp only [hsrc, destElem, hz, indirect, indirectVal, ↓reduceIte]
  cases hb : copyBody env fuel self fromType (Ty.named m) source ⟨Val.struct m zfs, true⟩ with
  | ok r =>
    obtain ⟨d, err⟩ := r
    cases err <;> simp [appendResult]
  | panic msg => simp [appendResult]
  | outOfFuel => simp [appendResult]

theorem copyLoop_append (body : Nat → Val × Val → Res ((Val × Val) × Option String))
    (R : Nat → Res ((Val × Option Val) × Option String)) (Inv : Nat → Val → Prop)
    (hinv : ∀ j src p, Inv j src → Inv (j + 1) (putSource true src j p)) :
    ∀ (k i : Nat) (t t' : Val × Val),
      (∀ j t, i ≤ j → j < i + k → Inv j t.2 → body j t = appendResult t j (R j)) →
      Inv i t.2 →
      copyLoop body k i t = .ok (t', none) →
      ∃ ds : List (Val × Option Val), ds.length = k ∧
        (∀ j (hj : j < ds.length), R (i + j) = .ok (ds[j], none)) ∧
        t'.1 = (ds.map Prod.fst).foldl appendElem t.1
  | 0, i, t, t', _, _, h => by
    simp only [copyLoop, Res.ok.injEq, Prod.mk.injEq, and_true] at h
    exact ⟨[], rfl, by simp, by simp [h]⟩
  | k + 1, i, t, t', hbody, ht, h => by
    simp only [copyLoop] at h
    have hb := hbody i t (le_refl i) (by omega) ht
    rw [hb] at h
    cases hR : R i with
    | ok r =>
      obtain ⟨d, err⟩ := r
      cases err with
      | none =>
        simp only [hR, appendResult] at h
        obtain ⟨ds, hlen, hds, ht'⟩ := copyLoop_append body R Inv hinv k (i + 1)
          (appendElem t.1 d.1, putSource true t.2 i d.2) t'
          (fun j t hj1 hj2 => hbody j t (by omega) (by omega)) (hinv i t.2 d.2 ht) h
        refine ⟨d :: ds, by simp [hlen], ?_, by simp [ht']⟩
        intro j hj
        cases j with
        | zero => simpa using hR
        | succ j =>
          have := hds j (by simpa using hj)
          simpa [Nat.add_assoc, Nat.add_comm 1 j] using this
      | some e => simp [hR, appendResult] at h
    | panic msg => simp [hR, appendResult] at h
    | outOfFuel => simp [hR, appendResult] at h

theorem foldl_appendElem (E : Ty) (m : String) (hE : E = .named m ∨ E = .ptr (.named m)) :
    ∀ (ds : List Val) (acc : List Val), (∀ d ∈ ds, IsStruct m d) →
      ds.foldl appendElem (.slice E (some acc)) = .slice E (some (acc ++ ds.map (elemOf E m)))
  | [], acc, _ => by simp
  | d :: ds, acc, h => by
    simp only [List.foldl_cons, List.map_cons]
    rw [appendElem_struct E m (some acc) d hE (h d (by simp))]
    rw [foldl_appendElem E m hE ds _ (fun d hd => h d (by simp [hd]))]
    simp



theorem wrapPtr_ok (m : String) (fromValue : Option Val)
    (r : Res ((Val × Option Val) × Option String)) (d : Val) (f : Option Val)
    (err : Option String)
    (h : wrapPtr m fromValue r = .ok ((some (.ptr (.named m) (some d)), f), err)) :
    ∃ so, r = .ok ((d, so), err) ∧ f = wrapFrom fromValue so := by
  cases r with
  | ok p =>
    obtain ⟨⟨d', so⟩, err'⟩ := p
    simp only [wrapPtr, Res.ok.injEq, Prod.mk.injEq, Option.some.injEq, Val.ptr.injEq,
      true_and] at h
    exact ⟨so, by rw [h.1.1, h.2], h.1.2.symm⟩
  | panic msg => simp [wrapPtr] at h
  | outOfFuel => simp [wrapPtr] at h

theorem indirectType_elem (E : Ty) (m : String) (hE : E = .named m ∨ E = .ptr (.named m)) :
    indirectType E = .named m := by
  rcases hE with rfl | rfl <;> simp [indirectType]

/-- C5 fails on the code: the source `Src{A: &A{P: &P{}}, P: nil}` has a nil
embedded pointer `P`, the destination `Dst{A: nil, P: nil}` has a nil embedded
pointer `P`, and after `Copy` the destination's `P` is allocated.  The source
walk records the keys `A` and `A.P`; `InitNilFields` allocates `A`, extends
its running prefix to `A.` and then looks the sibling `P` up as `A.P`. -/
theorem Copy_allocates_nil_embedded_sibling :
    Field nilEmbedSrc 1 = .ok (.ptr (.named "P") none) ∧
    Field nilEmbedDst 1 = .ok (.ptr (.named "P") none) ∧
    deepFields nilEmbedEnv 4 (.named "Src") nilEmbedSrc "" (some (.made []))
      = .ok ([], some (.made ["A", "A.P"])) ∧
    Copy nilEmbedEnv 5 (some (.ptr (.named "Dst") (some nilEmbedDst))) (some nilEmbedSrc)
      = .ok ((some (.ptr (.named "Dst") (some (.struct "Dst"
          [.ptr (.named "A") (some (.struct "A" [.ptr (.named "P") (some (.struct "P" []))])),
           .ptr (.named "P") (some (.struct "P" []))]))), some nilEmbedSrc), none) := by
  decide

/-- C6, amended: for a single struct source and an addressable destination
slice whose elements are structs of type `m` or pointers to them, if copying
the source into a fresh zero value of `m` returns nil with result `d`, then
`Copy` into the slice returns nil and the slice holds its previous elements
followed by exactly one new element: `d`, or a pointer to `d`. -/
theorem Copy_single_into_slice (env : Env) (fuel : Nat) (toV : Val)
    (fromValue fromValue' : Option Val)
    (to_ from_ : Value) (n m : String) (E : Ty) (old : Option (List Val)) (z d : Val)
    (hto : indirect (ValueOf (some toV)) = some to_) (haddr : to_.canAddr = true)
    (hsl : to_.val = .slice E old) (hE : E = .named m ∨ E = .ptr (.named m))
    (hfrom : indirect (ValueOf fromValue) = some from_) (hS : from_.val.typ = .named n)
    (hz : Zero env fuel (.named m) = .ok z)
    (hone : Copy env (fuel + 1) (some (.ptr (.named m) (some z))) fromValue
      = .ok ((some (.ptr (.named m) (some d)), fromValue'), none)) :
    ∃ toV', Copy env (fuel + 1) (some toV) fromValue = .ok ((some toV', fromValue'), none) ∧
      indirect (ValueOf (some toV'))
        = some ⟨.slice E (some (old.getD [] ++ [elemOf E m d])), true⟩ := by
  have hzs := Zero_named env fuel m z hz
  rw [Copy_into_struct env fuel m n z fromValue hzs (fun s hs => by
    rw [hfrom] at hs; cases hs; exact hS)] at hone
  obtain ⟨so, hbody, hf⟩ := wrapPtr_ok m fromValue _ d fromValue' none hone
  rw [hfrom] at hbody
  have hds := copyBody_struct env fuel _ _ _ _ m (d, so) none hzs hbody
  simp only at hds
  obtain ⟨sfs, hsv⟩ := typ_named _ _ hS
  obtain ⟨tv, ta⟩ := to_
  obtain ⟨sv, sa⟩ := from_
  simp only at hsl hsv haddr
  subst hsl hsv haddr
  have hself := map_setIndirect_self fromValue _ hfrom
  simp only at hself
  have hsrc : sourceElem true ⟨Val.struct n sfs, sa⟩ 0 = .ok (some ⟨Val.struct n sfs, sa⟩) := by
    simp [sourceElem, Val.kind, Val.typ, Ty.kind, indirect, indirectVal]
  have hel := copyElem_slice env fuel (Copy env fuel) sa (.named n) m 0
    (.slice E old, .struct n sfs) z _ hz hsrc
  rw [hbody] at hel
  simp only [appendResult] at hel
  have hsrc' : Option.map (fun v => setIndirect v (putSource true (Val.struct n sfs) 0 so))
      fromValue = fromValue' := by
    rw [hf]
    cases so with
    | none => simp [putSource, wrapFrom, hself]
    | some w => simp [putSource, wrapFrom, Val.kind, Val.typ, Ty.kind, setIndirect]
  refine ⟨setIndirect toV (.slice E (some (old.getD [] ++ [elemOf E m d]))), ?_, ?_⟩
  · unfold Copy
    simp only [hto, hfrom, indirectType, indirectType_elem E m hE, Val.typ, Ty.kind, Val.kind,
      ne_eq, not_true_eq_false, false_and, ↓reduceIte, decide_True, true_and, or_self,
      Bool.true_eq_false, one_ne_zero, copyLoop, reduceCtorEq, hel, and_false, hsrc']
    rw [appendElem_struct E m old d hE hds]
  · have := indirectVal_setIndirect toV false ⟨.slice E old, true⟩
      (.slice E (some (old.getD [] ++ [elemOf E m d]))) hto
      (by simp [Val.kind, Val.typ, Ty.kind])
    simpa [indirect, ValueOf] using this

/-- Witness of the amended C6: a `User` into a `[]Employee` that held one
element. -/
theorem Copy_single_into_slice_witness :
    ∃ toV', Copy roleEnv 3
        (some (.ptr (.slice (.named "Employee"))
          (some (.slice (.named "Employee") (some [employee "old" 1 2 "x"])))))
        (some (user "Jinzhu" "Admin" 18))
        = .ok ((some toV', some (user "Jinzhu" "Admin" 18)), none) ∧
      indirect (ValueOf (some toV'))
        = some ⟨.slice (.named "Employee")
            (some ((some [employee "old" 1 2 "x"]).getD [] ++
              [elemOf (.named "Employee") "Employee" (employee "Jinzhu" 18 36 "Super Admin")])),
            true⟩ :=
  Copy_single_into_slice roleEnv 2 _ (some (user "Jinzhu" "Admin" 18)) _
    ⟨.slice (.named "Employee") (some [employee "old" 1 2 "x"]), true⟩
    ⟨user "Jinzhu" "Admin" 18, false⟩ "User" "Employee" (.named "Employee")
    (some [employee "old" 1 2 "x"]) (employee "" 0 0 "") (employee "Jinzhu" 18 36 "Super Admin")
    (by decide) (by decide) (by decide) (by decide) (by decide) (by decide) (by decide)
    (by decide)

/-- C6, as stated, fails: copying one `User` into a `[]Employee` that already
holds one element leaves two elements, the old one and the copy. -/
theorem Copy_single_into_nonempty_slice :
    Copy roleEnv 3
        (some (.ptr (.slice (.named "Employee"))
          (some (.slice (.named "Employee") (some [employee "old" 1 2 "x"])))))
        (some (user "Jinzhu" "Admin" 18))
      = .ok ((some (.ptr (.slice (.named "Employee"))
          (some (.slice (.named "Employee")
            (some [employee "old" 1 2 "x", employee "Jinzhu" 18 36 "Super Admin"])))),
          some (user "Jinzhu" "Admin" 18)), none) := by
  decide

theorem foldl_appendElem_opt (E : Ty) (m : String) (hE : E = .named m ∨ E = .ptr (.named m))
    (ds : List Val) (old : Option (List Val)) (hds : ∀ d ∈ ds, IsStruct m d) (hne : ds ≠ []) :
    ds.foldl appendElem (.slice E old) = .slice E (some (old.getD [] ++ ds.map (elemOf E m))) := by
  cases ds with
  | nil => exact absurd rfl hne
  | cons d ds =>
    simp only [List.foldl_cons, List.map_cons]
    rw [appendElem_struct E m old d hE (hds d (by simp))]
    rw [foldl_appendElem E m hE ds _ (fun d hd => hds d (by simp [hd]))]
    simp

/-- C8, amended: for a source slice of `n >= 1` structs or pointers to structs
(nil pointers allowed) and an addressable, empty destination slice of structs
of type `m` or pointers to them, if `Copy` returns nil then the destination has
length `n`, and its `i`-th element is the result `d` of copying source element
`i` (by address) into a fresh zero value of `m`; that copy returns nil, and
`d` is the zero value when source element `i` is a nil pointer. -/
theorem Copy_slice_into_slice (env : Env) (fuel : Nat) (toV toV' : Val)
    (fromValue fromValue' : Option Val)
    (to_ from_ : Value) (n m : String) (S E : Ty) (xs : List Val) (old : Option (List Val))
    (z : Val)
    (hto : indirect (ValueOf (some toV)) = some to_) (haddr : to_.canAddr = true)
    (hsl : to_.val = .slice E old) (hold : old = none ∨ old = some [])
    (hE : E = .named m ∨ E = .ptr (.named m))
    (hfrom : indirect (ValueOf fromValue) = some from_) (hxs : from_.val = .slice S (some xs))
    (hS : indirectType S = .named n)
    (helems : ∀ x ∈ xs, ∀ s, indirectVal x true = some s → s.val.typ = .named n)
    (hn : 1 ≤ xs.length) (hz : Zero env fuel (.named m) = .ok z)
    (hcopy : Copy env (fuel + 1) (some toV) fromValue = .ok ((some toV', fromValue'), none)) :
    ∃ ys, indirect (ValueOf (some toV')) = some ⟨.slice E (some ys), true⟩ ∧
      ys.length = xs.length ∧
      ∀ (i : Nat) (hi : i < xs.length), ∃ d s,
        Copy env (fuel + 1) (some (.ptr (.named m) (some z))) (some (.ptr S (some xs[i])))
          = .ok ((some (.ptr (.named m) (some d)), s), none) ∧
        (indirectVal xs[i] true = none → d = z) ∧
        ys[i]? = some (elemOf E m d) := by
  have hzs := Zero_named env fuel m z hz
  obtain ⟨tv, ta⟩ := to_
  obtain ⟨sv, sa⟩ := from_
  simp only at hsl hxs haddr
  subst hsl hxs haddr
  let R : Nat → Res ((Val × Option Val) × Option String) := fun j =>
    copyBody env fuel (Copy env fuel) (.named n) (.named m)
      (match xs[j]? with
       | some x => indirectVal x true
       | none => none) ⟨z, true⟩
  let Inv : Nat → Val → Prop := fun j src =>
    ∃ xs', src = .slice S (some xs') ∧ xs'.length = xs.length ∧ ∀ k, j ≤ k → xs'[k]? = xs[k]?
  have hinv : ∀ j src p, Inv j src → Inv (j + 1) (putSource true src j p) := by
    intro j src p ⟨xs', hsrc, hlen, hk⟩
    subst hsrc
    cases p with
    | none => exact ⟨xs', rfl, hlen, fun k hjk => hk k (by omega)⟩
    | some w =>
      simp only [putSource, Val.kind, Val.typ, Ty.kind, and_self, ↓reduceIte]
      cases hx : xs'[j]? with
      | none => exact ⟨xs', rfl, hlen, fun k hjk => hk k (by omega)⟩
      | some x =>
        refine ⟨xs'.set j (setIndirect x w), rfl, by simp [hlen], fun k hjk => ?_⟩
        rw [List.getElem?_set_ne (by omega)]
        exact hk k (by omega)
  have hbody : ∀ j t, 0 ≤ j → j < 0 + xs.length → Inv j t.2 →
      copyElem env fuel (Copy env fuel) true sa (.named n) (.named m) j t
        = appendResult t j (R j) := by
    intro j t _ hj ⟨xs', hsrc, hlen, hk⟩
    have hj' : j < xs.length := by omega
    apply copyElem_slice env fuel (Copy env fuel) _ _ m j t z _ hz
    rw [hsrc]
    simp [sourceElem, Val.kind, Val.typ, Ty.kind, Index, hk j (le_refl j),
      List.getElem?_eq_getElem hj', indirect]
  unfold Copy at hcopy
  have hlen0 : xs.length ≠ 0 := by omega
  simp only [hto, hfrom, indirectType, hS, indirectType_elem E m hE, Val.typ, Ty.kind, Val.kind,
    ne_eq, not_true_eq_false, false_and, ↓reduceIte, decide_True, true_and, or_self,
    Bool.true_eq_false, copyLoop, reduceCtorEq, and_false, and_self, Len, hlen0] at hcopy
  split at hcopy
  · rename_i t' err hloop
    simp only [Res.ok.injEq, Prod.mk.injEq, Option.some.injEq] at hcopy
    obtain ⟨⟨htv, _⟩, herr⟩ := hcopy
    subst herr
    obtain ⟨ds, hdl, hds, ht'⟩ := copyLoop_append _ R Inv hinv xs.length 0
      (.slice E old, .slice S (some xs)) t' hbody ⟨xs, rfl, rfl, fun _ _ => rfl⟩ hloop
    simp only at ht'
    have hstruct : ∀ d ∈ ds.map Prod.fst, IsStruct m d := by
      intro d hd
      obtain ⟨p, hp, rfl⟩ := List.mem_map.mp hd
      obtain ⟨j, hj, rfl⟩ := List.getElem_of_mem hp
      have := hds j hj
      exact copyBody_struct env fuel _ _ _ _ m _ none hzs this
    have hne : ds.map Prod.fst ≠ [] := by
      intro h0
      have : (ds.map Prod.fst).length = 0 := by rw [h0]; rfl
      simp at this
      rw [this] at hdl
      simp at hdl
      omega
    rw [foldl_appendElem_opt E m hE _ old hstruct hne] at ht'
    have hold' : old.getD [] = [] := by rcases hold with rfl | rfl <;> rfl
    rw [hold', List.nil_append] at ht'
    refine ⟨(ds.map Prod.fst).map (elemOf E m), ?_, by simp [hdl], ?_⟩
    · have := indirectVal_setIndirect toV false ⟨.slice E old, true⟩ t'.1 hto
        (by rw [ht']; simp [Val.kind, Val.typ, Ty.kind])
      rw [← htv, ← ht']
      simpa [indirect, ValueOf] using this
    · intro i hi
      have hi' : i < ds.length := by omega
      have hRi := hds i hi'
      simp only [Nat.zero_add, R, List.getElem?_eq_getElem hi] at hRi
      refine ⟨ds[i].1, wrapFrom (some (.ptr S (some xs[i]))) ds[i].2, ?_, ?_,
        by simp [List.getElem?_eq_getElem hi']⟩
      · rw [Copy_into_struct env fuel m n z _ hzs (fun s hs => by
          simp only [ValueOf, indirect, indirectVal] at hs
          exact helems _ (List.getElem_mem hi) s hs)]
        simp only [ValueOf, indirect, indirectVal, hRi, wrapPtr]
      · intro hnil
        rw [hnil] at hRi
        simp only [copyBody, Res.ok.injEq, Prod.mk.injEq, and_true] at hRi
        rw [← hRi]
  · cases hcopy
  · cases hcopy

/-- Witness of the amended C8: two `User`s into an empty `[]*Employee`. -/
theorem Copy_slice_into_slice_witness :
    ∃ ys, indirect (ValueOf (some (.ptr (.slice (.ptr (.named "Employee")))
        (some (.slice (.ptr (.named "Employee"))
          (some [.ptr (.named "Employee") (some (employee "a" 1 2 "Super x")),
                 .ptr (.named "Employee") (some (employee "b" 2 4 "Super y"))]))))))
        = some ⟨.slice (.ptr (.named "Employee")) (some ys), true⟩ ∧
      ys.length = [user "a" "x" 1, user "b" "y" 2].length ∧
      ∀ (i : Nat) (hi : i < [user "a" "x" 1, user "b" "y" 2].length), ∃ d s,
        Copy roleEnv 3 (some (.ptr (.named "Employee") (some (employee "" 0 0 ""))))
            (some (.ptr (.named "User") (some [user "a" "x" 1, user "b" "y" 2][i])))
          = .ok ((some (.ptr (.named "Employee") (some d)), s), none) ∧
        (indirectVal [user "a" "x" 1, user "b" "y" 2][i] true = none → d = employee "" 0 0 "") ∧
        ys[i]? = some (elemOf (.ptr (.named "Employee")) "Employee" d) :=
  Copy_slice_into_slice roleEnv 2
    (.ptr (.slice (.ptr (.named "Employee"))) (some (.slice (.ptr (.named "Employee")) none))) _
    (some (.slice (.named "User") (some [user "a" "x" 1, user "b" "y" 2])))
    (some (.slice (.named "User") (some [user "a" "x" 1, user "b" "y" 2])))
    ⟨.slice (.ptr (.named "Employee")) none, true⟩
    ⟨.slice (.named "User") (some [user "a" "x" 1, user "b" "y" 2]), false⟩
    "User" "Employee" (.named "User") (.ptr (.named "Employee")) _ none (employee "" 0 0 "")
    (by decide) (by decide) (by decide) (by decide) (by decide) (by decide) (by decide)
    (by decide)
    (by
      intro x hx s hs
      simp only [List.mem_cons, List.mem_singleton, List.not_mem_nil, or_false] at hx
      rcases hx with rfl | rfl <;>
        (simp only [user, indirectVal, Option.some.injEq] at hs; subst hs; rfl))
    (by decide) (by decide) (by decide)

/-- C8, as stated, fails: the source `[]Box{{}}` has one element, the
destination `[]Crate{}` is empty, and `Copy` returns the error
`errUnaddressable` with the destination still empty.  The field `F` of
`Crate` has type `**Leaf`: `set` allocates one level and declines, and the
nested `Copy` finds a nil pointer at the end of the destination chain. -/
theorem Copy_slice_stops_at_error :
    Copy roleEnv 3
        (some (.ptr (.slice (.named "Crate")) (some (.slice (.named "Crate") (some [])))))
        (some (.slice (.named "Box") (some [.struct "Box" [.struct "Inner" []]])))
      = .ok ((some (.ptr (.slice (.named "Crate")) (some (.slice (.named "Crate") (some [])))),
          some (.slice (.named "Box") (some [.struct "Box" [.struct "Inner" []]]))),
          some errUnaddressable) := by
  decide

/-! ## The source under read-only getters -/

theorem set_getElem?_self {α : Type} : ∀ (l : List α) (i : Nat) (x : α),
    l[i]? = some x → l.set i x = l
  | [], _, _, h => by simp at h
  | a :: l, 0, x, h => by
    simp only [List.getElem?_cons_zero, Option.some.injEq] at h
    simp [h]
  | a :: l, i + 1, x, h => by
    simp only [List.getElem?_cons_succ] at h
    simp [set_getElem?_self l i x h]

theorem Field_struct (v : Val) (i : Nat) (f : Val) (h : Field v i = .ok f) :
    ∃ n fs, v = .struct n fs ∧ fs[i]? = some f := by
  unfold Field at h
  split at h
  · rename_i n fs
    split at h
    · rename_i x hx
      cases h
      exact ⟨n, fs, rfl, hx⟩
    · cases h
  · cases h

/-- Storing what is there changes nothing. -/
theorem putByIndex_FieldByIndex : ∀ (idx : List Nat) (v f : Val),
    FieldByIndex v idx = .ok f → putByIndex v idx f = v
  | [], v, f, _ => by simp [putByIndex]
  | x :: xs, v, f, h => by
    rw [FieldByIndex] at h
    cases hF : Field v x with
    | ok g =>
      obtain ⟨n, fs, rfl, hg⟩ := Field_struct v x g hF
      rw [hF] at h
      cases xs with
      | nil =>
        simp only [Res.ok.injEq] at h
        subst h
        simp [putByIndex, hg, set_getElem?_self fs x g hg]
      | cons y ys =>
        simp only at h
        rw [putByIndex]
        simp only [hg]
        split at h
        · cases h
        · rename_i m p
          have := putByIndex_FieldByIndex (y :: ys) p f h
          simp only [this, set_getElem?_self fs x _ hg]
        · rename_i hn1 hn2
          have := putByIndex_FieldByIndex (y :: ys) g f h
          split
          · rename_i m p
            exact absurd rfl (hn2 m p)
          · simp only [this, set_getElem?_self fs x _ hg]
    | panic m => rw [hF] at h; cases h
    | outOfFuel => rw [hF] at h; cases h

theorem FieldByName_FieldByIndex (env : Env) (fuel : Nat) (v : Val) (name : String)
    (idx : List Nat) (f : Val) (h : FieldByName env fuel v name = .ok (some (idx, f))) :
    FieldByIndex v idx = .ok f := by
  unfold FieldByName at h
  split at h
  · split at h
    · rename_i idx' _
      split at h
      · rename_i f' hf
        simp only [Res.ok.injEq, Option.some.injEq, Prod.mk.injEq] at h
        rw [← h.1, ← h.2]
        exact hf
      · cases h
      · cases h
    · cases h
    · cases h
    · cases h
  · cases h

theorem fromInterface_Interface (f : Val) : fromInterface f (Interface f) = f := by
  cases f with
  | iface d => cases d <;> rfl
  | _ => rfl

theorem Call_readonly (env : Env) (hro : ReadOnlyGetters env) (recv : Val) (a : Bool)
    (name : String) (m : Method) (hm : MethodByName env recv.typ a name = some m)
    (hin : m.In.length = 0) (hout : m.Out.length = 1) : (Call m a recv []).1 = recv := by
  cases recv with
  | struct n fs =>
    simp only [Call]
    split
    · rename_i hc
      simp only [Bool.and_eq_true] at hc
      have hmem : m ∈ (env n).methods := by
        simp only [MethodByName, Val.typ] at hm
        split at hm
        · exact List.mem_of_find?_eq_some hm
        · cases hm
      rw [hro n m hmem hc.2 hin hout fs]
    · rfl
  | _ => rfl

theorem copyMethod_source (env : Env) (hro : ReadOnlyGetters env) (fuel : Nat)
    (srcAddr destAddr : Bool) (field : StructField) (st st' : Val × Val)
    (h : copyMethod env fuel srcAddr destAddr field st = .ok st') : st'.2 = st.2 := by
  unfold copyMethod at h
  split at h
  · rename_i m hm
    split at h
    · rename_i hio
      have hc := Call_readonly env hro st.2 srcAddr field.Name m hm hio.1 hio.2
      repeat' split at h
      all_goals first
        | (cases h; done)
        | (cases h
           first
             | rfl
             | exact hc)
    · cases h; rfl
  · cases h; rfl

theorem copyField_source (env : Env) (fuel : Nat)
    (self : Option Val → Option Val → Res ((Option Val × Option Val) × Option String))
    (hself : ∀ t f r e, self t f = .ok (r, e) → r.2 = f)
    (destAddr : Bool) (field : StructField) (st st' : Val × Val) (err : Option String)
    (h : copyField env fuel self destAddr field st = .ok (st', err)) : st'.2 = st.2 := by
  unfold copyField at h
  split at h
  · rename_i idxFrom fromField hff
    have hput : ∀ r e, self r (Interface fromField) = .ok e →
        putByIndex st.2 idxFrom (fromInterface fromField e.1.2) = st.2 := by
      intro r e he
      have := hself r (Interface fromField) e.1 e.2 he
      rw [this, fromInterface_Interface]
      exact putByIndex_FieldByIndex _ _ _ (FieldByName_FieldByIndex env fuel _ _ _ _ hff)
    split at h
    · split at h
      · split at h
        · cases h; rfl
        · split at h
          · rename_i hs
            cases h
            exact hput _ _ hs
          · rename_i hs
            cases h
            exact hput _ _ hs
          · cases h
          · cases h
        · cases h
        · cases h
      · cases h; rfl
    · repeat' split at h
      all_goals first
        | (cases h; done)
        | (cases h; rfl)
    · cases h
    · cases h
  · cases h; rfl
  · cases h
  · cases h

theorem copyStruct_source (env : Env) (hro : ReadOnlyGetters env) (fuel : Nat)
    (self : Option Val → Option Val → Res ((Option Val × Option Val) × Option String))
    (hself : ∀ t f r e, self t f = .ok (r, e) → r.2 = f)
    (fromType toType : Ty) (source dest : Value) (st : Val × Val) (err : Option String)
    (h : copyStruct env fuel self fromType toType source dest = .ok (st, err)) :
    st.2 = source.val :=
  copyStruct_invariant env fuel self fromType toType source dest (fun st => st.2 = source.val)
    (fun f st st' err hst hh =>
      (copyField_source env fuel self hself dest.canAddr f st st' err hh).trans hst)
    (fun f st st' hst hh =>
      (copyMethod_source env hro fuel source.canAddr dest.canAddr f st st' hh).trans hst)
    (fun _ _ _ => rfl) st err h

theorem copyBody_source (env : Env) (hro : ReadOnlyGetters env) (fuel : Nat)
    (self : Option Val → Option Val → Res ((Option Val × Option Val) × Option String))
    (hself : ∀ t f r e, self t f = .ok (r, e) → r.2 = f)
    (fromType toType : Ty) (source : Option Value) (dest : Value) (r : Val × Option Val)
    (err : Option String)
    (h : copyBody env fuel self fromType toType source dest = .ok (r, err)) :
    r.2 = source.map (fun s => s.val) := by
  unfold copyBody at h
  split at h
  · split at h
    · split at h
      · cases h; rfl
      · cases h
      · cases h
    · split at h
      · rename_i st e hcs
        cases h
        simp only [Option.map_some', Option.some.injEq]
        exact copyStruct_source env hro fuel self hself _ _ _ _ st _ hcs
      · cases h
      · cases h
  · cases h; rfl

theorem putSource_sourceElem (isSlice : Bool) (v : Val) (a : Bool) (i : Nat)
    (source : Option Value) (h : sourceElem isSlice ⟨v, a⟩ i = .ok source) :
    putSource isSlice v i (source.map (fun s => s.val)) = v := by
  cases source with
  | none => rfl
  | some s =>
    simp only [Option.map_some', putSource]
    unfold sourceElem at h
    simp only at h
    split
    · rename_i hc
      rw [if_pos hc] at h
      split at h
      · rename_i e he
        simp only [Res.ok.injEq] at h
        unfold Index at he
        split at he
        · rename_i t xs
          split at he
          · rename_i x hx
            cases he
            simp only [indirect] at h
            simp only [hx, setIndirect_self x true s h, set_getElem?_self xs i x hx]
          · cases he
        · cases he
        · cases he
      · cases h
      · cases h
    · rename_i hc
      rw [if_neg hc] at h
      simp only [Res.ok.injEq, indirect] at h
      exact setIndirect_self v a s h

theorem copyElem_source (env : Env) (hro : ReadOnlyGetters env) (fuel : Nat)
    (self : Option Val → Option Val → Res ((Option Val × Option Val) × Option String))
    (hself : ∀ t f r e, self t f = .ok (r, e) → r.2 = f)
    (isSlice fromAddr : Bool) (fromType toType : Ty) (i : Nat) (st st' : Val × Val)
    (err : Option String)
    (h : copyElem env fuel self isSlice fromAddr fromType toType i st = .ok (st', err)) :
    st'.2 = st.2 := by
  unfold copyElem at h
  split at h
  · rename_i source hsrc
    have hput := putSource_sourceElem isSlice st.2 fromAddr i source hsrc
    split at h
    · split at h
      · rename_i r hb
        cases h
        simp only
        rw [copyBody_source env hro fuel self hself _ _ _ _ r none hb]
        exact hput
      · rename_i r e hb
        cases h
        simp only
        rw [copyBody_source env hro fuel self hself _ _ _ _ r (some e) hb]
        exact hput
      · cases h
      · cases h
    · cases h
    · cases h
    · cases h
  · cases h
  · cases h

theorem copyLoop_invariant {σ : Type} (P : σ → Prop)
    (body : Nat → σ → Res (σ × Option String))
    (hbody : ∀ i t t' err, P t → body i t = .ok (t', err) → P t') :
    ∀ (k i : Nat) (t t' : σ) (err : Option String),
      P t → copyLoop body k i t = .ok (t', err) → P t'
  | 0, _, t, t', err, ht, h => by
    simp only [copyLoop, Res.ok.injEq, Prod.mk.injEq] at h
    exact h.1 ▸ ht
  | k + 1, i, t, t', err, ht, h => by
    simp only [copyLoop] at h
    split at h
    · rename_i t1 hb
      exact copyLoop_invariant P body hbody k (i + 1) t1 t' err (hbody i t t1 none ht hb) h
    · rename_i t1 e hb
      cases h
      exact hbody i t t' (some e) ht hb
    · cases h
    · cases h

/-- When getters are read-only, `Copy` leaves its source as it was. -/
theorem Copy_source (env : Env) (hro : ReadOnlyGetters env) :
    ∀ (fuel : Nat) (toValue fromValue : Option Val) (r : Option Val × Option Val)
      (err : Option String),
      Copy env fuel toValue fromValue = .ok (r, err) → r.2 = fromValue
  | 0, _, _, _, _, h => by simp [Copy] at h
  | fuel + 1, toValue, fromValue, r, err, h => by
    unfold Copy at h
    split at h
    · split at h
      · cases h; rfl
      · split at h
        · cases h; rfl
        · rename_i from_ hfrom
          simp only at h
          split at h
          · cases h; rfl
          · split at h
            · cases h; rfl
            · split at h
              · rename_i st e hloop
                cases h
                simp only
                have := copyLoop_invariant (fun t : Val × Val => t.2 = from_.val) _
                  (fun i t t' err ht hb =>
                    (copyElem_source env hro fuel (Copy env fuel)
                      (fun t f r e he => Copy_source env hro fuel t f r e he) _ _ _ _ i t t' err
                      hb).trans ht) _ _ _ st _ rfl hloop
                rw [this]
                exact map_setIndirect_self fromValue from_ hfrom
              · cases h
              · cases h
    · cases h; rfl

/-! ## Index paths -/

theorem scanField_result (name : String) (count : CountMap) (scan : fieldScan)
    (st : ScanState) (i : Nat) (f : StructField) (h : st.result ≠ some []) :
    (scanField name count scan st i f).result ≠ some [] := by
  unfold scanField
  repeat' split
  all_goals first | exact h | simp

theorem scanFields_result (name : String) (count : CountMap) (scan : fieldScan) :
    ∀ (fs : List StructField) (i : Nat) (st : ScanState), st.result ≠ some [] →
      (scanFields name count scan i fs st).result ≠ some []
  | [], _, _, h => by simpa [scanFields] using h
  | f :: fs, i, st, h => by
    simp only [scanFields]
    exact scanFields_result name count scan fs (i + 1) _ (scanField_result name count scan st i f h)

theorem scanType_result (env : Env) (name : String) (count : CountMap) (st : ScanState)
    (sc : fieldScan) (h : st.result ≠ some []) :
    (scanType env name count st sc).result ≠ some [] := by
  unfold scanType
  split
  · exact h
  · split
    · exact h
    · exact scanFields_result name count sc _ 0 _ h

theorem foldl_scanType_result (env : Env) (name : String) (count : CountMap) :
    ∀ (next : List fieldScan) (st : ScanState), st.result ≠ some [] →
      (next.foldl (scanType env name count) st).result ≠ some []
  | [], _, h => by simpa using h
  | sc :: next, st, h => by
    simp only [List.foldl_cons]
    exact foldl_scanType_result env name count next _ (scanType_result env name count st sc h)

theorem FieldByNameFunc_ne_nil (env : Env) (name : String) :
    ∀ (fuel : Nat) (next : List fieldScan) (count : CountMap) (visited : List String),
      FieldByNameFunc env name fuel next count visited ≠ .ok (some [])
  | 0, _, _, _ => by simp [FieldByNameFunc]
  | fuel + 1, next, count, visited => by
    cases next with
    | nil => simp [FieldByNameFunc]
    | cons sc rest =>
      rw [FieldByNameFunc]
      split
      · simp
      · split
        · intro h
          simp only [Res.ok.injEq] at h
          exact foldl_scanType_result env name count (sc :: rest) _ (by simp) h
        · exact FieldByNameFunc_ne_nil env name fuel _ _ _

/-- The index path of a field found by name is not empty. -/
theorem typeFieldByName_ne_nil (env : Env) (fuel : Nat) (t name : String) :
    typeFieldByName env fuel t name ≠ .ok (some []) := by
  unfold typeFieldByName
  split
  · simp
  · split
    · simp
    · split
      · exact FieldByNameFunc_ne_nil env name fuel _ _ _
      · simp

theorem findField_some (name : String) :
    ∀ (fs : List StructField) (k i : Nat), findField name k fs = some i →
      k ≤ i ∧ ∃ f, fs[i - k]? = some f ∧ f.Name = name
  | [], _, _, h => by simp [findField] at h
  | f :: fs, k, i, h => by
    simp only [findField] at h
    split at h
    · rename_i hn
      simp only [Option.some.injEq] at h
      subst h
      exact ⟨le_refl _, f, by simp, hn⟩
    · obtain ⟨hk, g, hg, hgn⟩ := findField_some name fs (k + 1) i h
      refine ⟨by omega, g, ?_, hgn⟩
      have : i - k = (i - (k + 1)) + 1 := by omega
      rw [this]
      simpa using hg

theorem findField_ne (n1 n2 : String) (fs : List StructField) (i j : Nat)
    (h1 : findField n1 0 fs = some i) (h2 : findField n2 0 fs = some j) (hne : n1 ≠ n2) :
    i ≠ j := by
  intro hij
  subst hij
  obtain ⟨_, f, hf, hfn⟩ := findField_some n1 fs 0 i h1
  obtain ⟨_, g, hg, hgn⟩ := findField_some n2 fs 0 i h2
  rw [hf] at hg
  cases hg
  exact hne (hfn.symm.trans hgn)

theorem scanField_path (Sf : List StructField) (name : String) (count : CountMap)
    (scan : fieldScan) (st : ScanState) (i : Nat) (f : StructField)
    (hq : (scan.index = [] ∧ Sf[i]? = some f) ∨ AnonHead Sf scan.index)
    (hres : ∀ q, st.result = some q → PathOK Sf name q)
    (hnext : ∀ sc ∈ st.next, AnonHead Sf sc.index) :
    (∀ q, (scanField name count scan st i f).result = some q → PathOK Sf name q) ∧
    (∀ sc ∈ (scanField name count scan st i f).next, AnonHead Sf sc.index) := by
  unfold scanField
  split
  · exact ⟨hres, hnext⟩
  · split
    · rename_i hname
      split
      · exact ⟨hres, hnext⟩
      · refine ⟨?_, hnext⟩
        intro q hq'
        simp only [Option.some.injEq] at hq'
        subst hq'
        rcases hq with ⟨h0, hf⟩ | ⟨k, rest, g, hk, hg, ha⟩
        · rw [h0]
          exact Or.inl ⟨i, f, rfl, hf, hname⟩
        · rw [hk]
          exact Or.inr ⟨k, rest ++ [i], g, rfl, by simp, hg, ha⟩
    · split
      · exact ⟨hres, hnext⟩
      · split
        · rename_i s hemb
          have hanon : f.Anonymous = true := by
            unfold embeddedStruct at hemb
            split at hemb
            · assumption
            · cases hemb
          split
          · exact ⟨hres, hnext⟩
          · refine ⟨hres, ?_⟩
            intro sc hsc
            simp only [List.mem_append, List.mem_singleton] at hsc
            rcases hsc with hsc | rfl
            · exact hnext sc hsc
            · rcases hq with ⟨h0, hf⟩ | ⟨k, rest, g, hk, hg, ha⟩
              · exact ⟨i, [], f, by simp [h0], hf, hanon⟩
              · exact ⟨k, rest ++ [i], g, by simp [hk], hg, ha⟩
        · exact ⟨hres, hnext⟩

theorem scanFields_path (Sf : List StructField) (name : String) (count : CountMap)
    (scan : fieldScan) :
    ∀ (fs : List StructField) (i : Nat) (st : ScanState),
      ((scan.index = [] ∧ ∀ k, fs[k]? = Sf[i + k]?) ∨ AnonHead Sf scan.index) →
      (∀ q, st.result = some q → PathOK Sf name q) →
      (∀ sc ∈ st.next, AnonHead Sf sc.index) →
      (∀ q, (scanFields name count scan i fs st).result = some q → PathOK Sf name q) ∧
      (∀ sc ∈ (scanFields name count scan i fs st).next, AnonHead Sf sc.index)
  | [], _, st, _, hres, hnext => by
    simp only [scanFields]
    exact ⟨hres, hnext⟩
  | f :: fs, i, st, hq, hres, hnext => by
    simp only [scanFields]
    have h1 := scanField_path Sf name count scan st i f
      (hq.imp (fun h => ⟨h.1, by simpa using (h.2 0).symm⟩) id) hres hnext
    exact scanFields_path Sf name count scan fs (i + 1) _
      (hq.imp (fun h => ⟨h.1, fun k => by
        have := h.2 (k + 1)
        simp only [List.getElem?_cons_succ] at this
        rw [this]
        congr 1
        omega⟩) id) h1.1 h1.2

theorem scanType_path (env : Env) (Sf : List StructField) (name : String) (count : CountMap)
    (st : ScanState) (scan : fieldScan)
    (hq : (scan.index = [] ∧ (env scan.typ).fields = Sf) ∨ AnonHead Sf scan.index)
    (hres : ∀ q, st.result = some q → PathOK Sf name q)
    (hnext : ∀ sc ∈ st.next, AnonHead Sf sc.index) :
    (∀ q, (scanType env name count st scan).result = some q → PathOK Sf name q) ∧
    (∀ sc ∈ (scanType env name count st scan).next, AnonHead Sf sc.index) := by
  unfold scanType
  split
  · exact ⟨hres, hnext⟩
  · split
    · exact ⟨hres, hnext⟩
    · exact scanFields_path Sf name count scan _ 0 _
        (hq.imp (fun h => ⟨h.1, fun k => by rw [h.2]; simp⟩) id) hres hnext

theorem foldl_scanType_path (env : Env) (Sf : List StructField) (name : String)
    (count : CountMap) :
    ∀ (next : List fieldScan) (st : ScanState),
      (∀ sc ∈ next, (sc.index = [] ∧ (env sc.typ).fields = Sf) ∨ AnonHead Sf sc.index) →
      (∀ q, st.result = some q → PathOK Sf name q) →
      (∀ sc ∈ st.next, AnonHead Sf sc.index) →
      (∀ q, (next.foldl (scanType env name count) st).result = some q → PathOK Sf name q) ∧
      (∀ sc ∈ (next.foldl (scanType env name count) st).next, AnonHead Sf sc.index)
  | [], st, _, hres, hnext => by
    simp only [List.foldl_nil]
    exact ⟨hres, hnext⟩
  | sc :: next, st, hq, hres, hnext => by
    simp only [List.foldl_cons]
    have h1 := scanType_path env Sf name count st sc (hq sc (by simp)) hres hnext
    exact foldl_scanType_path env Sf name count next _
      (fun sc' hsc' => hq sc' (by simp [hsc'])) h1.1 h1.2

theorem FieldByNameFunc_path (env : Env) (Sf : List StructField) (name : String) :
    ∀ (fuel : Nat) (next : List fieldScan) (count : CountMap) (visited : List String)
      (q : List Nat),
      (∀ sc ∈ next, (sc.index = [] ∧ (env sc.typ).fields = Sf) ∨ AnonHead Sf sc.index) →
      FieldByNameFunc env name fuel next count visited = .ok (some q) → PathOK Sf name q
  | 0, _, _, _, _, _, h => by simp [FieldByNameFunc] at h
  | fuel + 1, next, count, visited, q, hq, h => by
    cases next with
    | nil => simp [FieldByNameFunc] at h
    | cons sc rest =>
      rw [FieldByNameFunc] at h
      have hfold := foldl_scanType_path env Sf name count (sc :: rest)
        { next := [], nextCount := [], visited := visited, result := none,
          ok := false, annihilated := false } hq (by simp) (by simp)
      split at h
      · cases h
      · split at h
        · simp only [Res.ok.injEq] at h
          exact hfold.1 q h
        · exact FieldByNameFunc_path env Sf name fuel _ _ _ q
            (fun sc' hsc' => Or.inr (hfold.2 sc' hsc')) h

/-- The index path that a name selects in a struct type: one index, of a
field of that name, or a longer path that starts at an embedded field. -/
theorem typeFieldByName_path (env : Env) (fuel : Nat) (t name : String) (q : List Nat)
    (h : typeFieldByName env fuel t name = .ok (some q)) : PathOK (env t).fields name q := by
  unfold typeFieldByName at h
  split at h
  · cases h
  · split at h
    · rename_i i hi
      simp only [Res.ok.injEq, Option.some.injEq] at h
      subst h
      obtain ⟨_, f, hf, hfn⟩ := findField_some name _ 0 i hi
      exact Or.inl ⟨i, f, rfl, by simpa using hf, hfn⟩
    · split at h
      · exact FieldByNameFunc_path env _ name fuel _ _ _ q
          (fun sc hsc => by
            simp only [List.mem_singleton] at hsc
            subst hsc
            exact Or.inl ⟨rfl, rfl⟩) h
      · cases h

theorem putByIndex_nonstruct (v : Val) (q : List Nat) (new : Val)
    (h : ∀ n fs, v ≠ .struct n fs) : putByIndex v q new = v := by
  cases q with
  | nil => simp [putByIndex]
  | cons y qs =>
    cases v with
    | struct n fs => exact absurd rfl (h n fs)
    | _ => rfl

theorem getElem?_set_self_of {α : Type} (l : List α) (i : Nat) (x y : α)
    (h : l[i]? = some x) : (l.set i y)[i]? = some y := by
  have hlt : i < l.length := by
    rcases Nat.lt_or_ge i l.length with hlt | hge
    · exact hlt
    · rw [List.getElem?_eq_none hge] at h; cases h
  simp [List.getElem?_set_self, hlt]

/-- Reading a field after a store at a path that is apart from its own. -/
theorem FieldByIndex_putByIndex_apart : ∀ (p q : List Nat) (v new : Val),
    Apart p q = true → FieldByIndex (putByIndex v q new) p = FieldByIndex v p
  | [], _, _, _, h => by simp [Apart] at h
  | _ :: _, [], _, _, h => by simp [Apart] at h
  | x :: ps, y :: qs, v, new, h => by
    by_cases hv : ∃ n fs, v = .struct n fs
    · obtain ⟨n, fs, rfl⟩ := hv
      rw [putByIndex]
      split
      · rename_i f hf
        by_cases hxy : x = y
        · subst hxy
          simp only [Apart, ↓reduceIte] at h
          cases qs with
          | nil =>
            cases ps <;> simp [Apart] at h
          | cons z zs =>
            cases ps with
            | nil => simp [Apart] at h
            | cons a as =>
              simp only
              have hF : Field (.struct n fs) x = .ok f := by simp [Field, hf]
              split
              · rename_i m p'
                have hF' : Field (.struct n (fs.set x (.ptr (.named m)
                    (some (putByIndex p' (z :: zs) new))))) x
                    = .ok (.ptr (.named m) (some (putByIndex p' (z :: zs) new))) := by
                  simp [Field, getElem?_set_self_of fs x _ _ hf]
                rw [FieldByIndex, hF', FieldByIndex, hF]
                simp only
                exact FieldByIndex_putByIndex_apart (a :: as) (z :: zs) p' new h
              · rename_i hnp
                have hF' : Field (.struct n (fs.set x (putByIndex f (z :: zs) new))) x
                    = .ok (putByIndex f (z :: zs) new) := by
                  simp [Field, getElem?_set_self_of fs x _ _ hf]
                rw [FieldByIndex, hF', FieldByIndex, hF]
                simp only
                have ih := FieldByIndex_putByIndex_apart (a :: as) (z :: zs) f new h
                cases f with
                | struct n' fs' =>
                  obtain ⟨fs'', hfs''⟩ := putByIndex_struct n' (.struct n' fs') (z :: zs) new
                    ⟨fs', rfl⟩
                  rw [hfs''] at ih ⊢
                  exact ih
                | ptr e o =>
                  rw [putByIndex_nonstruct _ _ _ (by intro _ _ hh; cases hh)]
                | bool _ | int _ | int8 _ | str _ | slice _ _ | iface _ =>
                  rw [putByIndex_nonstruct _ _ _ (by intro _ _ hh; cases hh)]
        · have hget : ∀ (g : Val), (fs.set y g)[x]? = fs[x]? := fun g =>
            List.getElem?_set_ne (Ne.symm hxy)
          have hfield : ∀ (g : Val), Field (.struct n (fs.set y g)) x = Field (.struct n fs) x := by
            intro g
            simp only [Field, hget g]
          cases qs with
          | nil =>
            simp only
            rw [FieldByIndex, hfield, ← FieldByIndex]
          | cons z zs =>
            simp only
            split
            · rw [FieldByIndex, hfield, ← FieldByIndex]
            · rw [FieldByIndex, hfield, ← FieldByIndex]
      · rfl
    · rw [putByIndex_nonstruct v _ _ (fun n fs hh => hv ⟨n, fs, hh⟩)]

/-- Reading a field right after storing it. -/
theorem FieldByIndex_putByIndex_self : ∀ (p : List Nat) (v old new : Val), p ≠ [] →
    FieldByIndex v p = .ok old → FieldByIndex (putByIndex v p new) p = .ok new
  | [], _, _, _, hp, _ => absurd rfl hp
  | x :: ps, v, old, new, _, h => by
    rw [FieldByIndex] at h
    cases hF : Field v x with
    | ok f =>
      obtain ⟨n, fs, rfl, hf⟩ := Field_struct v x f hF
      rw [hF] at h
      rw [putByIndex]
      simp only [hf]
      cases ps with
      | nil =>
        simp only
        rw [FieldByIndex]
        simp [Field, getElem?_set_self_of fs x _ _ hf]
      | cons a as =>
        simp only at h ⊢
        split
        · rename_i m p'
          simp only at h
          rw [FieldByIndex]
          simp only [Field, getElem?_set_self_of fs x _ _ hf]
          exact FieldByIndex_putByIndex_self (a :: as) p' old new (by simp) h
        · rename_i hnp
          have h' : FieldByIndex f (a :: as) = .ok old := by
            split at h
            · cases h
            · rename_i m p'
              exact absurd rfl (hnp m p')
            · exact h
          have ih := FieldByIndex_putByIndex_self (a :: as) f old new (by simp) h'
          rw [FieldByIndex]
          simp only [Field, getElem?_set_self_of fs x _ _ hf]
          rw [FieldByIndex] at h'
          cases hFf : Field f a with
          | ok g =>
            obtain ⟨n', fs', rfl, _⟩ := Field_struct f a g hFf
            obtain ⟨fs'', hfs''⟩ := putByIndex_struct n' (.struct n' fs') (a :: as) new
              ⟨fs', rfl⟩
            rw [hfs''] at ih ⊢
            exact ih
          | panic m => rw [hFf] at h'; cases h'
          | outOfFuel => rw [hFf] at h'; cases h'
    | panic m => rw [hF] at h; cases h
    | outOfFuel => rw [hF] at h; cases h

theorem FieldByName_struct (env : Env) (fuel : Nat) (v : Val) (name : String)
    (idx : List Nat) (f : Val) (h : FieldByName env fuel v name = .ok (some (idx, f))) :
    ∃ n fs, v = .struct n fs ∧ typeFieldByName env fuel n name = .ok (some idx) := by
  unfold FieldByName at h
  split at h
  · rename_i n fs
    split at h
    · rename_i idx' ht
      split at h
      · simp only [Res.ok.injEq, Option.some.injEq, Prod.mk.injEq] at h
        exact ⟨n, fs, rfl, by rw [ht, h.1]⟩
      · cases h
      · cases h
    · cases h
    · cases h
    · cases h
  · cases h

theorem FieldByName_of (env : Env) (fuel : Nat) (n : String) (fs : List Val) (name : String)
    (idx : List Nat) (f : Val) (ht : typeFieldByName env fuel n name = .ok (some idx))
    (hf : FieldByIndex (.struct n fs) idx = .ok f) :
    FieldByName env fuel (.struct n fs) name = .ok (some (idx, f)) := by
  simp only [FieldByName, ht, hf]

/-- After a store at the path a name selects, the name selects the stored
value. -/
theorem FieldByName_put_self (env : Env) (fuel : Nat) (d : Val) (name : String)
    (idx : List Nat) (old new : Val)
    (h : FieldByName env fuel d name = .ok (some (idx, old))) :
    FieldByName env fuel (putByIndex d idx new) name = .ok (some (idx, new)) := by
  obtain ⟨n, fs, rfl, ht⟩ := FieldByName_struct env fuel d name idx old h
  have hne : idx ≠ [] := by
    rintro rfl
    exact typeFieldByName_ne_nil env fuel n name ht
  obtain ⟨fs', hfs'⟩ := putByIndex_struct n (.struct n fs) idx new ⟨fs, rfl⟩
  have := FieldByIndex_putByIndex_self idx _ old new hne
    (FieldByName_FieldByIndex env fuel _ _ _ _ h)
  rw [hfs'] at this ⊢
  exact FieldByName_of env fuel n fs' name idx new ht this

/-- A store at a path apart from the one a name selects leaves what the name
selects. -/
theorem FieldByName_put_apart (env : Env) (fuel : Nat) (d : Val) (name : String)
    (idx q : List Nat) (y new : Val)
    (h : FieldByName env fuel d name = .ok (some (idx, y))) (ha : Apart idx q = true) :
    FieldByName env fuel (putByIndex d q new) name = .ok (some (idx, y)) := by
  obtain ⟨n, fs, rfl, ht⟩ := FieldByName_struct env fuel d name idx y h
  obtain ⟨fs', hfs'⟩ := putByIndex_struct n (.struct n fs) q new ⟨fs, rfl⟩
  have := FieldByIndex_putByIndex_apart idx q (.struct n fs) new ha
  rw [FieldByName_FieldByIndex env fuel _ _ _ _ h] at this
  rw [hfs'] at this ⊢
  exact FieldByName_of env fuel n fs' name idx y ht this

/-! ## Destinations without embedded fields -/

theorem any_anonymous_flat (env : Env) (D : String) (h : Flat env D) :
    (env D).fields.any (fun f => f.Anonymous) = false := by
  rw [List.any_eq_false]
  intro f hf
  simp [h f hf]

theorem typeFieldByName_flat (env : Env) (fuel : Nat) (D name : String) (h : Flat env D) :
    typeFieldByName env fuel D name
      = .ok (if name = "" then none
             else match findField name 0 (env D).fields with
                  | some i => some [i]
                  | none => none) := by
  unfold typeFieldByName
  split
  · rfl
  · cases hf : findField name 0 (env D).fields with
    | some i => simp
    | none => simp [any_anonymous_flat env D h]

theorem FieldByName_flat_some (env : Env) (fuel : Nat) (D name : String) (fs : List Val)
    (idx : List Nat) (f : Val) (h : Flat env D)
    (hf : FieldByName env fuel (.struct D fs) name = .ok (some (idx, f))) :
    ∃ i, idx = [i] ∧ findField name 0 (env D).fields = some i ∧ fs[i]? = some f := by
  simp only [FieldByName] at hf
  rw [typeFieldByName_flat env fuel D name h] at hf
  split at hf
  · rename_i idx' heq
    simp only [Res.ok.injEq] at heq
    split at heq
    · cases heq
    · split at heq
      · rename_i i hi
        simp only [Option.some.injEq] at heq
        subst heq
        simp only [FieldByIndex, Field] at hf
        cases hg : fs[i]? with
        | none => simp [hg] at hf
        | some g =>
          simp only [hg, Res.ok.injEq, Option.some.injEq, Prod.mk.injEq] at hf
          exact ⟨i, hf.1.symm, hi, by rw [hg, hf.2]⟩
      · cases heq
  · cases hf
  · cases hf
  · cases hf

theorem FieldByName_flat_none (env : Env) (fuel : Nat) (D name : String) (fs : List Val)
    (h : Flat env D) (hname : name ≠ "")
    (hf : FieldByName env fuel (.struct D fs) name = .ok none) :
    findField name 0 (env D).fields = none := by
  simp only [FieldByName] at hf
  rw [typeFieldByName_flat env fuel D name h] at hf
  simp only [hname, ↓reduceIte] at hf
  cases hi : findField name 0 (env D).fields with
  | none => rfl
  | some i =>
    simp only [hi] at hf
    split at hf <;> cases hf

theorem putByIndex_single (D : String) (fs : List Val) (i : Nat) (f x : Val)
    (h : fs[i]? = some f) : putByIndex (.struct D fs) [i] x = .struct D (fs.set i x) := by
  simp [putByIndex, h]

theorem initNilFieldsStep_flat (env : Env) (fuel : Nat)
    (self : Ty → Value → String → Option NeedMap → Res Val) (canAddr : Bool) (need : NeedMap)
    (i : Nat) (f : StructField) (s : InitState) (hf : f.Anonymous = false) :
    initNilFieldsStep env fuel self canAddr need i f s = .ok s := by
  unfold initNilFieldsStep
  split
  · rfl
  · simp [hf]

theorem forFields_id {σ : Type} (body : Nat → StructField → σ → Res σ) :
    ∀ (fs : List StructField) (i : Nat) (s : σ),
      (∀ f ∈ fs, ∀ i s, body i f s = .ok s) → forFields body i fs s = .ok s
  | [], _, _, _ => rfl
  | f :: fs, i, s, h => by
    simp only [forFields, h f (by simp)]
    exact forFields_id body fs (i + 1) s (fun g hg => h g (by simp [hg]))

theorem InitNilFields_flat (env : Env) (fuel : Nat) (D : String) (v : Value) (pfx : String)
    (need : Option NeedMap) (h : Flat env D) :
    InitNilFields env (fuel + 1) (.named D) v pfx need = .ok v.val := by
  unfold InitNilFields
  cases need with
  | none => rfl
  | some m =>
    simp only [indirectType]
    rw [forFields_id _ _ _ _ (fun f hf i s => initNilFieldsStep_flat env fuel _ _ _ i f s (h f hf))]



theorem set_convertible (env : Env) (fuel : Nat) (toField v : Val)
    (hk : toField.kind ≠ .Ptr) (hconv : ConvertibleTo env v.typ toField.typ = true) :
    set env (fuel + 1) toField (some v) = .ok (Convert v toField.typ, true) := by
  cases toField <;> simp_all [set, setConvert, Val.kind, Val.typ, Ty.kind]

theorem Convert_typ (env : Env) (v : Val) (T : Ty) (hk : T.kind ≠ .Ptr)
    (hconv : ConvertibleTo env v.typ T = true) : (Convert v T).typ = T := by
  cases v <;> cases T <;>
    simp_all [ConvertibleTo, identicalUnderlying, Convert, retag, assignTo, Val.typ, Ty.kind,
      Ty.isInt]

theorem deepFieldsStep_mono
    (self : Ty → Val → String → Option NeedMap → Res (List StructField × Option NeedMap))
    (rv : Val) (i : Nat) (f : StructField) (st st' : DeepState)
    (h : deepFieldsStep self rv i f st = .ok st') :
    ∃ extra, st'.fields = st.fields ++ extra := by
  unfold deepFieldsStep at h
  split at h
  · split at h
    · cases h
    · split at h
      · split at h
        · cases h; exact ⟨[], by simp⟩
        · simp only at h
          split at h
          · cases h; exact ⟨_, rfl⟩
          · cases h
          · cases h
      · cases h
      · cases h
  · cases h; exact ⟨[f], rfl⟩

theorem forFields_deep_mono
    (self : Ty → Val → String → Option NeedMap → Res (List StructField × Option NeedMap))
    (rv : Val) :
    ∀ (fs : List StructField) (i : Nat) (st st' : DeepState),
      forFields (deepFieldsStep self rv) i fs st = .ok st' →
      ∃ extra, st'.fields = st.fields ++ extra
  | [], _, st, st', h => by
    simp only [forFields, Res.ok.injEq] at h
    exact ⟨[], by simp [h]⟩
  | f :: fs, i, st, st', h => by
    simp only [forFields] at h
    split at h
    · rename_i s1 hb
      obtain ⟨e1, h1⟩ := deepFieldsStep_mono self rv i f st s1 hb
      obtain ⟨e2, h2⟩ := forFields_deep_mono self rv fs (i + 1) s1 st' h
      exact ⟨e1 ++ e2, by rw [h2, h1, List.append_assoc]⟩
    · cases h
    · cases h

theorem forFields_deep_mem
    (self : Ty → Val → String → Option NeedMap → Res (List StructField × Option NeedMap))
    (rv : Val) (e : StructField) :
    ∀ (fs : List StructField) (k i : Nat) (f : StructField) (st st' : DeepState),
      fs[k]? = some f →
      (∀ s s', deepFieldsStep self rv (i + k) f s = .ok s' → e ∈ s'.fields) →
      forFields (deepFieldsStep self rv) i fs st = .ok st' → e ∈ st'.fields
  | [], _, _, _, _, _, hk, _, _ => by simp at hk
  | g :: fs, k, i, f, st, st', hk, hstep, h => by
    simp only [forFields] at h
    split at h
    · rename_i s1 hb
      cases k with
      | zero =>
        simp only [List.getElem?_cons_zero, Option.some.injEq] at hk
        subst hk
        have hm := hstep st s1 (by simpa using hb)
        obtain ⟨extra, hx⟩ := forFields_deep_mono self rv fs (i + 1) s1 st' h
        rw [hx]
        exact List.mem_append_left _ hm
      | succ k =>
        simp only [List.getElem?_cons_succ] at hk
        exact forFields_deep_mem self rv e fs k (i + 1) f s1 st' hk
          (fun s s' hs => hstep s s' (by
            have : i + (k + 1) = i + 1 + k := by omega
            rw [this]; exact hs)) h
    · cases h
    · cases h

theorem deepFields_mem_direct (env : Env) (fuel : Nat) (t : Ty) (rv : Val) (pfx : String)
    (need need' : Option NeedMap) (fs : List StructField) (E : String) (l : Nat)
    (f : StructField)
    (h : deepFields env fuel t rv pfx need = .ok (fs, need'))
    (hE : indirectType t = .named E) (hl : (env E).fields[l]? = some f)
    (hf : f.Anonymous = false) : f ∈ fs := by
  cases fuel with
  | zero => simp [deepFields] at h
  | succ fuel =>
    unfold deepFields at h
    rw [hE] at h
    simp only at h
    split at h
    · rename_i st hst
      simp only [Res.ok.injEq, Prod.mk.injEq] at h
      rw [← h.1]
      refine forFields_deep_mem _ rv f _ l 0 f _ st hl ?_ hst
      intro s s' hs
      unfold deepFieldsStep at hs
      simp only [hf, Bool.false_eq_true, ↓reduceIte, Res.ok.injEq] at hs
      rw [← hs]
      simp
    · cases h
    · cases h

theorem deepFields_mem_embedded (env : Env) (fuel : Nat) (S E : String) (sfs : List Val)
    (pfx : String) (need need' : Option NeedMap) (fs : List StructField) (k l : Nat)
    (Ef f : StructField) (ev : Val)
    (h : deepFields env fuel (.named S) (.struct S sfs) pfx need = .ok (fs, need'))
    (hk : (env S).fields[k]? = some Ef) (hEa : Ef.Anonymous = true)
    (hEt : indirectType Ef.Typ = .named E) (hsk : sfs[k]? = some ev)
    (hev : (∃ es, ev = .struct E es) ∨ (∃ e p, ev = .ptr e (some p)))
    (hl : (env E).fields[l]? = some f) (hf : f.Anonymous = false) : f ∈ fs := by
  cases fuel with
  | zero => simp [deepFields] at h
  | succ fuel =>
    unfold deepFields at h
    simp only [indirectType] at h
    split at h
    · rename_i st hst
      simp only [Res.ok.injEq, Prod.mk.injEq] at h
      rw [← h.1]
      refine forFields_deep_mem _ _ f _ k 0 Ef _ st hk ?_ hst
      intro s s' hs
      unfold deepFieldsStep at hs
      simp only [hEa, ↓reduceIte, indirectVal, Field, Nat.zero_add, hsk] at hs
      rcases hev with ⟨es, rfl⟩ | ⟨e, p, rfl⟩ <;>
      · simp only at hs
        split at hs
        · rename_i fs_e need_e hrec
          cases hs
          exact List.mem_append_right _
            (deepFields_mem_direct env fuel _ _ _ _ _ _ E l f hrec hEt hl hf)
        · cases hs
        · cases hs
    · cases h
    · cases h



theorem isExported_ne_empty (name : String) (h : isExported name = true) : name ≠ "" := by
  intro h0
  subst h0
  simp [isExported] at h

theorem FieldByName_flat_eval (env : Env) (fuel : Nat) (D name : String) (fs : List Val)
    (j : Nat) (tf : Val) (h : Flat env D) (hname : name ≠ "")
    (hj : findField name 0 (env D).fields = some j) (hf : fs[j]? = some tf) :
    FieldByName env fuel (.struct D fs) name = .ok (some ([j], tf)) := by
  simp only [FieldByName]
  rw [typeFieldByName_flat env fuel D name h]
  simp [hname, hj, FieldByIndex, Field, hf]

theorem MethodByName_mem (env : Env) (D : String) (a : Bool) (name : String) (m : Method)
    (h : MethodByName env (.named D) a name = some m) : m ∈ (env D).methods := by
  simp only [MethodByName] at h
  split at h
  · exact List.mem_of_find?_eq_some h
  · cases h

theorem copyField_keep (env : Env) (fuel : Nat)
    (self : Option Val → Option Val → Res ((Option Val × Option Val) × Option String))
    (destAddr : Bool) (field : StructField) (D X : String) (j : Nat)
    (x : Val) (st st' : Val × Val) (err : Option String)
    (hflat : Flat env D) (hj : findField X 0 (env D).fields = some j)
    (hne : field.Name ≠ X) (hkeep : MethodsKeep env D j) (hd : HasField D j x st.1)
    (h : copyField env fuel self destAddr field st = .ok (st', err)) :
    HasField D j x st'.1 := by
  obtain ⟨d, s⟩ := st
  obtain ⟨fs, hfs, hx⟩ := hd
  simp only at hfs
  subst hfs
  have hput : ∀ idx toField y, FieldByName env fuel (.struct D fs) field.Name
      = .ok (some (idx, toField)) → HasField D j x (putByIndex (.struct D fs) idx y) := by
    intro idx toField y hf
    obtain ⟨i, rfl, hi, hfi⟩ := FieldByName_flat_some env fuel D _ fs idx toField hflat hf
    have hij := findField_ne _ _ _ _ _ hi hj hne
    rw [putByIndex_single D fs i toField y hfi]
    exact ⟨_, rfl, by rw [List.getElem?_set_ne hij]; exact hx⟩
  unfold copyField at h
  simp only at h
  split at h
  · split at h
    · rename_i idx toField hdst
      split at h
      · split at h
        · cases h; exact hput _ _ _ hdst
        · split at h
          · cases h; exact hput _ _ _ hdst
          · cases h; exact hput _ _ _ hdst
          · cases h
          · cases h
        · cases h
        · cases h
      · cases h; exact ⟨fs, rfl, hx⟩
    · split at h
      · rename_i toMethod hm
        split at h
        · split at h
          · cases h
            simp only [Call]
            split
            · exact ⟨_, rfl, by
                rw [hkeep toMethod (MethodByName_mem env D _ _ _ hm)]; exact hx⟩
            · exact ⟨fs, rfl, hx⟩
          · cases h; exact ⟨fs, rfl, hx⟩
        · cases h; exact ⟨fs, rfl, hx⟩
      · cases h; exact ⟨fs, rfl, hx⟩
    · cases h
    · cases h
  · cases h; exact ⟨fs, rfl, hx⟩
  · cases h
  · cases h

theorem copyField_hit (env : Env) (fuel : Nat)
    (self : Option Val → Option Val → Res ((Option Val × Option Val) × Option String))
    (field : StructField) (D : String) (j : Nat)
    (x v : Val) (st st' : Val × Val) (idx : List Nat) (err : Option String)
    (hflat : Flat env D) (hj : findField field.Name 0 (env D).fields = some j)
    (hexp : isExported field.Name = true)
    (hsrc : FieldByName env fuel st.2 field.Name = .ok (some (idx, v)))
    (hk : x.kind ≠ .Ptr) (hconv : ConvertibleTo env v.typ x.typ = true)
    (hd : HasField D j x st.1)
    (h : copyField env fuel self true field st = .ok (st', err)) :
    HasField D j (Convert v x.typ) st'.1 ∧ st'.2 = st.2 := by
  obtain ⟨d, s⟩ := st
  obtain ⟨fs, hfs, hx⟩ := hd
  simp only at hfs hsrc
  subst hfs
  unfold copyField at h
  simp only at h
  rw [hsrc] at h
  simp only at h
  rw [FieldByName_flat_eval env fuel D field.Name fs j x hflat (isExported_ne_empty _ hexp) hj hx]
    at h
  simp only [hexp, Bool.and_self, ↓reduceIte] at h
  cases fuel with
  | zero => simp [set] at h
  | succ fuel =>
    rw [set_convertible env fuel x v hk hconv] at h
    simp only [Res.ok.injEq, Prod.mk.injEq] at h
    rw [← h.1, putByIndex_single D fs j x _ hx]
    refine ⟨⟨_, rfl, ?_⟩, rfl⟩
    exact getElem?_set_self_of fs j x _ hx

theorem copyMethod_keep (env : Env) (fuel : Nat) (srcAddr destAddr : Bool)
    (field : StructField) (D X : String) (j : Nat) (x : Val) (st st' : Val × Val)
    (hflat : Flat env D) (hj : findField X 0 (env D).fields = some j)
    (hne : field.Name ≠ X ∨ MethodByName env st.2.typ srcAddr field.Name = none)
    (hd : HasField D j x st.1)
    (h : copyMethod env fuel srcAddr destAddr field st = .ok st') : HasField D j x st'.1 := by
  obtain ⟨d, s⟩ := st
  obtain ⟨fs, hfs, hx⟩ := hd
  simp only at hfs hne
  subst hfs
  unfold copyMethod at h
  simp only at h
  split at h
  · rename_i m hm
    have hne' : field.Name ≠ X := by
      rcases hne with h1 | h1
      · exact h1
      · rw [h1] at hm; cases hm
    split at h
    · split at h
      · rename_i idx toField hdst
        split at h
        · split at h
          · split at h
            · cases h
              obtain ⟨i, rfl, hi, hfi⟩ :=
                FieldByName_flat_some env fuel D _ fs idx toField hflat hdst
              have hij := findField_ne _ _ _ _ _ hi hj hne'
              rw [putByIndex_single D fs i toField _ hfi]
              exact ⟨_, rfl, by rw [List.getElem?_set_ne hij]; exact hx⟩
            · cases h
            · cases h
          · cases h; exact ⟨fs, rfl, hx⟩
        · cases h; exact ⟨fs, rfl, hx⟩
      · cases h; exact ⟨fs, rfl, hx⟩
      · cases h
      · cases h
    · cases h; exact ⟨fs, rfl, hx⟩
  · cases h; exact ⟨fs, rfl, hx⟩

theorem Convert_kind (env : Env) (v : Val) (T : Ty) (hk : T.kind ≠ .Ptr)
    (hconv : ConvertibleTo env v.typ T = true) : (Convert v T).kind ≠ .Ptr := by
  rw [Val.kind, Convert_typ env v T hk hconv]
  exact hk

theorem fieldPass_reach (env : Env) (fuel : Nat)
    (self : Option Val → Option Val → Res ((Option Val × Option Val) × Option String))
    (D X : String) (j : Nat) (x v : Val) (idx : List Nat)
    (hflat : Flat env D) (hj : findField X 0 (env D).fields = some j)
    (hexp : isExported X = true) (hkeep : MethodsKeep env D j)
    (hk : x.typ.kind ≠ .Ptr) (hconv : ConvertibleTo env v.typ x.typ = true)
    (Inv : Val → Prop)
    (hInv : ∀ s, Inv s → FieldByName env fuel s X = .ok (some (idx, v)))
    (hother : ∀ f st st' err, f.Name ≠ X → Inv st.2 →
      copyField env fuel self true f st = .ok (st', err) → Inv st'.2) :
    ∀ (list : List StructField) (st st' : Val × Val) (err : Option String),
      Inv st.2 →
      (HasField D j x st.1 ∨ HasField D j (Convert v x.typ) st.1) →
      fieldPass (copyField env fuel self true) list st = .ok (st', err) →
      Inv st'.2 ∧
      (HasField D j x st'.1 ∨ HasField D j (Convert v x.typ) st'.1) ∧
      (((∃ f ∈ list, f.Name = X) ∧ err = none) ∨ HasField D j (Convert v x.typ) st.1 →
        HasField D j (Convert v x.typ) st'.1) := by
  have hstep : ∀ (f : StructField) (st st' : Val × Val) (err : Option String),
      Inv st.2 →
      (HasField D j x st.1 ∨ HasField D j (Convert v x.typ) st.1) →
      copyField env fuel self true f st = .ok (st', err) →
      Inv st'.2 ∧
      (HasField D j x st'.1 ∨ HasField D j (Convert v x.typ) st'.1) ∧
      (f.Name = X ∨ HasField D j (Convert v x.typ) st.1 →
        HasField D j (Convert v x.typ) st'.1) := by
    intro f st st' err hs hd h
    by_cases hn : f.Name = X
    · have hsrc := hInv st.2 hs
      have hdone : HasField D j (Convert v x.typ) st'.1 ∧ st'.2 = st.2 := by
        rcases hd with hd | hd
        · exact copyField_hit env fuel self f D j x v st st' idx err hflat (hn ▸ hj)
            (hn ▸ hexp) (hn ▸ hsrc) hk hconv hd h
        · have := copyField_hit env fuel self f D j (Convert v x.typ) v st st' idx err
            hflat (hn ▸ hj) (hn ▸ hexp) (hn ▸ hsrc) (Convert_kind env v _ hk hconv)
            (by rw [Convert_typ env v _ hk hconv]; exact hconv) hd h
          rwa [Convert_typ env v _ hk hconv] at this
      exact ⟨by rw [hdone.2]; exact hs, Or.inr hdone.1, fun _ => hdone.1⟩
    · have hk1 : ∀ y, HasField D j y st.1 → HasField D j y st'.1 := fun y hy =>
        copyField_keep env fuel self true f D X j y st st' err hflat hj hn hkeep hy h
      refine ⟨hother f st st' err hn hs h, hd.imp (hk1 _) (hk1 _), ?_⟩
      rintro (h1 | h1)
      · exact absurd h1 hn
      · exact hk1 _ h1
  intro list
  induction list with
  | nil =>
    intro st st' err hs hd h
    simp only [fieldPass, Res.ok.injEq, Prod.mk.injEq] at h
    rw [← h.1]
    refine ⟨hs, hd, ?_⟩
    rintro (⟨⟨f, hf, _⟩, _⟩ | h1)
    · simp at hf
    · exact h1
  | cons f rest ih =>
    intro st st' err hs hd h
    simp only [fieldPass] at h
    split at h
    · rename_i st1 hb
      obtain ⟨hi1, hs1, hd1⟩ := hstep f st st1 none hs hd hb
      obtain ⟨hi2, hs2, hd2⟩ := ih st1 st' err hi1 hs1 h
      refine ⟨hi2, hs2, ?_⟩
      rintro (⟨⟨g, hg, hgn⟩, he⟩ | h1)
      · simp only [List.mem_cons] at hg
        rcases hg with rfl | hg
        · exact hd2 (Or.inr (hd1 (Or.inl hgn)))
        · exact hd2 (Or.inl ⟨⟨g, hg, hgn⟩, he⟩)
      · exact hd2 (Or.inr (hd1 (Or.inr h1)))
    · rename_i st1 e hb
      simp only [Res.ok.injEq, Prod.mk.injEq] at h
      obtain ⟨hi1, hs1, hd1⟩ := hstep f st st1 (some e) hs hd hb
      rw [← h.1]
      refine ⟨hi1, hs1, ?_⟩
      rintro (⟨_, he⟩ | h1)
      · rw [← h.2] at he; cases he
      · exact hd1 (Or.inr h1)
    · cases h
    · cases h

theorem copyBody_struct_eq (env : Env) (fuel : Nat)
    (self : Option Val → Option Val → Res ((Option Val × Option Val) × Option String))
    (n m : String) (source dest : Value) :
    copyBody env fuel self (.named n) (.named m) (some source) dest
      = structResult (copyStruct env fuel self (.named n) (.named m) source dest) := by
  simp only [copyBody, Ty.kind, ne_eq, not_true_eq_false, and_false, ↓reduceIte]
  cases copyStruct env fuel self (.named n) (.named m) source dest with
  | ok r => rfl
  | panic msg => rfl
  | outOfFuel => rfl

theorem Copy_struct_dest (env : Env) (fuel : Nat) (toV : Val) (m n : String) (z : Val)
    (fromValue : Option Val)
    (hto : indirect (ValueOf (some toV)) = some ⟨z, true⟩) (hz : IsStruct m z)
    (hsrc : ∀ s, indirect (ValueOf fromValue) = some s → s.val.typ = .named n) :
    Copy env (fuel + 1) (some toV) fromValue
      = wrapTo toV fromValue (copyBody env fuel (Copy env fuel) (.named n) (.named m)
          (indirect (ValueOf fromValue)) ⟨z, true⟩) := by
  obtain ⟨zfs, rfl⟩ := hz
  have hself : setIndirect toV (.struct m zfs) = toV :=
    setIndirect_self toV false ⟨.struct m zfs, true⟩ hto
  unfold Copy
  cases hs : indirect (ValueOf fromValue) with
  | none => simp [hto, copyBody, wrapTo, wrapFrom, hself]
  | some s =>
    have hn := hsrc s hs
    obtain ⟨sfs, hsv⟩ := typ_named _ _ hn
    obtain ⟨sv, sa⟩ := s
    simp only at hsv
    subst hsv
    have hfs := map_setIndirect_self fromValue _ hs
    simp only at hfs
    simp only [hto]
    simp only [indirect, indirectVal, indirectType, Val.typ, Ty.kind, Val.kind,
      copyLoop, copyElem, sourceElem, destElem]
    cases hb : copyBody env fuel (Copy env fuel) (Ty.named n) (Ty.named m)
        (some ⟨Val.struct n sfs, sa⟩) ⟨Val.struct m zfs, true⟩ with
    | ok r =>
      obtain ⟨⟨d, so⟩, err⟩ := r
      cases so with
      | none => cases err <;> simp [hb, wrapTo, wrapFrom, putSource, hfs]
      | some w =>
        cases err <;>
          simp [hb, wrapTo, wrapFrom, putSource, Val.kind, Val.typ, Ty.kind, setIndirect]
    | panic msg => simp [hb, wrapTo]
    | outOfFuel => simp [hb, wrapTo]

theorem wrapTo_ok (toV : Val) (fromValue : Option Val)
    (r : Res ((Val × Option Val) × Option String)) (toV' : Val) (f : Option Val)
    (err : Option String) (h : wrapTo toV fromValue r = .ok ((some toV', f), err)) :
    ∃ d so, r = .ok ((d, so), err) ∧ toV' = setIndirect toV d ∧ f = wrapFrom fromValue so := by
  cases r with
  | ok p =>
    obtain ⟨⟨d, so⟩, e⟩ := p
    simp only [wrapTo, Res.ok.injEq, Prod.mk.injEq, Option.some.injEq] at h
    exact ⟨d, so, by rw [h.2], h.1.1.symm, h.1.2.symm⟩
  | panic msg => simp [wrapTo] at h
  | outOfFuel => simp [wrapTo] at h

theorem structResult_ok (r : Res ((Val × Val) × Option String)) (d : Val) (so : Option Val)
    (err : Option String) (h : structResult r = .ok ((d, so), err)) :
    ∃ s, r = .ok ((d, s), err) ∧ so = some s := by
  cases r with
  | ok p =>
    obtain ⟨⟨d', s⟩, e⟩ := p
    simp only [structResult, Res.ok.injEq, Prod.mk.injEq] at h
    exact ⟨s, by rw [h.1.1, h.2], h.1.2.symm⟩
  | panic msg => simp [structResult] at h
  | outOfFuel => simp [structResult] at h

theorem HasField_isStruct (D : String) (j : Nat) (x d : Val) (h : HasField D j x d) :
    IsStruct D d := by
  obtain ⟨fs, rfl, _⟩ := h
  exact ⟨fs, rfl⟩

theorem setConvert_typ (env : Env) (self : Val → Option Val → Res (Val × Bool))
    (to_ f to' : Val) (b : Bool) (hk : to_.kind ≠ .Ptr)
    (hself : ∀ p t b, self to_ p = .ok (t, b) → t.typ = to_.typ)
    (h : setConvert env self to_ f = .ok (to', b)) : to'.typ = to_.typ := by
  unfold setConvert at h
  split at h
  · rename_i hc
    simp only [Res.ok.injEq, Prod.mk.injEq] at h
    rw [← h.1]
    exact Convert_typ env f _ hk hc
  · split at h
    · rename_i scan hs
      simp only [Res.ok.injEq, Prod.mk.injEq] at h
      rw [← h.1]
      unfold scannerOf at hs
      split at hs
      · split at hs
        · simp only [Option.some.injEq] at hs
          rw [← hs]
          rfl
        · cases hs
      · cases hs
    · split at h
      · exact hself _ _ _ h
      · cases h; rfl

theorem set_typ (env : Env) : ∀ (fuel : Nat) (to_ : Val) (from_ : Option Val) (to' : Val)
    (b : Bool), to_.kind ≠ .Ptr → set env fuel to_ from_ = .ok (to', b) → to'.typ = to_.typ
  | 0, _, _, _, _, _, h => by simp [set] at h
  | fuel + 1, to_, none, to', b, _, h => by
    simp only [set, Res.ok.injEq, Prod.mk.injEq] at h
    rw [h.1]
  | fuel + 1, to_, some f, to', b, hk, h => by
    have : set env (fuel + 1) to_ (some f) = setConvert env (set env fuel) to_ f := by
      cases to_ <;> first | rfl | exact absurd rfl hk
    rw [this] at h
    exact setConvert_typ env _ to_ f to' b hk (fun p t b' hp => set_typ env fuel to_ p t b' hk hp) h

theorem Append_typ (s x : Val) : (Append s x).typ = s.typ := by
  cases s with
  | slice e xs => cases xs <;> rfl
  | _ => rfl

theorem appendElem_typ (to_ d : Val) : (appendElem to_ d).typ = to_.typ := by
  unfold appendElem
  split
  · exact Append_typ _ _
  · split
    · exact Append_typ _ _
    · rfl

theorem setIndirect_of_kind (y a : Val) (hk : y.kind ≠ .Ptr) : setIndirect y a = a := by
  cases y <;> first | rfl | exact absurd rfl hk

theorem assignTo_typ (T : Ty) (v : Val) (h : AssignableTo v.typ T = true) :
    (assignTo T v).typ = T := by
  cases T <;> cases v <;> simp_all [AssignableTo, assignTo, Val.typ]

theorem indirectType_of_kind (t : Ty) (h1 : t.kind ≠ .Ptr) (h2 : t.kind ≠ .Slice) :
    indirectType t = t := by
  cases t <;> simp_all [indirectType, Ty.kind]

theorem kind_struct (t : Ty) (h : t.kind = .Struct) : ∃ m, t = .named m := by
  cases t <;> simp_all [Ty.kind]

theorem put_typedAt (D : String) (j i : Nat) (T : Ty) (fs : List Val) (toField y' : Val)
    (hi : fs[i]? = some toField) (hy : i = j → y'.typ = toField.typ)
    (h : TypedAt D j T (.struct D fs)) : TypedAt D j T (putByIndex (.struct D fs) [i] y') := by
  obtain ⟨y, ⟨fs0, h0, hj⟩, hT⟩ := h
  cases h0
  rw [putByIndex_single D fs i toField y' hi]
  by_cases hij : i = j
  · subst hij
    rw [hi] at hj
    cases hj
    have hlt : i < fs.length := by
      rcases Nat.lt_or_ge i fs.length with hlt | hge
      · exact hlt
      · rw [List.getElem?_eq_none hge] at hi; cases hi
    exact ⟨y', ⟨_, rfl, by simp [List.getElem?_set_self, hlt]⟩, by rw [hy rfl, hT]⟩
  · exact ⟨y, ⟨_, rfl, by rw [List.getElem?_set_ne hij]; exact hj⟩, hT⟩

theorem call_typedAt (env : Env) (D : String) (j : Nat) (T : Ty) (m : Method)
    (fs args : List Val) (hkeep : MethodsKeepTyp env D j) (hm : m ∈ (env D).methods)
    (hd : TypedAt D j T (.struct D fs)) : TypedAt D j T (.struct D (m.call fs args).1) := by
  obtain ⟨y, ⟨fs0, h0, hj⟩, hyT⟩ := hd
  cases h0
  have h1 := hkeep m hm fs args
  rw [hj] at h1
  cases hc : ((m.call fs args).1)[j]? with
  | none => rw [hc] at h1; cases h1
  | some c =>
    rw [hc] at h1
    simp only [Option.map_some', Option.some.injEq] at h1
    exact ⟨c, ⟨_, rfl, hc⟩, by rw [h1, hyT]⟩

theorem forFields_deep_flat
    (self : Ty → Val → String → Option NeedMap → Res (List StructField × Option NeedMap))
    (rv : Val) :
    ∀ (fs : List StructField) (i : Nat) (st : DeepState),
      (∀ f ∈ fs, f.Anonymous = false) →
      forFields (deepFieldsStep self rv) i fs st = .ok ⟨st.fields ++ fs, st.pfx, st.need⟩
  | [], _, st, _ => by simp [forFields]
  | f :: fs, i, st, h => by
    have hf : f.Anonymous = false := h f (by simp)
    simp only [forFields, deepFieldsStep, hf, Bool.false_eq_true, ↓reduceIte]
    rw [forFields_deep_flat self rv fs (i + 1) _ (fun g hg => h g (by simp [hg]))]
    simp

theorem deepFields_flat (env : Env) (fuel : Nat) (D : String) (rv : Val) (pfx : String)
    (need : Option NeedMap) (h : Flat env D) :
    deepFields env (fuel + 1) (.named D) rv pfx need = .ok ((env D).fields, need) := by
  simp only [deepFields, indirectType]
  rw [forFields_deep_flat _ rv _ 0 _ h]
  simp

theorem methodPass_id {σ : Type} (body : StructField → σ → Res σ) :
    ∀ (fs : List StructField) (d : σ), (∀ f ∈ fs, ∀ d, body f d = .ok d) →
      methodPass body fs d = .ok d
  | [], _, _ => rfl
  | f :: fs, d, h => by
    simp only [methodPass, h f (by simp)]
    exact methodPass_id body fs d (fun g hg => h g (by simp [hg]))

theorem MethodByName_nil (env : Env) (S : String) (a : Bool) (name : String)
    (h : (env S).methods = []) : MethodByName env (.named S) a name = none := by
  simp [MethodByName, h]

theorem MethodByName_exported (env : Env) (t : Ty) (a : Bool) (name : String) (m : Method)
    (h : MethodByName env t a name = some m) : isExported name = true := by
  unfold MethodByName at h
  split at h
  · split at h
    · assumption
    · cases h
  · cases h

/-! ## The field that a name selects on the source -/

/-- An iteration of the field pass leaves what a name selects on the source,
when the path of the iteration's own name is apart from the path of that
name. -/
theorem copyField_source_frame (env : Env) (fuel : Nat)
    (self : Option Val → Option Val → Res ((Option Val × Option Val) × Option String))
    (destAddr : Bool) (field : StructField) (st st' : Val × Val) (err : Option String)
    (name : String) (idx : List Nat) (y : Val)
    (hap : ∀ q w, FieldByName env fuel st.2 field.Name = .ok (some (q, w)) →
      Apart idx q = true)
    (hX : FieldByName env fuel st.2 name = .ok (some (idx, y)))
    (h : copyField env fuel self destAddr field st = .ok (st', err)) :
    FieldByName env fuel st'.2 name = .ok (some (idx, y)) := by
  unfold copyField at h
  split at h
  · rename_i idxFrom fromField hff
    have hput : ∀ w, FieldByName env fuel (putByIndex st.2 idxFrom w) name
        = .ok (some (idx, y)) :=
      fun w => FieldByName_put_apart env fuel st.2 name idx idxFrom y w hX (hap _ _ hff)
    repeat' split at h
    all_goals first
      | (cases h; done)
      | (cases h
         first
           | exact hX
           | exact hput _)
  · cases h; exact hX
  · cases h
  · cases h

/-- The field that `FieldByName` selects on the source is the one copied:
core of the field-to-field copy into a destination without embedded fields.
`hother` says that the iterations for the other names leave the selected
source field as it is. -/
theorem selected_field (env : Env) (fuel : Nat) (S D X : String) (j : Nat)
    (sfs dfs : List Val) (v x : Val) (sa : Bool) (idx : List Nat)
    (toV toV' : Val) (fromValue fromValue' : Option Val)
    (hfrom : indirect (ValueOf fromValue) = some ⟨.struct S sfs, sa⟩)
    (hsrcX : FieldByName env fuel (.struct S sfs) X = .ok (some (idx, v)))
    (hmem : ∀ fs need, deepFields env fuel (.named S) (.struct S sfs) "" (some (.made []))
      = .ok (fs, need) → ∃ f ∈ fs, f.Name = X)
    (hto : indirect (ValueOf (some toV)) = some ⟨.struct D dfs, true⟩)
    (hflat : Flat env D) (hj : findField X 0 (env D).fields = some j)
    (hx : dfs[j]? = some x) (hexp : isExported X = true)
    (hk : x.typ.kind ≠ .Ptr) (hconv : ConvertibleTo env v.typ x.typ = true)
    (hnom : MethodByName env (.named S) sa X = none) (hkeep : MethodsKeep env D j)
    (hother : ∀ f st st' err, f.Name ≠ X →
      (IsStruct S st.2 ∧ FieldByName env fuel st.2 X = .ok (some (idx, v))) →
      copyField env fuel (Copy env fuel) true f st = .ok (st', err) →
      FieldByName env fuel st'.2 X = .ok (some (idx, v)))
    (hcopy : Copy env (fuel + 1) (some toV) fromValue = .ok ((some toV', fromValue'), none)) :
    ∃ dfs', indirect (ValueOf (some toV')) = some ⟨.struct D dfs', true⟩ ∧
      dfs'[j]? = some (Convert v x.typ) := by
  rw [Copy_struct_dest env fuel toV D S _ fromValue hto ⟨dfs, rfl⟩ (fun s hs => by
    rw [hfrom] at hs; cases hs; rfl)] at hcopy
  obtain ⟨d, so, hbody, rfl, _⟩ := wrapTo_ok _ _ _ _ _ _ hcopy
  rw [hfrom, copyBody_struct_eq] at hbody
  obtain ⟨s3, hbody, _⟩ := structResult_ok _ _ _ _ hbody
  unfold copyStruct at hbody
  split at hbody
  · rename_i fromTypeFields need hdeep
    obtain ⟨fX, hfX, hfXn⟩ := hmem _ _ hdeep
    cases fuel with
    | zero => simp [deepFields] at hdeep
    | succ fuel =>
      rw [InitNilFields_flat env fuel D _ _ _ hflat] at hbody
      simp only at hbody
      split at hbody
      · rename_i st2 hfp
        have h2 := fieldPass_reach env (fuel + 1) (Copy env (fuel + 1))
          D X j x v idx hflat hj hexp hkeep hk hconv
          (fun s => IsStruct S s ∧ FieldByName env (fuel + 1) s X = .ok (some (idx, v)))
          (fun s hs => hs.2)
          (fun f st st' err hn hs hh =>
            ⟨copyField_source_struct env (fuel + 1) _ true f S st st' err hs.1 hh,
              hother f st st' err hn hs hh⟩)
          fromTypeFields _ st2 none ⟨⟨sfs, rfl⟩, hsrcX⟩ (Or.inl ⟨dfs, rfl, hx⟩) hfp
        have h2d := h2.2.2 (Or.inl ⟨⟨_, hfX, hfXn⟩, rfl⟩)
        split at hbody
        · rename_i toTypeFields _ _
          split at hbody
          · rename_i st3 hmp
            simp only [Res.ok.injEq, Prod.mk.injEq, and_true] at hbody
            subst hbody
            have h3 := methodPass_invariant
              (fun st : Val × Val => HasField D j (Convert v x.typ) st.1 ∧ IsStruct S st.2) _
              (fun f st st' hd hh =>
                ⟨copyMethod_keep env (fuel + 1) sa true f D X j _ st st' hflat hj (by
                  obtain ⟨fs', hfs'⟩ := hd.2
                  by_cases hn : f.Name = X
                  · exact Or.inr (by rw [hn, hfs']; exact hnom)
                  · exact Or.inl hn) hd.1 hh,
                 copyMethod_source_struct env (fuel + 1) sa true f S st st' hd.2 hh⟩)
              toTypeFields st2 _ ⟨h2d, h2.1.1⟩ hmp
            obtain ⟨dfs', hd1, hd'⟩ := h3.1
            simp only at hd1
            refine ⟨dfs', ?_, hd'⟩
            rw [hd1]
            have := indirectVal_setIndirect toV false ⟨.struct D dfs, true⟩ (.struct D dfs') hto
              (by simp [Val.kind, Val.typ, Ty.kind])
            simpa [indirect, ValueOf] using this
          · cases hbody
          · cases hbody
        · cases hbody
        · cases hbody
      · cases hbody
      · cases hbody
      · cases hbody
  · cases hbody
  · cases hbody

/-! ## Name resolution through an embedded struct -/

theorem findField_none (name : String) :
    ∀ (fs : List StructField) (k : Nat), findField name k fs = none → ∀ f ∈ fs, f.Name ≠ name
  | [], _, _ => by simp
  | g :: fs, k, h => by
    simp only [findField] at h
    split at h
    · cases h
    · rename_i hg
      intro f hf
      simp only [List.mem_cons] at hf
      rcases hf with rfl | hf
      · exact hg
      · exact findField_none name fs (k + 1) h f hf

theorem findField_of_none (name : String) :
    ∀ (fs : List StructField) (k : Nat), (∀ f ∈ fs, f.Name ≠ name) → findField name k fs = none
  | [], _, _ => rfl
  | g :: fs, k, h => by
    simp only [findField, h g (by simp), ↓reduceIte]
    exact findField_of_none name fs (k + 1) (fun f hf => h f (by simp [hf]))

theorem countGet_cons (m : CountMap) (s t : String) (c : Nat) :
    countGet ((s, c) :: m) t = if t = s then c else countGet m t := by
  unfold countGet
  by_cases h : t = s
  · subst h; simp [List.lookup]
  · have : (t == s) = false := by simpa using h
    simp [List.lookup, this, h]

/-- A step of the field scan on a field whose name does not match leaves the
outcome of the search as it is. -/
theorem scanField_nomatch (name : String) (count : CountMap) (scan : fieldScan)
    (st : ScanState) (i : Nat) (f : StructField) (hf : f.Name ≠ name) :
    (scanField name count scan st i f).ok = st.ok ∧
    (scanField name count scan st i f).result = st.result ∧
    (scanField name count scan st i f).annihilated = st.annihilated ∧
    (scanField name count scan st i f).visited = st.visited := by
  unfold scanField
  repeat' split
  all_goals exact ⟨rfl, rfl, rfl, rfl⟩

theorem scanFields_nomatch (name : String) (count : CountMap) (scan : fieldScan) :
    ∀ (fs : List StructField) (i : Nat) (st : ScanState), (∀ f ∈ fs, f.Name ≠ name) →
      (scanFields name count scan i fs st).ok = st.ok ∧
      (scanFields name count scan i fs st).result = st.result ∧
      (scanFields name count scan i fs st).annihilated = st.annihilated ∧
      (scanFields name count scan i fs st).visited = st.visited
  | [], _, _, _ => by simp [scanFields]
  | f :: fs, i, st, h => by
    simp only [scanFields]
    obtain ⟨h1, h2, h3, h4⟩ := scanFields_nomatch name count scan fs (i + 1)
      (scanField name count scan st i f) (fun g hg => h g (by simp [hg]))
    obtain ⟨g1, g2, g3, g4⟩ := scanField_nomatch name count scan st i f (h f (by simp))
    exact ⟨h1.trans g1, h2.trans g2, h3.trans g3, h4.trans g4⟩

/-- After the match, the remaining fields of the type, none of which matches,
leave the state as it is. -/
theorem scanFields_found (name : String) (count : CountMap) (scan : fieldScan) :
    ∀ (fs : List StructField) (i : Nat) (st : ScanState), (∀ f ∈ fs, f.Name ≠ name) →
      st.ok = true → scanFields name count scan i fs st = st
  | [], _, _, _, _ => by simp [scanFields]
  | f :: fs, i, st, h, hok => by
    simp only [scanFields]
    have : scanField name count scan st i f = st := by
      unfold scanField
      split
      · rfl
      · simp [h f (by simp), hok]
    rw [this]
    exact scanFields_found name count scan fs (i + 1) st (fun g hg => h g (by simp [hg])) hok

/-- The scan of a type that declares the name exactly once, at index `l`,
reached once, before any match: the field is found at the path of the type
followed by `l`. -/
theorem scanFields_unique (name : String) (count : CountMap) (scan : fieldScan)
    (hc : countGet count scan.typ ≤ 1) :
    ∀ (fs : List StructField) (i l : Nat) (f : StructField) (st : ScanState),
      fs[l]? = some f → f.Name = name →
      (∀ j g, fs[j]? = some g → g.Name = name → j = l) →
      st.ok = false → st.annihilated = false →
      (scanFields name count scan i fs st).ok = true ∧
      (scanFields name count scan i fs st).result = some (scan.index ++ [i + l]) ∧
      (scanFields name count scan i fs st).annihilated = false ∧
      (scanFields name count scan i fs st).visited = st.visited
  | [], _, _, _, _, hl, _, _, _, _ => by simp at hl
  | g :: fs, i, l, f, st, hl, hf, hu, hok, han => by
    simp only [scanFields]
    cases l with
    | zero =>
      simp only [List.getElem?_cons_zero, Option.some.injEq] at hl
      subst hl
      have hrest : ∀ g' ∈ fs, g'.Name ≠ name := by
        intro g' hg' hn
        obtain ⟨j, hj, hjg⟩ := List.getElem_of_mem hg'
        have := hu (j + 1) g' (by simp [List.getElem?_eq_getElem hj, hjg]) hn
        omega
      have hstep : scanField name count scan st i g
          = { st with result := some (scan.index ++ [i]), ok := true } := by
        unfold scanField
        have : ¬ (countGet count scan.typ > 1) := by omega
        simp [han, hf, hok, this]
      rw [hstep, scanFields_found name count scan fs (i + 1) _ hrest rfl]
      exact ⟨rfl, rfl, han, rfl⟩
    | succ l =>
      simp only [List.getElem?_cons_succ] at hl
      have hg : g.Name ≠ name := by
        intro hn
        have := hu 0 g (by simp) hn
        omega
      obtain ⟨g1, g2, g3, g4⟩ := scanField_nomatch name count scan st i g hg
      obtain ⟨h1, h2, h3, h4⟩ := scanFields_unique name count scan hc fs (i + 1) l f
        (scanField name count scan st i g) hl hf
        (fun j g' hj hn => by
          have := hu (j + 1) g' (by simpa using hj) hn
          omega)
        (g1.trans hok) (g3.trans han)
      refine ⟨h1, ?_, h3, h4.trans g4⟩
      have : i + 1 + l = i + (l + 1) := by omega
      rw [h2, this]

theorem scanField_outer (Sf : List StructField) (S E X : String) (k i : Nat)
    (g : StructField) (st : ScanState)
    (huniq : ∀ i g, Sf[i]? = some g → embeddedStruct g = some E → i = k)
    (hk : ∃ Ef, Sf[k]? = some Ef ∧ embeddedStruct Ef = some E)
    (hg : Sf[i]? = some g) (hgX : g.Name ≠ X) (h : OuterScan Sf S E k i st) :
    OuterScan Sf S E k (i + 1) (scanField X [] ⟨S, []⟩ st i g) := by
  obtain ⟨h1, h2, h3, h4, h5, h6, h7, h8⟩ := h
  obtain ⟨Ef, hEf, hEfE⟩ := hk
  have hc0 : countGet [] S = 0 := rfl
  unfold scanField
  simp only [h2, Bool.false_eq_true, ↓reduceIte, hgX, h1, hc0, gt_iff_lt, Nat.not_lt_zero,
    List.nil_append]
  cases hemb : embeddedStruct g with
  | none =>
    have hik : i ≠ k := by
      intro hik
      subst hik
      rw [hEf] at hg
      cases hg
      rw [hEfE] at hemb
      cases hemb
    exact ⟨h1, h2, h3, h4, h5, h6, fun hle => h7 (by omega), fun hlt => h8 (by omega)⟩
  | some s =>
    simp only
    by_cases hsE : s = E
    · subst hsE
      have hik : i = k := huniq i g hg hemb
      subst hik
      have hz := h7 (le_refl i)
      simp only [hz, Nat.lt_irrefl, ↓reduceIte]
      refine ⟨rfl, rfl, h3, h4, ?_, ?_, ?_, ?_⟩
      · intro sc hsc
        simp only [List.mem_append, List.mem_singleton] at hsc
        rcases hsc with hsc | rfl
        · exact h5 sc hsc
        · exact ⟨i, g, rfl, hg, hemb⟩
      · simp [countGet_cons]
      · intro hle; omega
      · intro _; simp
    · have hik : i ≠ k := by
        intro hik
        subst hik
        rw [hEf] at hg
        cases hg
        rw [hEfE] at hemb
        cases hemb
        exact hsE rfl
      have hne : E ≠ s := fun h => hsE h.symm
      split
      · refine ⟨rfl, rfl, h3, h4, h5, ?_, ?_, fun hlt => h8 (by omega)⟩
        · simp only [countGet_cons, hne, ↓reduceIte]; exact h6
        · intro hle
          simp only [countGet_cons, hne, ↓reduceIte]
          exact h7 (by omega)
      · refine ⟨rfl, rfl, h3, h4, ?_, ?_, ?_, ?_⟩
        · intro sc hsc
          simp only [List.mem_append, List.mem_singleton] at hsc
          rcases hsc with hsc | rfl
          · exact h5 sc hsc
          · exact ⟨i, g, rfl, hg, hemb⟩
        · simp only [countGet_cons, hne, ↓reduceIte]; exact h6
        · intro hle
          simp only [countGet_cons, hne, ↓reduceIte]
          exact h7 (by omega)
        · intro hlt
          exact List.mem_append_left _ (h8 (by omega))

theorem scanFields_outer (Sf : List StructField) (S E X : String) (k : Nat)
    (huniq : ∀ i g, Sf[i]? = some g → embeddedStruct g = some E → i = k)
    (hk : ∃ Ef, Sf[k]? = some Ef ∧ embeddedStruct Ef = some E)
    (hnoX : ∀ f ∈ Sf, f.Name ≠ X) :
    ∀ (fs : List StructField) (i : Nat) (st : ScanState),
      (∀ j g, fs[j]? = some g → Sf[i + j]? = some g) → OuterScan Sf S E k i st →
      OuterScan Sf S E k (i + fs.length) (scanFields X [] ⟨S, []⟩ i fs st)
  | [], i, st, _, h => by simpa [scanFields] using h
  | g :: fs, i, st, hsuf, h => by
    simp only [scanFields, List.length_cons]
    have hg : Sf[i]? = some g := by simpa using hsuf 0 g (by simp)
    have hstep := scanField_outer Sf S E X k i g st huniq hk hg
      (hnoX g (List.getElem?_mem hg)) h
    have := scanFields_outer Sf S E X k huniq hk hnoX fs (i + 1) _
      (fun j g' hj => by
        have := hsuf (j + 1) g' (by simpa using hj)
        have e : i + 1 + j = i + (j + 1) := by omega
        rw [e]; exact this) hstep
    have e : i + (fs.length + 1) = i + 1 + fs.length := by omega
    rw [e]; exact this

theorem scanType_eq (env : Env) (X : String) (count : CountMap) (st : ScanState)
    (sc : fieldScan) (h : st.annihilated = false) :
    scanType env X count st sc
      = if sc.typ ∈ st.visited then st
        else scanFields X count sc 0 (env sc.typ).fields
          { st with visited := sc.typ :: st.visited } := by
  unfold scanType
  rw [if_neg (by rw [h]; simp)]

theorem scanType_inner (env : Env) (X E : String) (k l : Nat) (count : CountMap)
    (f : StructField) (st : ScanState) (sc : fieldScan)
    (hc : countGet count E ≤ 1)
    (hl : (env E).fields[l]? = some f) (hf : f.Name = X)
    (hu : ∀ j g, (env E).fields[j]? = some g → g.Name = X → j = l)
    (hE : sc.typ = E → sc.index = [k])
    (hother : sc.typ ≠ E → ∀ g ∈ (env sc.typ).fields, g.Name ≠ X)
    (h : InnerScan E k l st) :
    InnerScan E k l (scanType env X count st sc) ∧
    (sc.typ = E → FoundAt E k l (scanType env X count st sc)) := by
  obtain ⟨han, hst⟩ := h
  rw [scanType_eq env X count st sc han]
  split
  · rename_i hvis
    refine ⟨⟨han, hst⟩, fun hscE => ?_⟩
    rcases hst with ⟨_, hnot⟩ | hfound
    · exact absurd (hscE ▸ hvis) hnot
    · exact hfound
  · rename_i hvis
    by_cases hscE : sc.typ = E
    · rcases hst with ⟨hok, hnot⟩ | hfound
      · obtain ⟨h1, h2, h3, h4⟩ := scanFields_unique X count sc (by rw [hscE]; exact hc)
          (env sc.typ).fields 0 l f { st with visited := sc.typ :: st.visited }
          (by rw [hscE]; exact hl) hf (by rw [hscE]; exact hu) hok han
        have hfound : FoundAt E k l (scanFields X count sc 0 (env sc.typ).fields
            { st with visited := sc.typ :: st.visited }) := by
          refine ⟨h1, ?_, ?_⟩
          · rw [h2, hE hscE]; simp
          · rw [h4, hscE]; simp
        exact ⟨⟨h3, Or.inr hfound⟩, fun _ => hfound⟩
      · exact absurd (hscE ▸ hfound.2.2) hvis
    · obtain ⟨h1, h2, h3, h4⟩ := scanFields_nomatch X count sc (env sc.typ).fields 0
        { st with visited := sc.typ :: st.visited } (hother hscE)
      refine ⟨⟨h3.trans han, ?_⟩, fun h => absurd h hscE⟩
      rcases hst with ⟨hok, hnot⟩ | ⟨hok, hres, hvisE⟩
      · refine Or.inl ⟨h1.trans hok, ?_⟩
        rw [h4]
        simp only [List.mem_cons, not_or]
        exact ⟨fun h => hscE h.symm, hnot⟩
      · refine Or.inr ⟨h1.trans hok, h2.trans hres, ?_⟩
        rw [h4]
        exact List.mem_cons_of_mem _ hvisE

theorem foldl_scanType_inner (env : Env) (X E : String) (k l : Nat) (count : CountMap)
    (f : StructField) (hc : countGet count E ≤ 1)
    (hl : (env E).fields[l]? = some f) (hf : f.Name = X)
    (hu : ∀ j g, (env E).fields[j]? = some g → g.Name = X → j = l) :
    ∀ (list : List fieldScan) (st : ScanState),
      (∀ sc ∈ list, (sc.typ = E → sc.index = [k]) ∧
        (sc.typ ≠ E → ∀ g ∈ (env sc.typ).fields, g.Name ≠ X)) →
      InnerScan E k l st →
      InnerScan E k l (list.foldl (scanType env X count) st) ∧
      (FoundAt E k l st ∨ (∃ sc ∈ list, sc.typ = E) →
        FoundAt E k l (list.foldl (scanType env X count) st))
  | [], st, _, h => by
    refine ⟨h, ?_⟩
    rintro (h1 | ⟨sc, hsc, _⟩)
    · exact h1
    · simp at hsc
  | sc :: list, st, hprops, h => by
    simp only [List.foldl_cons]
    obtain ⟨hJ, hF⟩ := scanType_inner env X E k l count f st sc hc hl hf hu
      (hprops sc (by simp)).1 (hprops sc (by simp)).2 h
    obtain ⟨hJ2, hF2⟩ := foldl_scanType_inner env X E k l count f hc hl hf hu list _
      (fun sc' hsc' => hprops sc' (by simp [hsc'])) hJ
    refine ⟨hJ2, ?_⟩
    rintro (h1 | ⟨sc', hsc', hscE⟩)
    · -- already found: stays found
      apply hF2
      left
      obtain ⟨_, hst⟩ := hJ
      rcases hst with ⟨hok, hnot⟩ | hfound
      · -- the step cannot lose a found field
        exfalso
        obtain ⟨han, _⟩ := h
        have hvis : E ∈ (scanType env X count st sc).visited := by
          rw [scanType_eq env X count st sc han]
          split
          · exact h1.2.2
          · by_cases hscE : sc.typ = E
            · rw [(scanFields_unique X count sc (by rw [hscE]; exact hc) (env sc.typ).fields 0 l
                f { st with visited := sc.typ :: st.visited } (by rw [hscE]; exact hl) hf
                (by rw [hscE]; exact hu) (by
                  rename_i hv
                  exact absurd (hscE ▸ h1.2.2) hv) han).2.2.2]
              exact List.mem_cons_of_mem _ h1.2.2
            · rw [(scanFields_nomatch X count sc (env sc.typ).fields 0
                { st with visited := sc.typ :: st.visited }
                ((hprops sc (by simp)).2 hscE)).2.2.2]
              exact List.mem_cons_of_mem _ h1.2.2
        exact hnot hvis
      · exact hfound
    · simp only [List.mem_cons] at hsc'
      rcases hsc' with rfl | hsc'
      · exact hF2 (Or.inl (hF hscE))
      · exact hF2 (Or.inr ⟨sc', hsc', hscE⟩)

theorem embeddedStruct_anonymous (f : StructField) (s : String)
    (h : embeddedStruct f = some s) : f.Anonymous = true := by
  unfold embeddedStruct at h
  split at h
  · assumption
  · cases h

/-- Name resolution through one embedded struct: when the struct type `S`
declares no field `X`, embeds the struct type `E` (as `E` or `*E`) at index
`k` and nowhere else, `E` declares `X` exactly once, at index `l`, and no
other struct type embedded in `S` declares `X`, then `X` selects the path
`[k, l]` on `S`. -/
theorem typeFieldByName_embedded (env : Env) (fuel : Nat) (S E X : String) (k l : Nat)
    (Ef f : StructField) (hX : X ≠ "")
    (hnoX : ∀ g ∈ (env S).fields, g.Name ≠ X)
    (hk : (env S).fields[k]? = some Ef) (hEf : embeddedStruct Ef = some E)
    (huniq : ∀ (i : Nat) (g : StructField), (env S).fields[i]? = some g →
      embeddedStruct g = some E → i = k)
    (hl : (env E).fields[l]? = some f) (hf : f.Name = X)
    (hu : ∀ (j : Nat) (g : StructField), (env E).fields[j]? = some g → g.Name = X → j = l)
    (hother : ∀ (i : Nat) (g : StructField) (s : String), (env S).fields[i]? = some g →
      embeddedStruct g = some s → s ≠ E → ∀ g' ∈ (env s).fields, g'.Name ≠ X) :
    typeFieldByName env (fuel + 2) S X = .ok (some [k, l]) := by
  have hany : (env S).fields.any (fun f => f.Anonymous) = true := by
    rw [List.any_eq_true]
    exact ⟨Ef, List.getElem?_mem hk, embeddedStruct_anonymous Ef E hEf⟩
  unfold typeFieldByName
  simp only [hX, ↓reduceIte, findField_of_none X _ 0 hnoX, hany]
  have h0 := scanFields_outer (env S).fields S E X k huniq ⟨Ef, hk, hEf⟩ hnoX (env S).fields 0
    ⟨[], [], [S], none, false, false⟩ (fun j g hj => by simpa using hj)
    ⟨rfl, rfl, rfl, rfl, by simp, by simp [countGet], fun _ => rfl, fun h => by omega⟩
  obtain ⟨h1, h2, h3, h4, h5, h6, _, h8⟩ := h0
  have hklt : k < 0 + (env S).fields.length := by
    rcases Nat.lt_or_ge k (env S).fields.length with h | h
    · omega
    · rw [List.getElem?_eq_none h] at hk; cases hk
  have hmem := h8 hklt
  have hES : E ≠ S := by
    intro hes
    subst hes
    exact hnoX f (List.getElem?_mem hl) hf
  have hlevel0 : [(⟨S, []⟩ : fieldScan)].foldl (scanType env X [])
      ⟨[], [], [], none, false, false⟩
      = scanFields X [] ⟨S, []⟩ 0 (env S).fields ⟨[], [], [S], none, false, false⟩ := by
    simp [scanType]
  rw [FieldByNameFunc]
  simp only [hlevel0, h2, Bool.false_eq_true, ↓reduceIte, h1]
  generalize hst : scanFields X [] ⟨S, []⟩ 0 (env S).fields ⟨[], [], [S], none, false, false⟩
    = st0 at h1 h2 h3 h4 h5 h6 hmem
  cases hnext : st0.next with
  | nil => rw [hnext] at hmem; simp at hmem
  | cons sc rest =>
    rw [FieldByNameFunc]
    rw [← hnext, h4]
    obtain ⟨hJ, hF⟩ := foldl_scanType_inner env X E k l st0.nextCount f h6 hl hf hu st0.next
      ⟨[], [], [S], none, false, false⟩
      (fun sc hsc => by
        obtain ⟨idx, g, hidx, hg, hemb⟩ := h5 sc hsc
        refine ⟨fun hscE => ?_, fun hscE => hother idx g sc.typ hg hemb hscE⟩
        rw [hidx, huniq idx g hg (hscE ▸ hemb)])
      ⟨rfl, Or.inl ⟨rfl, by simpa using hES⟩⟩
    obtain ⟨hok, hres, _⟩ := hF (Or.inr ⟨⟨E, [k]⟩, hmem, rfl⟩)
    simp [hJ.1, hok, hres]

theorem embeddedStruct_typ (f : StructField) (s : String) (h : embeddedStruct f = some s) :
    indirectType f.Typ = .named s := by
  unfold embeddedStruct at h
  split at h
  · split at h
    · rename_i heq
      simp only [Option.some.injEq] at h
      subst h
      split at heq
      · rename_i e hT
        rw [hT, heq]
        simp [indirectType]
      · rename_i hT
        rw [heq]
        simp [indirectType]
    · cases h
  · cases h

/-- Core of the embedded-field copy, with the name resolution on the source
type as a hypothesis. -/
theorem embedded_field (env : Env) (hro : ReadOnlyGetters env) (fuel : Nat)
    (S D E X : String) (k l j : Nat)
    (Ef : StructField) (TX : Ty) (sfs dfs es : List Val) (ev v x : Val) (sa : Bool)
    (toV toV' : Val) (fromValue fromValue' : Option Val)
    (hfrom : indirect (ValueOf fromValue) = some ⟨.struct S sfs, sa⟩)
    (hSk : (env S).fields[k]? = some Ef) (hEa : Ef.Anonymous = true)
    (hEt : indirectType Ef.Typ = .named E)
    (hEl : (env E).fields[l]? = some ⟨X, TX, false⟩)
    (hsk : sfs[k]? = some ev)
    (hev : ev = .struct E es ∨ ev = .ptr (.named E) (some (.struct E es)))
    (hv : es[l]? = some v)
    (hres : typeFieldByName env fuel S X = .ok (some [k, l]))
    (hto : indirect (ValueOf (some toV)) = some ⟨.struct D dfs, true⟩)
    (hflat : Flat env D) (hj : findField X 0 (env D).fields = some j)
    (hx : dfs[j]? = some x) (hexp : isExported X = true)
    (hk : x.typ.kind ≠ .Ptr) (hconv : ConvertibleTo env v.typ x.typ = true)
    (hnom : MethodByName env (.named S) sa X = none) (hkeep : MethodsKeep env D j)
    (hcopy : Copy env (fuel + 1) (some toV) fromValue = .ok ((some toV', fromValue'), none)) :
    ∃ dfs', indirect (ValueOf (some toV')) = some ⟨.struct D dfs', true⟩ ∧
      dfs'[j]? = some (Convert v x.typ) := by
  have hsrcX : FieldByName env fuel (.struct S sfs) X = .ok (some ([k, l], v)) := by
    simp only [FieldByName, hres, FieldByIndex, Field, hsk]
    rcases hev with rfl | rfl <;> simp [FieldByIndex, Field, hv]
  refine selected_field env fuel S D X j sfs dfs v x sa [k, l] toV toV' fromValue fromValue'
    hfrom hsrcX ?_ hto hflat hj hx hexp hk hconv hnom hkeep ?_ hcopy
  · intro fs need hdeep
    exact ⟨⟨X, TX, false⟩,
      deepFields_mem_embedded env fuel S E sfs "" _ _ _ k l Ef _ ev hdeep hSk hEa hEt hsk
        (by rcases hev with rfl | rfl
            · exact Or.inl ⟨es, rfl⟩
            · exact Or.inr ⟨_, _, rfl⟩) hEl rfl, rfl⟩
  · intro f st st' err _ hs hh
    rw [copyField_source env fuel (Copy env fuel)
      (fun t f r e he => Copy_source env hro fuel t f r e he) true f st st' err hh]
    exact hs.2

/-- C4, amended: let the source struct `S` embed the struct `E` (as `E`, or as
`*E` with a non-nil pointer) at index `k` and nowhere else, let `E` declare
the field `X` once, and let neither `S` itself nor any other struct embedded
in `S` declare a field `X`; let the addressable destination struct `D` have
no embedded fields and declare a settable field `X` of a non-pointer type that
the type of the source field converts to.  If the getters of the program are
read-only, the source has no method `X` that `reflect` finds, the methods of
`D` leave its field `X` alone, and `Copy` returns nil, then afterwards the
destination's `X` is the converted value of the source's `E.X`. -/
theorem Copy_embedded_field (env : Env) (hro : ReadOnlyGetters env) (fuel : Nat)
    (S D E X : String) (k l j : Nat)
    (Ef : StructField) (TX : Ty) (sfs dfs es : List Val) (ev v x : Val) (sa : Bool)
    (toV toV' : Val) (fromValue fromValue' : Option Val)
    (hfrom : indirect (ValueOf fromValue) = some ⟨.struct S sfs, sa⟩)
    (hSk : (env S).fields[k]? = some Ef) (hEf : embeddedStruct Ef = some E)
    (hEl : (env E).fields[l]? = some ⟨X, TX, false⟩)
    (hnoX : ∀ g ∈ (env S).fields, g.Name ≠ X)
    (huniq : ∀ (i : Nat) (g : StructField), (env S).fields[i]? = some g →
      embeddedStruct g = some E → i = k)
    (hu : ∀ (i : Nat) (g : StructField), (env E).fields[i]? = some g → g.Name = X → i = l)
    (hother : ∀ (i : Nat) (g : StructField) (s : String), (env S).fields[i]? = some g →
      embeddedStruct g = some s → s ≠ E → ∀ g' ∈ (env s).fields, g'.Name ≠ X)
    (hsk : sfs[k]? = some ev)
    (hev : ev = .struct E es ∨ ev = .ptr (.named E) (some (.struct E es)))
    (hv : es[l]? = some v)
    (hto : indirect (ValueOf (some toV)) = some ⟨.struct D dfs, true⟩)
    (hflat : Flat env D) (hj : findField X 0 (env D).fields = some j)
    (hx : dfs[j]? = some x) (hexp : isExported X = true)
    (hk : x.typ.kind ≠ .Ptr) (hconv : ConvertibleTo env v.typ x.typ = true)
    (hnom : MethodByName env (.named S) sa X = none) (hkeep : MethodsKeep env D j)
    (hcopy : Copy env (fuel + 3) (some toV) fromValue = .ok ((some toV', fromValue'), none)) :
    ∃ dfs', indirect (ValueOf (some toV')) = some ⟨.struct D dfs', true⟩ ∧
      dfs'[j]? = some (Convert v x.typ) := by
  have hres := typeFieldByName_embedded env fuel S E X k l Ef ⟨X, TX, false⟩
    (isExported_ne_empty X hexp) hnoX hSk hEf huniq hEl rfl hu hother
  exact embedded_field env hro (fuel + 2) S D E X k l j Ef TX sfs dfs es ev v x sa toV toV'
    fromValue fromValue' hfrom hSk (embeddedStruct_anonymous Ef E hEf)
    (embeddedStruct_typ Ef E hEf) hEl hsk hev hv hres hto hflat hj hx hexp hk hconv hnom hkeep
    hcopy

/-- The struct `Outer` embeds `E` only at index 0. -/
theorem Outer_embeds_E_once (i : Nat) (g : StructField)
    (hg : (bridgeEnv "Outer").fields[i]? = some g) (_ : embeddedStruct g = some "E") :
    i = 0 := by
  rcases i with _ | _ | i
  · rfl
  · simp only [bridgeEnv, String.reduceEq, ↓reduceIte, List.getElem?_cons_succ,
      List.getElem?_cons_zero, Option.some.injEq] at hg
    subst hg
    rename_i h
    simp [embeddedStruct] at h
  · simp [bridgeEnv] at hg

/-- The struct `E` declares `X` only at index 0. -/
theorem E_declares_X_once (i : Nat) (g : StructField)
    (hg : (bridgeEnv "E").fields[i]? = some g) (_ : g.Name = "X") : i = 0 := by
  rcases i with _ | i
  · rfl
  · simp [bridgeEnv] at hg

/-- No struct other than `E` is embedded in `Outer`. -/
theorem Outer_embeds_only_E (i : Nat) (g : StructField) (s : String)
    (hg : (bridgeEnv "Outer").fields[i]? = some g) (hemb : embeddedStruct g = some s)
    (hs : s ≠ "E") : ∀ g' ∈ (bridgeEnv s).fields, g'.Name ≠ "X" := by
  rcases i with _ | _ | i
  · simp only [bridgeEnv, String.reduceEq, ↓reduceIte, List.getElem?_cons_zero,
      Option.some.injEq] at hg
    subst hg
    simp only [embeddedStruct, ↓reduceIte, Option.some.injEq] at hemb
    exact absurd hemb.symm hs
  · simp only [bridgeEnv, String.reduceEq, ↓reduceIte, List.getElem?_cons_succ,
      List.getElem?_cons_zero, Option.some.injEq] at hg
    subst hg
    simp [embeddedStruct] at hemb
  · simp [bridgeEnv] at hg

/-- A program whose structs with methods are among `names`, none of them with
a getter on a pointer receiver, has read-only getters. -/
theorem readOnly_of_names (env : Env) (names : List String)
    (hout : ∀ n, n ∉ names → (env n).methods = [])
    (hin : ∀ n ∈ names, (env n).methods.all
      (fun m => !(m.ptrRecv && m.In.length == 0 && m.Out.length == 1)) = true) :
    ReadOnlyGetters env := by
  intro n m hm hp h0 h1 fs
  by_cases h : n ∈ names
  · have := List.all_eq_true.mp (hin n h) m hm
    simp [hp, h0, h1] at this
  · rw [hout n h] at hm
    cases hm

/-- No method of `bridgeEnv` is a getter on a pointer receiver. -/
theorem bridgeEnv_readOnly : ReadOnlyGetters bridgeEnv := by
  refine readOnly_of_names bridgeEnv ["E", "Outer", "Target", "Shadow", "Plain", "Wrap", "Deep",
    "Member", "Account", "Staff", "Guest", "Clerk", "Badge", "Parcel", "Shelf"] ?_ (by decide)
  intro n h
  unfold bridgeEnv
  iterate 15 rw [if_neg (by rintro rfl; exact h (by decide))]

/-- Witness of the amended C4: `&Outer{E: &E{X: 300}, Note: "hi"}` into a
`Target`, whose `X` is an `int8`: the copy stores `int8(300) = 44`. -/
theorem Copy_embedded_field_witness :
    ∃ dfs', indirect (ValueOf (some (.ptr (.named "Target")
        (some (.struct "Target" [.str "hi", .int8 44])))))
        = some ⟨.struct "Target" dfs', true⟩ ∧
      dfs'[1]? = some (Convert (.int 300) (Val.int8 0).typ) :=
  Copy_embedded_field bridgeEnv bridgeEnv_readOnly 1 "Outer" "Target" "E" "X" 0 0 1
    ⟨"E", .ptr (.named "E"), true⟩
    .int [.ptr (.named "E") (some (.struct "E" [.int 300])), .str "hi"] [.str "", .int8 0]
    [.int 300] (.ptr (.named "E") (some (.struct "E" [.int 300]))) (.int 300) (.int8 0) true
    (.ptr (.named "Target") (some (.struct "Target" [.str "", .int8 0]))) _
    (some (.ptr (.named "Outer") (some (.struct "Outer"
      [.ptr (.named "E") (some (.struct "E" [.int 300])), .str "hi"]))))
    (some (.ptr (.named "Outer") (some (.struct "Outer"
      [.ptr (.named "E") (some (.struct "E" [.int 300])), .str "hi"]))))
    (by decide) (by decide) (by decide) (by decide) (by decide)
    Outer_embeds_E_once E_declares_X_once Outer_embeds_only_E
    (by decide) (Or.inr rfl) (by decide) (by decide) (by unfold Flat; decide) (by decide)
    (by decide) (by decide) (by decide) (by decide) rfl
    (by intro m hm; simp [bridgeEnv] at hm) (by decide)

/-- C4, as stated, fails.  First input: `Shadow` embeds `E` and declares the
method `X() int`; `Copy(&Plain{}, Shadow{E{X: 5}})` returns nil with
`X = 7`, the method's result, not 5.  Second input: `Wrap` embeds `E` next to
a field `F` whose copy fails; `Copy(&Deep{}, Wrap{E{X: 5}, Inner{}})` returns
the error `errUnaddressable`, not nil.  Third input: `Host` embeds `Tag`, which
declares a field `E`, and then `*E`; the flattened source fields are `E` and
`X`, the name `E` selects the embedded `*E`, whose nested copy into `Dst.E`
calls the getter `G` of `*E`, and `G` stores 99 in `X` before `X` is copied:
`Copy(&Dst{}, &Host{Tag{}, &E{X: 5}})` returns nil with `X = 99`, not 5. -/
theorem Copy_embedded_field_overridden :
    Copy bridgeEnv 3 (some (.ptr (.named "Plain") (some (.struct "Plain" [.int 0]))))
        (some (.struct "Shadow" [.struct "E" [.int 5]]))
      = .ok ((some (.ptr (.named "Plain") (some (.struct "Plain" [.int 7]))),
          some (.struct "Shadow" [.struct "E" [.int 5]])), none) ∧
    Copy bridgeEnv 3
        (some (.ptr (.named "Deep")
          (some (.struct "Deep" [.int 0, .ptr (.ptr (.named "Leaf")) none]))))
        (some (.struct "Wrap" [.struct "E" [.int 5], .struct "Inner" []]))
      = .ok ((some (.ptr (.named "Deep") (some (.struct "Deep"
          [.int 5, .ptr (.ptr (.named "Leaf")) (some (.ptr (.named "Leaf") none))]))),
          some (.struct "Wrap" [.struct "E" [.int 5], .struct "Inner" []])),
          some errUnaddressable) ∧
    deepFields peekEnv 3 (.named "Host")
        (.struct "Host" [.struct "Tag" [.int 0], .ptr (.named "E") (some (.struct "E" [.int 5]))])
        "" (some (.made []))
      = .ok ([⟨"E", .int, false⟩, ⟨"X", .int, false⟩], some (.made ["Tag.E"])) ∧
    Copy peekEnv 5
        (some (.ptr (.named "Dst") (some (.struct "Dst" [.struct "T2" [.int 0], .int8 0]))))
        (some (.ptr (.named "Host") (some (.struct "Host"
          [.struct "Tag" [.int 0], .ptr (.named "E") (some (.struct "E" [.int 5]))]))))
      = .ok ((some (.ptr (.named "Dst") (some (.struct "Dst" [.struct "T2" [.int 1], .int8 99]))),
          some (.ptr (.named "Host") (some (.struct "Host"
            [.struct "Tag" [.int 0], .ptr (.named "E") (some (.struct "E" [.int 99]))])))),
          none) := by
  decide

/-! ## The method bridges -/

/-- The field pass after a first part without error. -/
theorem fieldPass_append {σ : Type} (body : StructField → σ → Res (σ × Option String)) :
    ∀ (pre rest : List StructField) (st st1 : σ), fieldPass body pre st = .ok (st1, none) →
      fieldPass body (pre ++ rest) st = fieldPass body rest st1
  | [], rest, st, st1, h => by
    simp only [fieldPass, Res.ok.injEq, Prod.mk.injEq, and_true] at h
    subst h
    rfl
  | f :: pre, rest, st, st1, h => by
    rw [List.cons_append]
    rw [fieldPass] at h ⊢
    cases hb : body f st with
    | ok p =>
      obtain ⟨d', e⟩ := p
      cases e with
      | none =>
        simp only [hb] at h ⊢
        exact fieldPass_append body pre rest d' st1 h
      | some e => simp [hb] at h
    | panic m => simp [hb] at h
    | outOfFuel => simp [hb] at h

/-- The method pass after a first part. -/
theorem methodPass_append {σ : Type} (body : StructField → σ → Res σ) :
    ∀ (pre rest : List StructField) (st st1 : σ), methodPass body pre st = .ok st1 →
      methodPass body (pre ++ rest) st = methodPass body rest st1
  | [], rest, st, st1, h => by
    simp only [methodPass, Res.ok.injEq] at h
    subst h
    rfl
  | f :: pre, rest, st, st1, h => by
    rw [List.cons_append]
    rw [methodPass] at h ⊢
    cases hb : body f st with
    | ok d' =>
      simp only [hb] at h ⊢
      exact methodPass_append body pre rest d' st1 h
    | panic m => simp [hb] at h
    | outOfFuel => simp [hb] at h

/-- An invariant of the bodies of the listed fields is one of the method
pass. -/
theorem methodPass_invariant_mem {σ : Type} (P : σ → Prop) (body : StructField → σ → Res σ) :
    ∀ (fs : List StructField) (d d' : σ),
      (∀ f ∈ fs, ∀ d d', P d → body f d = .ok d' → P d') →
      P d → methodPass body fs d = .ok d' → P d'
  | [], d, d', _, hd, h => by
    simp only [methodPass, Res.ok.injEq] at h
    exact h ▸ hd
  | f :: fs, d, d', hbody, hd, h => by
    simp only [methodPass] at h
    split at h
    · rename_i d1 hb
      exact methodPass_invariant_mem P body fs d1 d'
        (fun g hg => hbody g (List.mem_cons_of_mem f hg))
        (hbody f (List.mem_cons_self f fs) d d1 hd hb) h
    · cases h
    · cases h

/-- One iteration of the method pass keeps what a name selects on the
destination, when the field that the iteration stores lies apart from it. -/
theorem copyMethod_frame (env : Env) (fuel : Nat) (sa : Bool) (S D N : String)
    (idx : List Nat) (y : Val) (g : StructField) (st st' : Val × Val)
    (hS : IsStruct S st.2) (hD : IsStruct D st.1)
    (hN : FieldByName env fuel st.1 N = .ok (some (idx, y)))
    (hap : ∀ q m', typeFieldByName env fuel D g.Name = .ok (some q) →
      MethodByName env (.named S) sa g.Name = some m' → m'.In.length = 0 →
      m'.Out.length = 1 → Apart idx q = true)
    (h : copyMethod env fuel sa true g st = .ok st') :
    FieldByName env fuel st'.1 N = .ok (some (idx, y)) := by
  obtain ⟨d, s⟩ := st
  obtain ⟨sfs, hs⟩ := hS
  obtain ⟨dfs, hd⟩ := hD
  simp only at hs hd hN
  subst hs
  subst hd
  unfold copyMethod at h
  simp only [Val.typ] at h
  split at h
  · rename_i m' hm'
    split at h
    · rename_i hio
      split at h
      · rename_i q toField htf
        obtain ⟨n, fs, hn, ht⟩ := FieldByName_struct env fuel _ _ _ _ htf
        cases hn
        have ha := hap q m' ht hm' hio.1 hio.2
        split at h
        · split at h
          · split at h
            · cases h
              exact FieldByName_put_apart env fuel _ N idx q y _ hN ha
            · cases h
            · cases h
          · cases h
            exact hN
        · cases h
          exact hN
      · cases h
        exact hN
      · cases h
      · cases h
    · cases h
      exact hN
  · cases h
    exact hN

/-- The struct copy, from the flattened source fields and the destination
with its nil embedded pointers allocated, is the method stage on the outcome
of the field pass. -/
theorem copyStruct_stage (env : Env) (fuel : Nat)
    (self : Option Val → Option Val → Res ((Option Val × Option Val) × Option String))
    (fromType toType : Ty) (source dest : Value) (fromFields : List StructField)
    (need : Option NeedMap) (dest1 : Val)
    (hdeep : deepFields env fuel fromType source.val "" (some (.made []))
      = .ok (fromFields, need))
    (hinit : InitNilFields env fuel toType dest "" need = .ok dest1) :
    copyStruct env fuel self fromType toType source dest
      = methodStage env fuel source.canAddr dest.canAddr toType
          (fieldPass (copyField env fuel self dest.canAddr) fromFields (dest1, source.val)) := by
  unfold copyStruct
  simp only [hdeep, hinit]
  rcases fieldPass (copyField env fuel self dest.canAddr) fromFields (dest1, source.val)
    with ⟨st2, _ | e⟩ | _ | _ <;> rfl

/-- The method stage after a field pass without error, from the flattened
destination fields. -/
theorem methodStage_ok (env : Env) (fuel : Nat) (srcAddr destAddr : Bool) (toType : Ty)
    (st2 : Val × Val) (fields : List StructField) (need : Option NeedMap)
    (hdeep : deepFields env fuel toType st2.1 "" none = .ok (fields, need)) :
    methodStage env fuel srcAddr destAddr toType (.ok (st2, none))
      = methodResult (methodPass (copyMethod env fuel srcAddr destAddr) fields st2) := by
  simp only [methodStage, hdeep]
  rcases methodPass (copyMethod env fuel srcAddr destAddr) fields st2 with _ | _ | _ <;> rfl

/-- C9, amended: the bridges go through a method of the same name as the
field, not a `Set`- or `Get`-prefixed one.  First part: let the loop over the
flattened fields of a source struct reach, without error so far, a field of
type `string` of which the addressable destination struct has no field of
that name but, in the method set of its pointer, a method of that name with
one `string` parameter; then `Copy` calls the method on the destination with
the value of the source field and goes on from the destination as the call
left it.  Second part: let the field pass end without error and the loop over
the flattened fields of the destination reach a name of which the destination
has a settable field of type `string` and the source a method without
parameters and with one `string` result; then `Copy` calls the method on the
source as it is at that moment, stores the result in the field, and goes on
from the source as the call left it. -/
theorem Copy_method_bridge (env : Env) (fuel : Nat)
    (S1 D1 : String) (sfs1 dfs1 : List Val) (sa1 : Bool) (toV1 : Val)
    (fromValue1 : Option Val) (pre1 post1 : List StructField) (field1 : StructField)
    (need1 : Option NeedMap) (dest1 : Val) (st1 : Val × Val) (idxF : List Nat)
    (fromField : Val) (m1 : Method)
    (S2 D2 : String) (sfs2 dfs2 : List Val) (sa2 : Bool) (toV2 : Val)
    (fromValue2 : Option Val) (fromFields2 pre2 post2 : List StructField)
    (field2 : StructField) (need2 needD : Option NeedMap) (dest2 : Val) (st2 st : Val × Val)
    (idx : List Nat) (toField value : Val) (more : List Val) (m2 : Method)
    (hfrom1 : indirect (ValueOf fromValue1) = some ⟨.struct S1 sfs1, sa1⟩)
    (hto1 : indirect (ValueOf (some toV1)) = some ⟨.struct D1 dfs1, true⟩)
    (hdeep1 : deepFields env (fuel + 1) (.named S1) (.struct S1 sfs1) "" (some (.made []))
      = .ok (pre1 ++ field1 :: post1, need1))
    (hinit1 : InitNilFields env (fuel + 1) (.named D1) ⟨.struct D1 dfs1, true⟩ "" need1
      = .ok dest1)
    (hpre1 : fieldPass (copyField env (fuel + 1) (Copy env (fuel + 1)) true) pre1
      (dest1, .struct S1 sfs1) = .ok (st1, none))
    (hff : FieldByName env (fuel + 1) st1.2 field1.Name = .ok (some (idxF, fromField)))
    (hft : fromField.typ = .string)
    (htf1 : FieldByName env (fuel + 1) st1.1 field1.Name = .ok none)
    (hm1 : MethodByName env (.named D1) true field1.Name = some m1)
    (hin1 : m1.In = [.string])
    (hfrom2 : indirect (ValueOf fromValue2) = some ⟨.struct S2 sfs2, sa2⟩)
    (hto2 : indirect (ValueOf (some toV2)) = some ⟨.struct D2 dfs2, true⟩)
    (hdeep2 : deepFields env (fuel + 1) (.named S2) (.struct S2 sfs2) "" (some (.made []))
      = .ok (fromFields2, need2))
    (hinit2 : InitNilFields env (fuel + 1) (.named D2) ⟨.struct D2 dfs2, true⟩ "" need2
      = .ok dest2)
    (hfield2 : fieldPass (copyField env (fuel + 1) (Copy env (fuel + 1)) true) fromFields2
      (dest2, .struct S2 sfs2) = .ok (st2, none))
    (hdeepD : deepFields env (fuel + 1) (.named D2) st2.1 "" none
      = .ok (pre2 ++ field2 :: post2, needD))
    (hpre2 : methodPass (copyMethod env (fuel + 1) sa2 true) pre2 st2 = .ok st)
    (htf2 : FieldByName env (fuel + 1) st.1 field2.Name = .ok (some (idx, toField)))
    (htt : toField.typ = .string)
    (hm2 : MethodByName env (.named S2) sa2 field2.Name = some m2)
    (hin2 : m2.In = []) (hout2 : m2.Out = [.string])
    (hval : (Call m2 sa2 st.2 []).2 = value :: more) (hvt : value.typ = .string) :
    Copy env (fuel + 2) (some toV1) fromValue1
      = wrapTo toV1 fromValue1 (structResult (methodStage env (fuel + 1) sa1 true (.named D1)
          (fieldPass (copyField env (fuel + 1) (Copy env (fuel + 1)) true) post1
            ((Call m1 true st1.1 [fromField]).1, st1.2)))) ∧
    Copy env (fuel + 2) (some toV2) fromValue2
      = wrapTo toV2 fromValue2 (structResult (methodResult
          (methodPass (copyMethod env (fuel + 1) sa2 true) post2
            (putByIndex st.1 idx value, (Call m2 sa2 st.2 []).1)))) ∧
    FieldByName env (fuel + 1) (putByIndex st.1 idx value) field2.Name
      = .ok (some (idx, value)) := by
  refine ⟨?_, ?_, FieldByName_put_self env (fuel + 1) _ _ idx toField value htf2⟩
  · have hD1 : IsStruct D1 dest1 :=
      InitNilFields_struct env (fuel + 1) _ ⟨.struct D1 dfs1, true⟩ _ _ D1 _ ⟨dfs1, rfl⟩ hinit1
    obtain ⟨dfs', hd'⟩ : IsStruct D1 st1.1 :=
      fieldPass_invariant (fun st : Val × Val => IsStruct D1 st.1) _
        (fun f st st' err hs hh => copyField_struct env (fuel + 1) _ true f D1 st st' err hs hh)
        pre1 _ st1 none hD1 hpre1
    have hstep : copyField env (fuel + 1) (Copy env (fuel + 1)) true field1 st1
        = .ok (((Call m1 true st1.1 [fromField]).1, st1.2), none) := by
      unfold copyField
      rw [hd'] at htf1 ⊢
      have hasg : AssignableTo fromField.typ .string = true := by rw [hft]; rfl
      have hat : assignTo .string fromField = fromField := by
        cases fromField <;> rfl
      have htyp : (Val.struct D1 dfs').typ = .named D1 := rfl
      simp only [hff, htf1, htyp, hm1, hin1, hasg, ↓reduceIte, hat]
    rw [Copy_struct_dest env (fuel + 1) toV1 D1 S1 _ fromValue1 hto1 ⟨dfs1, rfl⟩ (fun s hs => by
      rw [hfrom1] at hs; cases hs; rfl)]
    rw [hfrom1, copyBody_struct_eq,
      copyStruct_stage env (fuel + 1) _ _ _ _ _ _ _ _ hdeep1 hinit1,
      fieldPass_append _ pre1 (field1 :: post1) _ st1 hpre1, fieldPass, hstep]
  · have hD2 : IsStruct D2 dest2 :=
      InitNilFields_struct env (fuel + 1) _ ⟨.struct D2 dfs2, true⟩ _ _ D2 _ ⟨dfs2, rfl⟩ hinit2
    have hS2 : IsStruct S2 st2.2 :=
      fieldPass_invariant (fun st : Val × Val => IsStruct S2 st.2) _
        (fun f st st' err hs hh =>
          copyField_source_struct env (fuel + 1) _ true f S2 st st' err hs hh)
        fromFields2 _ st2 none ⟨sfs2, rfl⟩ hfield2
    obtain ⟨sfs', hs'⟩ : IsStruct S2 st.2 :=
      methodPass_invariant (fun st : Val × Val => IsStruct S2 st.2) _
        (fun f st st' hs hh => copyMethod_source_struct env (fuel + 1) sa2 true f S2 st st' hs hh)
        pre2 st2 st hS2 hpre2
    have hexp := MethodByName_exported env _ sa2 _ m2 hm2
    have hset : set env (fuel + 1) toField (some value) = .ok (value, true) := by
      rw [set_convertible env fuel toField value (by simp [Val.kind, htt, Ty.kind])
        (by rw [hvt, htt]; rfl), htt]
      cases value <;> simp_all [Val.typ, Convert, retag]
    have hstep : copyMethod env (fuel + 1) sa2 true field2 st
        = .ok (putByIndex st.1 idx value, (Call m2 sa2 st.2 []).1) := by
      unfold copyMethod
      rw [hs'] at hval ⊢
      simp only [Val.typ, hm2, hin2, hout2, List.length_nil, List.length_singleton, and_self,
        ↓reduceIte, htf2, hexp, Bool.and_self, hval, hset]
    rw [Copy_struct_dest env (fuel + 1) toV2 D2 S2 _ fromValue2 hto2 ⟨dfs2, rfl⟩ (fun s hs => by
      rw [hfrom2] at hs; cases hs; rfl)]
    rw [hfrom2, copyBody_struct_eq,
      copyStruct_stage env (fuel + 1) _ _ _ _ _ _ _ _ hdeep2 hinit2, hfield2,
      methodStage_ok env (fuel + 1) sa2 true _ st2 _ _ hdeepD,
      methodPass_append _ pre2 (field2 :: post2) st2 st hpre2, methodPass, hstep]

/-- Witness of the amended C9: `Copy(&Desk{}, Form{"Ann", "Admin", 3})`.  The
loop over the source fields copies `Name` and then reaches `Role`, for which
`Desk` has no field but the method `Role(string)`: it is called with
`"Admin"`.  The loop over the destination fields passes `Name` and reaches
`Title`, for which `Form` has the method `Title() string`: its result
`"Dr Ann"` is stored in the field. -/
theorem Copy_method_bridge_witness :
    Copy deskEnv 3 (some (.ptr (.named "Desk") (some (desk "" "" "")))) (some form)
      = wrapTo (.ptr (.named "Desk") (some (desk "" "" ""))) (some form)
          (structResult (methodStage deskEnv 2 false true (.named "Desk")
            (fieldPass (copyField deskEnv 2 (Copy deskEnv 2) true) [⟨"Age", .int, false⟩]
              ((Call deskRole true (desk "Ann" "" "") [.str "Admin"]).1, form)))) ∧
    Copy deskEnv 3 (some (.ptr (.named "Desk") (some (desk "" "" "")))) (some form)
      = wrapTo (.ptr (.named "Desk") (some (desk "" "" ""))) (some form)
          (structResult (methodResult
            (methodPass (copyMethod deskEnv 2 false true) [⟨"Seen", .string, false⟩]
              (putByIndex (desk "Ann" "" "Admin") [1] (.str "Dr Ann"),
                (Call formTitle false form []).1)))) ∧
    FieldByName deskEnv 2 (putByIndex (desk "Ann" "" "Admin") [1] (.str "Dr Ann")) "Title"
      = .ok (some ([1], .str "Dr Ann")) :=
  Copy_method_bridge deskEnv 1
    "Form" "Desk" [.str "Ann", .str "Admin", .int 3] [.str "", .str "", .str ""] false
    (.ptr (.named "Desk") (some (desk "" "" ""))) (some form)
    [⟨"Name", .string, false⟩] [⟨"Age", .int, false⟩] ⟨"Role", .string, false⟩
    (some (.made [])) (desk "" "" "") (desk "Ann" "" "", form) [1] (.str "Admin") deskRole
    "Form" "Desk" [.str "Ann", .str "Admin", .int 3] [.str "", .str "", .str ""] false
    (.ptr (.named "Desk") (some (desk "" "" ""))) (some form)
    [⟨"Name", .string, false⟩, ⟨"Role", .string, false⟩, ⟨"Age", .int, false⟩]
    [⟨"Name", .string, false⟩] [⟨"Seen", .string, false⟩] ⟨"Title", .string, false⟩
    (some (.made [])) none (desk "" "" "") (desk "Ann" "" "Admin", form)
    (desk "Ann" "" "Admin", form) [1] (.str "") (.str "Dr Ann") [] formTitle
    (by decide) (by decide) (by decide) (by decide) (by decide) (by decide) (by decide)
    (by decide) rfl rfl
    (by decide) (by decide) (by decide) (by decide) (by decide) (by decide) (by decide)
    (by decide) (by decide) rfl rfl rfl (by decide) (by decide)

/-- C9, as stated, fails.  `Copy` looks for a method named like the field, not
`SetRole` or `GetRole`: copying `Member{Role: "Admin"}` into an `Account`,
which has `SetRole(string)` and no method `Role`, returns nil and leaves the
`Account` as it was, although `SetRole("Admin")` would have stored
`"Super Admin"`; copying a `Guest`, which has `GetRole() string` and no method
`Role`, into a `Badge` returns nil and leaves `Role` empty, although `GetRole`
returns `"guest"`.  And with the names of the code, the bridges are not reached
when the copy of an earlier field fails: copying
`Brief{F: Inner{}, Role: "Admin"}`, which has `Title() string`, into a `Tray`,
which has `Role(string)` and the field `Title string`, returns the error of
the field `F` with `Seen` and `Title` still empty.  Nor are they reached for
a destination that is not addressable: copying a `Form` into a `Desk` passed
by value returns the error `errUnaddressable` at once. -/
theorem Copy_ignores_SetRole_GetRole :
    (Copy bridgeEnv 3 (some (.ptr (.named "Account") (some (.struct "Account" [.str ""]))))
        (some (.struct "Member" [.str "Admin"]))
      = .ok ((some (.ptr (.named "Account") (some (.struct "Account" [.str ""]))),
          some (.struct "Member" [.str "Admin"])), none) ∧
    (MethodByName bridgeEnv (.named "Account") true "SetRole").map
        (fun m => (m.In, (m.call [.str ""] [.str "Admin"]).1))
      = some ([.string], [.str "Super Admin"])) ∧
    (Copy bridgeEnv 3 (some (.ptr (.named "Badge") (some (.struct "Badge" [.str ""]))))
        (some (.struct "Guest" []))
      = .ok ((some (.ptr (.named "Badge") (some (.struct "Badge" [.str ""]))),
          some (.struct "Guest" [])), none) ∧
    (MethodByName bridgeEnv (.named "Guest") false "GetRole").map
        (fun m => (m.In, m.Out, (m.call [] []).2))
      = some ([], [.string], [.str "guest"])) ∧
    (Copy deskEnv 3
        (some (.ptr (.named "Tray")
          (some (.struct "Tray" [.ptr (.ptr (.named "Leaf")) none, .str "", .str ""]))))
        (some (.struct "Brief" [.struct "Inner" [], .str "Admin"]))
      = .ok ((some (.ptr (.named "Tray") (some (.struct "Tray"
          [.ptr (.ptr (.named "Leaf")) (some (.ptr (.named "Leaf") none)), .str "", .str ""]))),
          some (.struct "Brief" [.struct "Inner" [], .str "Admin"])),
          some errUnaddressable) ∧
    (MethodByName deskEnv (.named "Tray") true "Role").map
        (fun m => (m.In, (m.call [.ptr (.ptr (.named "Leaf")) none, .str "", .str ""]
          [.str "Admin"]).1))
      = some ([.string], [.ptr (.ptr (.named "Leaf")) none, .str "", .str "Admin"]) ∧
    (MethodByName deskEnv (.named "Brief") false "Title").map
        (fun m => (m.In, m.Out, (m.call [.struct "Inner" [], .str "Admin"] []).2))
      = some ([], [.string], [.str "x"])) ∧
    Copy deskEnv 3 (some (desk "" "" "")) (some form)
      = .ok ((some (desk "" "" ""), some form), some errUnaddressable) := by
  refine ⟨⟨?_, ?_⟩, ⟨?_, ?_⟩, ⟨?_, ?_, ?_⟩, ?_⟩ <;> decide

/-- C10, amended: let `Copy` from a source struct `S` into an addressable
destination struct `D` return nil, let `N` be the name of the last field of
that name in the flattened field list of the destination, let the destination
have a settable field `N` when the loop over that list reaches it, and let
`reflect` find a method `N` of the source (in the method set of the pointer
when the source is addressable, of the value otherwise) without parameters
and with exactly one result, whose type converts to the type of the field.
If no field that a later iteration of that loop stores lies inside the field
`N` or contains it, then afterwards the destination's `N` is what `set` stored
there from the result of calling the method on the source as it is at that
moment, which for a field of non-pointer type is the converted result,
whatever the field-to-field pass wrote into `N`. -/
theorem Copy_method_to_field (env : Env) (fuel : Nat) (S D : String)
    (sfs dfs : List Val) (sa : Bool) (toV toV' : Val) (fromValue fromValue' : Option Val)
    (fromFields pre post : List StructField) (field : StructField)
    (need need2 : Option NeedMap) (dest1 : Val) (st2 st : Val × Val)
    (idx : List Nat) (toField value : Val) (more : List Val) (m : Method)
    (hfrom : indirect (ValueOf fromValue) = some ⟨.struct S sfs, sa⟩)
    (hto : indirect (ValueOf (some toV)) = some ⟨.struct D dfs, true⟩)
    (hdeep : deepFields env fuel (.named S) (.struct S sfs) "" (some (.made []))
      = .ok (fromFields, need))
    (hinit : InitNilFields env fuel (.named D) ⟨.struct D dfs, true⟩ "" need = .ok dest1)
    (hfield : fieldPass (copyField env fuel (Copy env fuel) true) fromFields
      (dest1, .struct S sfs) = .ok (st2, none))
    (hdeep2 : deepFields env fuel (.named D) st2.1 "" none = .ok (pre ++ field :: post, need2))
    (hpre : methodPass (copyMethod env fuel sa true) pre st2 = .ok st)
    (htf : FieldByName env fuel st.1 field.Name = .ok (some (idx, toField)))
    (hm : MethodByName env (.named S) sa field.Name = some m)
    (hin : m.In.length = 0) (hout : m.Out.length = 1)
    (hval : (Call m sa st.2 []).2 = value :: more)
    (hconv : ConvertibleTo env value.typ toField.typ = true)
    (hapart : ∀ g ∈ post, ∀ q m', typeFieldByName env fuel D g.Name = .ok (some q) →
      MethodByName env (.named S) sa g.Name = some m' → m'.In.length = 0 →
      m'.Out.length = 1 → Apart idx q = true)
    (hcopy : Copy env (fuel + 1) (some toV) fromValue = .ok ((some toV', fromValue'), none)) :
    ∃ d3 y b, indirect (ValueOf (some toV')) = some ⟨d3, true⟩ ∧
      set env fuel toField (some value) = .ok (y, b) ∧
      FieldByName env fuel d3 field.Name = .ok (some (idx, y)) ∧
      (toField.kind ≠ .Ptr → y = Convert value toField.typ) := by
  have hexp := MethodByName_exported env _ sa _ m hm
  have hD1 : IsStruct D dest1 :=
    InitNilFields_struct env fuel _ ⟨.struct D dfs, true⟩ _ _ D _ ⟨dfs, rfl⟩ hinit
  have hP2 : IsStruct S st2.2 ∧ IsStruct D st2.1 :=
    fieldPass_invariant (fun st : Val × Val => IsStruct S st.2 ∧ IsStruct D st.1) _
      (fun f st st' err hs hh =>
        ⟨copyField_source_struct env fuel _ true f S st st' err hs.1 hh,
          copyField_struct env fuel _ true f D st st' err hs.2 hh⟩)
      fromFields _ st2 none ⟨⟨sfs, rfl⟩, hD1⟩ hfield
  have hP : IsStruct S st.2 ∧ IsStruct D st.1 :=
    methodPass_invariant (fun st : Val × Val => IsStruct S st.2 ∧ IsStruct D st.1) _
      (fun f st st' hs hh =>
        ⟨copyMethod_source_struct env fuel sa true f S st st' hs.1 hh,
          copyMethod_struct env fuel sa true f D st st' hs.2 hh⟩)
      pre st2 st hP2 hpre
  rw [Copy_struct_dest env fuel toV D S _ fromValue hto ⟨dfs, rfl⟩ (fun s hs => by
    rw [hfrom] at hs; cases hs; rfl)] at hcopy
  obtain ⟨d, so, hbody, rfl, _⟩ := wrapTo_ok _ _ _ _ _ _ hcopy
  rw [hfrom, copyBody_struct_eq] at hbody
  obtain ⟨s3, hbody, _⟩ := structResult_ok _ _ _ _ hbody
  unfold copyStruct at hbody
  simp only [hdeep, hinit, hfield, hdeep2] at hbody
  rw [methodPass_append _ pre (field :: post) st2 st hpre, methodPass] at hbody
  have hstep : copyMethod env fuel sa true field st
      = (match set env fuel toField (some value) with
        | .ok (y, _) => .ok (putByIndex st.1 idx y, (Call m sa st.2 []).1)
        | .panic msg => .panic msg
        | .outOfFuel => .outOfFuel) := by
    obtain ⟨sfs', hs'⟩ := hP.1
    unfold copyMethod
    rw [hs'] at hval ⊢
    simp only [Val.typ, hm, hin, hout, and_self, ↓reduceIte, htf, hexp, Bool.and_self, hval]
  rw [hstep] at hbody
  cases hset : set env fuel toField (some value) with
  | ok r =>
    obtain ⟨y, b⟩ := r
    simp only [hset] at hbody
    split at hbody
    · rename_i st3 hpost
      simp only [Res.ok.injEq, Prod.mk.injEq, and_true] at hbody
      subst hbody
      have h3 := methodPass_invariant_mem
        (fun st : Val × Val => (IsStruct S st.2 ∧ IsStruct D st.1) ∧
          FieldByName env fuel st.1 field.Name = .ok (some (idx, y))) _ post _ (d, s3)
        (fun g hg st st' hs hh =>
          ⟨⟨copyMethod_source_struct env fuel sa true g S st st' hs.1.1 hh,
            copyMethod_struct env fuel sa true g D st st' hs.1.2 hh⟩,
           copyMethod_frame env fuel sa S D field.Name idx y g st st' hs.1.1 hs.1.2 hs.2
            (hapart g hg) hh⟩)
        ⟨⟨Call_struct _ _ _ _ S hP.1, putByIndex_struct D _ _ _ hP.2⟩,
          FieldByName_put_self env fuel _ _ idx toField y htf⟩ hpost
      obtain ⟨dfs', hd'⟩ := h3.1.2
      simp only at hd'
      subst hd'
      refine ⟨_, y, b, ?_, rfl, h3.2, ?_⟩
      · have := indirectVal_setIndirect toV false ⟨.struct D dfs, true⟩ (.struct D dfs') hto
          (by simp [Val.kind, Val.typ, Ty.kind])
        simpa [indirect, ValueOf] using this
      · intro hk
        cases fuel with
        | zero => simp [set] at hset
        | succ fuel =>
          rw [set_convertible env fuel toField value hk hconv] at hset
          simp only [Res.ok.injEq, Prod.mk.injEq] at hset
          exact hset.1.symm
    · cases hbody
    · cases hbody
  | panic msg => simp [hset] at hbody
  | outOfFuel => simp [hset] at hbody

/-- Witness of the amended C10: `Copy(&Out{}, &Cnt{})`.  The loop over the
destination fields first calls `A`, which adds one to the counter of the
source, and then `B`, which is called on the source as `A` left it and returns
1: the destination's `B` is 1. -/
theorem Copy_method_to_field_witness :
    ∃ d3 y b, indirect (ValueOf (some (.ptr (.named "Out")
        (some (.struct "Out" [.int 1, .int 1]))))) = some ⟨d3, true⟩ ∧
      set cntEnv 2 (.int 0) (some (.int 1)) = .ok (y, b) ∧
      FieldByName cntEnv 2 d3 (StructField.mk "B" .int false).Name = .ok (some ([1], y)) ∧
      ((Val.int 0).kind ≠ .Ptr → y = Convert (.int 1) (Val.int 0).typ) :=
  Copy_method_to_field cntEnv 2 "Cnt" "Out" [.int 0] [.int 0, .int 0] true
    (.ptr (.named "Out") (some (.struct "Out" [.int 0, .int 0]))) _
    (some (.ptr (.named "Cnt") (some (.struct "Cnt" [.int 0]))))
    (some (.ptr (.named "Cnt") (some (.struct "Cnt" [.int 1]))))
    [⟨"C", .int, false⟩] [⟨"A", .int, false⟩] [] ⟨"B", .int, false⟩
    (some (.made [])) none (.struct "Out" [.int 0, .int 0])
    (.struct "Out" [.int 0, .int 0], .struct "Cnt" [.int 0])
    (.struct "Out" [.int 1, .int 0], .struct "Cnt" [.int 1])
    [1] (.int 0) (.int 1) []
    ⟨"B", true, [], [.int], fun fs _ =>
        match fs with
        | [.int c] => (fs, [.int c])
        | _ => (fs, [.int 0])⟩
    (by decide) (by decide) (by decide) (by decide) (by decide) (by decide) (by decide)
    (by decide) rfl (by decide) (by decide) (by decide) (by decide)
    (by intro g hg; cases hg) (by decide)

/-- C10, as stated, fails.  First input: `Parcel` has the method
`Tag() string`, which returns `"boxed"`, and `Shelf` has the settable field
`Tag string`, but the copy of the field `F` fails first; `Copy` returns the
error `errUnaddressable` and `Tag` is still empty: the method pass never ran.
Second input: the flattened fields of `Wide` are `X` (of the embedded `Base`)
and `Base` (of the embedded `Inner`), and `Maker` has the methods `X() int`,
returning 5, and `Base() Base`; the name `Base` selects the embedded struct
`Base` of the destination, so that the later iteration for `Base` overwrites
what the iteration for `X` stored: `Copy` returns nil and `X` is 0, not 5.
Third input: `Giver` has the method `N() *T` and `Taker` the field `N *U`,
and `*T` converts to `*U`, but `set` works on the pointee, to which the result
does not convert, and ends in the failing `Scan` of `*U`: `Copy` returns nil
and `N` points to the zero `U`, not to the converted result. -/
theorem Copy_error_skips_method_pass :
    (Copy bridgeEnv 3
        (some (.ptr (.named "Shelf")
          (some (.struct "Shelf" [.ptr (.ptr (.named "Leaf")) none, .str ""]))))
        (some (.struct "Parcel" [.struct "Inner" []]))
      = .ok ((some (.ptr (.named "Shelf") (some (.struct "Shelf"
          [.ptr (.ptr (.named "Leaf")) (some (.ptr (.named "Leaf") none)), .str ""]))),
          some (.struct "Parcel" [.struct "Inner" []])),
          some errUnaddressable) ∧
    (MethodByName bridgeEnv (.named "Parcel") false "Tag").map
        (fun m => (m.In, m.Out, (m.call [.struct "Inner" []] []).2))
      = some ([], [.string], [.str "boxed"])) ∧
    (deepFields wideEnv 3 (.named "Wide")
        (.struct "Wide" [.struct "Base" [.int 1], .struct "Inner" [.int 2]]) "" none
      = .ok ([⟨"X", .int, false⟩, ⟨"Base", .int, false⟩], none) ∧
    (MethodByName wideEnv (.named "Maker") false "X").map
        (fun m => (m.In, m.Out, (m.call [] []).2))
      = some ([], [.int], [.int 5]) ∧
    Copy wideEnv 4
        (some (.ptr (.named "Wide")
          (some (.struct "Wide" [.struct "Base" [.int 1], .struct "Inner" [.int 2]]))))
        (some (.struct "Maker" []))
      = .ok ((some (.ptr (.named "Wide")
          (some (.struct "Wide" [.struct "Base" [.int 0], .struct "Inner" [.int 2]]))),
          some (.struct "Maker" [])), none) ∧
    FieldByName wideEnv 3
        (.struct "Wide" [.struct "Base" [.int 0], .struct "Inner" [.int 2]]) "X"
      = .ok (some ([0, 0], .int 0))) ∧
    (deepFields hookEnv 3 (.named "Taker") (.struct "Taker" [.ptr (.named "U") none]) "" none
      = .ok ([⟨"N", .ptr (.named "U"), false⟩], none) ∧
    (MethodByName hookEnv (.named "Giver") false "N").map
        (fun m => (m.In, m.Out, (m.call [] []).2))
      = some ([], [.ptr (.named "T")], [.ptr (.named "T") (some (.struct "T" [.int 7]))]) ∧
    ConvertibleTo hookEnv (.ptr (.named "T")) (.ptr (.named "U")) = true ∧
    Convert (.ptr (.named "T") (some (.struct "T" [.int 7]))) (.ptr (.named "U"))
      = .ptr (.named "U") (some (.struct "U" [.int 7])) ∧
    Copy hookEnv 4
        (some (.ptr (.named "Taker") (some (.struct "Taker" [.ptr (.named "U") none]))))
        (some (.struct "Giver" []))
      = .ok ((some (.ptr (.named "Taker")
          (some (.struct "Taker" [.ptr (.named "U") (some (.struct "U" [.int 0]))]))),
          some (.struct "Giver" [])), none)) := by
  refine ⟨⟨?_, ?_⟩, ⟨?_, ?_, ?_, ?_⟩, ⟨?_, ?_, ?_, ?_, ?_⟩⟩ <;> decide

/-! ## Fail-fast -/

/-- The iterations of the loop after `i` iterations without error. -/
theorem copyLoop_split {σ : Type} (body : Nat → σ → Res (σ × Option String)) :
    ∀ (i n j : Nat) (st stI : σ), copyLoop body i j st = .ok (stI, none) →
      copyLoop body (i + n) j st = copyLoop body n (j + i) stI
  | 0, n, j, st, stI, h => by
    simp only [copyLoop, Res.ok.injEq, Prod.mk.injEq, and_true] at h
    subst h
    simp
  | i + 1, n, j, st, stI, h => by
    rw [show i + 1 + n = (i + n) + 1 by omega]
    rw [copyLoop] at h ⊢
    cases hb : body j st with
    | ok p =>
      obtain ⟨to', e⟩ := p
      cases e with
      | none =>
        simp only [hb] at h ⊢
        rw [copyLoop_split body i n (j + 1) to' stI h]
        congr 1
        omega
      | some e => simp [hb] at h
    | panic m => simp [hb] at h
    | outOfFuel => simp [hb] at h

/-- C11: let the loop of `Copy` have run `i` iterations without error, leaving
the destination and the source as the pair `stI`, and let iteration `i` be in
the struct sub-protocol with the flattened source fields
`pre ++ field :: rest`.  If the field pass went through `pre` without error,
`set` declined on `field`, and the nested `Copy` for `field` returned the
error `err`, then the enclosing `Copy` returns exactly `err`, and its
destination is the state right after that nested call: outside slice mode the
destination element with only the failing field touched (the fields of `rest`
are not copied and the method-to-field pass does not run), in slice mode the
destination slice of before the iteration (the element is not appended).  The
source is as the nested call left it. -/
theorem Copy_fail_fast (env : Env) (fuel : Nat) (toV : Val) (fromValue : Option Val)
    (to_ from_ : Value) (i : Nat) (stI : Val × Val) (source dest : Value)
    (pre rest : List StructField) (field : StructField) (need : Option NeedMap)
    (dest1 : Val) (d : Val × Val) (fromField toField toField' : Val) (idx idx' : List Nat)
    (r from' : Option Val) (err : String)
    (hto : indirect (ValueOf (some toV)) = some to_) (haddr : to_.canAddr = true)
    (hfrom : indirect (ValueOf fromValue) = some from_)
    (hnofast : (indirectType from_.val.typ).kind = .Struct ∨
      AssignableTo from_.val.typ to_.val.typ = false)
    (hgate : ((indirectType from_.val.typ).kind = .Struct ∧
        (indirectType to_.val.typ).kind = .Struct) ∨
      (to_.val.kind = .Slice ∧
        ConvertibleTo env (indirectType from_.val.typ) (indirectType to_.val.typ) = true))
    (hsub : (indirectType from_.val.typ).kind = .Struct ∨
      (indirectType to_.val.typ).kind = .Struct)
    (hi : i < (if to_.val.kind = .Slice ∧ from_.val.kind = .Slice then Len from_.val else 1))
    (hloop : copyLoop (copyElem env fuel (Copy env fuel) (decide (to_.val.kind = .Slice))
        from_.canAddr (indirectType from_.val.typ) (indirectType to_.val.typ)) i 0
        (to_.val, from_.val) = .ok (stI, none))
    (hsrc : sourceElem (decide (to_.val.kind = .Slice)) ⟨stI.2, from_.canAddr⟩ i
      = .ok (some source))
    (hdst : destElem env fuel (decide (to_.val.kind = .Slice)) (indirectType to_.val.typ) stI.1
      = .ok (some dest))
    (hdeep : deepFields env fuel (indirectType from_.val.typ) source.val "" (some (.made []))
      = .ok (pre ++ field :: rest, need))
    (hinit : InitNilFields env fuel (indirectType to_.val.typ) dest "" need = .ok dest1)
    (hpre : fieldPass (copyField env fuel (Copy env fuel) dest.canAddr) pre (dest1, source.val)
      = .ok (d, none))
    (hff : FieldByName env fuel d.2 field.Name = .ok (some (idx', fromField)))
    (htf : FieldByName env fuel d.1 field.Name = .ok (some (idx, toField)))
    (hcs : (dest.canAddr && isExported field.Name) = true)
    (hset : set env fuel toField (some fromField) = .ok (toField', false))
    (hrec : Copy env fuel (some (.ptr toField'.typ (some toField'))) (Interface fromField)
      = .ok ((r, from'), some err)) :
    Copy env (fuel + 1) (some toV) fromValue
      = .ok ((some (setIndirect toV
          (if to_.val.kind = .Slice then stI.1
           else putByIndex d.1 idx (pointeeAfter r toField'))),
          fromValue.map (fun v => setIndirect v
            (putSource (decide (to_.val.kind = .Slice)) stI.2 i
              (some (putByIndex d.2 idx' (fromInterface fromField from')))))),
          some err) := by
  have hfield : copyField env fuel (Copy env fuel) dest.canAddr field d
      = .ok ((putByIndex d.1 idx (pointeeAfter r toField'),
          putByIndex d.2 idx' (fromInterface fromField from')), some err) := by
    unfold copyField
    simp only [hff, htf, hcs, ↓reduceIte, hset, hrec]
    split <;> rename_i heq
    · simp only [Res.ok.injEq, Prod.mk.injEq] at heq
      obtain ⟨⟨h1, h3⟩, h2⟩ := heq
      subst h1
      subst h2
      subst h3
      rfl
    · simp only [Res.ok.injEq, Prod.mk.injEq] at heq
      rename_i hne
      obtain ⟨⟨h1, h3⟩, h2⟩ := heq
      subst h2
      subst h3
      congr 3
      unfold pointeeAfter
      split
      · rename_i e x
        exact (hne e x h1.symm).elim
      · rfl
    · cases heq
    · cases heq
  have hstruct : copyStruct env fuel (Copy env fuel) (indirectType from_.val.typ)
      (indirectType to_.val.typ) source dest
      = .ok ((putByIndex d.1 idx (pointeeAfter r toField'),
          putByIndex d.2 idx' (fromInterface fromField from')), some err) := by
    unfold copyStruct
    simp only [hdeep, hinit]
    rw [fieldPass_append _ pre (field :: rest) _ d hpre, fieldPass, hfield]
  have hbody : copyBody env fuel (Copy env fuel) (indirectType from_.val.typ)
      (indirectType to_.val.typ) (some source) dest
      = .ok ((putByIndex d.1 idx (pointeeAfter r toField'),
          some (putByIndex d.2 idx' (fromInterface fromField from'))), some err) := by
    unfold copyBody
    simp only
    rw [if_neg (by rcases hsub with h | h <;> simp [h]), hstruct]
  have helem : copyElem env fuel (Copy env fuel) (decide (to_.val.kind = .Slice)) from_.canAddr
      (indirectType from_.val.typ) (indirectType to_.val.typ) i stI
      = .ok ((if to_.val.kind = .Slice then stI.1
           else putByIndex d.1 idx (pointeeAfter r toField'),
           putSource (decide (to_.val.kind = .Slice)) stI.2 i
              (some (putByIndex d.2 idx' (fromInterface fromField from')))), some err) := by
    unfold copyElem
    simp only [hsrc, hdst, hbody, decide_eq_true_eq]
  obtain ⟨n, hn⟩ : ∃ n, (if to_.val.kind = .Slice ∧ from_.val.kind = .Slice then Len from_.val
      else 1) = i + (n + 1) :=
    ⟨(if to_.val.kind = .Slice ∧ from_.val.kind = .Slice then Len from_.val else 1) - i - 1,
      by omega⟩
  have h1 : ¬ ((indirectType from_.val.typ).kind ≠ .Struct ∧
      AssignableTo from_.val.typ to_.val.typ = true) := by
    rcases hnofast with h | h <;> simp [h]
  have h2 : ¬ (((indirectType from_.val.typ).kind ≠ .Struct ∨
      (indirectType to_.val.typ).kind ≠ .Struct) ∧
      ¬ (to_.val.kind = .Slice ∧
        ConvertibleTo env (indirectType from_.val.typ) (indirectType to_.val.typ) = true)) := by
    rcases hgate with h | h
    · simp [h.1, h.2]
    · simp [h.1, h.2]
  unfold Copy
  simp only [hto, haddr, hfrom, Bool.true_eq_false, ↓reduceIte, h1, h2, decide_eq_true_eq, hn]
  rw [if_neg (show ¬ (i + (n + 1) = 0) by omega)]
  have := copyLoop_split (copyElem env fuel (Copy env fuel) (decide (to_.val.kind = .Slice))
        from_.canAddr (indirectType from_.val.typ) (indirectType to_.val.typ)) i (n + 1) 0
        (to_.val, from_.val) stI hloop
  rw [this, copyLoop]
  simp only [Nat.zero_add]
  rw [helem]

/-- Witness of C11.  An `Item` whose `F` is a non-nil `*Inner` into a `Slot`,
whose `F` is a `***Leaf`: `A` is copied, the nested copy of `F` fails, `B`
keeps its old value 9.  And a slice of three `Item`s, the second failing, into
an empty `[]Slot`: only the first element is appended. -/
theorem Copy_fail_fast_witness :
    Copy slotEnv 3 (some (.ptr (.named "Slot") (some (slot 0 none 9))))
        (some (item 3 (some (.struct "Inner" [])) 4))
      = .ok ((some (.ptr (.named "Slot") (some (slot 3
          (some (.ptr (.ptr (.named "Leaf")) (some (.ptr (.named "Leaf") none)))) 9))),
          some (item 3 (some (.struct "Inner" [])) 4)),
          some errUnaddressable) ∧
    Copy slotEnv 3 (some (.ptr (.slice (.named "Slot")) (some (.slice (.named "Slot") (some [])))))
        (some (.slice (.named "Item")
          (some [item 1 none 2, item 3 (some (.struct "Inner" [])) 4, item 5 none 6])))
      = .ok ((some (.ptr (.slice (.named "Slot"))
          (some (.slice (.named "Slot") (some [slot 1 none 2])))),
          some (.slice (.named "Item")
            (some [item 1 none 2, item 3 (some (.struct "Inner" [])) 4, item 5 none 6]))),
          some errUnaddressable) :=
  ⟨(Copy_fail_fast slotEnv 2 (.ptr (.named "Slot") (some (slot 0 none 9)))
      (some (item 3 (some (.struct "Inner" [])) 4)) ⟨slot 0 none 9, true⟩
      ⟨item 3 (some (.struct "Inner" [])) 4, false⟩ 0
      (slot 0 none 9, item 3 (some (.struct "Inner" [])) 4)
      ⟨item 3 (some (.struct "Inner" [])) 4, false⟩ ⟨slot 0 none 9, true⟩
      [⟨"A", .int, false⟩] [⟨"B", .int, false⟩] ⟨"F", .ptr (.named "Inner"), false⟩
      (some (.made [])) (slot 0 none 9) (slot 3 none 9, item 3 (some (.struct "Inner" [])) 4)
      (.ptr (.named "Inner") (some (.struct "Inner" [])))
      (.ptr (.ptr (.ptr (.named "Leaf"))) none)
      (.ptr (.ptr (.ptr (.named "Leaf")))
        (some (.ptr (.ptr (.named "Leaf")) (some (.ptr (.named "Leaf") none)))))
      [1] [1]
      (some (.ptr (.ptr (.ptr (.ptr (.named "Leaf"))))
        (some (.ptr (.ptr (.ptr (.named "Leaf")))
          (some (.ptr (.ptr (.named "Leaf")) (some (.ptr (.named "Leaf") none))))))))
      (some (.ptr (.named "Inner") (some (.struct "Inner" []))))
      errUnaddressable
      (by decide) (by decide) (by decide) (by decide) (by decide) (by decide) (by decide)
      (by decide) (by decide) (by decide) (by decide) (by decide) (by decide) (by decide)
      (by decide) (by decide) (by decide) (by decide)).trans (by decide),
   (Copy_fail_fast slotEnv 2 (.ptr (.slice (.named "Slot")) (some (.slice (.named "Slot") (some []))))
      (some (.slice (.named "Item")
        (some [item 1 none 2, item 3 (some (.struct "Inner" [])) 4, item 5 none 6])))
      ⟨.slice (.named "Slot") (some []), true⟩
      ⟨.slice (.named "Item")
        (some [item 1 none 2, item 3 (some (.struct "Inner" [])) 4, item 5 none 6]), false⟩
      1 (.slice (.named "Slot") (some [slot 1 none 2]),
        .slice (.named "Item")
          (some [item 1 none 2, item 3 (some (.struct "Inner" [])) 4, item 5 none 6]))
      ⟨item 3 (some (.struct "Inner" [])) 4, true⟩ ⟨slot 0 none 0, true⟩
      [⟨"A", .int, false⟩] [⟨"B", .int, false⟩] ⟨"F", .ptr (.named "Inner"), false⟩
      (some (.made [])) (slot 0 none 0) (slot 3 none 0, item 3 (some (.struct "Inner" [])) 4)
      (.ptr (.named "Inner") (some (.struct "Inner" [])))
      (.ptr (.ptr (.ptr (.named "Leaf"))) none)
      (.ptr (.ptr (.ptr (.named "Leaf")))
        (some (.ptr (.ptr (.named "Leaf")) (some (.ptr (.named "Leaf") none)))))
      [1] [1]
      (some (.ptr (.ptr (.ptr (.ptr (.named "Leaf"))))
        (some (.ptr (.ptr (.ptr (.named "Leaf")))
          (some (.ptr (.ptr (.named "Leaf")) (some (.ptr (.named "Leaf") none))))))))
      (some (.ptr (.named "Inner") (some (.struct "Inner" []))))
      errUnaddressable
      (by decide) (by decide) (by decide) (by decide) (by decide) (by decide) (by decide)
      (by decide) (by decide) (by decide) (by decide) (by decide) (by decide) (by decide)
      (by decide) (by decide) (by decide) (by decide)).trans (by decide)⟩

/-! ## The leaf assignment `set` -/

theorem mapRes_congr {α β : Type} (f g : α → Res β) :
    ∀ (xs : List α) (ys : List β), (∀ x ∈ xs, ∀ y, f x = .ok y → g x = .ok y) →
      mapRes f xs = .ok ys → mapRes g xs = .ok ys
  | [], ys, _, h => by simpa [mapRes] using h
  | x :: xs, ys, hfg, h => by
    rw [mapRes] at h ⊢
    cases hx : f x with
    | ok b =>
      rw [hx] at h
      rw [hfg x (List.mem_cons_self _ _) b hx]
      cases hxs : mapRes f xs with
      | ok bs =>
        rw [hxs] at h
        rw [mapRes_congr f g xs bs (fun a ha => hfg a (List.mem_cons_of_mem _ ha)) hxs]
        exact h
      | panic m => simp [hxs] at h
      | outOfFuel => simp [hxs] at h
    | panic m => simp [hx] at h
    | outOfFuel => simp [hx] at h

/-- A zero value computed with some fuel is computed with more fuel. -/
theorem Zero_succ (env : Env) : ∀ (k : Nat) (t : Ty) (z : Val),
    Zero env k t = .ok z → Zero env (k + 1) t = .ok z
  | 0, t, z, h => by
    cases t <;> simp_all [Zero]
  | k + 1, t, z, h => by
    cases t with
    | named n =>
      rw [Zero] at h ⊢
      cases hm : mapRes (fun f => Zero env k f.Typ) (env n).fields with
      | ok fs =>
        rw [hm] at h
        rw [mapRes_congr _ (fun f => Zero env (k + 1) f.Typ) _ fs
          (fun x _ y hy => Zero_succ env k x.Typ y hy) hm]
        exact h
      | panic m => simp [hm] at h
      | outOfFuel => simp [hm] at h
    | _ => simp_all [Zero]

theorem Zero_mono (env : Env) (n : Nat) (t : Ty) (z : Val) (h : Zero env n t = .ok z) :
    ∀ k, n ≤ k → Zero env k t = .ok z := by
  intro k hk
  induction k, hk using Nat.le_induction with
  | base => exact h
  | succ k _ ih => exact Zero_succ env k t z ih


theorem set_nonptr (env : Env) (fuel : Nat) (to_ f : Val) (hk : to_.kind ≠ .Ptr) :
    set env (fuel + 1) to_ (some f) = setConvert env (set env fuel) to_ f := by
  cases to_ <;> first | rfl | exact absurd rfl hk

theorem set_ptr (env : Env) (fuel : Nat) (e : Ty) (p : Option Val) (f : Val)
    (hf : ∀ t, f ≠ .ptr t none) :
    set env (fuel + 1) (.ptr e p) (some f)
      = setElem env fuel (fun target => setConvert env (set env fuel) target f) e p := by
  cases f with
  | ptr t q =>
    cases q with
    | none => exact absurd rfl (hf t)
    | some g => rfl
  | _ => rfl

/-- With enough fuel, `set` returns. -/
theorem set_total (env : Env) (n : Nat) (hz : ∀ t, ∃ z, Zero env n t = .ok z) :
    ∀ (d : Nat) (f to_ : Val) (fuel : Nat), ptrDepth f ≤ d → n + d + 1 ≤ fuel →
      ∃ v r, set env fuel to_ (some f) = .ok (v, r) := by
  intro d
  induction d with
  | zero =>
    intro f to_ fuel hd hfuel
    obtain ⟨k, rfl⟩ : ∃ k, fuel = k + 1 := ⟨fuel - 1, by omega⟩
    have hnp : ∀ t q, f ≠ .ptr t q := by
      intro t q h
      subst h
      cases q <;> simp [ptrDepth] at hd
    have hconv : ∀ target, ∃ v r, setConvert env (set env k) target f = .ok (v, r) := by
      intro target
      unfold setConvert
      split
      · exact ⟨_, _, rfl⟩
      · split
        · exact ⟨_, _, rfl⟩
        · split
          · rename_i t q _
            exact absurd rfl (hnp t q)
          · exact ⟨_, _, rfl⟩
    by_cases hk : to_.kind = .Ptr
    · obtain ⟨e, p, rfl⟩ : ∃ e p, to_ = .ptr e p := by
        cases to_ <;> simp_all [Val.kind, Val.typ, Ty.kind]
      rw [set_ptr env k e p f (fun t => hnp t none)]
      unfold setElem
      obtain ⟨z, hzz⟩ := hz e
      have hzk := Zero_mono env n e z hzz k (by omega)
      cases p with
      | none =>
        obtain ⟨v, r, hv⟩ := hconv z
        simp only [hzk, hv]
        exact ⟨_, _, rfl⟩
      | some x =>
        obtain ⟨v, r, hv⟩ := hconv x
        simp only [hv]
        exact ⟨_, _, rfl⟩
    · rw [set_nonptr env k to_ f hk]
      exact hconv to_
  | succ d ih =>
    intro f to_ fuel hd hfuel
    obtain ⟨k, rfl⟩ : ∃ k, fuel = k + 1 := ⟨fuel - 1, by omega⟩
    have hconv : ∀ target, ∃ v r, setConvert env (set env k) target f = .ok (v, r) := by
      intro target
      unfold setConvert
      split
      · exact ⟨_, _, rfl⟩
      · split
        · exact ⟨_, _, rfl⟩
        · split
          · rename_i t q _
            cases q with
            | none =>
              obtain ⟨j, rfl⟩ : ∃ j, k = j + 1 := ⟨k - 1, by omega⟩
              exact ⟨target, true, by simp [set]⟩
            | some g =>
              exact ih g target k (by simp [ptrDepth] at hd; omega) (by omega)
          · exact ⟨_, _, rfl⟩
    by_cases hk : to_.kind = .Ptr
    · obtain ⟨e, p, rfl⟩ : ∃ e p, to_ = .ptr e p := by
        cases to_ <;> simp_all [Val.kind, Val.typ, Ty.kind]
      by_cases hnil : ∃ t, f = .ptr t none
      · obtain ⟨t, rfl⟩ := hnil
        exact ⟨_, _, rfl⟩
      · rw [set_ptr env k e p f (fun t h => hnil ⟨t, h⟩)]
        unfold setElem
        obtain ⟨z, hzz⟩ := hz e
        have hzk := Zero_mono env n e z hzz k (by omega)
        cases p with
        | none =>
          obtain ⟨v, r, hv⟩ := hconv z
          simp only [hzk, hv]
          exact ⟨_, _, rfl⟩
        | some x =>
          obtain ⟨v, r, hv⟩ := hconv x
          simp only [hv]
          exact ⟨_, _, rfl⟩
    · rw [set_nonptr env k to_ f hk]
      exact hconv to_


theorem setElem_target (env : Env) (n k : Nat) (e : Ty) (p : Option Val) (target : Val)
    (rest : Val → Res (Val × Bool))
    (hp : p = some target ∨ (p = none ∧ Zero env n e = .ok target)) (hk : n ≤ k) :
    setElem env k rest e p = setElem env k rest e (some target) := by
  rcases hp with rfl | ⟨rfl, hzero⟩
  · rfl
  · simp only [setElem, Zero_mono env n e target hzero k hk]

/-- C12, as stated, fails: the pointer to `U` implements `sql.Scanner`, the
destination is a non-nil `*U` and the source a non-nil `*T`, whose pointee
type `T` converts to `U`; `set` hands the pointer to `Scan`, which refuses it,
and returns false with the pointee as it was. -/
theorem set_pointer_scans_first :
    ConvertibleTo scanEnv (.named "T") (.named "U") = true ∧
    Convert (.struct "T" [.int 7]) (.named "U") = .struct "U" [.int 7] ∧
    set scanEnv 3 (.ptr (.named "U") (some (.struct "U" [.int 0])))
        (some (.ptr (.named "T") (some (.struct "T" [.int 7]))))
      = .ok (.ptr (.named "U") (some (.struct "U" [.int 0])), false) := by
  decide

/-- C12, amended: let the destination of `set` be a pointer with pointee
`target` (its pointee, or a fresh zero value when it is nil).  A nil pointer as
source makes the destination nil, and `set` returns true.  For any other valid
source the destination is non-nil afterwards and holds the outcome of lines
235 to 246 on `target`; when the type of the source converts to the type of
`target`, the pointee is the converted source and `set` returns true; and when
the source is a non-nil pointer whose own type does not convert, the pointee is
not itself a pointer and has no `Scan` hook, and the type of the pointee of the
source converts, the pointee is the converted pointee of the source and `set`
returns true. -/
theorem set_pointer (env : Env) (n : Nat) (e : Ty) (p : Option Val) (target : Val)
    (hz : ∀ t, ∃ z, Zero env n t = .ok z)
    (hp : p = some target ∨ (p = none ∧ Zero env n e = .ok target)) :
    (∀ t k, set env (k + 1) (.ptr e p) (some (.ptr t none)) = .ok (.ptr e none, true)) ∧
    (∀ f, (∀ t, f ≠ .ptr t none) → ∀ k, n + ptrDepth f ≤ k →
      ∃ target' r, setConvert env (set env k) target f = .ok (target', r) ∧
        set env (k + 1) (.ptr e p) (some f) = .ok (.ptr e (some target'), r)) ∧
    (∀ f, (∀ t, f ≠ .ptr t none) → ConvertibleTo env f.typ target.typ = true → ∀ k, n ≤ k →
      set env (k + 1) (.ptr e p) (some f) = .ok (.ptr e (some (Convert f target.typ)), true)) ∧
    (∀ t g, ConvertibleTo env (.ptr t) target.typ = false → scannerOf env target = none →
      target.kind ≠ .Ptr → ConvertibleTo env g.typ target.typ = true → ∀ k, n ≤ k →
      set env (k + 2) (.ptr e p) (some (.ptr t (some g)))
        = .ok (.ptr e (some (Convert g target.typ)), true)) := by
  refine ⟨fun t k => rfl, ?_, ?_, ?_⟩
  · intro f hf k hk
    have hconv : ∃ target' r, setConvert env (set env k) target f = .ok (target', r) := by
      unfold setConvert
      split
      · exact ⟨_, _, rfl⟩
      · split
        · exact ⟨_, _, rfl⟩
        · split
          · rename_i t q _
            cases q with
            | none => exact absurd rfl (hf t)
            | some g =>
              exact set_total env n hz (ptrDepth g) g target k (le_refl _)
                (by simp [ptrDepth] at hk; omega)
          · exact ⟨_, _, rfl⟩
    obtain ⟨target', r, h⟩ := hconv
    refine ⟨target', r, h, ?_⟩
    rw [set_ptr env k e p f hf, setElem_target env n k e p target _ hp (by omega)]
    simp only [setElem, h]
  · intro f hf hc k hk
    rw [set_ptr env k e p f hf, setElem_target env n k e p target _ hp hk]
    simp [setElem, setConvert, hc]
  · intro t g hnc hscan hkind hc k hk
    rw [set_ptr env (k + 1) e p _ (by simp),
      setElem_target env n (k + 1) e p target _ hp (by omega)]
    have h1 : setConvert env (set env (k + 1)) target (.ptr t (some g))
        = set env (k + 1) target (some g) := by
      have hty : (Val.ptr t (some g)).typ = .ptr t := rfl
      unfold setConvert
      rw [hty, hnc, hscan]
      simp
    simp only [setElem, h1, set_convertible env k target g hkind hc]


/-- Every type of `scanEnv` has a zero value. -/
theorem scanEnv_zero (t : Ty) : ∃ z, Zero scanEnv 1 t = .ok z := by
  cases t with
  | named m =>
    by_cases h1 : m = "T"
    · subst h1; exact ⟨.struct "T" [.int 0], by decide⟩
    · by_cases h2 : m = "U"
      · subst h2; exact ⟨.struct "U" [.int 0], by decide⟩
      · exact ⟨.struct m [], by simp [Zero, scanEnv, h1, h2, mapRes]⟩
  | _ => exact ⟨_, rfl⟩

/-- Witness of the amended C12 on a nil `*int8` destination: a nil `*int`
makes it nil; the `int` 300 makes it point to the `int8` 44; a pointer to the
`int` 300 also does, through the pointee of the source. -/
theorem set_pointer_witness :
    set scanEnv 2 (.ptr .int8 none) (some (.ptr .int none)) = .ok (.ptr .int8 none, true) ∧
    (∃ target' r, setConvert scanEnv (set scanEnv 2) (.int8 0) (.ptr .int (some (.int 300)))
        = .ok (target', r) ∧
      set scanEnv 3 (.ptr .int8 none) (some (.ptr .int (some (.int 300))))
        = .ok (.ptr .int8 (some target'), r)) ∧
    set scanEnv 2 (.ptr .int8 none) (some (.int 300))
      = .ok (.ptr .int8 (some (Convert (.int 300) (Val.int8 0).typ)), true) ∧
    set scanEnv 3 (.ptr .int8 none) (some (.ptr .int (some (.int 300))))
      = .ok (.ptr .int8 (some (Convert (.int 300) (Val.int8 0).typ)), true) :=
  ⟨(set_pointer scanEnv 1 .int8 none (.int8 0) scanEnv_zero (Or.inr ⟨rfl, rfl⟩)).1 .int 1,
   (set_pointer scanEnv 1 .int8 none (.int8 0) scanEnv_zero (Or.inr ⟨rfl, rfl⟩)).2.1
     (.ptr .int (some (.int 300))) (by simp) 2 (by decide),
   (set_pointer scanEnv 1 .int8 none (.int8 0) scanEnv_zero (Or.inr ⟨rfl, rfl⟩)).2.2.1
     (.int 300) (by simp) (by decide) 1 (by decide),
   (set_pointer scanEnv 1 .int8 none (.int8 0) scanEnv_zero (Or.inr ⟨rfl, rfl⟩)).2.2.2
     .int (.int 300) (by decide) rfl (by decide) (by decide) 1 (by decide)⟩

/-- C13: in `set` with a valid source `f`, let the destination that line 235
sees be `to_` (a destination that is not a pointer) or `x` (the pointee of a
pointer destination, the source not being a nil pointer).  If the type of `f`
converts to the type of that destination, it receives the converted value and
`set` returns true, whatever the `Scan` hooks of the program are.  If it does
not convert and the destination, a struct `m`, has the hook `h`, the
destination becomes what `h` makes of it when run on the source value, and
`set` returns true exactly when `h` returns no error. -/
theorem set_convert_or_scan (env : Env) (fuel : Nat) (to_ f x : Val) (e : Ty)
    (hk : to_.kind ≠ .Ptr) (hf : ∀ t, f ≠ .ptr t none) :
    (ConvertibleTo env f.typ to_.typ = true →
      ∀ hook : String → Option (List Val → Option Val → List Val × Bool),
        set (fun n => ⟨(env n).fields, (env n).methods, hook n⟩) (fuel + 1) to_ (some f)
          = .ok (Convert f to_.typ, true)) ∧
    (ConvertibleTo env f.typ x.typ = true →
      ∀ hook : String → Option (List Val → Option Val → List Val × Bool),
        set (fun n => ⟨(env n).fields, (env n).methods, hook n⟩) (fuel + 1) (.ptr e (some x))
          (some f) = .ok (.ptr e (some (Convert f x.typ)), true)) ∧
    (∀ m fs h, to_ = .struct m fs → ConvertibleTo env f.typ to_.typ = false →
      (env m).Scan = some h →
        set env (fuel + 1) to_ (some f)
          = .ok (.struct m (h fs (Interface f)).1, !(h fs (Interface f)).2)) ∧
    (∀ m fs h, x = .struct m fs → ConvertibleTo env f.typ x.typ = false →
      (env m).Scan = some h →
        set env (fuel + 1) (.ptr e (some x)) (some f)
          = .ok (.ptr e (some (.struct m (h fs (Interface f)).1)), !(h fs (Interface f)).2)) := by
  have hc : ∀ (hook : String → Option (List Val → Option Val → List Val × Bool)) (a b : Ty),
      ConvertibleTo (fun n => ⟨(env n).fields, (env n).methods, hook n⟩) a b
        = ConvertibleTo env a b := fun _ _ _ => rfl
  refine ⟨?_, ?_, ?_, ?_⟩
  · intro h hook
    rw [set_nonptr _ fuel to_ f hk]
    simp [setConvert, hc, h]
  · intro h hook
    rw [set_ptr _ fuel e (some x) f hf]
    simp [setElem, setConvert, hc, h]
  · intro m fs h hto hnc hs
    subst hto
    rw [set_nonptr _ fuel _ f hk]
    simp [setConvert, hnc, scannerOf, hs]
  · intro m fs h hx hnc hs
    subst hx
    rw [set_ptr _ fuel e _ f hf]
    simp [setElem, setConvert, hnc, scannerOf, hs]

/-- Witness of C13 in `scanEnv`: a `T` into a `U` is converted, with no call
of the hook of `U`; the `int` 7 into a `U`, and into the pointee of a `*U`, is
scanned and `set` returns true; the string `"x"` is refused by the hook and
`set` returns false. -/
theorem set_convert_or_scan_witness :
    set (fun n => ⟨(scanEnv n).fields, (scanEnv n).methods, (scanEnv n).Scan⟩) 1
        (.struct "U" [.int 0]) (some (.struct "T" [.int 7]))
      = .ok (Convert (.struct "T" [.int 7]) (Val.struct "U" [.int 0]).typ, true) ∧
    set scanEnv 1 (.struct "U" [.int 0]) (some (.int 7))
      = .ok (.struct "U" [.int 7], true) ∧
    set scanEnv 1 (.ptr (.named "U") (some (.struct "U" [.int 0]))) (some (.int 7))
      = .ok (.ptr (.named "U") (some (.struct "U" [.int 7])), true) ∧
    set scanEnv 1 (.struct "U" [.int 0]) (some (.str "x"))
      = .ok (.struct "U" [.int 0], false) :=
  ⟨(set_convert_or_scan scanEnv 0 (.struct "U" [.int 0]) (.struct "T" [.int 7]) (.int 0) .int
      (by decide) (by simp)).1 (by decide) _,
   ((set_convert_or_scan scanEnv 0 (.struct "U" [.int 0]) (.int 7) (.int 0) .int
      (by decide) (by simp)).2.2.1 "U" [.int 0] _ rfl (by decide) rfl).trans (by decide),
   ((set_convert_or_scan scanEnv 0 (.int 0) (.int 7) (.struct "U" [.int 0]) (.named "U")
      (by decide) (by simp)).2.2.2 "U" [.int 0] _ rfl (by decide) rfl).trans (by decide),
   ((set_convert_or_scan scanEnv 0 (.struct "U" [.int 0]) (.str "x") (.int 0) .int
      (by decide) (by simp)).2.2.1 "U" [.int 0] _ rfl (by decide) rfl).trans (by decide)⟩

/-! ## The need-set of `deepFields` -/

/-- An invariant of a loop over the fields of a struct type that may depend on
the position of the field. -/
theorem forFields_invariant_at {σ : Type} (P : σ → Prop)
    (body : Nat → StructField → σ → Res σ) :
    ∀ (fs : List StructField) (i : Nat) (s s' : σ),
      (∀ k f s s', fs[k]? = some f → P s → body (i + k) f s = .ok s' → P s') →
      P s → forFields body i fs s = .ok s' → P s'
  | [], _, s, s', _, hs, h => by
    simp only [forFields, Res.ok.injEq] at h
    exact h ▸ hs
  | f :: fs, i, s, s', hbody, hs, h => by
    simp only [forFields] at h
    cases hb : body i f s with
    | ok s1 =>
      rw [hb] at h
      refine forFields_invariant_at P body fs (i + 1) s1 s' ?_
        (hbody 0 f s s1 (by simp) hs (by simpa using hb)) h
      intro k g t t' hk ht hstep
      refine hbody (k + 1) g t t' (by simpa using hk) ht ?_
      rw [show i + (k + 1) = i + 1 + k by omega]
      exact hstep
    | panic m => rw [hb] at h; cases h
    | outOfFuel => rw [hb] at h; cases h

/-- A nil embedded pointer is skipped: nothing is recorded, nothing is
collected, and the walk does not descend. -/
theorem deepFieldsStep_nil
    (self : Ty → Val → String → Option NeedMap → Res (List StructField × Option NeedMap))
    (rv : Val) (i : Nat) (v : StructField) (st : DeepState) (s : Value) (e : Ty)
    (hs : indirectVal rv false = some s) (hv : Field s.val i = .ok (.ptr e none)) :
    v.Anonymous = true → deepFieldsStep self rv i v st = .ok st := by
  intro ha
  unfold deepFieldsStep
  simp [ha, hs, hv]


/-- What one iteration of the loop of `deepFields` does to the need-map, given
what the recursive call does to it. -/
theorem deepFieldsStep_need (env : Env)
    (self : Ty → Val → String → Option NeedMap → Res (List StructField × Option NeedMap))
    (t : Ty) (rv : Val) (n : String) (i : Nat) (v : StructField) (st st' : DeepState)
    (ks : List String)
    (hself : ∀ t' rv' pfx' ks1 fs need', self t' rv' pfx' (some (.made ks1)) = .ok (fs, need') →
      ∃ ks2, need' = some (.made ks2) ∧ (∀ k ∈ ks1, k ∈ ks2) ∧
        ∀ k ∈ ks2, k ∈ ks1 ∨ ∃ q name, k = q ++ name ∧ NonNilEmbedded env t' rv' name)
    (ht : indirectType t = .named n) (hv : (env n).fields[i]? = some v)
    (hneed : st.need = some (.made ks))
    (h : deepFieldsStep self rv i v st = .ok st') :
    ∃ ks', st'.need = some (.made ks') ∧ (∀ k ∈ ks, k ∈ ks') ∧
      ∀ k ∈ ks', k ∈ ks ∨ ∃ q name, k = q ++ name ∧ NonNilEmbedded env t rv name := by
  unfold deepFieldsStep at h
  split at h
  · rename_i ha
    split at h
    · cases h
    · rename_i s hs
      split at h
      · rename_i value hval
        split at h
        · cases h
          exact ⟨ks, hneed, fun k hk => hk, fun k hk => Or.inl hk⟩
        · rename_i hnn
          simp only at h
          split at h
          · rename_i fs need' hrec
            cases h
            simp only
            by_cases hkind : value.kind = .Ptr
            · obtain ⟨e, p, rfl⟩ : ∃ e p, value = .ptr e (some p) := by
                cases value with
                | ptr e p =>
                  cases p with
                  | none => exact absurd rfl (hnn e)
                  | some p => exact ⟨e, p, rfl⟩
                | _ => simp [Val.kind, Val.typ, Ty.kind] at hkind
              simp only [hkind, ↓reduceIte, hneed, NeedMap.insert] at hrec
              obtain ⟨ks2, h2, hsub, honly⟩ := hself _ _ _ _ _ _ hrec
              refine ⟨ks2, h2, fun k hk => hsub k (List.mem_append_left _ hk), ?_⟩
              intro k hk
              rcases honly k hk with h1 | ⟨q, name, hq, hn⟩
              · rcases List.mem_append.1 h1 with h1 | h1
                · exact Or.inl h1
                · simp only [List.mem_singleton] at h1
                  exact Or.inr ⟨st.pfx, v.Name, h1,
                    NonNilEmbedded.direct t rv n s i v e p ht hv ha hs hval⟩
              · exact Or.inr ⟨q, name, hq,
                  NonNilEmbedded.nested t rv n s i v _ name ht hv ha hs hval hn⟩
            · simp only [hkind, ↓reduceIte, hneed] at hrec
              obtain ⟨ks2, h2, hsub, honly⟩ := hself _ _ _ _ _ _ hrec
              refine ⟨ks2, h2, hsub, ?_⟩
              intro k hk
              rcases honly k hk with h1 | ⟨q, name, hq, hn⟩
              · exact Or.inl h1
              · exact Or.inr ⟨q, name, hq,
                  NonNilEmbedded.nested t rv n s i v _ name ht hv ha hs hval hn⟩
          · cases h
          · cases h
      · cases h
      · cases h
  · cases h
    exact ⟨ks, hneed, fun k hk => hk, fun k hk => Or.inl hk⟩

/-- The need-map after `deepFields`: the keys it had, and keys recorded for
embedded pointer fields that are not nil. -/
theorem deepFields_need (env : Env) : ∀ (fuel : Nat) (t : Ty) (rv : Val) (pfx : String)
    (ks : List String) (fs : List StructField) (need' : Option NeedMap),
    deepFields env fuel t rv pfx (some (.made ks)) = .ok (fs, need') →
    ∃ ks', need' = some (.made ks') ∧ (∀ k ∈ ks, k ∈ ks') ∧
      ∀ k ∈ ks', k ∈ ks ∨ ∃ q name, k = q ++ name ∧ NonNilEmbedded env t rv name
  | 0, _, _, _, _, _, _, h => by simp [deepFields] at h
  | fuel + 1, t, rv, pfx, ks, fs, need', h => by
    unfold deepFields at h
    split at h
    · rename_i n ht
      split at h
      · rename_i st hst
        simp only [Res.ok.injEq, Prod.mk.injEq] at h
        rw [← h.2]
        refine forFields_invariant_at
          (fun st : DeepState => ∃ ks', st.need = some (.made ks') ∧ (∀ k ∈ ks, k ∈ ks') ∧
            ∀ k ∈ ks', k ∈ ks ∨ ∃ q name, k = q ++ name ∧ NonNilEmbedded env t rv name)
          _ (env n).fields 0 _ st ?_ ⟨ks, rfl, fun k hk => hk, fun k hk => Or.inl hk⟩ hst
        intro k f s s' hk hP hstep
        obtain ⟨ks1, h1, hsub1, honly1⟩ := hP
        rw [Nat.zero_add] at hstep
        obtain ⟨ks2, h2, hsub2, honly2⟩ := deepFieldsStep_need env _ t rv n k f s s' ks1
          (fun t' rv' pfx' ks3 fs3 need3 h3 => deepFields_need env fuel t' rv' pfx' ks3 fs3 need3 h3)
          ht hk h1 hstep
        refine ⟨ks2, h2, fun a ha => hsub2 a (hsub1 a ha), ?_⟩
        intro a ha
        rcases honly2 a ha with h3 | h3
        · exact honly1 a h3
        · exact Or.inr h3
      · cases h
      · cases h
    · simp only [Res.ok.injEq, Prod.mk.injEq] at h
      rw [← h.2]
      exact ⟨ks, rfl, fun k hk => hk, fun k hk => Or.inl hk⟩


/-- A property established by the iteration on one field and kept by every
iteration holds after the loop. -/
theorem forFields_reach {σ : Type} (R Q : σ → Prop) (body : Nat → StructField → σ → Res σ)
    (hR : ∀ j g s s', R s → body j g s = .ok s' → R s')
    (hQ : ∀ j g s s', Q s → body j g s = .ok s' → Q s') :
    ∀ (fs : List StructField) (k i : Nat) (f : StructField) (st st' : σ),
      fs[k]? = some f → (∀ s s', R s → body (i + k) f s = .ok s' → Q s') →
      R st → forFields body i fs st = .ok st' → Q st'
  | [], _, _, _, _, _, hk, _, _, _ => by simp at hk
  | g :: fs, k, i, f, st, st', hk, hstep, hst, h => by
    simp only [forFields] at h
    cases hb : body i g st with
    | ok s1 =>
      rw [hb] at h
      cases k with
      | zero =>
        simp only [List.getElem?_cons_zero, Option.some.injEq] at hk
        subst hk
        have hq : Q s1 := hstep st s1 hst (by simpa using hb)
        exact forFields_invariant Q body hQ fs (i + 1) s1 st' hq h
      | succ k =>
        simp only [List.getElem?_cons_succ] at hk
        refine forFields_reach R Q body hR hQ fs k (i + 1) f s1 st' hk ?_ (hR i g st s1 hst hb) h
        intro s s' hs hstep'
        refine hstep s s' hs ?_
        rw [show i + (k + 1) = i + 1 + k by omega]
        exact hstep'
    | panic m => rw [hb] at h; cases h
    | outOfFuel => rw [hb] at h; cases h

/-- One iteration of the loop of `deepFields` keeps the keys of the
need-map. -/
theorem deepFieldsStep_keeps (env : Env) (fuel : Nat) (rv : Val) (i : Nat) (v : StructField)
    (st st' : DeepState) (ks : List String) (hneed : st.need = some (.made ks))
    (h : deepFieldsStep (deepFields env fuel) rv i v st = .ok st') :
    ∃ ks', st'.need = some (.made ks') ∧ ∀ k ∈ ks, k ∈ ks' := by
  unfold deepFieldsStep at h
  split at h
  · split at h
    · cases h
    · split at h
      · split at h
        · cases h
          exact ⟨ks, hneed, fun k hk => hk⟩
        · simp only at h
          split at h
          · rename_i fs need' hrec
            cases h
            simp only
            rw [hneed] at hrec
            split at hrec
            · obtain ⟨ks2, h2, hsub, _⟩ := deepFields_need env fuel _ _ _ _ _ _ hrec
              exact ⟨ks2, h2, fun k hk => hsub k (List.mem_append_left _ hk)⟩
            · obtain ⟨ks2, h2, hsub, _⟩ := deepFields_need env fuel _ _ _ _ _ _ hrec
              exact ⟨ks2, h2, hsub⟩
          · cases h
          · cases h
      · cases h
      · cases h
  · cases h
    exact ⟨ks, hneed, fun k hk => hk⟩

/-- Every embedded pointer field that is not nil has a key in the need-map
after `deepFields`. -/
theorem deepFields_records (env : Env) (t : Ty) (rv : Val) (name : String)
    (hn : NonNilEmbedded env t rv name) :
    ∀ (fuel : Nat) (pfx : String) (ks : List String) (fs : List StructField)
      (need' : Option NeedMap),
      deepFields env fuel t rv pfx (some (.made ks)) = .ok (fs, need') →
      ∃ ks' q, need' = some (.made ks') ∧ q ++ name ∈ ks' := by
  induction hn with
  | direct t rv n s i f e p ht hf ha hs hval =>
    intro fuel pfx ks fs need' h
    cases fuel with
    | zero => simp [deepFields] at h
    | succ fuel =>
      unfold deepFields at h
      rw [ht] at h
      simp only at h
      split at h
      · rename_i st hst
        simp only [Res.ok.injEq, Prod.mk.injEq] at h
        rw [← h.2]
        refine forFields_reach (fun st : DeepState => ∃ ks', st.need = some (.made ks'))
          (fun st : DeepState => ∃ ks' q, st.need = some (.made ks') ∧ q ++ f.Name ∈ ks')
          _ ?_ ?_ (env n).fields i 0 f _ st hf ?_ ⟨ks, rfl⟩ hst
        · intro j g a a' ⟨k1, h1⟩ hstep
          obtain ⟨k2, h2, _⟩ := deepFieldsStep_keeps env fuel rv j g a a' k1 h1 hstep
          exact ⟨k2, h2⟩
        · intro j g a a' ⟨k1, q, h1, hq⟩ hstep
          obtain ⟨k2, h2, hsub⟩ := deepFieldsStep_keeps env fuel rv j g a a' k1 h1 hstep
          exact ⟨k2, q, h2, hsub _ hq⟩
        · intro a a' ⟨k1, h1⟩ hstep
          rw [Nat.zero_add] at hstep
          unfold deepFieldsStep at hstep
          simp only [ha, ↓reduceIte, hs, hval, Val.kind, Val.typ, Ty.kind, h1,
            NeedMap.insert] at hstep
          split at hstep
          · rename_i fs2 need2 hrec
            cases hstep
            obtain ⟨ks2, h2, hsub, _⟩ := deepFields_need env fuel _ _ _ _ _ _ hrec
            exact ⟨ks2, a.pfx, h2, hsub _ (by simp)⟩
          · cases hstep
          · cases hstep
      · cases h
      · cases h
  | nested t rv n s i f value name ht hf ha hs hval hnn ih =>
    intro fuel pfx ks fs need' h
    cases fuel with
    | zero => simp [deepFields] at h
    | succ fuel =>
      unfold deepFields at h
      rw [ht] at h
      simp only at h
      split at h
      · rename_i st hst
        simp only [Res.ok.injEq, Prod.mk.injEq] at h
        rw [← h.2]
        refine forFields_reach (fun st : DeepState => ∃ ks', st.need = some (.made ks'))
          (fun st : DeepState => ∃ ks' q, st.need = some (.made ks') ∧ q ++ name ∈ ks')
          _ ?_ ?_ (env n).fields i 0 f _ st hf ?_ ⟨ks, rfl⟩ hst
        · intro j g a a' ⟨k1, h1⟩ hstep
          obtain ⟨k2, h2, _⟩ := deepFieldsStep_keeps env fuel rv j g a a' k1 h1 hstep
          exact ⟨k2, h2⟩
        · intro j g a a' ⟨k1, q, h1, hq⟩ hstep
          obtain ⟨k2, h2, hsub⟩ := deepFieldsStep_keeps env fuel rv j g a a' k1 h1 hstep
          exact ⟨k2, q, h2, hsub _ hq⟩
        · intro a a' ⟨k1, h1⟩ hstep
          rw [Nat.zero_add] at hstep
          have hnotnil : ∀ e, value ≠ .ptr e none := by
            intro e he
            subst he
            cases hnn with
            | direct _ _ _ _ _ _ _ _ _ _ _ hs' _ => simp [indirectVal] at hs'
            | nested _ _ _ _ _ _ _ _ _ _ _ hs' _ _ => simp [indirectVal] at hs'
          unfold deepFieldsStep at hstep
          simp only [ha, ↓reduceIte, hs, hval, h1] at hstep
          split at hstep
          · rename_i fs2 need2 hrec
            cases hstep
            simp only
            split at hrec
            · exact ih fuel _ _ _ _ hrec
            · exact ih fuel _ _ _ _ hrec
          · cases hstep
          · cases hstep
      · cases h
      · cases h


/-- C14, as stated, fails: in the source `Src{A: &A{P: nil}, P: nil}` the
embedded pointer `A` is not nil and the embedded pointers `A.P` and `P` are
nil; after the walk the need-set holds the key `"A"`, of the pointer that is
not nil, and no key of a nil pointer. -/
theorem deepFields_records_non_nil :
    deepFields nilEmbedEnv 3 (.named "Src")
        (.struct "Src" [.ptr (.named "A") (some (.struct "A" [.ptr (.named "P") none])),
          .ptr (.named "P") none]) "" (some (.made []))
      = .ok ([], some (.made ["A"])) := by
  decide

/-- C14, amended: when `deepFields` has walked a source value with an empty
need-set, the need-set holds a key `prefix + name` for every embedded pointer
field that is not nil in the source, at the top level or inside embedded
fields that are not nil pointers, and no other key; and the loop iteration on
an embedded pointer that is nil leaves the need-set and the collected fields
as they are, without descending. -/
theorem deepFields_need_set (env : Env) (fuel : Nat) (t : Ty) (rv : Val) (pfx : String)
    (fs : List StructField) (need' : Option NeedMap)
    (h : deepFields env fuel t rv pfx (some (.made [])) = .ok (fs, need')) :
    ∃ ks, need' = some (.made ks) ∧
      (∀ name, NonNilEmbedded env t rv name → ∃ q, q ++ name ∈ ks) ∧
      (∀ k ∈ ks, ∃ q name, k = q ++ name ∧ NonNilEmbedded env t rv name) ∧
      (∀ self i v st s e, v.Anonymous = true → indirectVal rv false = some s →
        Field s.val i = .ok (.ptr e none) → deepFieldsStep self rv i v st = .ok st) := by
  obtain ⟨ks, hks, _, honly⟩ := deepFields_need env fuel t rv pfx [] fs need' h
  refine ⟨ks, hks, ?_, ?_, ?_⟩
  · intro name hn
    obtain ⟨ks', q, h1, h2⟩ := deepFields_records env t rv name hn fuel pfx [] fs need' h
    rw [hks] at h1
    simp only [Option.some.injEq, NeedMap.made.injEq] at h1
    exact ⟨q, h1 ▸ h2⟩
  · intro k hk
    rcases honly k hk with h1 | h1
    · simp at h1
    · exact h1
  · intro self i v st s e ha hs hv
    exact deepFieldsStep_nil self rv i v st s e hs hv ha

/-- Witness of the amended C14: the walk of `Src{A: &A{P: nil}, P: nil}`. -/
theorem deepFields_need_set_witness :
    ∃ ks, some (NeedMap.made ["A"]) = some (.made ks) ∧
      (∀ name, NonNilEmbedded nilEmbedEnv (.named "Src")
          (.struct "Src" [.ptr (.named "A") (some (.struct "A" [.ptr (.named "P") none])),
            .ptr (.named "P") none]) name → ∃ q, q ++ name ∈ ks) ∧
      (∀ k ∈ ks, ∃ q name, k = q ++ name ∧ NonNilEmbedded nilEmbedEnv (.named "Src")
          (.struct "Src" [.ptr (.named "A") (some (.struct "A" [.ptr (.named "P") none])),
            .ptr (.named "P") none]) name) ∧
      (∀ self i v st s e, v.Anonymous = true →
        indirectVal (.struct "Src" [.ptr (.named "A")
          (some (.struct "A" [.ptr (.named "P") none])), .ptr (.named "P") none]) false
          = some s →
        Field s.val i = .ok (.ptr e none) →
        deepFieldsStep self (.struct "Src" [.ptr (.named "A")
          (some (.struct "A" [.ptr (.named "P") none])), .ptr (.named "P") none]) i v st
          = .ok st) :=
  deepFields_need_set nilEmbedEnv 3 (.named "Src")
    (.struct "Src" [.ptr (.named "A") (some (.struct "A" [.ptr (.named "P") none])),
      .ptr (.named "P") none]) "" [] (some (.made ["A"])) (by decide)


/-- C15 fails on the code.  In the source `Src{A: &A{P: nil}, P: &P{}}` the
field `P` is declared in `Src` itself, next to `A`, yet `deepFields` records
it under the key `"A.P"`: the running prefix still carries the name of the
sibling `A`.  In the same way `InitNilFields`, asked for the keys `"A"` and
`"P"` on `Dst{A: nil, P: nil}`, allocates `A`, then looks the sibling `P` up
under `"A.P"` and leaves it nil; asked for `"P"` alone it allocates `P`. -/
theorem prefix_carried_to_sibling :
    deepFields nilEmbedEnv 3 (.named "Src")
        (.struct "Src" [.ptr (.named "A") (some (.struct "A" [.ptr (.named "P") none])),
          .ptr (.named "P") (some (.struct "P" []))]) "" (some (.made []))
      = .ok ([], some (.made ["A", "A.P"])) ∧
    InitNilFields nilEmbedEnv 3 (.named "Dst") ⟨nilEmbedDst, true⟩ "" (some (.made ["A", "P"]))
      = .ok (.struct "Dst" [.ptr (.named "A") (some (.struct "A" [.ptr (.named "P") none])),
          .ptr (.named "P") none]) ∧
    InitNilFields nilEmbedEnv 3 (.named "Dst") ⟨nilEmbedDst, true⟩ "" (some (.made ["P"]))
      = .ok (.struct "Dst" [.ptr (.named "A") none,
          .ptr (.named "P") (some (.struct "P" []))]) := by
  decide

/-! ## Duplicate field names -/

/-- An iteration of the field pass for a name that `FieldByName` does not
find on the source leaves the destination and the source as they are. -/
theorem copyField_unselected (env : Env) (fuel : Nat)
    (self : Option Val → Option Val → Res ((Option Val × Option Val) × Option String))
    (destAddr : Bool) (field : StructField) (S : String) (st : Val × Val)
    (hs : IsStruct S st.2) (h : typeFieldByName env fuel S field.Name = .ok none) :
    copyField env fuel self destAddr field st = .ok (st, none) := by
  obtain ⟨fs, hfs⟩ := hs
  unfold copyField
  rw [hfs]
  simp only [FieldByName, h]

/-- A name that `FieldByName` does not find on the source leaves the
destination field of that name as it was. -/
theorem unselected_field (env : Env) (fuel : Nat) (S D X : String) (j : Nat)
    (sfs dfs : List Val) (x : Val) (sa : Bool)
    (toV toV' : Val) (fromValue fromValue' : Option Val)
    (hfrom : indirect (ValueOf fromValue) = some ⟨.struct S sfs, sa⟩)
    (hsrcX : typeFieldByName env fuel S X = .ok none)
    (hto : indirect (ValueOf (some toV)) = some ⟨.struct D dfs, true⟩)
    (hflat : Flat env D) (hj : findField X 0 (env D).fields = some j)
    (hx : dfs[j]? = some x)
    (hnom : MethodByName env (.named S) sa X = none) (hkeep : MethodsKeep env D j)
    (hcopy : Copy env (fuel + 1) (some toV) fromValue = .ok ((some toV', fromValue'), none)) :
    ∃ dfs', indirect (ValueOf (some toV')) = some ⟨.struct D dfs', true⟩ ∧
      dfs'[j]? = some x := by
  rw [Copy_struct_dest env fuel toV D S _ fromValue hto ⟨dfs, rfl⟩ (fun s hs => by
    rw [hfrom] at hs; cases hs; rfl)] at hcopy
  obtain ⟨d, so, hbody, rfl, _⟩ := wrapTo_ok _ _ _ _ _ _ hcopy
  rw [hfrom, copyBody_struct_eq] at hbody
  obtain ⟨s3, hbody, _⟩ := structResult_ok _ _ _ _ hbody
  have h3 := copyStruct_invariant env fuel (Copy env fuel) (.named S) (.named D)
    ⟨.struct S sfs, sa⟩ ⟨.struct D dfs, true⟩
    (fun st => HasField D j x st.1 ∧ IsStruct S st.2)
    (fun f st st' err hd hh =>
      ⟨by
        by_cases hn : f.Name = X
        · rw [copyField_unselected env fuel _ true f S st hd.2 (by rw [hn]; exact hsrcX)] at hh
          cases hh
          exact hd.1
        · exact copyField_keep env fuel _ true f D X j x st st' err hflat hj hn hkeep hd.1 hh,
       copyField_source_struct env fuel _ true f S st st' err hd.2 hh⟩)
    (fun f st st' hd hh =>
      ⟨copyMethod_keep env fuel sa true f D X j _ st st' hflat hj (by
          obtain ⟨fs', hfs'⟩ := hd.2
          by_cases hn : f.Name = X
          · exact Or.inr (by rw [hn, hfs']; exact hnom)
          · exact Or.inl hn) hd.1 hh,
       copyMethod_source_struct env fuel sa true f S st st' hd.2 hh⟩)
    (fun need dest1 hinit => by
      cases fuel with
      | zero => simp [InitNilFields] at hinit
      | succ fuel =>
        rw [InitNilFields_flat env fuel D _ _ _ hflat] at hinit
        cases hinit
        exact ⟨⟨dfs, rfl, hx⟩, ⟨sfs, rfl⟩⟩)
    _ _ hbody
  obtain ⟨dfs', hd1, hd'⟩ := h3.1
  simp only at hd1
  refine ⟨dfs', ?_, hd'⟩
  rw [hd1]
  have := indirectVal_setIndirect toV false ⟨.struct D dfs, true⟩ (.struct D dfs') hto
    (by simp [Val.kind, Val.typ, Ty.kind])
  simpa [indirect, ValueOf] using this

theorem scanField_queue (Sf : List StructField) (S X : String) (i : Nat) (count : CountMap)
    (idx0 : List Nat) (st : ScanState) (f : StructField) (hf : Sf[i]? = some f)
    (hne : f.Name ≠ X) (h : QueueScan Sf S i st) :
    QueueScan Sf S (i + 1) (scanField X count ⟨S, idx0⟩ st i f) := by
  obtain ⟨h1, h2, h3, h4, h5, h6, h7⟩ := h
  have hlast : ∀ (st' : ScanState), (∀ s, embeddedStruct f = some s → ∃ sc ∈ st'.next, sc.typ = s) →
      (∀ sc ∈ st.next, sc ∈ st'.next) →
      ∀ (idx : Nat) (g : StructField) (s : String), idx < i + 1 → Sf[idx]? = some g →
        embeddedStruct g = some s → ∃ sc ∈ st'.next, sc.typ = s := by
    intro st' hnew hold idx g s hidx hg hs
    rcases Nat.lt_or_ge idx i with hlt | hge
    · obtain ⟨sc, hsc, hty⟩ := h7 idx g s hlt hg hs
      exact ⟨sc, hold sc hsc, hty⟩
    · have : idx = i := by omega
      subst this
      rw [hf] at hg
      cases hg
      exact hnew s hs
  unfold scanField
  simp only [h2, Bool.false_eq_true, ↓reduceIte, hne, h1]
  cases hemb : embeddedStruct f with
  | none =>
    exact ⟨h1, h2, h3, h4, h5, h6, hlast st (fun s hs => by rw [hemb] at hs; cases hs)
      (fun sc hsc => hsc)⟩
  | some s =>
    simp only
    by_cases hc : countGet st.nextCount s > 0
    · simp only [hc, ↓reduceIte]
      refine ⟨rfl, rfl, h3, h4, ?_, ?_, ?_⟩
      · intro sc hsc
        rw [countGet_cons]
        split
        · omega
        · exact h5 sc hsc
      · intro t ht
        rw [countGet_cons] at ht
        split at ht
        · rename_i hts
          rw [hts]
          exact h6 s hc
        · exact h6 t ht
      · exact hlast _ (fun t ht => by
          rw [hemb] at ht
          cases ht
          exact h6 s hc) (fun sc hsc => hsc)
    · simp only [hc, ↓reduceIte]
      have hnot : s ∉ st.next.map (fun sc => sc.typ) := by
        intro hmem
        obtain ⟨sc, hsc, hty⟩ := List.mem_map.1 hmem
        have := h5 sc hsc
        rw [hty] at this
        exact hc this
      refine ⟨rfl, rfl, h3, ?_, ?_, ?_, ?_⟩
      · rw [List.map_append, List.nodup_append]
        refine ⟨h4, by simp, ?_⟩
        intro a ha hb
        simp only [List.map_cons, List.map_nil, List.mem_singleton] at hb
        exact hnot (hb ▸ ha)
      · intro sc hsc
        rw [countGet_cons]
        split
        · split <;> omega
        · rcases List.mem_append.1 hsc with hsc | hsc
          · exact h5 sc hsc
          · rename_i hts
            simp only [List.mem_singleton] at hsc
            subst hsc
            exact absurd rfl hts
      · intro t ht
        rw [countGet_cons] at ht
        split at ht
        · rename_i hts
          exact ⟨⟨s, idx0 ++ [i]⟩, by simp, hts.symm⟩
        · obtain ⟨sc, hsc, hty⟩ := h6 t ht
          exact ⟨sc, List.mem_append_left _ hsc, hty⟩
      · exact hlast _ (fun t ht => by
          rw [hemb] at ht
          cases ht
          exact ⟨⟨s, idx0 ++ [i]⟩, by simp, rfl⟩) (fun sc hsc => List.mem_append_left _ hsc)

theorem scanFields_queue (Sf : List StructField) (S X : String) (count : CountMap)
    (idx0 : List Nat) (hnoX : ∀ g ∈ Sf, g.Name ≠ X) :
    ∀ (fs : List StructField) (i : Nat) (st : ScanState),
      (∀ (j : Nat) (g : StructField), fs[j]? = some g → Sf[i + j]? = some g) →
      QueueScan Sf S i st →
      QueueScan Sf S (i + fs.length) (scanFields X count ⟨S, idx0⟩ i fs st)
  | [], i, st, _, h => by simpa [scanFields] using h
  | f :: fs, i, st, hfs, h => by
    simp only [scanFields, List.length_cons]
    have hf : Sf[i]? = some f := by simpa using hfs 0 f (by simp)
    have := scanFields_queue Sf S X count idx0 hnoX fs (i + 1)
      (scanField X count ⟨S, idx0⟩ st i f)
      (fun j g hj => by
        have := hfs (j + 1) g (by simpa using hj)
        rwa [show i + (j + 1) = i + 1 + j by omega] at this)
      (scanField_queue Sf S X i count idx0 st f hf (hnoX f (List.getElem?_mem hf)) h)
    rwa [show i + (fs.length + 1) = i + 1 + fs.length by omega]


theorem scanField_visited (name : String) (count : CountMap) (scan : fieldScan)
    (st : ScanState) (i : Nat) (f : StructField) :
    (scanField name count scan st i f).visited = st.visited := by
  unfold scanField
  repeat' split
  all_goals rfl

theorem scanField_sticky (name : String) (count : CountMap) (scan : fieldScan)
    (st : ScanState) (i : Nat) (f : StructField) :
    (st.annihilated = true → (scanField name count scan st i f).annihilated = true) ∧
    (Matched st → Matched (scanField name count scan st i f)) ∧
    (f.Name = name → Matched (scanField name count scan st i f)) ∧
    (f.Name = name → Matched st → (scanField name count scan st i f).annihilated = true) := by
  unfold scanField Matched
  by_cases ha : st.annihilated = true
  · simp [ha]
  · by_cases hn : f.Name = name
    · by_cases hc : countGet count scan.typ > 1 ∨ st.ok = true
      · simp [ha, hn, hc]
      · simp only [not_or] at hc
        simp [ha, hn, hc]
    · by_cases hok : st.ok = true
      · simp [ha, hn, hok]
      · simp only [ha, hn, hok, Bool.false_eq_true, ↓reduceIte, false_or, or_self,
          false_implies, implies_true, and_self, and_true, true_and]

theorem scanFields_visited (name : String) (count : CountMap) (scan : fieldScan) :
    ∀ (fs : List StructField) (i : Nat) (st : ScanState),
      (scanFields name count scan i fs st).visited = st.visited
  | [], _, _ => rfl
  | f :: fs, i, st => by
    simp only [scanFields]
    rw [scanFields_visited name count scan fs (i + 1), scanField_visited]

theorem scanFields_sticky (name : String) (count : CountMap) (scan : fieldScan) :
    ∀ (fs : List StructField) (i : Nat) (st : ScanState),
      (st.annihilated = true → (scanFields name count scan i fs st).annihilated = true) ∧
      (Matched st → Matched (scanFields name count scan i fs st)) ∧
      ((∃ g ∈ fs, g.Name = name) → Matched (scanFields name count scan i fs st)) ∧
      ((∃ g ∈ fs, g.Name = name) → Matched st →
        (scanFields name count scan i fs st).annihilated = true)
  | [], _, st => by simp [scanFields]
  | f :: fs, i, st => by
    simp only [scanFields]
    obtain ⟨a1, a2, a3, a4⟩ := scanField_sticky name count scan st i f
    obtain ⟨b1, b2, b3, b4⟩ := scanFields_sticky name count scan fs (i + 1)
      (scanField name count scan st i f)
    refine ⟨fun h => b1 (a1 h), fun h => b2 (a2 h), ?_, ?_⟩
    · rintro ⟨g, hg, hgn⟩
      simp only [List.mem_cons] at hg
      rcases hg with rfl | hg
      · exact b2 (a3 hgn)
      · exact b3 ⟨g, hg, hgn⟩
    · rintro ⟨g, hg, hgn⟩ hm
      simp only [List.mem_cons] at hg
      rcases hg with rfl | hg
      · exact b1 (a4 hgn hm)
      · exact b4 ⟨g, hg, hgn⟩ (a2 hm)

theorem scanType_sticky (env : Env) (name : String) (count : CountMap) (st : ScanState)
    (sc : fieldScan) :
    (st.annihilated = true → (scanType env name count st sc).annihilated = true) ∧
    (Matched st → Matched (scanType env name count st sc)) ∧
    (∀ t, t ∈ (scanType env name count st sc).visited → t = sc.typ ∨ t ∈ st.visited) ∧
    (Declares env sc.typ name → sc.typ ∉ st.visited →
      Matched (scanType env name count st sc)) ∧
    (Declares env sc.typ name → sc.typ ∉ st.visited → Matched st →
      (scanType env name count st sc).annihilated = true) := by
  by_cases ha : st.annihilated = true
  · have hs : scanType env name count st sc = st := by
      unfold scanType
      rw [if_pos ha]
    rw [hs]
    exact ⟨fun h => h, fun h => h, fun t ht => Or.inr ht, fun _ _ => Or.inr ha,
      fun _ _ _ => ha⟩
  · have ha' : st.annihilated = false := by simpa using ha
    rw [scanType_eq env name count st sc ha']
    by_cases hv : sc.typ ∈ st.visited
    · rw [if_pos hv]
      exact ⟨fun h => h, fun h => h, fun t ht => Or.inr ht, fun _ h => absurd hv h,
        fun _ h => absurd hv h⟩
    · rw [if_neg hv]
      obtain ⟨b1, b2, b3, b4⟩ := scanFields_sticky name count sc (env sc.typ).fields 0
        { st with visited := sc.typ :: st.visited }
      refine ⟨fun h => b1 h, fun h => b2 h, ?_, fun h _ => b3 h, fun h _ hm => b4 h hm⟩
      intro t ht
      rw [scanFields_visited] at ht
      simpa using ht

/-- When two of the queued types declare the name, the search of the level
ends annihilated. -/
theorem foldl_scanType_two (env : Env) (name : String) (count : CountMap) :
    ∀ (next : List fieldScan) (st : ScanState),
      (next.map (fun sc => sc.typ)).Nodup →
      (∀ sc ∈ next, Declares env sc.typ name → sc.typ ∉ st.visited) →
      (st.annihilated = true → (next.foldl (scanType env name count) st).annihilated = true) ∧
      (Matched st → Matched (next.foldl (scanType env name count) st)) ∧
      (∀ sc ∈ next, Declares env sc.typ name → Matched st →
        (next.foldl (scanType env name count) st).annihilated = true) ∧
      (∀ sc1 ∈ next, ∀ sc2 ∈ next, sc1.typ ≠ sc2.typ → Declares env sc1.typ name →
        Declares env sc2.typ name →
        (next.foldl (scanType env name count) st).annihilated = true)
  | [], st, _, _ => by simp
  | a :: next, st, hnd, hvis => by
    simp only [List.foldl_cons]
    simp only [List.map_cons, List.nodup_cons] at hnd
    obtain ⟨a1, a2, a3, a4, a5⟩ := scanType_sticky env name count st a
    have hvis' : ∀ sc ∈ next, Declares env sc.typ name →
        sc.typ ∉ (scanType env name count st a).visited := by
      intro sc hsc hd hmem
      rcases a3 _ hmem with h | h
      · exact hnd.1 (List.mem_map.2 ⟨sc, hsc, h⟩)
      · exact hvis sc (List.mem_cons_of_mem _ hsc) hd h
    obtain ⟨b1, b2, b3, b4⟩ := foldl_scanType_two env name count next
      (scanType env name count st a) hnd.2 hvis'
    have hav : Declares env a.typ name → a.typ ∉ st.visited :=
      hvis a (List.mem_cons_self _ _)
    refine ⟨fun h => b1 (a1 h), fun h => b2 (a2 h), ?_, ?_⟩
    · intro sc hsc hd hm
      simp only [List.mem_cons] at hsc
      rcases hsc with rfl | hsc
      · exact b1 (a5 hd (hav hd) hm)
      · exact b3 sc hsc hd (a2 hm)
    · intro sc1 h1 sc2 h2 hne hd1 hd2
      simp only [List.mem_cons] at h1 h2
      rcases h1 with rfl | h1
      · rcases h2 with rfl | h2
        · exact absurd rfl hne
        · exact b3 sc2 h2 hd2 (a4 hd1 (hav hd1))
      · rcases h2 with rfl | h2
        · exact b3 sc1 h1 hd1 (a4 hd2 (hav hd2))
        · exact b4 sc1 h1 sc2 h2 hne hd1 hd2


/-- A name declared by two different structs embedded in `S`, and not by `S`
itself, selects no field of `S`. -/
theorem typeFieldByName_ambiguous (env : Env) (fuel : Nat) (S E1 E2 X : String) (k1 k2 : Nat)
    (f1 f2 : StructField) (hX : X ≠ "")
    (hnoX : ∀ g ∈ (env S).fields, g.Name ≠ X)
    (hk1 : (env S).fields[k1]? = some f1) (he1 : embeddedStruct f1 = some E1)
    (hk2 : (env S).fields[k2]? = some f2) (he2 : embeddedStruct f2 = some E2)
    (hne : E1 ≠ E2) (hd1 : Declares env E1 X) (hd2 : Declares env E2 X) :
    typeFieldByName env (fuel + 2) S X = .ok none := by
  have hany : (env S).fields.any (fun f => f.Anonymous) = true := by
    rw [List.any_eq_true]
    exact ⟨f1, List.getElem?_mem hk1, embeddedStruct_anonymous f1 E1 he1⟩
  unfold typeFieldByName
  simp only [hX, ↓reduceIte, findField_of_none X _ 0 hnoX, hany]
  have h0 := scanFields_queue (env S).fields S X [] [] hnoX (env S).fields 0
    ⟨[], [], [S], none, false, false⟩ (fun j g hj => by simpa using hj)
    ⟨rfl, rfl, rfl, by simp, by simp, by simp [countGet], fun _ _ _ h => by omega⟩
  obtain ⟨h1, h2, h3, h4, _, _, h7⟩ := h0
  have hlt : ∀ (k : Nat) (f : StructField), (env S).fields[k]? = some f →
      k < 0 + (env S).fields.length := by
    intro k f hk
    rcases Nat.lt_or_ge k (env S).fields.length with h | h
    · omega
    · rw [List.getElem?_eq_none h] at hk; cases hk
  obtain ⟨sc1, hsc1, hty1⟩ := h7 k1 f1 E1 (hlt k1 f1 hk1) hk1 he1
  obtain ⟨sc2, hsc2, hty2⟩ := h7 k2 f2 E2 (hlt k2 f2 hk2) hk2 he2
  have hlevel0 : [(⟨S, []⟩ : fieldScan)].foldl (scanType env X [])
      ⟨[], [], [], none, false, false⟩
      = scanFields X [] ⟨S, []⟩ 0 (env S).fields ⟨[], [], [S], none, false, false⟩ := by
    simp [scanType]
  rw [FieldByNameFunc]
  simp only [hlevel0, h2, Bool.false_eq_true, ↓reduceIte, h1]
  generalize hst : scanFields X [] ⟨S, []⟩ 0 (env S).fields ⟨[], [], [S], none, false, false⟩
    = st0 at h1 h2 h3 h4 hsc1 hsc2
  cases hnext : st0.next with
  | nil => rw [hnext] at hsc1; simp at hsc1
  | cons sc rest =>
    rw [FieldByNameFunc]
    rw [← hnext, h3]
    have hann := (foldl_scanType_two env X st0.nextCount st0.next
      ⟨[], [], [S], none, false, false⟩ h4 (fun sc _ hd hmem => by
        simp only [List.mem_singleton] at hmem
        obtain ⟨g, hg, hgn⟩ := hd
        rw [hmem] at hg
        exact hnoX g hg hgn)).2.2.2 sc1 hsc1 sc2 hsc2 (by rw [hty1, hty2]; exact hne)
      (by rw [hty1]; exact hd1) (by rw [hty2]; exact hd2)
    simp [hann]


/-- C16, as stated, fails.  The flattened field list of `Over{N: 1,
First{N: 2}}` holds `N` twice, the field of `First` last, and `Copy` writes 1,
the value of the field of `Over` itself, into `Sink.N`.  In `Twin{First{N: 1},
Second{N: 2}}` the name `N` is ambiguous, and `Copy` leaves `Sink.N` at 0. -/
theorem Copy_duplicate_not_last :
    deepFields dupEnv 3 (.named "Over")
        (.struct "Over" [.int 1, .struct "First" [.int 2]]) "" (some (.made []))
      = .ok ([⟨"N", .int, false⟩, ⟨"N", .int, false⟩], some (.made [])) ∧
    Copy dupEnv 4 (some (.ptr (.named "Sink") (some (.struct "Sink" [.int 0]))))
        (some (.struct "Over" [.int 1, .struct "First" [.int 2]]))
      = .ok ((some (.ptr (.named "Sink") (some (.struct "Sink" [.int 1]))),
          some (.struct "Over" [.int 1, .struct "First" [.int 2]])), none) ∧
    Copy dupEnv 4 (some (.ptr (.named "Sink") (some (.struct "Sink" [.int 0]))))
        (some (.struct "Twin" [.struct "First" [.int 1], .struct "Second" [.int 2]]))
      = .ok ((some (.ptr (.named "Sink") (some (.struct "Sink" [.int 0]))),
          some (.struct "Twin" [.struct "First" [.int 1], .struct "Second" [.int 2]])),
          none) := by
  decide

/-- C16, amended: let the addressable destination struct `D` have no embedded
fields and a settable field `N`, let the source struct `S` have no method `N`
that `reflect` finds, let the methods of `D` leave its field `N` alone, and
let `Copy` return nil.  When `S` declares the field `N` itself, the
destination's `N` is afterwards the converted value of that field, whatever
embedded structs declare `N` again, before it or after it.  When `S` does not
declare `N` and two different structs embedded in `S` do, the destination's
`N` is afterwards what it was before. -/
theorem Copy_duplicate_field (env : Env) (fuel : Nat) (S D N : String) (j : Nat)
    (sfs dfs : List Val) (x : Val) (sa : Bool) (toV toV' : Val)
    (fromValue fromValue' : Option Val)
    (hfrom : indirect (ValueOf fromValue) = some ⟨.struct S sfs, sa⟩)
    (hto : indirect (ValueOf (some toV)) = some ⟨.struct D dfs, true⟩)
    (hflat : Flat env D) (hj : findField N 0 (env D).fields = some j)
    (hx : dfs[j]? = some x) (hexp : isExported N = true)
    (hnom : MethodByName env (.named S) sa N = none) (hkeep : MethodsKeep env D j)
    (hcopy : Copy env (fuel + 3) (some toV) fromValue = .ok ((some toV', fromValue'), none)) :
    (∀ (i : Nat) (f : StructField) (v : Val), findField N 0 (env S).fields = some i →
      (env S).fields[i]? = some f → f.Anonymous = false → sfs[i]? = some v →
      x.typ.kind ≠ .Ptr → ConvertibleTo env v.typ x.typ = true →
      ∃ dfs', indirect (ValueOf (some toV')) = some ⟨.struct D dfs', true⟩ ∧
        dfs'[j]? = some (Convert v x.typ)) ∧
    (∀ (k1 k2 : Nat) (f1 f2 : StructField) (E1 E2 : String),
      (∀ g ∈ (env S).fields, g.Name ≠ N) →
      (env S).fields[k1]? = some f1 → embeddedStruct f1 = some E1 →
      (env S).fields[k2]? = some f2 → embeddedStruct f2 = some E2 →
      E1 ≠ E2 → Declares env E1 N → Declares env E2 N →
      ∃ dfs', indirect (ValueOf (some toV')) = some ⟨.struct D dfs', true⟩ ∧
        dfs'[j]? = some x) := by
  have hN := isExported_ne_empty N hexp
  constructor
  · intro i f v hi hf ha hv hk hconv
    obtain ⟨_, f', hf', hfn⟩ := findField_some N _ 0 i hi
    simp only [Nat.sub_zero] at hf'
    rw [hf] at hf'
    cases hf'
    have hsrc : FieldByName env (fuel + 2) (.struct S sfs) N = .ok (some ([i], v)) := by
      simp [FieldByName, typeFieldByName, hN, hi, FieldByIndex, Field, hv]
    refine selected_field env (fuel + 2) S D N j sfs dfs v x sa [i] toV toV' fromValue
      fromValue' hfrom hsrc (fun fs need hd => ⟨f, deepFields_mem_direct env (fuel + 2) _ _ _
        _ _ fs S i f hd rfl hf ha, hfn⟩) hto hflat hj hx hexp hk hconv hnom hkeep ?_ hcopy
    intro g st st' err hgn hs hh
    refine copyField_source_frame env (fuel + 2) _ true g st st' err N [i] v ?_ hs.2 hh
    intro q w hq
    obtain ⟨n, fs, hst, ht⟩ := FieldByName_struct env (fuel + 2) _ _ _ _ hq
    obtain ⟨fs', hfs'⟩ := hs.1
    rw [hfs'] at hst
    cases hst
    rcases typeFieldByName_path env (fuel + 2) S g.Name q ht with
      ⟨i', f', rfl, hf', hfn'⟩ | ⟨k, rest, g', rfl, hrest, hg', hanon⟩
    · have : i ≠ i' := by
        rintro rfl
        rw [hf] at hf'
        cases hf'
        exact hgn (hfn'.symm.trans hfn)
      simp [Apart, this]
    · have : i ≠ k := by
        rintro rfl
        rw [hf] at hg'
        cases hg'
        rw [ha] at hanon
        cases hanon
      simp [Apart, this]
  · intro k1 k2 f1 f2 E1 E2 hnoX hk1 he1 hk2 he2 hne hd1 hd2
    exact unselected_field env (fuel + 2) S D N j sfs dfs x sa toV toV' fromValue fromValue'
      hfrom (typeFieldByName_ambiguous env fuel S E1 E2 N k1 k2 f1 f2 hN hnoX hk1 he1 hk2 he2
        hne hd1 hd2) hto hflat hj hx hnom hkeep hcopy

/-- Witness of the amended C16: `Over{N: 1, First{N: 2}}` and
`Twin{First{N: 1}, Second{N: 2}}` into a `Sink` whose `N` is 0. -/
theorem Copy_duplicate_field_witness :
    (∃ dfs', indirect (ValueOf (some (.ptr (.named "Sink") (some (.struct "Sink" [.int 1])))))
        = some ⟨.struct "Sink" dfs', true⟩ ∧
      dfs'[0]? = some (Convert (.int 1) (Val.int 0).typ)) ∧
    (∃ dfs', indirect (ValueOf (some (.ptr (.named "Sink") (some (.struct "Sink" [.int 0])))))
        = some ⟨.struct "Sink" dfs', true⟩ ∧
      dfs'[0]? = some (.int 0)) :=
  ⟨(Copy_duplicate_field dupEnv 1 "Over" "Sink" "N" 0 [.int 1, .struct "First" [.int 2]]
      [.int 0] (.int 0) false (.ptr (.named "Sink") (some (.struct "Sink" [.int 0]))) _
      (some (.struct "Over" [.int 1, .struct "First" [.int 2]]))
      (some (.struct "Over" [.int 1, .struct "First" [.int 2]]))
      (by decide) (by decide) (by unfold Flat; decide) (by decide) (by decide) (by decide)
      rfl (by intro m hm; simp [dupEnv] at hm) (by decide)).1
      0 ⟨"N", .int, false⟩ (.int 1) (by decide) (by decide) rfl (by decide) (by decide)
      (by decide),
   (Copy_duplicate_field dupEnv 1 "Twin" "Sink" "N" 0
      [.struct "First" [.int 1], .struct "Second" [.int 2]]
      [.int 0] (.int 0) false (.ptr (.named "Sink") (some (.struct "Sink" [.int 0]))) _
      (some (.struct "Twin" [.struct "First" [.int 1], .struct "Second" [.int 2]]))
      (some (.struct "Twin" [.struct "First" [.int 1], .struct "Second" [.int 2]]))
      (by decide) (by decide) (by unfold Flat; decide) (by decide) (by decide) (by decide)
      rfl (by intro m hm; simp [dupEnv] at hm) (by decide)).2
      0 1 ⟨"First", .named "First", true⟩ ⟨"Second", .named "Second", true⟩ "First" "Second"
      (by decide) (by decide) (by decide) (by decide) (by decide) (by decide)
      ⟨⟨"N", .int, false⟩, by decide, rfl⟩ ⟨⟨"N", .int, false⟩, by decide, rfl⟩⟩

/-! ## Run-time panics -/

/-- C17 fails on the code.  The source `Plain{X: 5}` has no embedded field, so
its walk leaves the need-set empty and `InitNilFields` leaves the nil embedded
pointer `E` of the destination `Outer{E: nil}` as it is; the field pass then
looks `X` up on the destination, and `FieldByName` steps through the nil
pointer: `Copy` ends in a run-time panic. -/
theorem Copy_panics_through_nil_embedded :
    deepFields bridgeEnv 2 (.named "Plain") (.struct "Plain" [.int 5]) "" (some (.made []))
      = .ok ([⟨"X", .int, false⟩], some (.made [])) ∧
    InitNilFields bridgeEnv 2 (.named "Outer")
        ⟨.struct "Outer" [.ptr (.named "E") none, .str ""], true⟩ "" (some (.made []))
      = .ok (.struct "Outer" [.ptr (.named "E") none, .str ""]) ∧
    Copy bridgeEnv 3
        (some (.ptr (.named "Outer") (some (.struct "Outer" [.ptr (.named "E") none, .str ""]))))
        (some (.struct "Plain" [.int 5]))
      = .panic "reflect: indirection through nil pointer to embedded struct" := by
  decide

/-! ## Termination of `InitNilFields` -/

theorem mem_maxLen (keys : List String) (k : String) (h : k ∈ keys) :
    k.length ≤ maxLen keys := by
  induction keys with
  | nil => simp at h
  | cons a keys ih =>
    simp only [maxLen, List.foldr_cons]
    simp only [List.mem_cons] at h
    rcases h with rfl | h
    · exact le_max_left _ _
    · exact le_trans (ih h) (le_max_right _ _)

/-- A loop whose iterations all end, ends. -/
theorem forFields_terminates {σ : Type} (P : σ → Prop) (body : Nat → StructField → σ → Res σ)
    (h : ∀ i f s, P s → body i f s ≠ .outOfFuel ∧ ∀ s', body i f s = .ok s' → P s') :
    ∀ (fs : List StructField) (i : Nat) (s : σ), P s → forFields body i fs s ≠ .outOfFuel
  | [], _, _, _ => by simp [forFields]
  | f :: fs, i, s, hs => by
    simp only [forFields]
    obtain ⟨h1, h2⟩ := h i f s hs
    cases hb : body i f s with
    | ok s' => exact forFields_terminates P body h fs (i + 1) s' (h2 s' hb)
    | panic m => simp
    | outOfFuel => exact absurd hb h1

theorem Field_terminates (v : Val) (i : Nat) : Field v i ≠ .outOfFuel := by
  unfold Field
  split
  · split <;> simp
  · simp

/-- One iteration of the loop of `InitNilFields` ends, when the recursive call
on a longer prefix does. -/
theorem initNilFieldsStep_terminates (env : Env) (k : Nat)
    (self : Ty → Value → String → Option NeedMap → Res Val) (canAddr : Bool)
    (keys : List String) (i : Nat) (v : StructField) (st : InitState)
    (hzero : ∀ t, ∃ z, Zero env k t = .ok z)
    (hself : ∀ T rv pfx', st.pfx.length < pfx'.length → st.pfx.length ≤ maxLen keys →
      self T rv pfx' (some (.made keys)) ≠ .outOfFuel) :
    initNilFieldsStep env k self canAddr (.made keys) i v st ≠ .outOfFuel ∧
    ∀ st', initNilFieldsStep env k self canAddr (.made keys) i v st = .ok st' →
      st.pfx.length ≤ st'.pfx.length := by
  unfold initNilFieldsStep
  split
  · exact ⟨by simp, fun st' h => by cases h; exact le_refl _⟩
  · rename_i hkey
    have hin : st.pfx ++ v.Name ∈ keys := by
      simpa [NeedMap.has] using hkey
    have hlen : st.pfx.length ≤ maxLen keys := by
      have := mem_maxLen keys _ hin
      rw [String.length_append] at this
      omega
    split
    · exact ⟨by simp, fun st' h => by cases h; exact le_refl _⟩
    · split
      · exact ⟨by simp, fun st' h => by cases h⟩
      · split
        · split
          · split
            · exact ⟨by simp, fun st' h => by cases h; exact le_refl _⟩
            · obtain ⟨z, hz⟩ := hzero v.Typ.Elem
              rw [hz]
              simp only
              have hlt : st.pfx.length < (st.pfx ++ (v.Name ++ ".")).length := by
                simp only [String.length_append]
                have : (".").length = 1 := rfl
                omega
              split
              · split
                · exact ⟨by simp, fun st' h => by cases h; exact le_of_lt hlt⟩
                · exact ⟨by simp, fun st' h => by cases h; exact le_of_lt hlt⟩
              · exact ⟨by simp, fun st' h => by cases h⟩
              · rename_i heq
                exact absurd heq (hself _ _ _ hlt hlen)
          · exact ⟨by simp, fun st' h => by cases h; exact le_refl _⟩
        · exact ⟨by simp, fun st' h => by cases h⟩
        · rename_i heq
          exact absurd heq (Field_terminates _ _)


/-- With an explicit need-map, `InitNilFields` ends: a recursive call is made
only for a key of the map, and on a longer prefix. -/
theorem InitNilFields_bounded (env : Env) (n : Nat) (hz : ∀ t, ∃ z, Zero env n t = .ok z)
    (keys : List String) :
    ∀ (m : Nat) (T : Ty) (rv : Value) (pfx : String) (fuel : Nat),
      maxLen keys + 1 - pfx.length ≤ m → n + m + 1 ≤ fuel →
      InitNilFields env fuel T rv pfx (some (.made keys)) ≠ .outOfFuel := by
  intro m
  induction m with
  | zero =>
    intro T rv pfx fuel hm hfuel
    obtain ⟨k, rfl⟩ : ∃ k, fuel = k + 1 := ⟨fuel - 1, by omega⟩
    unfold InitNilFields
    simp only
    split
    · rename_i nm _
      have := forFields_terminates (fun st : InitState => pfx.length ≤ st.pfx.length)
        (initNilFieldsStep env k (InitNilFields env k) rv.canAddr (.made keys))
        (fun i f s hs => by
          obtain ⟨h1, h2⟩ := initNilFieldsStep_terminates env k (InitNilFields env k) rv.canAddr
            keys i f s (fun t => by
              obtain ⟨z, hzz⟩ := hz t
              exact ⟨z, Zero_mono env n t z hzz k (by omega)⟩)
            (fun T' rv' pfx' _ hlen => by omega)
          exact ⟨h1, fun s' hs' => le_trans hs (h2 s' hs')⟩)
        (env nm).fields 0 ⟨rv.val, pfx⟩ (le_refl _)
      split
      · simp
      · simp
      · rename_i heq
        exact absurd heq this
    · simp
  | succ m ih =>
    intro T rv pfx fuel hm hfuel
    obtain ⟨k, rfl⟩ : ∃ k, fuel = k + 1 := ⟨fuel - 1, by omega⟩
    unfold InitNilFields
    simp only
    split
    · rename_i nm _
      have := forFields_terminates (fun st : InitState => pfx.length ≤ st.pfx.length)
        (initNilFieldsStep env k (InitNilFields env k) rv.canAddr (.made keys))
        (fun i f s hs => by
          obtain ⟨h1, h2⟩ := initNilFieldsStep_terminates env k (InitNilFields env k) rv.canAddr
            keys i f s (fun t => by
              obtain ⟨z, hzz⟩ := hz t
              exact ⟨z, Zero_mono env n t z hzz k (by omega)⟩)
            (fun T' rv' pfx' hlt hlen => ih T' rv' pfx' k (by omega) (by omega))
          exact ⟨h1, fun s' hs' => le_trans hs (h2 s' hs')⟩)
        (env nm).fields 0 ⟨rv.val, pfx⟩ (le_refl _)
      split
      · simp
      · simp
      · rename_i heq
        exact absurd heq this
    · simp

/-- With the map `AllNilFields`, `InitNilFields` on a `Node` whose embedded
pointer is nil does not end, whatever the fuel: every allocated `Node` has a
nil embedded pointer again. -/
theorem InitNilFields_all_self (v : Int) : ∀ (fuel : Nat) (T : Ty) (rv : Value) (pfx : String),
    indirectType T = .named "Node" → indirectVal rv.val rv.canAddr = some ⟨leafNode v, true⟩ →
    InitNilFields selfEnv fuel T rv pfx (some .AllNilFields) = .outOfFuel
  | 0, _, _, _, _, _ => rfl
  | fuel + 1, T, rv, pfx, hT, hrv => by
    unfold InitNilFields
    simp only [hT]
    have hfields : (selfEnv "Node").fields
        = [⟨"Node", .ptr (.named "Node"), true⟩, ⟨"V", .int, false⟩] := rfl
    rw [hfields]
    simp only [forFields]
    have hstep : initNilFieldsStep selfEnv fuel (InitNilFields selfEnv fuel) rv.canAddr
        .AllNilFields 0 ⟨"Node", .ptr (.named "Node"), true⟩ ⟨rv.val, pfx⟩ = .outOfFuel := by
      unfold initNilFieldsStep
      simp only [ne_eq, not_true_eq_false, false_and, ↓reduceIte, Bool.true_eq_false, hrv,
        leafNode, Field, List.getElem?_cons_zero, Ty.Elem]
      have hexp : isExported "Node" = true := by decide
      simp only [hexp, Bool.and_self, Bool.true_eq_false, ↓reduceIte]
      cases fuel with
      | zero => rfl
      | succ k =>
        have hzero : Zero selfEnv (k + 1) (.named "Node") = .ok (leafNode 0) := by
          simp [Zero, hfields, mapRes, leafNode]
        rw [hzero]
        simp only
        rw [InitNilFields_all_self 0 (k + 1) (.ptr (.named "Node"))
          ⟨.ptr (.named "Node") (some (leafNode 0)), true⟩ _ rfl rfl]
    rw [hstep]


/-- C18, as stated, fails: with the map `AllNilFields`, `InitNilFields` on an
addressable `Node`, a struct that embeds a pointer to itself, with a nil
embedded pointer, ends for no amount of fuel. -/
theorem InitNilFields_all_diverges :
    ¬ ∃ fuel, InitNilFields selfEnv fuel (.named "Node") ⟨leafNode 0, true⟩ ""
      (some .AllNilFields) ≠ .outOfFuel := by
  rintro ⟨fuel, h⟩
  exact h (InitNilFields_all_self 0 fuel _ _ _ rfl rfl)

/-- C18, amended: for every struct type, also one that embeds a pointer to
itself, every value of it and every explicit, finite need-set, `InitNilFields`
terminates: when the types of the program have zero values within `n` levels
of nesting, it ends with any fuel above `n` plus the length of the longest
key. -/
theorem InitNilFields_terminates (env : Env) (n : Nat) (keys : List String) (T : Ty)
    (rv : Value) (pfx : String) (fuel : Nat) (hz : ∀ t, ∃ z, Zero env n t = .ok z)
    (hfuel : n + (maxLen keys + 1 - pfx.length) + 1 ≤ fuel) :
    InitNilFields env fuel T rv pfx (some (.made keys)) ≠ .outOfFuel :=
  InitNilFields_bounded env n hz keys _ T rv pfx fuel (le_refl _) hfuel

/-- Every type of `selfEnv` has a zero value. -/
theorem selfEnv_zero (t : Ty) : ∃ z, Zero selfEnv 1 t = .ok z := by
  cases t with
  | named m =>
    by_cases h1 : m = "Node"
    · subst h1; exact ⟨leafNode 0, by decide⟩
    · exact ⟨.struct m [], by simp [Zero, selfEnv, h1, mapRes]⟩
  | _ => exact ⟨_, rfl⟩

/-- Witness of the amended C18: on a `Node` with a nil embedded pointer and
the keys `"Node"` and `"Node.Node"`, `InitNilFields` ends, having allocated
two levels. -/
theorem InitNilFields_terminates_witness :
    InitNilFields selfEnv 12 (.named "Node") ⟨leafNode 0, true⟩ ""
        (some (.made ["Node", "Node.Node"])) ≠ .outOfFuel ∧
    InitNilFields selfEnv 12 (.named "Node") ⟨leafNode 0, true⟩ ""
        (some (.made ["Node", "Node.Node"]))
      = .ok (.struct "Node" [.ptr (.named "Node") (some (.struct "Node"
          [.ptr (.named "Node") (some (leafNode 0)), .int 0])), .int 0]) :=
  ⟨InitNilFields_terminates selfEnv 1 ["Node", "Node.Node"] (.named "Node") ⟨leafNode 0, true⟩
    "" 12 selfEnv_zero (by decide), by decide⟩

/-! ## Termination of `Copy` -/

theorem Ends_const {α : Type} (r : Res α) (h : r ≠ .outOfFuel) : Ends (fun _ => r) :=
  ⟨0, r, h, fun _ _ => rfl⟩

/-- A computation that spends one unit of fuel on a computation that ends. -/
theorem Ends_succ {α : Type} (f g : Nat → Res α) (h : ∀ fuel, f (fuel + 1) = g fuel)
    (hg : Ends g) : Ends f := by
  obtain ⟨N, r, hr, hN⟩ := hg
  refine ⟨N + 1, r, hr, fun fuel hf => ?_⟩
  obtain ⟨k, rfl⟩ : ∃ k, fuel = k + 1 := ⟨fuel - 1, by omega⟩
  rw [h, hN k (by omega)]

/-- Sequencing: a computation that ends, followed by one that ends on its
outcome. -/
theorem Ends_step {α β : Type} (f : Nat → Res α) (g : Res α → Nat → Res β) (hf : Ends f)
    (hg : ∀ r, r ≠ .outOfFuel → Ends (g r)) : Ends (fun fuel => g (f fuel) fuel) := by
  obtain ⟨N1, r1, hr1, h1⟩ := hf
  obtain ⟨N2, r2, hr2, h2⟩ := hg r1 hr1
  refine ⟨max N1 N2, r2, hr2, fun fuel hfuel => ?_⟩
  simp only [h1 fuel (le_trans (le_max_left _ _) hfuel), h2 fuel (le_trans (le_max_right _ _) hfuel)]

theorem indirectVal_size : ∀ (v : Val) (a : Bool) (s : Value),
    indirectVal v a = some s → sizeOf s.val ≤ sizeOf v
  | .ptr _ none, _, _, h => by simp [indirectVal] at h
  | .ptr e (some v), _, s, h => by
    rw [indirectVal] at h
    have := indirectVal_size v true s h
    simp only [Val.ptr.sizeOf_spec, Option.some.sizeOf_spec]
    omega
  | .bool _, _, _, h | .int _, _, _, h | .int8 _, _, _, h | .str _, _, _, h
  | .struct _ _, _, _, h | .slice _ _, _, _, h | .iface _, _, _, h => by
    simp only [indirectVal, Option.some.injEq] at h
    subst h
    exact le_refl _

theorem Field_size (v : Val) (i : Nat) (x : Val) (h : Field v i = .ok x) :
    sizeOf x < sizeOf v := by
  unfold Field at h
  split at h
  · rename_i n fs
    split at h
    · rename_i y hy
      cases h
      have := List.sizeOf_lt_of_mem (List.getElem?_mem hy)
      simp only [Val.struct.sizeOf_spec]
      omega
    · cases h
  · cases h

theorem FieldByIndex_terminates : ∀ (idx : List Nat) (v : Val), FieldByIndex v idx ≠ .outOfFuel
  | [], v => by simp [FieldByIndex]
  | x :: xs, v => by
    rw [FieldByIndex]
    cases hf : Field v x with
    | ok f =>
      simp only
      cases xs with
      | nil => simp
      | cons y ys =>
        simp only
        split
        · simp
        · exact FieldByIndex_terminates _ _
        · exact FieldByIndex_terminates _ _
    | panic m => simp
    | outOfFuel => exact absurd hf (Field_terminates _ _)

theorem FieldByIndex_size : ∀ (idx : List Nat) (v x : Val), idx ≠ [] →
    FieldByIndex v idx = .ok x → sizeOf x < sizeOf v
  | [], _, _, h, _ => absurd rfl h
  | i :: xs, v, x, _, h => by
    rw [FieldByIndex] at h
    cases hf : Field v i with
    | ok f =>
      have hlt := Field_size v i f hf
      rw [hf] at h
      simp only at h
      cases xs with
      | nil =>
        simp only [Res.ok.injEq] at h
        subst h
        exact hlt
      | cons y ys =>
        simp only at h
        split at h
        · cases h
        · rename_i m p
          have := FieldByIndex_size (y :: ys) p x (by simp) h
          simp only [Val.ptr.sizeOf_spec, Option.some.sizeOf_spec] at hlt
          omega
        · have := FieldByIndex_size (y :: ys) f x (by simp) h
          omega
    | panic m => rw [hf] at h; cases h
    | outOfFuel => rw [hf] at h; cases h


/-- A field found by name is a strict part of the struct. -/
theorem FieldByName_size (env : Env) (fuel : Nat) (v : Val) (name : String) (idx : List Nat)
    (x : Val) (h : FieldByName env fuel v name = .ok (some (idx, x))) : sizeOf x < sizeOf v := by
  unfold FieldByName at h
  split at h
  · rename_i n fs
    split at h
    · rename_i idx' hidx
      split at h
      · rename_i f hf
        simp only [Res.ok.injEq, Option.some.injEq, Prod.mk.injEq] at h
        obtain ⟨h1, h2⟩ := h
        subst h1 h2
        refine FieldByIndex_size idx' _ _ ?_ hf
        intro he
        subst he
        exact typeFieldByName_ne_nil env fuel n name hidx
      · cases h
      · cases h
    · cases h
    · cases h
    · cases h
  · cases h

/-- Lookup of a field by name ends, when the lookup on the type does. -/
theorem Ends_FieldByName (env : Env)
    (hF : ∀ t name, Ends (fun fuel => typeFieldByName env fuel t name)) (v : Val)
    (name : String) : Ends (fun fuel => FieldByName env fuel v name) := by
  cases v with
  | struct n fs =>
    obtain ⟨N, r, hr, hN⟩ := hF n name
    cases r with
    | ok o =>
      cases o with
      | none => exact ⟨N, .ok none, by simp, fun fuel hf => by simp [FieldByName, hN fuel hf]⟩
      | some idx =>
        cases hi : FieldByIndex (.struct n fs) idx with
        | ok f =>
          exact ⟨N, .ok (some (idx, f)), by simp, fun fuel hf => by
            simp [FieldByName, hN fuel hf, hi]⟩
        | panic m =>
          exact ⟨N, .panic m, by simp, fun fuel hf => by simp [FieldByName, hN fuel hf, hi]⟩
        | outOfFuel => exact absurd hi (FieldByIndex_terminates _ _)
    | panic m => exact ⟨N, .panic m, by simp, fun fuel hf => by simp [FieldByName, hN fuel hf]⟩
    | outOfFuel => exact absurd rfl hr
  | _ => exact ⟨0, _, by simp, fun fuel _ => rfl⟩


theorem Ends_set_none (env : Env) (to_ : Val) : Ends (fun fuel => set env fuel to_ none) :=
  ⟨1, .ok (to_, true), by simp, fun fuel hf => by
    obtain ⟨k, rfl⟩ : ∃ k, fuel = k + 1 := ⟨fuel - 1, by omega⟩
    simp [set]⟩

theorem Ends_setConvert (env : Env) (f : Val)
    (hrec : ∀ t p target, f = .ptr t p → Ends (fun fuel => set env fuel target p))
    (target : Val) : Ends (fun fuel => setConvert env (set env fuel) target f) := by
  unfold setConvert
  split
  · exact Ends_const _ (by simp)
  · split
    · exact Ends_const _ (by simp)
    · split
      · exact hrec _ _ target rfl
      · exact Ends_const _ (by simp)

theorem Ends_setElem (env : Env) (hZ : ∀ t, Ends (fun fuel => Zero env fuel t))
    (rest : Nat → Val → Res (Val × Bool)) (hrest : ∀ target, Ends (fun fuel => rest fuel target))
    (e : Ty) (p : Option Val) : Ends (fun fuel => setElem env fuel (rest fuel) e p) := by
  have hwrap : ∀ target, Ends (fun fuel =>
      match rest fuel target with
      | .ok (target', r) => (.ok (.ptr e (some target'), r) : Res (Val × Bool))
      | .panic m => .panic m
      | .outOfFuel => .outOfFuel) := by
    intro target
    obtain ⟨N, r, hr, hN⟩ := hrest target
    cases r with
    | ok q => exact ⟨N, .ok (.ptr e (some q.1), q.2), by simp, fun fuel hf => by simp [hN fuel hf]⟩
    | panic m => exact ⟨N, .panic m, by simp, fun fuel hf => by simp [hN fuel hf]⟩
    | outOfFuel => exact absurd rfl hr
  cases p with
  | some x => exact hwrap x
  | none =>
    obtain ⟨N0, r0, hr0, hN0⟩ := hZ e
    cases r0 with
    | ok z =>
      obtain ⟨N, r, hr, hN⟩ := hwrap z
      refine ⟨max N0 N, r, hr, fun fuel hf => ?_⟩
      have h1 := hN0 fuel (le_trans (le_max_left _ _) hf)
      have h2 := hN fuel (le_trans (le_max_right _ _) hf)
      simp only [setElem, h1]
      exact h2
    | panic m =>
      exact ⟨N0, .panic m, by simp, fun fuel hf => by simp [setElem, hN0 fuel hf]⟩
    | outOfFuel => exact absurd rfl hr0

theorem Ends_set_of (env : Env) (hZ : ∀ t, Ends (fun fuel => Zero env fuel t)) (f : Val)
    (hconv : ∀ target, Ends (fun fuel => setConvert env (set env fuel) target f)) (to_ : Val) :
    Ends (fun fuel => set env fuel to_ (some f)) := by
  by_cases hk : to_.kind = .Ptr
  · obtain ⟨e, p, rfl⟩ : ∃ e p, to_ = .ptr e p := by
      cases to_ <;> simp_all [Val.kind, Val.typ, Ty.kind]
    by_cases hnil : ∃ t, f = .ptr t none
    · obtain ⟨t, rfl⟩ := hnil
      exact ⟨1, .ok (.ptr e none, true), by simp, fun fuel hf => by
        obtain ⟨k, rfl⟩ : ∃ k, fuel = k + 1 := ⟨fuel - 1, by omega⟩
        rfl⟩
    · exact Ends_succ _ _ (fun fuel => set_ptr env fuel e p f (fun t h => hnil ⟨t, h⟩))
        (Ends_setElem env hZ (fun fuel target => setConvert env (set env fuel) target f) hconv e p)
  · exact Ends_succ _ _ (fun fuel => set_nonptr env fuel to_ f hk) (hconv to_)

/-- The leaf assignment `set` ends. -/
theorem Ends_set (env : Env) (hZ : ∀ t, Ends (fun fuel => Zero env fuel t)) :
    ∀ (f to_ : Val), Ends (fun fuel => set env fuel to_ (some f))
  | .ptr _ none, to_ =>
    Ends_set_of env hZ _ (fun target => Ends_setConvert env _ (fun t p target' h => by
      cases h
      exact Ends_set_none env target') target) to_
  | .ptr _ (some g), to_ =>
    Ends_set_of env hZ _ (fun target => Ends_setConvert env _ (fun t p target' h => by
      cases h
      exact Ends_set env hZ g target') target) to_
  | .bool _, to_ | .int _, to_ | .int8 _, to_ | .str _, to_ | .struct _ _, to_
  | .slice _ _, to_ | .iface _, to_ =>
    Ends_set_of env hZ _ (fun target => Ends_setConvert env _ (fun t p target' h => by
      cases h) target) to_

theorem Ends_set_opt (env : Env) (hZ : ∀ t, Ends (fun fuel => Zero env fuel t))
    (f : Option Val) (to_ : Val) : Ends (fun fuel => set env fuel to_ f) := by
  cases f with
  | none => exact Ends_set_none env to_
  | some f => exact Ends_set env hZ f to_


/-- A loop over fields ends, when every iteration from a state that satisfies
the invariant ends. -/
theorem Ends_forFields {σ : Type} (P : σ → Prop) (body : Nat → Nat → StructField → σ → Res σ)
    (h : ∀ i f s, P s → Ends (fun fuel => body fuel i f s) ∧
      ∀ fuel s', body fuel i f s = .ok s' → P s') :
    ∀ (fs : List StructField) (i : Nat) (s : σ), P s →
      Ends (fun fuel => forFields (body fuel) i fs s)
  | [], _, s, _ => ⟨0, .ok s, by simp, fun _ _ => rfl⟩
  | f :: fs, i, s, hs => by
    obtain ⟨⟨N, r, hr, hN⟩, hP⟩ := h i f s hs
    cases r with
    | ok s' =>
      obtain ⟨N2, r2, hr2, hN2⟩ := Ends_forFields P body h fs (i + 1) s'
        (hP N s' (hN N (le_refl _)))
      refine ⟨max N N2, r2, hr2, fun fuel hf => ?_⟩
      have h1 := hN fuel (le_trans (le_max_left _ _) hf)
      have h2 := hN2 fuel (le_trans (le_max_right _ _) hf)
      simp only at h1 h2
      simp only [forFields, h1]
      exact h2
    | panic m =>
      refine ⟨N, .panic m, by simp, fun fuel hf => ?_⟩
      have h1 := hN fuel hf
      simp only at h1
      simp only [forFields, h1]
    | outOfFuel => exact absurd rfl hr

/-- One iteration of the loop of `deepFields` ends, when the walk of every
strict part of the value does. -/
theorem Ends_deepFieldsStep (env : Env) (rv : Val) (i : Nat) (v : StructField) (st : DeepState)
    (hrec : ∀ T rv' pfx need, sizeOf rv' < sizeOf rv →
      Ends (fun fuel => deepFields env fuel T rv' pfx need)) :
    Ends (fun fuel => deepFieldsStep (deepFields env fuel) rv i v st) := by
  unfold deepFieldsStep
  by_cases ha : v.Anonymous = true
  · simp only [ha, ↓reduceIte]
    cases hs : indirectVal rv false with
    | none => exact ⟨0, _, by simp, fun _ _ => rfl⟩
    | some s =>
      simp only
      cases hval : Field s.val i with
      | ok value =>
        simp only
        by_cases hnil : ∃ e, value = .ptr e none
        · obtain ⟨e, rfl⟩ := hnil
          exact ⟨0, .ok st, by simp, fun _ _ => rfl⟩
        · have hnn : ∀ e, value ≠ .ptr e none := fun e h => hnil ⟨e, h⟩
          have hlt : sizeOf value < sizeOf rv :=
            lt_of_lt_of_le (Field_size _ _ _ hval) (indirectVal_size rv false s hs)
          simp only [hnn]
          generalize (if value.kind = Kind.Ptr then _ else _ : Option NeedMap) = need1
          obtain ⟨N, r, hr, hN⟩ := hrec v.Typ value (st.pfx ++ (v.Name ++ ".")) need1 hlt
          cases r with
          | ok q =>
            refine ⟨N, .ok ⟨st.fields ++ q.1, st.pfx ++ (v.Name ++ "."), q.2⟩, by simp,
              fun fuel hf => ?_⟩
            have h1 := hN fuel hf
            simp only at h1
            simp only [h1]
          | panic m =>
            refine ⟨N, .panic m, by simp, fun fuel hf => ?_⟩
            have h1 := hN fuel hf
            simp only at h1
            simp only [h1]
          | outOfFuel => exact absurd rfl hr
      | panic m => exact ⟨0, _, by simp, fun _ _ => rfl⟩
      | outOfFuel => exact absurd hval (Field_terminates _ _)
  · simp only [ha, Bool.false_eq_true, ↓reduceIte]
    exact ⟨0, _, by simp, fun _ _ => rfl⟩

/-- The walk `deepFields` of a value ends: every recursive call is made on a
strict part of the value. -/
theorem Ends_deepFields (env : Env) : ∀ (n : Nat) (rv : Val), sizeOf rv ≤ n →
    ∀ (T : Ty) (pfx : String) (need : Option NeedMap),
      Ends (fun fuel => deepFields env fuel T rv pfx need) := by
  intro n
  induction n with
  | zero =>
    intro rv h
    cases rv <;> simp at h
  | succ n ih =>
    intro rv hrv T pfx need
    refine Ends_succ _ (fun fuel => deepFields env (fuel + 1) T rv pfx need) (fun _ => rfl) ?_
    simp only [deepFields]
    cases hT : indirectType T with
    | named m =>
      simp only
      obtain ⟨N, r, hr, hN⟩ := Ends_forFields (fun _ : DeepState => True)
        (fun fuel => deepFieldsStep (deepFields env fuel) rv)
        (fun i f s _ => ⟨Ends_deepFieldsStep env rv i f s (fun T' rv' pfx' need' hlt =>
          ih rv' (by omega) T' pfx' need'), fun _ _ _ => trivial⟩)
        (env m).fields 0 ⟨[], pfx, need⟩ trivial
      cases r with
      | ok st =>
        refine ⟨N, .ok (st.fields, st.need), by simp, fun fuel hf => ?_⟩
        have h1 := hN fuel hf
        simp only at h1
        simp only [h1]
      | panic msg =>
        refine ⟨N, .panic msg, by simp, fun fuel hf => ?_⟩
        have h1 := hN fuel hf
        simp only at h1
        simp only [h1]
      | outOfFuel => exact absurd rfl hr
    | _ => exact ⟨0, _, by simp, fun _ _ => rfl⟩


/-- The running prefix of `InitNilFields` only grows. -/
theorem initNilFieldsStep_pfx (env : Env) (k : Nat)
    (self : Ty → Value → String → Option NeedMap → Res Val) (canAddr : Bool)
    (need : NeedMap) (i : Nat) (v : StructField) (st st' : InitState)
    (h : initNilFieldsStep env k self canAddr need i v st = .ok st') :
    st.pfx.length ≤ st'.pfx.length := by
  have hlt : st.pfx.length ≤ (st.pfx ++ (v.Name ++ ".")).length := by
    simp only [String.length_append]
    omega
  unfold initNilFieldsStep at h
  split at h
  · cases h; exact le_refl _
  · split at h
    · cases h; exact le_refl _
    · split at h
      · cases h
      · split at h
        · split at h
          · split at h
            · cases h; exact le_refl _
            · split at h
              · simp only at h
                split at h
                · split at h
                  · cases h; exact hlt
                  · cases h; exact hlt
                · cases h
                · cases h
              · cases h
              · cases h
          · cases h; exact le_refl _
        · cases h
        · cases h

/-- One iteration of the loop of `InitNilFields` with an explicit need-map
ends, when the recursive call on a longer prefix does. -/
theorem Ends_initNilFieldsStep (env : Env) (hZ : ∀ t, Ends (fun fuel => Zero env fuel t))
    (canAddr : Bool) (keys : List String) (i : Nat) (v : StructField) (st : InitState)
    (hself : ∀ T rv pfx', st.pfx.length < pfx'.length → st.pfx.length ≤ maxLen keys →
      Ends (fun fuel => InitNilFields env fuel T rv pfx' (some (.made keys)))) :
    Ends (fun fuel => initNilFieldsStep env fuel (InitNilFields env fuel) canAddr (.made keys)
      i v st) := by
  unfold initNilFieldsStep
  by_cases hkey : NeedMap.made keys ≠ .AllNilFields ∧
      (NeedMap.made keys).has (st.pfx ++ v.Name) = false
  · simp only [if_pos hkey]
    exact ⟨0, _, by simp, fun _ _ => rfl⟩
  · simp only [if_neg hkey]
    have hin : st.pfx ++ v.Name ∈ keys := by
      simpa [NeedMap.has] using hkey
    have hlen : st.pfx.length ≤ maxLen keys := by
      have := mem_maxLen keys _ hin
      rw [String.length_append] at this
      omega
    by_cases ha : v.Anonymous = false
    · simp only [if_pos ha]
      exact ⟨0, _, by simp, fun _ _ => rfl⟩
    · simp only [if_neg ha]
      cases hs : indirectVal st.value canAddr with
      | none => exact ⟨0, _, by simp, fun _ _ => rfl⟩
      | some s =>
        simp only
        cases hval : Field s.val i with
        | ok value =>
          simp only
          by_cases hnil : ∃ e, value = .ptr e none
          · obtain ⟨e, rfl⟩ := hnil
            simp only
            by_cases hset : (s.canAddr && isExported v.Name) = false
            · simp only [if_pos hset]
              exact ⟨0, _, by simp, fun _ _ => rfl⟩
            · simp only [if_neg hset]
              obtain ⟨N0, r0, hr0, hN0⟩ := hZ v.Typ.Elem
              cases r0 with
              | ok z =>
                have hlt : st.pfx.length < (st.pfx ++ (v.Name ++ ".")).length := by
                  simp only [String.length_append]
                  have : (".").length = 1 := rfl
                  omega
                obtain ⟨N, r, hr, hN⟩ := hself v.Typ ⟨.ptr v.Typ.Elem (some z), s.canAddr⟩
                  (st.pfx ++ (v.Name ++ ".")) hlt hlen
                cases r with
                | ok value' =>
                  cases hsv : s.val with
                  | struct n fs =>
                    refine ⟨max N0 N, .ok ⟨setIndirect st.value (.struct n (fs.set i value')),
                      st.pfx ++ (v.Name ++ ".")⟩, by simp, fun fuel hf => ?_⟩
                    have h0 := hN0 fuel (le_trans (le_max_left _ _) hf)
                    have h1 := hN fuel (le_trans (le_max_right _ _) hf)
                    simp only at h0 h1
                    simp only [h0, h1]
                  | _ =>
                    refine ⟨max N0 N, .ok ⟨st.value, st.pfx ++ (v.Name ++ ".")⟩, by simp,
                      fun fuel hf => ?_⟩
                    have h0 := hN0 fuel (le_trans (le_max_left _ _) hf)
                    have h1 := hN fuel (le_trans (le_max_right _ _) hf)
                    simp only at h0 h1
                    simp only [h0, h1]
                | panic m =>
                  refine ⟨max N0 N, .panic m, by simp, fun fuel hf => ?_⟩
                  have h0 := hN0 fuel (le_trans (le_max_left _ _) hf)
                  have h1 := hN fuel (le_trans (le_max_right _ _) hf)
                  simp only at h0 h1
                  simp only [h0, h1]
                | outOfFuel => exact absurd rfl hr
              | panic m =>
                refine ⟨N0, .panic m, by simp, fun fuel hf => ?_⟩
                have h0 := hN0 fuel hf
                simp only at h0
                simp only [h0]
              | outOfFuel => exact absurd rfl hr0
          · have hnn : ∀ e, value ≠ .ptr e none := fun e h => hnil ⟨e, h⟩
            simp only [hnn]
            exact ⟨0, _, by simp, fun _ _ => rfl⟩
        | panic m => exact ⟨0, _, by simp, fun _ _ => rfl⟩
        | outOfFuel => exact absurd hval (Field_terminates _ _)

/-- With an explicit need-map, `InitNilFields` ends. -/
theorem Ends_InitNilFields (env : Env) (hZ : ∀ t, Ends (fun fuel => Zero env fuel t))
    (keys : List String) : ∀ (m : Nat) (T : Ty) (rv : Value) (pfx : String),
      maxLen keys + 1 - pfx.length ≤ m →
      Ends (fun fuel => InitNilFields env fuel T rv pfx (some (.made keys))) := by
  intro m
  induction m using Nat.strong_induction_on with
  | _ m ih =>
    intro T rv pfx hm
    refine Ends_succ _ (fun fuel => InitNilFields env (fuel + 1) T rv pfx (some (.made keys)))
      (fun _ => rfl) ?_
    simp only [InitNilFields]
    cases hT : indirectType T with
    | named nm =>
      simp only
      obtain ⟨N, r, hr, hN⟩ := Ends_forFields (fun st : InitState => pfx.length ≤ st.pfx.length)
        (fun fuel => initNilFieldsStep env fuel (InitNilFields env fuel) rv.canAddr (.made keys))
        (fun i f s hs => ⟨Ends_initNilFieldsStep env hZ rv.canAddr keys i f s
          (fun T' rv' pfx' hlt hlen =>
            ih (maxLen keys + 1 - pfx'.length) (by omega) T' rv' pfx' (le_refl _)),
          fun fuel s' hs' => le_trans hs (initNilFieldsStep_pfx env fuel _ _ _ i f s s' hs')⟩)
        (env nm).fields 0 ⟨rv.val, pfx⟩ (le_refl _)
      cases r with
      | ok st =>
        refine ⟨N, .ok st.value, by simp, fun fuel hf => ?_⟩
        have h1 := hN fuel hf
        simp only at h1
        simp only [h1]
      | panic msg =>
        refine ⟨N, .panic msg, by simp, fun fuel hf => ?_⟩
        have h1 := hN fuel hf
        simp only at h1
        simp only [h1]
      | outOfFuel => exact absurd rfl hr
    | _ => exact ⟨0, _, by simp, fun _ _ => rfl⟩


/-- A computation that agrees, from some amount of fuel on, with one that ends,
ends. -/
theorem Ends_congr {α : Type} (f g : Nat → Res α) (N : Nat)
    (h : ∀ fuel, N ≤ fuel → f fuel = g fuel) (hg : Ends g) : Ends f := by
  obtain ⟨N2, r, hr, h2⟩ := hg
  refine ⟨max N N2, r, hr, fun fuel hf => ?_⟩
  rw [h fuel (le_trans (le_max_left _ _) hf), h2 fuel (le_trans (le_max_right _ _) hf)]

/-- One iteration of the field pass ends, when the nested `Copy` from every
strict part of the source does. -/
theorem Ends_copyField (env : Env) (hZ : ∀ t, Ends (fun fuel => Zero env fuel t))
    (hF : ∀ t name, Ends (fun fuel => typeFieldByName env fuel t name))
    (destAddr : Bool) (field : StructField) (st : Val × Val)
    (hself : ∀ to_ fromField, sizeOf fromField < sizeOf st.2 →
      Ends (fun fuel => Copy env fuel to_ (Interface fromField))) :
    Ends (fun fuel => copyField env fuel (Copy env fuel) destAddr field st) := by
  simp only [copyField]
  obtain ⟨N1, r1, hr1, h1⟩ := Ends_FieldByName env hF st.2 field.Name
  simp only at h1
  refine Ends_congr _ _ N1 (fun fuel hf => by rw [h1 fuel hf]) ?_
  rcases r1 with (_ | ⟨idx', fromField⟩) | m | _
  · exact Ends_const _ (by simp)
  · have hsize : sizeOf fromField < sizeOf st.2 :=
      FieldByName_size env N1 _ _ idx' fromField (h1 N1 (le_refl _))
    simp only
    obtain ⟨N2, r2, hr2, h2⟩ := Ends_FieldByName env hF st.1 field.Name
    simp only at h2
    refine Ends_congr _ _ N2 (fun fuel hf => by rw [h2 fuel hf]) ?_
    rcases r2 with (_ | ⟨idx, toField⟩) | m | _
    · exact Ends_const _ (by
        repeat' split
        all_goals simp)
    · simp only
      by_cases hcs : (destAddr && isExported field.Name) = true
      · simp only [hcs, ↓reduceIte]
        obtain ⟨N3, r3, hr3, h3⟩ := Ends_set env hZ fromField toField
        simp only at h3
        refine Ends_congr _ _ N3 (fun fuel hf => by rw [h3 fuel hf]) ?_
        rcases r3 with ⟨toField', b⟩ | m | _
        · cases b with
          | true => exact Ends_const _ (by simp)
          | false =>
            simp only
            obtain ⟨N4, r4, hr4, h4⟩ := hself (some (.ptr toField'.typ (some toField')))
              fromField hsize
            simp only at h4
            refine Ends_congr _ _ N4 (fun fuel hf => by rw [h4 fuel hf]) ?_
            refine Ends_const _ ?_
            rcases r4 with ⟨⟨x, f'⟩, err⟩ | m | _
            · split <;> simp_all
            · simp
            · exact absurd rfl hr4
        · exact Ends_const _ (by simp)
        · exact absurd rfl hr3
      · simp only [hcs, Bool.false_eq_true, ↓reduceIte]
        exact Ends_const _ (by simp)
    · exact Ends_const _ (by simp)
    · exact absurd rfl hr2
  · exact Ends_const _ (by simp)
  · exact absurd rfl hr1

/-- The field pass ends on the states of an invariant on which its body
ends. -/
theorem Ends_fieldPass {σ : Type} (P : σ → Prop)
    (body : Nat → StructField → σ → Res (σ × Option String))
    (h : ∀ field st, P st → Ends (fun fuel => body fuel field st))
    (hP : ∀ fuel field st st' err, P st → body fuel field st = .ok (st', err) → P st') :
    ∀ (fields : List StructField) (st : σ), P st →
      Ends (fun fuel => fieldPass (body fuel) fields st)
  | [], st, _ => Ends_const _ (by simp)
  | field :: rest, st, hst => by
    simp only [fieldPass]
    obtain ⟨N, r, hr, hN⟩ := h field st hst
    simp only at hN
    refine Ends_congr _ _ N (fun fuel hf => by rw [hN fuel hf]) ?_
    rcases r with ⟨st', _ | err⟩ | m | _
    · exact Ends_fieldPass P body h hP rest st' (hP N field st st' none hst (hN N (le_refl _)))
    · exact Ends_const _ (by simp)
    · exact Ends_const _ (by simp)
    · exact absurd rfl hr

theorem Ends_methodPass {σ : Type} (body : Nat → StructField → σ → Res σ)
    (h : ∀ field st, Ends (fun fuel => body fuel field st)) :
    ∀ (fields : List StructField) (st : σ),
      Ends (fun fuel => methodPass (body fuel) fields st)
  | [], st => Ends_const _ (by simp)
  | field :: rest, st => by
    simp only [methodPass]
    obtain ⟨N, r, hr, hN⟩ := h field st
    simp only at hN
    refine Ends_congr _ _ N (fun fuel hf => by rw [hN fuel hf]) ?_
    rcases r with st' | m | _
    · exact Ends_methodPass body h rest st'
    · exact Ends_const _ (by simp)
    · exact absurd rfl hr

theorem Ends_copyMethod (env : Env) (hZ : ∀ t, Ends (fun fuel => Zero env fuel t))
    (hF : ∀ t name, Ends (fun fuel => typeFieldByName env fuel t name))
    (srcAddr destAddr : Bool) (field : StructField) (st : Val × Val) :
    Ends (fun fuel => copyMethod env fuel srcAddr destAddr field st) := by
  simp only [copyMethod]
  cases hm : MethodByName env st.2.typ srcAddr field.Name with
  | none => exact Ends_const _ (by simp)
  | some fromMethod =>
    simp only
    by_cases hsig : fromMethod.In.length = 0 ∧ fromMethod.Out.length = 1
    · simp only [hsig, and_self, ↓reduceIte]
      obtain ⟨N2, r2, hr2, h2⟩ := Ends_FieldByName env hF st.1 field.Name
      simp only at h2
      refine Ends_congr _ _ N2 (fun fuel hf => by rw [h2 fuel hf]) ?_
      rcases r2 with (_ | ⟨idx, toField⟩) | m | _
      · exact Ends_const _ (by simp)
      · simp only
        by_cases hcs : (destAddr && isExported field.Name) = true
        · simp only [hcs, ↓reduceIte]
          cases hcall : (Call fromMethod srcAddr st.2 []).2 with
          | nil => exact Ends_const _ (by simp)
          | cons value rest =>
            simp only
            obtain ⟨N3, r3, hr3, h3⟩ := Ends_set env hZ value toField
            simp only at h3
            refine Ends_congr _ _ N3 (fun fuel hf => by rw [h3 fuel hf]) ?_
            rcases r3 with ⟨toField', b⟩ | m | _
            · exact Ends_const _ (by simp)
            · exact Ends_const _ (by simp)
            · exact absurd rfl hr3
        · simp only [hcs, Bool.false_eq_true, ↓reduceIte]
          exact Ends_const _ (by simp)
      · exact Ends_const _ (by simp)
      · exact absurd rfl hr2
    · simp only [hsig, ↓reduceIte]
      exact Ends_const _ (by simp)

/-- The struct copy between two elements ends, when the getters are read-only
and the nested `Copy` from every strict part of the source element ends. -/
theorem Ends_copyStruct (env : Env) (hro : ReadOnlyGetters env)
    (hZ : ∀ t, Ends (fun fuel => Zero env fuel t))
    (hF : ∀ t name, Ends (fun fuel => typeFieldByName env fuel t name))
    (fromType toType : Ty) (source dest : Value)
    (hself : ∀ to_ fromField, sizeOf fromField < sizeOf source.val →
      Ends (fun fuel => Copy env fuel to_ (Interface fromField))) :
    Ends (fun fuel => copyStruct env fuel (Copy env fuel) fromType toType source dest) := by
  simp only [copyStruct]
  obtain ⟨N1, r1, hr1, h1⟩ := Ends_deepFields env (sizeOf source.val) source.val (le_refl _)
    fromType "" (some (.made []))
  simp only at h1
  refine Ends_congr _ _ N1 (fun fuel hf => by rw [h1 fuel hf]) ?_
  rcases r1 with ⟨fromTypeFields, need⟩ | m | _
  · obtain ⟨ks, rfl, _, _⟩ := deepFields_need env N1 _ _ _ _ _ _ (h1 N1 (le_refl _))
    simp only
    obtain ⟨N2, r2, hr2, h2⟩ := Ends_InitNilFields env hZ ks _ toType dest "" (le_refl _)
    simp only at h2
    refine Ends_congr _ _ N2 (fun fuel hf => by rw [h2 fuel hf]) ?_
    rcases r2 with dest1 | m | _
    · simp only
      obtain ⟨N3, r3, hr3, h3⟩ := Ends_fieldPass (fun st : Val × Val => st.2 = source.val)
        (fun fuel => copyField env fuel (Copy env fuel) dest.canAddr)
        (fun field st hst => Ends_copyField env hZ hF dest.canAddr field st
          (fun to_ fromField hlt => hself to_ fromField (by rw [← hst]; exact hlt)))
        (fun fuel field st st' err hst hh =>
          (copyField_source env fuel (Copy env fuel)
            (fun t f r e he => Copy_source env hro fuel t f r e he)
            dest.canAddr field st st' err hh).trans hst)
        fromTypeFields (dest1, source.val) rfl
      simp only at h3
      refine Ends_congr _ _ N3 (fun fuel hf => by rw [h3 fuel hf]) ?_
      rcases r3 with ⟨st2, _ | err⟩ | m | _
      · simp only
        obtain ⟨N4, r4, hr4, h4⟩ := Ends_deepFields env (sizeOf st2.1) st2.1 (le_refl _)
          toType "" none
        simp only at h4
        refine Ends_congr _ _ N4 (fun fuel hf => by rw [h4 fuel hf]) ?_
        rcases r4 with ⟨toTypeFields, need4⟩ | m | _
        · simp only
          obtain ⟨N5, r5, hr5, h5⟩ := Ends_methodPass
            (fun fuel => copyMethod env fuel source.canAddr dest.canAddr)
            (fun field st => Ends_copyMethod env hZ hF source.canAddr dest.canAddr field st)
            toTypeFields st2
          simp only at h5
          refine Ends_congr _ _ N5 (fun fuel hf => by rw [h5 fuel hf]) ?_
          rcases r5 with st3 | m | _
          · exact Ends_const _ (by simp)
          · exact Ends_const _ (by simp)
          · exact absurd rfl hr5
        · exact Ends_const _ (by simp)
        · exact absurd rfl hr4
      · exact Ends_const _ (by simp)
      · exact Ends_const _ (by simp)
      · exact absurd rfl hr3
    · exact Ends_const _ (by simp)
    · exact absurd rfl hr2
  · exact Ends_const _ (by simp)
  · exact absurd rfl hr1

theorem Interface_size (x : Val) : sizeOf (Interface x) ≤ 1 + sizeOf x := by
  cases x with
  | iface d =>
    simp only [Interface, Val.iface.sizeOf_spec]
    omega
  | _ => simp [Interface]

theorem sourceElem_size (isSlice : Bool) (from_ : Value) (i : Nat) (src : Value)
    (h : sourceElem isSlice from_ i = .ok (some src)) : sizeOf src.val ≤ sizeOf from_.val := by
  unfold sourceElem at h
  split at h
  · split at h
    · rename_i e he
      simp only [Res.ok.injEq] at h
      have h1 : sizeOf e.val < sizeOf from_.val := by
        unfold Index at he
        split at he
        · rename_i t xs hv
          split at he
          · rename_i x hx
            cases he
            have := List.sizeOf_lt_of_mem (List.getElem?_mem hx)
            rw [hv]
            simp only [Val.slice.sizeOf_spec, Option.some.sizeOf_spec]
            omega
          · cases he
        · cases he
        · cases he
      have h2 := indirectVal_size e.val e.canAddr src (by simpa [indirect] using h)
      omega
    · cases h
    · cases h
  · simp only [Res.ok.injEq] at h
    exact indirectVal_size from_.val from_.canAddr src (by simpa [indirect] using h)

theorem sourceElem_terminates (isSlice : Bool) (from_ : Value) (i : Nat) :
    sourceElem isSlice from_ i ≠ .outOfFuel := by
  unfold sourceElem
  split
  · split
    · simp
    · simp
    · rename_i h
      unfold Index at h
      repeat' split at h
      all_goals cases h
  · simp

/-- One iteration of the loop of `Copy` ends, when the getters are read-only
and the nested `Copy` from every strict part of the source ends. -/
theorem Ends_copyElem (env : Env) (hro : ReadOnlyGetters env)
    (hZ : ∀ t, Ends (fun fuel => Zero env fuel t))
    (hF : ∀ t name, Ends (fun fuel => typeFieldByName env fuel t name))
    (isSlice fromAddr : Bool) (fromType toType : Ty) (i : Nat) (st : Val × Val)
    (hself : ∀ to' fromField, sizeOf fromField < sizeOf st.2 →
      Ends (fun fuel => Copy env fuel to' (Interface fromField))) :
    Ends (fun fuel => copyElem env fuel (Copy env fuel) isSlice fromAddr fromType toType i
      st) := by
  simp only [copyElem]
  cases hsrc : sourceElem isSlice ⟨st.2, fromAddr⟩ i with
  | ok source =>
    simp only
    have hdest : Ends (fun fuel => destElem env fuel isSlice toType st.1) := by
      simp only [destElem]
      cases isSlice with
      | true =>
        simp only [↓reduceIte]
        obtain ⟨N, r, hr, hN⟩ := hZ toType
        simp only at hN
        refine Ends_congr _ _ N (fun fuel hf => by rw [hN fuel hf]) ?_
        rcases r with z | m | _
        · exact Ends_const _ (by simp)
        · exact Ends_const _ (by simp)
        · exact absurd rfl hr
      | false => exact Ends_const _ (by simp)
    obtain ⟨N1, r1, hr1, h1⟩ := hdest
    simp only at h1
    refine Ends_congr _ _ N1 (fun fuel hf => by rw [h1 fuel hf]) ?_
    rcases r1 with (_ | dest) | m | _
    · exact Ends_const _ (by simp)
    · simp only
      have hbody : Ends (fun fuel => copyBody env fuel (Copy env fuel) fromType toType source
          dest) := by
        simp only [copyBody]
        cases source with
        | none => exact Ends_const _ (by simp)
        | some src =>
          simp only
          by_cases hk : fromType.kind ≠ .Struct ∧ toType.kind ≠ .Struct
          · simp only [if_pos hk]
            obtain ⟨N3, r3, hr3, h3⟩ := Ends_set env hZ src.val dest.val
            simp only at h3
            refine Ends_congr _ _ N3 (fun fuel hf => by rw [h3 fuel hf]) ?_
            rcases r3 with ⟨d, b⟩ | m | _
            · exact Ends_const _ (by simp)
            · exact Ends_const _ (by simp)
            · exact absurd rfl hr3
          · simp only [if_neg hk]
            have hle := sourceElem_size isSlice ⟨st.2, fromAddr⟩ i src hsrc
            simp only at hle
            obtain ⟨N3, r3, hr3, h3⟩ := Ends_copyStruct env hro hZ hF fromType toType src dest
              (fun to' fromField hlt => hself to' fromField (by omega))
            simp only at h3
            refine Ends_congr _ _ N3 (fun fuel hf => by rw [h3 fuel hf]) ?_
            rcases r3 with ⟨s3, e3⟩ | m | _
            · exact Ends_const _ (by simp)
            · exact Ends_const _ (by simp)
            · exact absurd rfl hr3
      obtain ⟨N2, r2, hr2, h2⟩ := hbody
      simp only at h2
      refine Ends_congr _ _ N2 (fun fuel hf => by rw [h2 fuel hf]) ?_
      rcases r2 with ⟨d, _ | err⟩ | m | _
      · exact Ends_const _ (by simp)
      · exact Ends_const _ (by simp)
      · exact Ends_const _ (by simp)
      · exact absurd rfl hr2
    · exact Ends_const _ (by simp)
    · exact absurd rfl hr1
  | panic m => exact Ends_const _ (by simp)
  | outOfFuel => exact absurd hsrc (sourceElem_terminates _ _ _)

/-- The loop of `Copy` ends on the states of an invariant on which its body
ends. -/
theorem Ends_copyLoop {σ : Type} (P : σ → Prop)
    (body : Nat → Nat → σ → Res (σ × Option String))
    (h : ∀ i st, P st → Ends (fun fuel => body fuel i st))
    (hP : ∀ fuel i st st' err, P st → body fuel i st = .ok (st', err) → P st') :
    ∀ (n i : Nat) (st : σ), P st → Ends (fun fuel => copyLoop (body fuel) n i st)
  | 0, _, _, _ => Ends_const _ (by simp)
  | n + 1, i, st, hst => by
    simp only [copyLoop]
    obtain ⟨N, r, hr, hN⟩ := h i st hst
    simp only at hN
    refine Ends_congr _ _ N (fun fuel hf => by rw [hN fuel hf]) ?_
    rcases r with ⟨st', _ | err⟩ | m | _
    · exact Ends_copyLoop P body h hP n (i + 1) st'
        (hP N i st st' none hst (hN N (le_refl _)))
    · exact Ends_const _ (by simp)
    · exact Ends_const _ (by simp)
    · exact absurd rfl hr

/-- With read-only getters `Copy` ends on every destination and every source:
every nested `Copy` is made from a strict part of the source. -/
theorem Ends_Copy (env : Env) (hro : ReadOnlyGetters env)
    (hZ : ∀ t, Ends (fun fuel => Zero env fuel t))
    (hF : ∀ t name, Ends (fun fuel => typeFieldByName env fuel t name)) :
    ∀ (n : Nat) (fromValue : Option Val), sizeOf fromValue ≤ n → ∀ (toValue : Option Val),
      Ends (fun fuel => Copy env fuel toValue fromValue) := by
  intro n
  induction n with
  | zero =>
    intro fromValue h
    cases fromValue <;> simp at h
  | succ n ih =>
    intro fromValue hsize toValue
    refine Ends_succ _ (fun fuel => Copy env (fuel + 1) toValue fromValue) (fun _ => rfl) ?_
    simp only [Copy]
    cases hto : indirect (ValueOf toValue) with
    | none => exact Ends_const _ (by simp)
    | some to_ =>
      cases toValue with
      | none => exact Ends_const _ (by simp)
      | some toV =>
        simp only
        by_cases haddr : to_.canAddr = false
        · simp only [if_pos haddr]
          exact Ends_const _ (by simp)
        · simp only [if_neg haddr]
          cases hfrom : indirect (ValueOf fromValue) with
          | none => exact Ends_const _ (by simp)
          | some from_ =>
            simp only
            split
            · exact Ends_const _ (by simp)
            · split
              · exact Ends_const _ (by simp)
              · have hfsize : sizeOf from_.val ≤ n := by
                  cases fromValue with
                  | none => simp [ValueOf, indirect] at hfrom
                  | some v0 =>
                    have := indirectVal_size v0 false from_ (by simpa [indirect, ValueOf] using hfrom)
                    simp only [Option.some.sizeOf_spec] at hsize
                    omega
                obtain ⟨N, r, hr, hN⟩ := Ends_copyLoop (fun st : Val × Val => st.2 = from_.val)
                  (fun fuel => copyElem env fuel (Copy env fuel) (decide (to_.val.kind = .Slice))
                    from_.canAddr (indirectType from_.val.typ) (indirectType to_.val.typ))
                  (fun i st hst => Ends_copyElem env hro hZ hF _ from_.canAddr _ _ i st
                    (fun to' fromField hlt => ih (Interface fromField) (by
                      have := Interface_size fromField
                      rw [hst] at hlt
                      omega) to'))
                  (fun fuel i st st' err hst hh =>
                    (copyElem_source env hro fuel (Copy env fuel)
                      (fun t f r e he => Copy_source env hro fuel t f r e he)
                      _ _ _ _ i st st' err hh).trans hst)
                  (if decide (to_.val.kind = .Slice) = true ∧ from_.val.kind = .Slice
                    then Len from_.val else 1) 0
                  (if (if decide (to_.val.kind = .Slice) = true ∧ from_.val.kind = .Slice
                    then Len from_.val else 1) = 0 then MakeSlice to_.val.typ else to_.val,
                    from_.val) rfl
                simp only at hN
                refine Ends_congr _ _ N (fun fuel hf => by rw [hN fuel hf]) ?_
                rcases r with ⟨to', err⟩ | m | _
                · exact Ends_const _ (by simp)
                · exact Ends_const _ (by simp)
                · exact absurd rfl hr

theorem listEnv_Zero (t : Ty) : Ends (fun fuel => Zero listEnv fuel t) := by
  cases t with
  | named m =>
    refine Ends_succ _ (fun fuel => Zero listEnv (fuel + 1) (.named m)) (fun _ => rfl) ?_
    by_cases hA : m = "NodeA"
    · subst hA
      exact ⟨0, .ok (.struct "NodeA" [.int 0, .ptr (.named "NodeA") none]), by simp,
        fun fuel _ => by simp [Zero, listEnv, mapRes]⟩
    · by_cases hB : m = "NodeB"
      · subst hB
        exact ⟨0, .ok (.struct "NodeB" [.int8 0, .ptr (.named "NodeB") none]), by simp,
          fun fuel _ => by simp [Zero, listEnv, mapRes]⟩
      · exact ⟨0, .ok (.struct m []), by simp,
          fun fuel _ => by simp [Zero, listEnv, hA, hB, mapRes]⟩
  | bool => exact ⟨0, .ok (.bool false), by simp, fun fuel _ => by simp [Zero]⟩
  | int => exact ⟨0, .ok (.int 0), by simp, fun fuel _ => by simp [Zero]⟩
  | int8 => exact ⟨0, .ok (.int8 0), by simp, fun fuel _ => by simp [Zero]⟩
  | string => exact ⟨0, .ok (.str ""), by simp, fun fuel _ => by simp [Zero]⟩
  | ptr e => exact ⟨0, .ok (.ptr e none), by simp, fun fuel _ => by simp [Zero]⟩
  | slice e => exact ⟨0, .ok (.slice e none), by simp, fun fuel _ => by simp [Zero]⟩
  | iface => exact ⟨0, .ok (.iface none), by simp, fun fuel _ => by simp [Zero]⟩

theorem listEnv_typeFieldByName (t name : String) :
    Ends (fun fuel => typeFieldByName listEnv fuel t name) := by
  have hflat : (listEnv t).fields.any (fun f => f.Anonymous) = false := by
    unfold listEnv
    split
    · rfl
    · split <;> rfl
  simp only [typeFieldByName, hflat]
  split
  · exact Ends_const _ (by simp)
  · split
    · exact Ends_const _ (by simp)
    · exact Ends_const _ (by simp)

/-- The program `listEnv` has no methods. -/
theorem listEnv_readOnly : ReadOnlyGetters listEnv := by
  refine readOnly_of_names listEnv ["NodeA", "NodeB"] ?_ (by decide)
  intro n h
  unfold listEnv
  iterate 2 rw [if_neg (by rintro rfl; exact h (by decide))]

/-- C19, amended: for every destination and every source that are finite
trees of values owning their pointees (no pointer leads back to a value that
holds it, and the two arguments share no storage), in a program whose getters
are read-only, whose types have zero values and whose field lookups end,
`Copy` terminates: from some amount of fuel on, its outcome is one and the
same result or panic.  The struct types may refer to themselves. -/
theorem Copy_terminates (env : Env) (hro : ReadOnlyGetters env)
    (hZ : ∀ t, Ends (fun fuel => Zero env fuel t))
    (hF : ∀ t name, Ends (fun fuel => typeFieldByName env fuel t name))
    (toValue fromValue : Option Val) :
    Ends (fun fuel => Copy env fuel toValue fromValue) :=
  Ends_Copy env hro hZ hF (sizeOf fromValue) fromValue (Nat.le_refl _) toValue

/-- Witness of the amended C19: copying a two-element list of `NodeA` into an
empty `NodeB` terminates, and the outcome is the list of `NodeB` with the same
values. -/
theorem Copy_terminates_witness :
    ReadOnlyGetters listEnv ∧
    (∀ t, Ends (fun fuel => Zero listEnv fuel t)) ∧
    (∀ t name, Ends (fun fuel => typeFieldByName listEnv fuel t name)) ∧
    Ends (fun fuel => Copy listEnv fuel
      (some (.ptr (.named "NodeB") (some (.struct "NodeB" [.int8 0, .ptr (.named "NodeB") none]))))
      (some listA)) ∧
    Copy listEnv 6
      (some (.ptr (.named "NodeB") (some (.struct "NodeB" [.int8 0, .ptr (.named "NodeB") none]))))
      (some listA) = .ok ((some (.ptr (.named "NodeB") (some listB)), some listA), none) :=
  ⟨listEnv_readOnly, listEnv_Zero, listEnv_typeFieldByName,
    Copy_terminates listEnv listEnv_readOnly listEnv_Zero listEnv_typeFieldByName _ _,
    by decide⟩

theorem indirect_cyclic (fuel : Nat) (v : Cell)
    (hv : v = cyclicNode ∨ v = .ptr (.named "Node") (some 0)) :
    Store.indirect cyclicStore fuel v = .outOfFuel ∨
      Store.indirect cyclicStore fuel v = .ok (some cyclicNode) := by
  rcases hv with rfl | rfl
  · right
    cases fuel <;> rfl
  · cases fuel with
    | zero => left; rfl
    | succ k => right; cases k <;> rfl

/-- On the value that holds a pointer to itself, `deepFields` over the store
never returns: the recursive call is made on that same value. -/
theorem deepFields_cyclic : ∀ (fuel : Nat) (T : Ty) (v : Cell) (pfx : String)
    (need : Option NeedMap), indirectType T = .named "Node" →
    (v = cyclicNode ∨ v = .ptr (.named "Node") (some 0)) →
    Store.deepFields selfEnv cyclicStore fuel T v pfx need = .outOfFuel
  | 0, _, _, _, _, _, _ => rfl
  | fuel + 1, T, v, pfx, need, hT, hv => by
    have hfields : (selfEnv "Node").fields
        = [⟨"Node", .ptr (.named "Node"), true⟩, ⟨"V", .int, false⟩] := rfl
    simp only [Store.deepFields, hT, hfields, forFields, Store.deepFieldsStep, if_true]
    rcases indirect_cyclic fuel v hv with h | h
    · rw [h]
    · rw [h]
      have hF : Store.Field cyclicNode 0 = .ok (.ptr (.named "Node") (some 0)) := rfl
      simp only [hF]
      rw [deepFields_cyclic fuel (.ptr (.named "Node")) (.ptr (.named "Node") (some 0)) _ _ rfl
        (Or.inr rfl)]

/-- A nested `Copy` that does not return keeps the enclosing `Copy` from
returning: the hypotheses are the run of the enclosing call up to the nested
call for `field`. -/
theorem Copy_nested_outOfFuel (env : Env) (fuel : Nat) (toV : Val) (fromValue : Option Val)
    (to_ from_ : Value) (i : Nat) (stI : Val × Val) (source dest : Value)
    (pre rest : List StructField) (field : StructField) (need : Option NeedMap)
    (dest1 : Val) (d : Val × Val) (fromField toField toField' : Val) (idx idx' : List Nat)
    (hto : indirect (ValueOf (some toV)) = some to_) (haddr : to_.canAddr = true)
    (hfrom : indirect (ValueOf fromValue) = some from_)
    (hnofast : (indirectType from_.val.typ).kind = .Struct ∨
      AssignableTo from_.val.typ to_.val.typ = false)
    (hgate : ((indirectType from_.val.typ).kind = .Struct ∧
        (indirectType to_.val.typ).kind = .Struct) ∨
      (to_.val.kind = .Slice ∧
        ConvertibleTo env (indirectType from_.val.typ) (indirectType to_.val.typ) = true))
    (hsub : (indirectType from_.val.typ).kind = .Struct ∨
      (indirectType to_.val.typ).kind = .Struct)
    (hi : i < (if to_.val.kind = .Slice ∧ from_.val.kind = .Slice then Len from_.val else 1))
    (hloop : copyLoop (copyElem env fuel (Copy env fuel) (decide (to_.val.kind = .Slice))
        from_.canAddr (indirectType from_.val.typ) (indirectType to_.val.typ)) i 0
        (to_.val, from_.val) = .ok (stI, none))
    (hsrc : sourceElem (decide (to_.val.kind = .Slice)) ⟨stI.2, from_.canAddr⟩ i
      = .ok (some source))
    (hdst : destElem env fuel (decide (to_.val.kind = .Slice)) (indirectType to_.val.typ) stI.1
      = .ok (some dest))
    (hdeep : deepFields env fuel (indirectType from_.val.typ) source.val "" (some (.made []))
      = .ok (pre ++ field :: rest, need))
    (hinit : InitNilFields env fuel (indirectType to_.val.typ) dest "" need = .ok dest1)
    (hpre : fieldPass (copyField env fuel (Copy env fuel) dest.canAddr) pre (dest1, source.val)
      = .ok (d, none))
    (hff : FieldByName env fuel d.2 field.Name = .ok (some (idx', fromField)))
    (htf : FieldByName env fuel d.1 field.Name = .ok (some (idx, toField)))
    (hcs : (dest.canAddr && isExported field.Name) = true)
    (hset : set env fuel toField (some fromField) = .ok (toField', false))
    (hrec : Copy env fuel (some (.ptr toField'.typ (some toField'))) (Interface fromField)
      = .outOfFuel) :
    Copy env (fuel + 1) (some toV) fromValue = .outOfFuel := by
  have hfield : copyField env fuel (Copy env fuel) dest.canAddr field d = .outOfFuel := by
    unfold copyField
    simp only [hff, htf, hcs, ↓reduceIte, hset, hrec]
  have hstruct : copyStruct env fuel (Copy env fuel) (indirectType from_.val.typ)
      (indirectType to_.val.typ) source dest = .outOfFuel := by
    unfold copyStruct
    simp only [hdeep, hinit]
    rw [fieldPass_append _ pre (field :: rest) _ d hpre, fieldPass, hfield]
  have hbody : copyBody env fuel (Copy env fuel) (indirectType from_.val.typ)
      (indirectType to_.val.typ) (some source) dest = .outOfFuel := by
    unfold copyBody
    simp only
    rw [if_neg (by rcases hsub with h | h <;> simp [h]), hstruct]
  have helem : copyElem env fuel (Copy env fuel) (decide (to_.val.kind = .Slice)) from_.canAddr
      (indirectType from_.val.typ) (indirectType to_.val.typ) i stI = .outOfFuel := by
    unfold copyElem
    simp only [hsrc, hdst, hbody]
  obtain ⟨n, hn⟩ : ∃ n, (if to_.val.kind = .Slice ∧ from_.val.kind = .Slice then Len from_.val
      else 1) = i + (n + 1) :=
    ⟨(if to_.val.kind = .Slice ∧ from_.val.kind = .Slice then Len from_.val else 1) - i - 1,
      by omega⟩
  have h1 : ¬ ((indirectType from_.val.typ).kind ≠ .Struct ∧
      AssignableTo from_.val.typ to_.val.typ = true) := by
    rcases hnofast with h | h <;> simp [h]
  have h2 : ¬ (((indirectType from_.val.typ).kind ≠ .Struct ∨
      (indirectType to_.val.typ).kind ≠ .Struct) ∧
      ¬ (to_.val.kind = .Slice ∧
        ConvertibleTo env (indirectType from_.val.typ) (indirectType to_.val.typ) = true)) := by
    rcases hgate with h | h
    · simp [h.1, h.2]
    · simp [h.1, h.2]
  unfold Copy
  simp only [hto, haddr, hfrom, Bool.true_eq_false, ↓reduceIte, h1, h2, decide_eq_true_eq, hn]
  rw [if_neg (show ¬ (i + (n + 1) = 0) by omega)]
  have := copyLoop_split (copyElem env fuel (Copy env fuel) (decide (to_.val.kind = .Slice))
        from_.canAddr (indirectType from_.val.typ) (indirectType to_.val.typ)) i (n + 1) 0
        (to_.val, from_.val) stI hloop
  rw [this, copyLoop]
  simp only [Nat.zero_add]
  rw [helem]

/-- From the `Grower` whose `Next` points to a `Grower` without successor,
`Copy` into a `[]Bag` never returns.  The flattened source fields hold the
name `Next` twice.  The nested `Copy` for the first grows the successor by one
`Grower` in its method pass, and the nested `Copy` for the second, made from
the same pointer, meets the enclosing situation again. -/
theorem Copy_grow_diverges : ∀ (fuel : Nat) (xs : Option (List Val)),
    Copy growEnv fuel (some (bags xs))
      (some (.ptr (.named "Grower") (some (grower (some (grower none)))))) = .outOfFuel
  | 0, _ => rfl
  | 1, _ => rfl
  | 2, _ => rfl
  | 3, _ => rfl
  | k + 4, xs =>
    Copy_nested_outOfFuel growEnv (k + 3) (bags xs)
      (some (.ptr (.named "Grower") (some (grower (some (grower none))))))
      ⟨.slice (.named "Bag") xs, true⟩ ⟨grower (some (grower none)), true⟩ 0
      (.slice (.named "Bag") xs, grower (some (grower none)))
      ⟨grower (some (grower none)), true⟩
      ⟨.struct "Bag" [.slice (.named "Bag") none, .int 0], true⟩
      [⟨"Next", .ptr (.named "Grower"), false⟩] [] ⟨"Next", .int, false⟩ (some (.made []))
      (.struct "Bag" [.slice (.named "Bag") none, .int 0])
      (.struct "Bag" [.slice (.named "Bag")
          (some [.struct "Bag" [.slice (.named "Bag") none, .int 0]]), .int 0],
        grower (some (grower (some (grower none)))))
      (.ptr (.named "Grower") (some (grower (some (grower none)))))
      (.slice (.named "Bag") (some [.struct "Bag" [.slice (.named "Bag") none, .int 0]]))
      (.slice (.named "Bag") (some [.struct "Bag" [.slice (.named "Bag") none, .int 0]]))
      [0] [0]
      rfl rfl rfl (Or.inl rfl) (Or.inl ⟨rfl, rfl⟩) (Or.inl rfl)
      (by simp [grower, Val.kind, Val.typ, Ty.kind]) rfl rfl rfl rfl rfl
      rfl rfl rfl rfl rfl
      (Copy_grow_diverges (k + 3)
        (some [.struct "Bag" [.slice (.named "Bag") none, .int 0]]))

/-- C19 fails on the code.  First, for a destination that is not a tree.  With
`type Node struct { *Node; V int }`, `n := &Node{V: 1}; n.Node = n`, the call
`Copy(n, Empty{})` has `to = indirect(reflect.ValueOf(n))`, the `Node` at
address 0, `toType = Node` and `dest = indirect(to)`, that same `Node`, and
reaches `deepFields(toType, dest, "", nil)` of the method-to-field pass.  The
embedded field of that value is the pointer to address 0 again, so the
recursive call of `deepFields` is made on the same value, not on a strict part
of it, and no amount of fuel lets the walk return.  Second, for tree-shaped
arguments when a getter grows the source.  With
`type Grower struct { Next *Grower; Dup }`, `type Dup struct { Next int }`,
`func (g *Grower) Grow() int`, which stores `&Grower{}` in a nil `g.Next`,
and `type Bag struct { Next []Bag; Grow int }`, the flattened fields of a
`Grower` hold the name `Next` twice and both select `Grower.Next`.  A first
`Copy` from `&Grower{}` returns and leaves the source one `Grower` longer;
`Copy(&bs, &Grower{Next: &Grower{}})` with `var bs []Bag` makes that call for
the first `Next` and then, for the second `Next`, a nested call from the same pointer,
whose pointee is by then a `Grower` with a successor without successor, as the
source of the enclosing call was: no amount of fuel lets it return. -/
theorem deepFields_cyclic_destination_diverges :
    (Store.indirect cyclicStore 1 (.ptr (.named "Node") (some 0)) = .ok (some cyclicNode) ∧
    indirectType cyclicNode.typ = .named "Node" ∧
    Store.indirect cyclicStore 0 cyclicNode = .ok (some cyclicNode) ∧
    Store.Field cyclicNode 0 = .ok (.ptr (.named "Node") (some 0)) ∧
    ¬ ∃ fuel, Store.deepFields selfEnv cyclicStore fuel (.named "Node") cyclicNode "" none
      ≠ .outOfFuel) ∧
    (deepFields growEnv 3 (.named "Grower") (grower (some (grower none))) ""
        (some (.made []))
      = .ok ([⟨"Next", .ptr (.named "Grower"), false⟩, ⟨"Next", .int, false⟩],
          some (.made [])) ∧
    Copy growEnv 3 (some (bags none)) (some (.ptr (.named "Grower") (some (grower none))))
      = .ok ((some (bags (some [.struct "Bag" [.slice (.named "Bag") none, .int 0]])),
          some (.ptr (.named "Grower") (some (grower (some (grower none)))))), none) ∧
    ¬ ∃ fuel, Copy growEnv fuel (some (bags none))
        (some (.ptr (.named "Grower") (some (grower (some (grower none)))))) ≠ .outOfFuel) :=
  ⟨⟨rfl, rfl, rfl, rfl, fun ⟨fuel, h⟩ => h (deepFields_cyclic fuel _ _ _ _ rfl (Or.inl rfl))⟩,
    by decide, by decide, fun ⟨fuel, h⟩ => h (Copy_grow_diverges fuel none)⟩

/-- C20 fails on the code.  With the source `[]Plain{{X: 1}}` and the
destination `&Plain{}`, both base types are structs, the loop runs once, and
the source element is the slice itself: the field pass calls `FieldByName` on
a slice.  The same happens to the elements of a `[][]Plain` copied into a
`[]Plain`.  With the source `Plain{X: 1}` and the destination
`&[]interface{}`, the destination element is a nil interface value, and the
field pass calls `FieldByName` on it.  Each call of `Copy` ends in a run-time
panic. -/
theorem Copy_panics_on_non_struct_element :
    sourceElem false ⟨.slice (.named "Plain") (some [.struct "Plain" [.int 1]]), false⟩ 0
      = .ok (some ⟨.slice (.named "Plain") (some [.struct "Plain" [.int 1]]), false⟩) ∧
    Copy bridgeEnv 3 (some (.ptr (.named "Plain") (some (.struct "Plain" [.int 0]))))
        (some (.slice (.named "Plain") (some [.struct "Plain" [.int 1]])))
      = .panic "reflect: call of reflect.Value.FieldByName on non-struct Value" ∧
    Copy bridgeEnv 3
        (some (.ptr (.slice (.named "Plain")) (some (.slice (.named "Plain") none))))
        (some (.slice (.slice (.named "Plain"))
          (some [.slice (.named "Plain") (some [.struct "Plain" [.int 1]])])))
      = .panic "reflect: call of reflect.Value.FieldByName on non-struct Value" ∧
    destElem bridgeEnv 2 true .iface (.slice .iface none) = .ok (some ⟨.iface none, true⟩) ∧
    Copy bridgeEnv 3 (some (.ptr (.slice .iface) (some (.slice .iface none))))
        (some (.struct "Plain" [.int 1]))
      = .panic "reflect: call of reflect.Value.FieldByName on non-struct Value" := by
  decide

end Copier
